import Mathlib

/-!
RIVET simplex tree (`src/math/simplex_tree.cpp`).

A shallow embedding of the `SimplexTree` class: the tree of `STNode`s, the
two axis grids, insertion with face closure, re-indexing and the lookup
primitives, followed by the properties proved about them.

Conventions of the embedding.
* C++ `int` values are `Int`; no computation here comes near the range of a
  machine integer (indexes are bounded by the number of nodes).
* The axis grids are `std::vector<double>`.  Only `==` and `<` are ever applied
  to their entries, and every finite double is a rational number compared as
  such, so grid values are modelled as `ℚ`.
* A read of a `std::vector` outside its range is undefined behaviour in C++;
  the embedding reports it as the outcome `out_of_bounds` instead of inventing
  a value.
* Loops whose termination is not structural carry a fuel argument; the
  top-level functions supply it, and running out of it is the separate
  outcome `no_fuel`.
* A pointer to a node (`STNode*`) kept in one of the ordered sets is the list
  of positions to take in the successive children vectors from the root.  It
  names the same node as long as no node is inserted into the tree, which is
  the regime of the exporters: the tree is built, then indexed, then read.
-/

namespace Rivet

/-! ## Data model -/

/-- A node of the simplex tree (`STNode`): vertex label, multi-grade
`(grade_x, grade_y)`, global index, dimension index and the owned children,
kept in the order of the `children` vector. -/
inductive STNode where
  | mk (vertex : Int) (birth dist : Int) (g_index d_index : Int)
      (children : List STNode) : STNode
deriving Repr

namespace STNode

/-- Accessor `STNode::get_vertex()`. -/
def get_vertex : STNode → Int
  | mk v _ _ _ _ _ => v

/-- Accessor `STNode::grade_x()` (also `get_birth()`). -/
def grade_x : STNode → Int
  | mk _ x _ _ _ _ => x

/-- Accessor `STNode::grade_y()` (also `get_dist()`). -/
def grade_y : STNode → Int
  | mk _ _ y _ _ _ => y

/-- Accessor `STNode::global_index()`. -/
def global_index : STNode → Int
  | mk _ _ _ g _ _ => g

/-- Accessor `STNode::dim_index()`. -/
def dim_index : STNode → Int
  | mk _ _ _ _ d _ => d

/-- Accessor `STNode::get_children()`. -/
def get_children : STNode → List STNode
  | mk _ _ _ _ _ kids => kids

/-- Mutator `STNode::set_global_index(g)`. -/
def set_global_index : STNode → Int → STNode
  | mk v x y _ d kids, g => mk v x y g d kids

/-- The node with its children vector replaced (the effect, seen from the
parent, of a mutation performed below it). -/
def set_children : STNode → List STNode → STNode
  | mk v x y g d _, kids => mk v x y g d kids

/-- Modelled from the spec: the default-constructed `STNode` used as the root
(`st_node.cpp` is not part of the sources); it has no children, and none of
its own fields is read by the operations below except `global_index` in
`get_num_simplices` on an empty tree. -/
def root_init : STNode := mk (-1) (-1) (-1) (-1) (-1) []

end STNode

/-- The state of a `SimplexTree` object: the root node, the two axis grids, the
homology dimension fixed by the constructor, and the three ordered sets of
node pointers, empty until `update_dim_indexes` fills them.  A pointer to a
node is kept as the list of positions to take in the successive children
vectors on the way down from the root. -/
structure SimplexTree where
  root : STNode
  grade_x_values : List ℚ
  grade_y_values : List ℚ
  hom_dim : Int
  ordered_low_simplices : List (List Nat) := []
  ordered_simplices : List (List Nat) := []
  ordered_high_simplices : List (List Nat) := []

/-- Constructor `SimplexTree::SimplexTree(dim, v)`: an empty tree. -/
def SimplexTree.init (dim : Int) : SimplexTree :=
  { root := STNode.root_init, grade_x_values := [], grade_y_values := [], hom_dim := dim }

/-- Outcome of an operation that may throw or misbehave. -/
inductive Res (α : Type) where
  | ok (a : α)
  | thrown
  | out_of_bounds
  | no_fuel
deriving DecidableEq, Repr

/-- Map over the value of a successful outcome. -/
def Res.map {α β : Type} (f : α → β) : Res α → Res β
  | .ok a => .ok (f a)
  | .thrown => .thrown
  | .out_of_bounds => .out_of_bounds
  | .no_fuel => .no_fuel

/-! ## The binary-search loop

`grade_x_position`, `grade_y_position`, `find_simplex`,
`find_vertices_recursively` and `get_simplex_data` all contain the same loop

    while(max >= min) { mid = (min+max)/2;
        if(key(mid) == key) <found>;
        else if(key(mid) < key) min = mid + 1; else max = mid - 1; }

over different keys (`find_vertices_recursively` writes the second test as
`<=`, which after the failed `==` is the same test). -/

/-- How the binary-search loop ends. -/
inductive Probe where
  | found (mid : Int)
  | missed (max : Int)
  | bad_read
  | no_fuel
deriving DecidableEq, Repr

/-- The binary-search loop on the key vector `keys`, from the bounds `min`,
`max`.  `found mid`: the loop was left at `mid` with `keys[mid] == key`;
`missed max`: the loop ended with `max < min`, with that final `max`. -/
def bsearch {α : Type} [LinearOrder α] (keys : List α) (key : α) : Nat → Int → Int → Probe
  | 0, _, _ => .no_fuel
  | fuel + 1, min, max =>
    if max ≥ min then
      let mid := (min + max) / 2
      if mid < 0 then .bad_read
      else
        match keys[mid.toNat]? with
        | none => .bad_read
        | some k =>
          if k = key then .found mid
          else if k < key then bsearch keys key fuel (mid + 1) max
          else bsearch keys key fuel min (mid - 1)
    else .missed max

/-- The loop as every caller starts it: `min = 0`, `max = size - 1`. -/
def bsearch_all {α : Type} [LinearOrder α] (keys : List α) (key : α) : Probe :=
  bsearch keys key (keys.length + 1) 0 ((keys.length : Int) - 1)

/-! ## Axis grids -/

/-- Position of `value` in a grid, or `-1` (body shared by `grade_x_position`
and `grade_y_position`). -/
def grade_position (values : List ℚ) (value : ℚ) : Int :=
  match bsearch_all values value with
  | .found mid => mid
  | _ => -1

/-- Method `SimplexTree::grade_x_position(value)`. -/
def SimplexTree.grade_x_position (t : SimplexTree) (value : ℚ) : Int :=
  grade_position t.grade_x_values value

/-- Method `SimplexTree::grade_y_position(value)`. -/
def SimplexTree.grade_y_position (t : SimplexTree) (value : ℚ) : Int :=
  grade_position t.grade_y_values value

/-- The read `values[i]` of a grid at an `int` index; `none` outside the
vector. -/
def grade_value (values : List ℚ) (i : Int) : Option ℚ :=
  if i < 0 then none else values[i.toNat]?

/-- Method `SimplexTree::grade_x_value(i)`. -/
def SimplexTree.grade_x_value (t : SimplexTree) (i : Int) : Option ℚ :=
  grade_value t.grade_x_values i

/-- Method `SimplexTree::grade_y_value(i)`. -/
def SimplexTree.grade_y_value (t : SimplexTree) (i : Int) : Option ℚ :=
  grade_value t.grade_y_values i

/-! ## Listings and measures of the tree -/

mutual
/-- Number of nodes of the subtree rooted at a node, the node included. -/
def node_count : STNode → Nat
  | .mk _ _ _ _ _ kids => 1 + kids_count kids
/-- Number of nodes of the subtrees rooted at the nodes of a children vector. -/
def kids_count : List STNode → Nat
  | [] => 0
  | k :: ks => node_count k + kids_count ks
end

mutual
/-- Preorder listing of a node and its descendants, each with the vertex
labels on the way down to it. -/
def entries_node : STNode → List (List Int × STNode)
  | .mk v x y g d kids =>
    ([v], .mk v x y g d kids) :: (entries kids).map (fun e => (v :: e.1, e.2))
/-- Preorder listing (children in stored order) of all nodes below a
children vector, each with its vertex-label path. -/
def entries : List STNode → List (List Int × STNode)
  | [] => []
  | k :: ks => entries_node k ++ entries ks
end

/-- The simplices of the tree: the vertex-label paths of all nodes other than
the root, in preorder. -/
def SimplexTree.simplices (t : SimplexTree) : List (List Int) :=
  (entries t.root.get_children).map Prod.fst

/-- The nodes of the tree other than the root, in preorder. -/
def SimplexTree.nodes (t : SimplexTree) : List STNode :=
  (entries t.root.get_children).map Prod.snd

/-- The number `N` of simplices of the tree. -/
def SimplexTree.count (t : SimplexTree) : Nat :=
  kids_count t.root.get_children

mutual
/-- Every children vector in the subtree is strictly increasing in vertex
label. -/
def sorted_node : STNode → Bool
  | .mk _ _ _ _ _ kids => sorted_kids kids
/-- The vector is strictly increasing in vertex label, and so is every
children vector below it. -/
def sorted_kids : List STNode → Bool
  | [] => true
  | k :: ks =>
    decide (∀ k2 ∈ ks, k.get_vertex < k2.get_vertex) && sorted_node k && sorted_kids ks
end

mutual
/-- The subtree carries the preorder numbering that starts at `i` on its
root. -/
def indexed_node : STNode → Int → Bool
  | .mk _ _ _ g _ kids, i => decide (g = i) && indexed_kids kids (i + 1)
/-- The subtrees of the vector carry the preorder numbering that starts at
`i`. -/
def indexed_kids : List STNode → Int → Bool
  | [], _ => true
  | k :: ks, i => indexed_node k i && indexed_kids ks (i + node_count k)
end

/-- The global indexes of the tree are current: what `update_global_indexes`
assigns, the preorder numbering from 0 of the nodes below the root. -/
def SimplexTree.indexed (t : SimplexTree) : Bool :=
  indexed_kids t.root.get_children 0

/-- The sibling vectors of the tree are all strictly increasing in vertex
label (the data-model invariant "children kept sorted by vertex label"). -/
def SimplexTree.sorted (t : SimplexTree) : Bool :=
  sorted_node t.root

/-! ## Insertion -/

/-- Modelled from the spec: `STNode::add_child(v, x, y)`, whose body is in
`st_node.cpp`, not part of the sources.  By the call site's comment ("if a
child with specified vertex index already exists, then nothing is added, but
that child is returned") and the data model ("children kept sorted by vertex
label"), it returns the child labelled `v` if there is one, and otherwise
inserts a new childless node `v` with multi-grade `(x, y)` at its place in
label order and returns it.  The caller goes on working on the returned node:
`f` is what it does to it.  The indexes of a new node are not specified; it
gets `-1` for both. -/
def add_child_then (f : STNode → STNode) (v x y : Int) : List STNode → List STNode
  | [] => [f (.mk v x y (-1) (-1) [])]
  | k :: ks =>
    if k.get_vertex = v then f k :: ks
    else if v < k.get_vertex then f (.mk v x y (-1) (-1) []) :: k :: ks
    else k :: add_child_then f v x y ks

/-- The first loop of `add_faces`: walk down from `node` along `vertices`,
`node = node->add_child(vertices[i], x, y)`. -/
def add_path : List Int → Int → Int → STNode → STNode
  | [], _, _, node => node
  | v :: vs, x, y, node =>
    node.set_children (add_child_then (add_path vs x y) v x y node.get_children)

/-- Method `SimplexTree::add_faces(vertices, x, y)` acting on the root, with the
recursion depth bounded by the fuel.  `none`: the call does not return.  On
an empty vertex list the bound `vertices.size()-1` of the second loop wraps
around, and its first round calls `add_faces` on the empty facet again. -/
def add_faces_fuel : Nat → List Int → Int → Int → STNode → Option STNode
  | 0, _, _, _, _ => none
  | _ + 1, [], _, _, _ => none
  | fuel + 1, v :: vs, x, y, root =>
    (List.range vs.length).foldlM
      (fun r i => add_faces_fuel fuel ((v :: vs).eraseIdx i) x y r)
      (add_path (v :: vs) x y root)

/-- Method `SimplexTree::add_faces(vertices, x, y)`: each recursive call is on a
vertex list shorter by one, so the length of the list bounds the depth. -/
def add_faces (vertices : List Int) (x y : Int) (root : STNode) : Option STNode :=
  add_faces_fuel vertices.length vertices x y root

mutual
/-- Method `SimplexTree::update_gi_recursively(node, gic)`: numbers the nodes below
`node`; returns the renumbered node and the final counter. -/
def update_gi_recursively : STNode → Int → STNode × Int
  | .mk v x y g d kids, gic =>
    let r := update_gi_kids kids gic
    (.mk v x y g d r.1, r.2)
/-- The loop of `update_gi_recursively` over the vector `kids`: the child gets
`gic` and its subtree is numbered from `gic + 1` (numbering the subtree does
not touch the index of the child itself, so the order of the two is
immaterial here). -/
def update_gi_kids : List STNode → Int → List STNode × Int
  | [], gic => ([], gic)
  | k :: ks, gic =>
    let r1 := update_gi_recursively k (gic + 1)
    let r2 := update_gi_kids ks r1.2
    (r1.1.set_global_index gic :: r2.1, r2.2)
end

/-- Method `SimplexTree::update_global_indexes()`. -/
def SimplexTree.update_global_indexes (t : SimplexTree) : SimplexTree :=
  { t with root := (update_gi_recursively t.root 0).1 }

/-- The grid loops of `add_simplex`:
`for(int i = values.size(); i <= g; i++) values.push_back(i);`. -/
def grow_grid (values : List ℚ) (g : Int) : List ℚ :=
  values ++ (List.range (g + 1 - values.length).toNat).map
    (fun (j : Nat) => (((values.length + j : Nat) : Int) : ℚ))

/-- Method `SimplexTree::add_simplex(vertices, x, y)`; `none` when `add_faces` does
not return. -/
def SimplexTree.add_simplex (t : SimplexTree) (vertices : List Int) (x y : Int) :
    Option SimplexTree :=
  match add_faces vertices x y t.root with
  | none => none
  | some r =>
    some (SimplexTree.update_global_indexes
      { t with root := r, grade_x_values := grow_grid t.grade_x_values x,
               grade_y_values := grow_grid t.grade_y_values y })

/-! ## Lookups -/

/-- The loop of `find_simplex` over the vertex list, from `node`; `none` is
the `NULL` result. -/
def find_simplex_from : List Int → STNode → Option STNode
  | [], node => some node
  | key :: rest, node =>
    match bsearch_all (node.get_children.map STNode.get_vertex) key with
    | .found mid =>
      match node.get_children[mid.toNat]? with
      | some k => find_simplex_from rest k
      | none => none
    | _ => none

/-- Method `SimplexTree::find_simplex(vertices)`. -/
def SimplexTree.find_simplex (t : SimplexTree) (vertices : List Int) : Option STNode :=
  find_simplex_from vertices t.root

/-- Method `SimplexTree::find_vertices_recursively(vertices, node, key)`, returning
the labels it appends; the fuel bounds the depth of the descent. -/
def find_vertices_recursively : Nat → STNode → Int → Res (List Int)
  | 0, _, _ => .no_fuel
  | fuel + 1, node, key =>
    match bsearch_all (node.get_children.map STNode.global_index) key with
    | .found mid =>
      match node.get_children[mid.toNat]? with
      | some k => .ok [k.get_vertex]
      | none => .out_of_bounds
    | .missed max =>
      if max < 0 then .out_of_bounds
      else
        match node.get_children[max.toNat]? with
        | some k => (find_vertices_recursively fuel k key).map (fun l => k.get_vertex :: l)
        | none => .out_of_bounds
    | .bad_read => .out_of_bounds
    | .no_fuel => .no_fuel

/-- Method `SimplexTree::find_vertices(gi)`: every recursive call is on a child, so
the number of nodes bounds the depth. -/
def SimplexTree.find_vertices (t : SimplexTree) (gi : Int) : Res (List Int) :=
  find_vertices_recursively (node_count t.root) t.root gi

/-- The `SimplexData` struct returned by `get_simplex_data`. -/
structure SimplexData where
  time : Int
  dist : Int
  dim : Int
deriving DecidableEq, Repr

/-- The outer loop `while(target == NULL)` of `get_simplex_data`, on the
current vector `kids` and depth counter `dim`.  `thrown` is the exception
raised on a vector of size zero. -/
def get_simplex_data_loop : Nat → List STNode → Int → Int → Res SimplexData
  | 0, _, _, _ => .no_fuel
  | fuel + 1, kids, index, dim =>
    if kids.length = 0 then .thrown
    else
      match bsearch_all (kids.map STNode.global_index) index with
      | .found mid =>
        match kids[mid.toNat]? with
        | some target => .ok { time := target.grade_x, dist := target.grade_y, dim := dim }
        | none => .out_of_bounds
      | .missed max =>
        if max < 0 then .out_of_bounds
        else
          match kids[max.toNat]? with
          | some k => get_simplex_data_loop fuel k.get_children index (dim + 1)
          | none => .out_of_bounds
      | .bad_read => .out_of_bounds
      | .no_fuel => .no_fuel

/-- Method `SimplexTree::get_simplex_data(index)`: every round of the outer loop
moves to the children of a child, so the number of nodes bounds the rounds. -/
def SimplexTree.get_simplex_data (t : SimplexTree) (index : Int) : Res SimplexData :=
  get_simplex_data_loop (node_count t.root) t.root.get_children index 0

/-- The loop of `get_num_simplices`: move to the last child while there is
one. -/
def last_node : Nat → STNode → Option STNode
  | 0, _ => none
  | fuel + 1, node =>
    match node.get_children.getLast? with
    | none => some node
    | some k => last_node fuel k

/-- Method `SimplexTree::get_num_simplices()`: the global index of the node the loop
ends on, plus one; `none` only if the loop ran out of fuel. -/
def SimplexTree.get_num_simplices (t : SimplexTree) : Option Int :=
  (last_node (node_count t.root) t.root).map (fun n => n.global_index + 1)

/-! ## Reference notions used to state the properties -/

/-- The first child in a children vector carrying the label `v`. -/
def lookup (kids : List STNode) (v : Int) : Option STNode :=
  kids.find? (fun k => decide (k.get_vertex = v))

/-- The node reached from `node` by following the labels of the list in order,
if at every level there is a child with the required label. -/
def follow : List Int → STNode → Option STNode
  | [], node => some node
  | v :: vs, node =>
    match lookup node.get_children v with
    | none => none
    | some k => follow vs k

/-- The tree is closed under faces: every non-empty sub-list of the vertex
list of a simplex of the tree is found by `find_simplex`. -/
def SimplexTree.face_closed (t : SimplexTree) : Bool :=
  t.simplices.all (fun p => p.sublists.all (fun w => decide (w = []) || (t.find_simplex w).isSome))

mutual
/-- Forget the global indexes of a subtree (set them all to 0): what is left
is the shape of the tree with labels, multi-grades and dimension indexes. -/
def strip_gi : STNode → STNode
  | .mk v x y _ d kids => .mk v x y 0 d (strip_gi_kids kids)
/-- Forget the global indexes of the subtrees of a children vector. -/
def strip_gi_kids : List STNode → List STNode
  | [] => []
  | k :: ks => strip_gi k :: strip_gi_kids ks
end

/-- The `n` consecutive integers from `i` on. -/
def int_range (i : Int) (n : Nat) : List Int :=
  (List.range n).map (fun (j : Nat) => i + (j : Int))

/-- The tree built by `add_simplex({1,2,4}, 0, 0)` on an empty tree with
`hom_dim = 1`. -/
def tree_124 : SimplexTree :=
  ((SimplexTree.init 1).add_simplex [1, 2, 4] 0 0).getD (SimplexTree.init 1)

/-- How a tree `r2` extends a tree `r1` by the paths in `S`, created at
multi-grade `(x, y)`: a path that led to a node of `r1` leads to a node of
`r2` with the same multi-grade; a path that led nowhere in `r1` leads in `r2`
to a node of multi-grade `(x, y)` if it is in `S`, and nowhere otherwise. -/
def extends_by (r1 r2 : STNode) (S : List Int → Prop) (x y : Int) : Prop :=
  ∀ w : List Int,
    (∀ n, follow w r1 = some n →
      ∃ n2, follow w r2 = some n2 ∧ n2.grade_x = n.grade_x ∧ n2.grade_y = n.grade_y) ∧
    (follow w r1 = none →
      (S w → ∃ n2, follow w r2 = some n2 ∧ n2.grade_x = x ∧ n2.grade_y = y) ∧
      (¬ S w → follow w r2 = none))

/-! ## Vietoris-Rips construction -/

/-- Sequencing of outcomes: the first failure is the outcome of the whole. -/
def Res.bind {α β : Type} (r : Res α) (f : α → Res β) : Res β :=
  match r with
  | .ok a => f a
  | .thrown => .thrown
  | .out_of_bounds => .out_of_bounds
  | .no_fuel => .no_fuel

/-- The input of `build_VR_complex` as far as the tree depends on it: the
number of points, the birth value `points[i].get_birth()` of each point, and
for `i < j` the value `sqrt(s)` that the code computes from the coordinates of
the points `i` and `j` (a floating-point computation, taken as given). -/
structure PointCloud where
  size : Nat
  birth : Nat → ℚ
  dist : Nat → Nat → ℚ

/-- Insertion into a `std::set<double>`, kept as the increasing list its
iteration yields: a value already present is not inserted again. -/
def set_insert (v : ℚ) : List ℚ → List ℚ
  | [] => [v]
  | a :: l => if v < a then v :: a :: l else if v = a then a :: l else a :: set_insert v l

/-- The array `distances` after the double loop of `build_VR_complex`: row by
row, for `i` from 0 and `j` from `i + 1`, the distance of the points `i` and
`j`. -/
def distance_table (pc : PointCloud) : List ℚ :=
  (List.range pc.size).flatMap
    (fun (i : Nat) => (List.range (pc.size - (i + 1))).map (fun (k : Nat) => pc.dist i (i + 1 + k)))

/-- The set `time_set` after the loop: the birth values of all points. -/
def time_set (pc : PointCloud) : List ℚ :=
  (List.range pc.size).foldl (fun s (i : Nat) => set_insert (pc.birth i) s) []

/-- The set `dist_set` after the loop: 0 and the distances not exceeding
`max_dist`, inserted in the order in which the array is filled. -/
def dist_set (pc : PointCloud) (max_dist : ℚ) : List ℚ :=
  (distance_table pc).foldl (fun s d => if d ≤ max_dist then set_insert d s else s) [0]

/-- The array offset `points.size()*par - par*(3+par)/2 + j - 1` at which
`build_VR_subtree` reads the distance of the points `par` and `j`. -/
def distance_offset (n par j : Int) : Int :=
  n * par - par * (3 + par) / 2 + j - 1

/-- The read `distances[points.size()*par - par*(3+par)/2 + j - 1]`; `none`
outside the array. -/
def read_distance (distances : List ℚ) (n par j : Nat) : Option ℚ :=
  if distance_offset n par j < 0 then none
  else distances[(distance_offset n par j).toNat]?

/-- The inner loop of `build_VR_subtree` over `parent_indexes`: the maximum of
`current_dist` and the distances from the point `j` to the parents. -/
def max_distance_to (distances : List ℚ) (n j : Nat) : List Nat → ℚ → Option ℚ
  | [], current_dist => some current_dist
  | par :: rest, current_dist =>
    match read_distance distances n par j with
    | none => none
    | some d => max_distance_to distances n j rest (if d > current_dist then d else current_dist)

/-- Method `SimplexTree::build_VR_subtree`, returning the children appended to
the (new, childless) parent and the final global index counter.  The first
argument lists the values the loop variable `j` has still to take, in
increasing order up to `points.size() - 1`; the loop of the call made for a
new child `j` runs from `j + 1`, that is over the rest of this list.  A new
node gets the dimension index `-1` (the constructor is not part of the
sources and the code never reads the field before writing it). -/
def build_VR_subtree (t : SimplexTree) (pc : PointCloud) (distances : List ℚ) (max_dim : Int) :
    List Nat → List Nat → ℚ → ℚ → Int → Int → Res (List STNode × Int)
  | [], _, _, _, _, gic => .ok ([], gic)
  | j :: rest, parent_indexes, prev_time, prev_dist, cur_dim, gic =>
    match max_distance_to distances pc.size j parent_indexes prev_dist with
    | none => .out_of_bounds
    | some current_dist =>
      match t.grade_y_values.getLast? with
      | none => .out_of_bounds
      | some back =>
        if current_dist ≤ back then
          let current_time := if pc.birth j < prev_time then prev_time else pc.birth j
          (if cur_dim < max_dim then
              build_VR_subtree t pc distances max_dim rest (parent_indexes ++ [j])
                current_time current_dist (cur_dim + 1) (gic + 1)
            else .ok ([], gic + 1)).bind
            (fun r1 =>
              (build_VR_subtree t pc distances max_dim rest parent_indexes
                prev_time prev_dist cur_dim r1.2).bind
                (fun r2 =>
                  .ok (STNode.mk (j : Int) (t.grade_x_position current_time)
                        (t.grade_y_position current_dist) gic (-1) r1.1 :: r2.1, r2.2)))
        else
          build_VR_subtree t pc distances max_dim rest parent_indexes
            prev_time prev_dist cur_dim gic

/-- The loop of `build_VR_complex` over the points still to be added (in
increasing order up to `points.size() - 1`): the vertex node of the point `i`
at multi-grade `(time_index(birth), 0)`, with the subtree built below it. -/
def build_VR_roots (t : SimplexTree) (pc : PointCloud) (distances : List ℚ) (max_dim : Int) :
    List Nat → Int → Res (List STNode × Int)
  | [], gic => .ok ([], gic)
  | i :: rest, gic =>
    (build_VR_subtree t pc distances max_dim rest [i] (pc.birth i) 0 1 (gic + 1)).bind
      (fun r1 =>
        (build_VR_roots t pc distances max_dim rest r1.2).bind
          (fun r2 =>
            .ok (STNode.mk (i : Int) (t.grade_x_position (pc.birth i)) 0 gic (-1) r1.1 :: r2.1,
              r2.2)))

/-- Method `SimplexTree::build_VR_complex(points, pt_dim, max_dim, max_dist)`:
the two grids receive the sorted sets of distances and of birth values, then
the vertex nodes are appended to the children of the root. -/
def SimplexTree.build_VR_complex (t : SimplexTree) (pc : PointCloud) (max_dim : Int)
    (max_dist : ℚ) : Res SimplexTree :=
  let t1 : SimplexTree :=
    { t with grade_y_values := t.grade_y_values ++ dist_set pc max_dist,
             grade_x_values := t.grade_x_values ++ time_set pc }
  (build_VR_roots t1 pc (distance_table pc) max_dim (List.range pc.size) 0).bind
    (fun r => .ok { t1 with root := t1.root.set_children (t1.root.get_children ++ r.1) })

/-! ## Reference description of the Vietoris-Rips construction

The functions below read the distances from the point cloud itself, not from
the flattened array, and take the threshold as a parameter; the theorems show
that `build_VR_subtree` computes them. -/

/-- The value of `current_dist` after the inner loop of `build_VR_subtree`:
the maximum of its starting value and of the distances from `j` to the
parents. -/
def ext_dist (pc : PointCloud) (j : Nat) : List Nat → ℚ → ℚ
  | [], current_dist => current_dist
  | par :: rest, current_dist =>
    ext_dist pc j rest (if pc.dist par j > current_dist then pc.dist par j else current_dist)

/-- The value of `current_dist` at the node reached from a node with parents
`parents` and distance `prev_dist` by appending the vertices of the list. -/
def chain_dist (pc : PointCloud) : List Nat → ℚ → List Nat → ℚ
  | _, prev_dist, [] => prev_dist
  | parents, prev_dist, j :: w =>
    chain_dist pc (parents ++ [j]) (ext_dist pc j parents prev_dist) w

/-- The value of `current_time` at the node reached from a node with time
`prev_time` by appending the vertices of the list. -/
def chain_time (pc : PointCloud) : ℚ → List Nat → ℚ
  | prev_time, [] => prev_time
  | prev_time, j :: w =>
    chain_time pc (if pc.birth j < prev_time then prev_time else pc.birth j) w

/-- The test `current_dist <= back` succeeds at every step of the way from a
node with parents `parents` and distance `prev_dist` along the list. -/
def chain_ok (pc : PointCloud) (back : ℚ) : List Nat → ℚ → List Nat → Prop
  | _, _, [] => True
  | parents, prev_dist, j :: w =>
    ext_dist pc j parents prev_dist ≤ back ∧
      chain_ok pc back (parents ++ [j]) (ext_dist pc j parents prev_dist) w

/-- The children that `build_VR_subtree` appends, described without the
flattened array and without failure: distances are read from the point cloud
and `back` is the threshold. -/
def vr_kids (t : SimplexTree) (pc : PointCloud) (back : ℚ) (max_dim : Int) :
    List Nat → List Nat → ℚ → ℚ → Int → Int → List STNode
  | [], _, _, _, _, _ => []
  | j :: rest, parents, prev_time, prev_dist, cur_dim, gic =>
    if ext_dist pc j parents prev_dist ≤ back then
      STNode.mk (j : Int)
          (t.grade_x_position (if pc.birth j < prev_time then prev_time else pc.birth j))
          (t.grade_y_position (ext_dist pc j parents prev_dist)) gic (-1)
          (if cur_dim < max_dim then
            vr_kids t pc back max_dim rest (parents ++ [j])
              (if pc.birth j < prev_time then prev_time else pc.birth j)
              (ext_dist pc j parents prev_dist) (cur_dim + 1) (gic + 1)
          else []) ::
        vr_kids t pc back max_dim rest parents prev_time prev_dist cur_dim
          (gic + 1 + kids_count (if cur_dim < max_dim then
            vr_kids t pc back max_dim rest (parents ++ [j])
              (if pc.birth j < prev_time then prev_time else pc.birth j)
              (ext_dist pc j parents prev_dist) (cur_dim + 1) (gic + 1)
          else []))
    else vr_kids t pc back max_dim rest parents prev_time prev_dist cur_dim gic

/-- The vertex nodes that `build_VR_complex` appends to the root, described
in the same way. -/
def vr_roots (t : SimplexTree) (pc : PointCloud) (back : ℚ) (max_dim : Int) :
    List Nat → Int → List STNode
  | [], _ => []
  | i :: rest, gic =>
    STNode.mk (i : Int) (t.grade_x_position (pc.birth i)) 0 gic (-1)
        (vr_kids t pc back max_dim rest [i] (pc.birth i) 0 1 (gic + 1)) ::
      vr_roots t pc back max_dim rest
        (gic + 1 + kids_count (vr_kids t pc back max_dim rest [i] (pc.birth i) 0 1 (gic + 1)))

/-- The tree of `build_VR_complex` on an empty tree at the moment the two
grids have been filled and no node has been created yet. -/
def vr_grids (dim : Int) (pc : PointCloud) (max_dist : ℚ) : SimplexTree :=
  { root := STNode.root_init, grade_x_values := time_set pc,
    grade_y_values := dist_set pc max_dist, hom_dim := dim }

/-- A call of one of the two public operations that change the tree. -/
inductive TreeOp where
  | add (vertices : List Int) (x y : Int)
  | build (pc : PointCloud) (max_dim : Int) (max_dist : ℚ)

/-- The operation is a call of `add_simplex`. -/
def TreeOp.is_add : TreeOp → Bool
  | .add _ _ _ => true
  | .build _ _ _ => false

/-- The tree after a sequence of calls, `none` if one of them does not return
normally. -/
def run_ops : SimplexTree → List TreeOp → Option SimplexTree
  | t, [] => some t
  | t, .add vertices x y :: ops =>
    match t.add_simplex vertices x y with
    | some t2 => run_ops t2 ops
    | none => none
  | t, .build pc max_dim max_dist :: ops =>
    match t.build_VR_complex pc max_dim max_dist with
    | .ok t2 => run_ops t2 ops
    | _ => none

/-- Two coincident points born at 0. -/
def cloud_twin : PointCloud where
  size := 2
  birth := fun _ => 0
  dist := fun _ _ => 0

/-- Two points born at 0, at distance 1. -/
def cloud_pair : PointCloud where
  size := 2
  birth := fun _ => 0
  dist := fun _ _ => 1

/-- Three points born at 0, 1, 0 with distances `d(0,1) = 1`, `d(0,2) = 4`,
`d(1,2) = 2`. -/
def cloud_three : PointCloud where
  size := 3
  birth := fun i => if i = 1 then 1 else 0
  dist := fun i j => if i = 0 ∧ j = 1 then 1 else if i = 0 ∧ j = 2 then 4 else 2

/-- One point born at 0. -/
def cloud_one : PointCloud where
  size := 1
  birth := fun _ => 0
  dist := fun _ _ => 0

/-- The tree after `add_simplex({5}, 0, 0)`, `build_VR_complex` on two points
at distance 1 with cutoff 0, and `add_simplex({9}, 0, 0)`, from an empty tree:
the children of the root are labelled 5, 0, 1, 9 in this order, and the last
call left the global indexes current. -/
def tree_unsorted : SimplexTree :=
  (run_ops (SimplexTree.init 1) [.add [5] 0 0, .build cloud_pair 1 0, .add [9] 0 0]).getD
    (SimplexTree.init 1)

/-- The tree after `add_simplex({0}, 0, 0)` and `build_VR_complex` on one
point, from an empty tree: the root has two children labelled 0, both with
global index 0. -/
def tree_stale : SimplexTree :=
  (run_ops (SimplexTree.init 1) [.add [0] 0 0, .build cloud_one 1 0]).getD (SimplexTree.init 1)

/-! ## Dimension indexes and the exported matrices -/

/-- Mutator `STNode::set_dim_index(d)`. -/
def STNode.set_dim_index : STNode → Int → STNode
  | .mk v x y g _ kids, d => .mk v x y g d kids

/-- Dereference of a node pointer: the node reached from `n` by taking the
listed positions in the successive children vectors; `none` is a pointer to
nothing. -/
def node_at : List Nat → STNode → Option STNode
  | [], n => some n
  | i :: rest, n =>
    match n.get_children[i]? with
    | none => none
    | some k => node_at rest k

/-- The list `kids` with `f` applied to the element at position `i`. -/
def modify_at (f : STNode → STNode) : Nat → List STNode → List STNode
  | _, [] => []
  | 0, k :: ks => f k :: ks
  | i + 1, k :: ks => k :: modify_at f i ks

/-- The tree after `p->set_dim_index(d)` through the pointer `p`, seen from the
node `n` the pointer starts at. -/
def set_dim_at : List Nat → Int → STNode → STNode
  | [], d, n => n.set_dim_index d
  | i :: rest, d, n => n.set_children (modify_at (set_dim_at rest d) i n.get_children)

/-- Modelled from the spec: the comparator of `SimplexSet` (`simplex_tree.h` is
not part of the sources).  The sweep is two-level, `grade_y` ascending outside
and `grade_x` ascending inside, which is also the order in which
`get_index_mx` numbers the cells (`grade_x + grade_y * x_size`). -/
def sweep_before (a b : STNode) : Bool :=
  decide (a.grade_y < b.grade_y) || (decide (a.grade_y = b.grade_y) && decide (a.grade_x < b.grade_x))

/-- The comparator applied to two pointers into the tree under `root`. -/
def ref_before (root : STNode) (r s : List Nat) : Bool :=
  match node_at r root, node_at s root with
  | some a, some b => sweep_before a b
  | _, _ => false

/-- Modelled from the spec: `SimplexSet::insert(p)`.  The set keeps every
pointer inserted (pointers to nodes of equal multi-grade are all kept), in
comparator order; a new pointer goes after those it is not before. -/
def simplex_set_insert (root : STNode) (r : List Nat) : List (List Nat) → List (List Nat)
  | [] => [r]
  | s :: rest =>
    if ref_before root r s then r :: s :: rest else s :: simplex_set_insert root r rest

/-- The range insert `set.insert(kids.begin(), kids.end())` for the `n`
children of the node at `here`. -/
def insert_kids (root : STNode) (here : List Nat) (n : Nat) (set : List (List Nat)) :
    List (List Nat) :=
  (List.range n).foldl (fun s i => simplex_set_insert root (here ++ [i]) s) set

/-- The three-way test at the head of `build_dim_lists_recursively`, for a node
at `here` with `n` children. -/
def collect_kids (t : SimplexTree) (here : List Nat) (n : Nat) (cur_dim : Int) : SimplexTree :=
  if cur_dim = t.hom_dim - 1 then
    { t with ordered_low_simplices := insert_kids t.root here n t.ordered_low_simplices }
  else if cur_dim = t.hom_dim then
    { t with ordered_simplices := insert_kids t.root here n t.ordered_simplices }
  else if cur_dim = t.hom_dim + 1 then
    { t with ordered_high_simplices := insert_kids t.root here n t.ordered_high_simplices }
  else t

mutual
/-- Method `SimplexTree::build_dim_lists_recursively(node, cur_dim)`; `here` is
the pointer to `node`. -/
def build_dim_lists_recursively : STNode → List Nat → Int → SimplexTree → SimplexTree
  | .mk _ _ _ _ _ kids, here, cur_dim, t =>
    build_dim_lists_kids kids here 0 (cur_dim + 1) (collect_kids t here kids.length cur_dim)
/-- The loop over the children in `build_dim_lists_recursively`, from position
`pos` of the children vector on. -/
def build_dim_lists_kids : List STNode → List Nat → Nat → Int → SimplexTree → SimplexTree
  | [], _, _, _, t => t
  | k :: ks, here, pos, dim, t =>
    build_dim_lists_kids ks here (pos + 1) dim (build_dim_lists_recursively k (here ++ [pos]) dim t)
end

/-- One of the three numbering loops of `update_dim_indexes`: the pointers of
`set` in order receive `i`, `i + 1`, ... -/
def assign_dim_indexes : List (List Nat) → Int → STNode → STNode
  | [], _, root => root
  | r :: rest, i, root => assign_dim_indexes rest (i + 1) (set_dim_at r i root)

/-- Method `SimplexTree::update_dim_indexes()`. -/
def SimplexTree.update_dim_indexes (t : SimplexTree) : SimplexTree :=
  let t1 := build_dim_lists_recursively t.root [] 0 t
  let root1 := assign_dim_indexes t1.ordered_low_simplices 0 t1.root
  let root2 := assign_dim_indexes t1.ordered_simplices 0 root1
  let root3 := assign_dim_indexes t1.ordered_high_simplices 0 root2
  { t1 with root := root3 }

/-- All pointers of length `len` that point to a node below `n`, in the order
of the tree. -/
def refs_at_depth : Nat → STNode → List (List Nat)
  | 0, _ => [[]]
  | len + 1, n =>
    (n.get_children.enumFrom 0).flatMap
      (fun ik => (refs_at_depth len ik.2).map (fun r => ik.1 :: r))

/-- Pointers to the simplices of dimension `dim` (depth `dim + 1`) of the
tree under `root`. -/
def band_refs (dim : Int) (root : STNode) : List (List Nat) :=
  if dim < 0 then [] else refs_at_depth (dim.toNat + 1) root

/-- The set `set` is a current band for dimension `dim`: it holds each
simplex of that dimension once, in sweep order, and the node at position `i`
has dimension index `i`. -/
def band_indexed (root : STNode) (set : List (List Nat)) (dim : Int) : Bool :=
  decide set.Nodup
    && set.all (fun r => decide (r ∈ band_refs dim root))
    && (band_refs dim root).all (fun r => decide (r ∈ set))
    && decide (set.Pairwise (fun r s => ref_before root s r = false))
    && (List.range set.length).all (fun i =>
        match set[i]? with
        | some r => (node_at r root).map STNode.dim_index == some (i : Int)
        | none => false)

/-- The set of the band of dimension `hom_dim + k`, for `k` among -1, 0, 1. -/
def SimplexTree.band (t : SimplexTree) (k : Int) : List (List Nat) :=
  if k = -1 then t.ordered_low_simplices
  else if k = 0 then t.ordered_simplices
  else t.ordered_high_simplices

/-- The dimension indexes of the tree are current: each of the three sets is
a current band. -/
def SimplexTree.dim_indexed (t : SimplexTree) : Bool :=
  band_indexed t.root t.ordered_low_simplices (t.hom_dim - 1)
    && band_indexed t.root t.ordered_simplices t.hom_dim
    && band_indexed t.root t.ordered_high_simplices (t.hom_dim + 1)

/-- Every simplex of the tree lists its vertices in strictly increasing order. -/
def SimplexTree.increasing (t : SimplexTree) : Bool :=
  t.simplices.all (fun p => decide (p.Pairwise (fun a b => a < b)))

/-- Outcome of a matrix export: the matrix, one of the two exceptions thrown
by the exporters, or undefined behaviour (a read through a pointer to nothing,
a division by zero). -/
inductive Export (α : Type) where
  | ok (a : α)
  | improper_dimension
  | facet_not_found
  | undefined
  | no_fuel
deriving DecidableEq, Repr

/-- Sequencing of exports: the first failure ends the computation. -/
def Export.bind {α β : Type} (r : Export α) (f : α → Export β) : Export β :=
  match r with
  | .ok a => f a
  | .improper_dimension => .improper_dimension
  | .facet_not_found => .facet_not_found
  | .undefined => .undefined
  | .no_fuel => .no_fuel

/-- Modelled from the spec: `MapMatrix` (`map_matrix.h` is not part of the
sources), a sparse 0/1 matrix known by its size and the cells that `set` was
called on, in call order. -/
structure MapMatrix where
  num_rows : Int
  num_cols : Int
  cells : List (Int × Int)
deriving DecidableEq, Repr

/-- Constructor `MapMatrix(rows, cols)`: no cell set. -/
def MapMatrix.init (rows cols : Int) : MapMatrix :=
  { num_rows := rows, num_cols := cols, cells := [] }

/-- Call `mat->set(i, j)`: the cell in row `i`, column `j` becomes 1. -/
def MapMatrix.set (m : MapMatrix) (i j : Int) : MapMatrix :=
  { m with cells := m.cells ++ [(i, j)] }

/-- The rows of the cells set in column `j`, in call order. -/
def MapMatrix.column (m : MapMatrix) (j : Int) : List Int :=
  (m.cells.filter (fun c => decide (c.2 = j))).map Prod.fst

/-- The loop over `k` in `write_boundary_column`, from position `k` on: the
facet without `verts[k]` is looked up and its cell set. -/
def write_facets (t : SimplexTree) (verts : List Int) (col offset : Int) :
    List Nat → MapMatrix → Export MapMatrix
  | [], mat => .ok mat
  | k :: ks, mat =>
    match t.find_simplex (verts.eraseIdx k) with
    | none => .facet_not_found
    | some facet_node => write_facets t verts col offset ks (mat.set (facet_node.dim_index + offset) col)

/-- Method `SimplexTree::write_boundary_column(mat, sim, col, offset)`. -/
def SimplexTree.write_boundary_column (t : SimplexTree) (mat : MapMatrix) (sim : List Nat)
    (col offset : Int) : Export MapMatrix :=
  match node_at sim t.root with
  | none => .undefined
  | some s =>
    match t.find_vertices s.global_index with
    | .ok verts => write_facets t verts col offset (List.range verts.length) mat
    | .no_fuel => .no_fuel
    | _ => .undefined

/-- The loop over the simplices in `get_boundary_mx`, from column `col` on. -/
def write_columns (t : SimplexTree) : List (List Nat) → Int → MapMatrix → Export MapMatrix
  | [], _, mat => .ok mat
  | sim :: rest, col, mat =>
    (t.write_boundary_column mat sim col 0).bind (fun mat1 => write_columns t rest (col + 1) mat1)

/-- Method `SimplexTree::get_boundary_mx(dim)`. -/
def SimplexTree.get_boundary_mx (t : SimplexTree) (dim : Int) : Export MapMatrix :=
  if dim = t.hom_dim then
    write_columns t t.ordered_simplices 0
      (MapMatrix.init t.ordered_low_simplices.length t.ordered_simplices.length)
  else if dim = t.hom_dim + 1 then
    write_columns t t.ordered_high_simplices 0
      (MapMatrix.init t.ordered_simplices.length t.ordered_high_simplices.length)
  else .improper_dimension

/-- Modelled from the spec: `IndexMatrix` (`index_matrix.h` is not part of the
sources), a dense matrix of integers known by its size and the last value
written to each cell; `none` is a cell never written. -/
structure IndexMatrix where
  num_rows : Int
  num_cols : Int
  cell : Int → Int → Option Int

/-- Constructor `IndexMatrix(rows, cols)`: no cell written. -/
def IndexMatrix.init (rows cols : Int) : IndexMatrix :=
  { num_rows := rows, num_cols := cols, cell := fun _ _ => none }

/-- Call `mat->set(i, j, value)`. -/
def IndexMatrix.set (m : IndexMatrix) (i j value : Int) : IndexMatrix :=
  { m with cell := fun i1 j1 => if i1 = i ∧ j1 = j then some value else m.cell i1 j1 }

/-- The loop `for( ; cur_entry < bound; cur_entry++) mat->set(cur_entry/x_size,
cur_entry%x_size, value)` with `count` iterations left; a division by a zero
`x_size` is undefined behaviour.  `cur_entry` starts at 0 and only grows, and
`x_size` is a vector size, so `/` and `%` are applied to a non-negative
numerator and a positive denominator, where the C++ operators and those of
`Int` agree. -/
def fill_cells (x_size value : Int) : Nat → Int → IndexMatrix → Export IndexMatrix
  | 0, _, mat => .ok mat
  | count + 1, cur_entry, mat =>
    if x_size = 0 then .undefined
    else fill_cells x_size value count (cur_entry + 1)
      (mat.set (cur_entry / x_size) (cur_entry % x_size) value)

/-- The loop `for( ; cur_entry < bound; cur_entry++) ...` as a whole, returning
the matrix and the value of `cur_entry` it ends with. -/
def fill_to (x_size value bound cur_entry : Int) (mat : IndexMatrix) :
    Export (IndexMatrix × Int) :=
  (fill_cells x_size value (bound - cur_entry).toNat cur_entry mat).bind
    (fun mat1 => .ok (mat1, max cur_entry bound))

/-- The loop over the simplices in `get_index_mx`, from column `col` on,
returning the matrix and the final values of `col` and `cur_entry`. -/
def index_columns (root : STNode) (x_size : Int) :
    List (List Nat) → Int → Int → IndexMatrix → Export (IndexMatrix × Int × Int)
  | [], col, cur_entry, mat => .ok (mat, col, cur_entry)
  | sim :: rest, col, cur_entry, mat =>
    match node_at sim root with
    | none => .undefined
    | some simplex =>
      (fill_to x_size (col - 1) (simplex.grade_x + simplex.grade_y * x_size) cur_entry mat).bind
        (fun r =>
          index_columns root x_size rest (col + 1) r.2
            (r.1.set simplex.grade_y simplex.grade_x col))

/-- The body of `get_index_mx` once the set of simplices is selected.
Dereferencing `simplices->begin()` of an empty set is undefined behaviour. -/
def index_matrix_of (t : SimplexTree) (simplices : List (List Nat)) : Export IndexMatrix :=
  let x_size : Int := t.grade_x_values.length
  let y_size : Int := t.grade_y_values.length
  match simplices.head? with
  | none => .undefined
  | some it =>
    match node_at it t.root with
    | none => .undefined
    | some first =>
      (fill_to x_size (-1) (first.grade_x + first.grade_y * x_size) 0
          (IndexMatrix.init y_size x_size)).bind
        (fun r1 =>
          (index_columns t.root x_size simplices 0 r1.2 r1.1).bind
            (fun r2 =>
              (fill_to x_size (r2.2.1 - 1) (x_size * y_size) r2.2.2 r2.1).bind
                (fun r3 => .ok r3.1)))

/-- Method `SimplexTree::get_index_mx(dim)`. -/
def SimplexTree.get_index_mx (t : SimplexTree) (dim : Int) : Export IndexMatrix :=
  if dim = t.hom_dim then index_matrix_of t t.ordered_simplices
  else if dim = t.hom_dim + 1 then index_matrix_of t t.ordered_high_simplices
  else .improper_dimension

/-- The number of the cell of the multi-grade of `n` in the row-major order in
which `get_index_mx` walks the cells of a grid with `x_size` columns. -/
def cell_pos (x_size : Int) (n : STNode) : Int :=
  n.grade_x + n.grade_y * x_size

/-- The cell number of the node a pointer points to. -/
def ref_pos (root : STNode) (x_size : Int) (r : List Nat) : Int :=
  match node_at r root with
  | some n => cell_pos x_size n
  | none => 0

/-- A tree of homology dimension 1 with the vertex 9 at grade (0, 1) and the
edge 1-2 at grade (1, 0), with current indexes. -/
def tree_edge : SimplexTree :=
  ((((SimplexTree.init 1).add_simplex [9] 0 1).bind (fun t => t.add_simplex [1, 2] 1 0)).getD
    (SimplexTree.init 1)).update_dim_indexes

/-- A tree of homology dimension 0 with the single vertex 1, with current
indexes. -/
def tree_point : SimplexTree :=
  (((SimplexTree.init 0).add_simplex [1] 0 0).getD (SimplexTree.init 0)).update_dim_indexes

/-- The tree `tree_124` (the triangle 1-2-4 with its faces) with current
dimension indexes around its homology dimension. -/
def tree_124_dim : SimplexTree := tree_124.update_dim_indexes

/-- The fields of a node that `update_dim_indexes` leaves alone: vertex label,
multi-grade and global index. -/
def STNode.label_data (n : STNode) : Int × Int × Int × Int :=
  (n.get_vertex, n.grade_x, n.grade_y, n.global_index)

/-- The pointers that `build_dim_lists_recursively(node, cur)` inserts into the
set of the band visited at depth `target`, in insertion order, `here` being
the pointer to `node`: those to the nodes `target - cur + 1` levels below it. -/
def refs_below (target : Int) (node : STNode) (here : List Nat) (cur : Int) :
    List (List Nat) :=
  if cur ≤ target then
    (refs_at_depth (target - cur + 1).toNat node).map (fun q => here ++ q)
  else []

/-- The pointers inserted by the loop over the children `kids`, which sit at
the positions `pos`, `pos + 1`, ... below `here` and are visited at depth
`dim`. -/
def refs_below_kids (target : Int) (kids : List STNode) (here : List Nat) (pos : Nat)
    (dim : Int) : List (List Nat) :=
  if dim ≤ target then
    (kids.enumFrom pos).flatMap
      (fun ik => (refs_at_depth (target - dim + 1).toNat ik.2).map (fun q => here ++ ik.1 :: q))
  else []

/-- The row that `write_boundary_column` enters for the facet without
`verts[k]` (with offset 0): the dimension index of the node `find_simplex`
returns for it. -/
def facet_row (t : SimplexTree) (verts : List Int) (k : Nat) : Int :=
  match t.find_simplex (verts.eraseIdx k) with
  | some facet_node => facet_node.dim_index
  | none => 0

/-- The rows that `write_boundary_column` enters for the simplex at `sim`, one
per vertex left out, in the order of the loop. -/
def column_rows (t : SimplexTree) (sim : List Nat) : List Int :=
  match node_at sim t.root with
  | none => []
  | some s =>
    match t.find_vertices s.global_index with
    | .ok verts => (List.range verts.length).map (facet_row t verts)
    | _ => []

/-! ## Further definitions: the distance counter, the range query and the
merge and split exports -/

/-- The value of the counter `c` of `build_VR_complex` at the assignment
`distances[c] = sqrt(s)` for the pair `(i, j)`: the inner loop has run
`n - (a + 1)` times for every earlier row `a`, and `j - (i + 1)` times in
row `i`. -/
def stored_at (n i j : Nat) : Nat :=
  ((List.range i).map (fun (a : Nat) => n - (a + 1))).sum + (j - (i + 1))

mutual
/-- Method `SimplexTree::find_nodes(node, level, vec, time, dist, dim)`,
returning `vec` with the global indexes appended to it (`get_birth()` is the
`grade_x` field and `get_dist()` the `grade_y` field of the node). -/
def find_nodes : STNode → Int → List Int → Int → Int → Int → List Int
  | .mk _ x y g _ kids, level, vec, time, dist, dim =>
    if time < 0 ∨ dist < 0 ∨ dim < 0 then vec
    else
      let vec1 := if level = dim + 1 ∧ x ≤ time ∧ y ≤ dist then vec ++ [g] else vec
      if level ≤ dim then find_nodes_kids kids (level + 1) vec1 time dist dim else vec1
/-- The loop over the children in `find_nodes`, each child being visited at
`level`. -/
def find_nodes_kids : List STNode → Int → List Int → Int → Int → Int → List Int
  | [], _, vec, _, _, _ => vec
  | k :: ks, level, vec, time, dist, dim =>
    find_nodes_kids ks level (find_nodes k level vec time dist dim) time dist dim
end

/-- The loop over `k` in the overload `get_boundary_mx(coface_global,
face_order)`, from position `k` on.  `find_simplex(facet)->global_index()` on a
`NULL` result is a read through a null pointer (`out_of_bounds`), and
`face_order.at(gi)` throws when the key is absent (`thrown`). -/
def write_facets_orders (t : SimplexTree) (verts : List Int) (face_order : List (Int × Int))
    (j : Int) : List Nat → MapMatrix → Res MapMatrix
  | [], mat => .ok mat
  | k :: ks, mat =>
    match t.find_simplex (verts.eraseIdx k) with
    | none => .out_of_bounds
    | some facet_node =>
      match face_order.lookup facet_node.global_index with
      | none => .thrown
      | some oi => write_facets_orders t verts face_order j ks (mat.set (oi + 1) (j + 1))

/-- The loop over the columns `j` in the overload, over the entries of
`coface_global` still to be treated. -/
def write_columns_orders (t : SimplexTree) (face_order : List (Int × Int)) :
    List Int → Int → MapMatrix → Res MapMatrix
  | [], _, mat => .ok mat
  | gi :: rest, j, mat =>
    (t.find_vertices gi).bind (fun verts =>
      (if verts.length > 1 then
          write_facets_orders t verts face_order j (List.range verts.length) mat
        else .ok mat).bind
        (fun mat1 => write_columns_orders t face_order rest (j + 1) mat1))

/-- The overload `SimplexTree::get_boundary_mx(coface_global, face_order)`.
The `std::map` `face_order` is given by the list of its entries, one per
key; its size is the number of entries. -/
def SimplexTree.get_boundary_mx_orders (t : SimplexTree) (coface_global : List Int)
    (face_order : List (Int × Int)) : Res MapMatrix :=
  write_columns_orders t face_order coface_global 0
    (MapMatrix.init face_order.length coface_global.length)

mutual
/-- Forget the dimension indexes of a subtree (set them all to 0): what is
left is everything `update_dim_indexes` does not write. -/
def strip_di : STNode → STNode
  | .mk v x y g _ kids => .mk v x y g 0 (strip_di_kids kids)
/-- Forget the dimension indexes of the subtrees of a children vector. -/
def strip_di_kids : List STNode → List STNode
  | [] => []
  | k :: ks => strip_di k :: strip_di_kids ks
end

/-- The struct `DirectSumMatrices` returned by `get_merge_mxs` and
`get_split_mxs`. -/
structure DirectSumMatrices where
  boundary_matrix : MapMatrix
  map_matrix : MapMatrix
  column_indexes : IndexMatrix

/-- The loop `while(it != end && (*it)->grade_x() == gx && (*it)->grade_y() == gy)
{ body; ++it; }` on the part `it` of an ordered set that the iterator has still
to pass; `body` acts on the other local variables.  The result holds these
variables and what is left of the set when the loop ends. -/
def while_at_grade {σ : Type} (root : STNode) (gx gy : Int)
    (body : List Nat → σ → Export σ) : List (List Nat) → σ → Export (σ × List (List Nat))
  | [], s => .ok (s, [])
  | sim :: rest, s =>
    match node_at sim root with
    | none => .undefined
    | some n =>
      if n.grade_x = gx ∧ n.grade_y = gy then
        (body sim s).bind (fun s1 => while_at_grade root gx gy body rest s1)
      else .ok (s, sim :: rest)

/-- The cells `(x, y)` in the order of the double loop
`for(y = 0; y <= y_size; y++) for(x = 0; x <= x_size; x++)`. -/
def grid_cells (x_size y_size : Nat) : List (Int × Int) :=
  (List.range (y_size + 1)).flatMap
    (fun (y : Nat) => (List.range (x_size + 1)).map (fun (x : Nat) => ((x : Int), (y : Int))))

/-- The double loop over the multi-grades shared by `get_merge_mxs` and
`get_split_mxs`, over the cells still to be visited: at the cell `(x, y)` the
first `while` loop passes the simplices of multi-grade `(x - 1, y)` with
`body_b`, the second those of multi-grade `(x, y - 1)` with `body_c`, and
`record` is what the loop body does after them. -/
def sweep_cells {σ : Type} (root : STNode) (body_b body_c : List Nat → σ → Export σ)
    (record : Int → Int → σ → σ) :
    List (Int × Int) → σ → List (List Nat) → List (List Nat) →
      Export (σ × List (List Nat) × List (List Nat))
  | [], s, it_b, it_c => .ok (s, it_b, it_c)
  | cell :: cells, s, it_b, it_c =>
    (while_at_grade root (cell.1 - 1) cell.2 body_b it_b s).bind (fun r1 =>
      (while_at_grade root cell.1 (cell.2 - 1) body_c it_c r1.1).bind (fun r2 =>
        sweep_cells root body_b body_c record cells (record cell.1 cell.2 r2.1) r1.2 r2.2))

/-- The local variables of `get_merge_mxs` other than the two iterators. -/
structure MergeVars where
  boundary : MapMatrix
  merge : MapMatrix
  end_cols : IndexMatrix
  col : Int
  b : Int
  c : Int

/-- The body of the first `while` loop of `get_merge_mxs`: a column for a
simplex of the B component. -/
def merge_column_b (t : SimplexTree) (sim : List Nat) (s : MergeVars) : Export MergeVars :=
  (t.write_boundary_column s.boundary sim (s.col + 1) 0).bind (fun bd =>
    .ok { s with boundary := bd, merge := s.merge.set s.b (s.col + 1), col := s.col + 1,
                 b := s.b + 1 })

/-- The body of the second `while` loop of `get_merge_mxs`: a column for a
simplex of the C component, its rows offset by `num_rows`. -/
def merge_column_c (t : SimplexTree) (num_rows : Int) (sim : List Nat) (s : MergeVars) :
    Export MergeVars :=
  (t.write_boundary_column s.boundary sim (s.col + 1) num_rows).bind (fun bd =>
    .ok { s with boundary := bd, merge := s.merge.set s.c (s.col + 1), col := s.col + 1,
                 c := s.c + 1 })

/-- The statement `end_cols->set(y, x, col)` of `get_merge_mxs`. -/
def merge_record (x y : Int) (s : MergeVars) : MergeVars :=
  { s with end_cols := s.end_cols.set y x s.col }

/-- Method `SimplexTree::get_merge_mxs()`. -/
def SimplexTree.get_merge_mxs (t : SimplexTree) : Export DirectSumMatrices :=
  let num_rows : Int := t.ordered_low_simplices.length
  let num_cols : Int := t.ordered_simplices.length
  let start : MergeVars :=
    ⟨MapMatrix.init (2 * num_rows) (2 * num_cols), MapMatrix.init num_cols (2 * num_cols),
      IndexMatrix.init (t.grade_y_values.length + 1) (t.grade_x_values.length + 1), -1, 0, 0⟩
  (sweep_cells t.root (merge_column_b t) (merge_column_c t num_rows) merge_record
      (grid_cells t.grade_x_values.length t.grade_y_values.length) start
      t.ordered_simplices t.ordered_simplices).bind
    (fun r => .ok ⟨r.1.boundary, r.1.merge, r.1.end_cols⟩)

/-- The local variables of the first double loop of `get_split_mxs`. -/
structure SplitVars where
  boundary : MapMatrix
  end_cols : IndexMatrix
  col : Int

/-- The body of the `while` loops of the first double loop of
`get_split_mxs`, with the row offset of the component. -/
def split_column (t : SimplexTree) (offset : Int) (sim : List Nat) (s : SplitVars) :
    Export SplitVars :=
  (t.write_boundary_column s.boundary sim (s.col + 1) offset).bind (fun bd =>
    .ok { s with boundary := bd, col := s.col + 1 })

/-- The statement `end_cols->set(y, x, col)` of `get_split_mxs`. -/
def split_record (x y : Int) (s : SplitVars) : SplitVars :=
  { s with end_cols := s.end_cols.set y x s.col }

/-- The local variables of the second double loop of `get_split_mxs`. -/
structure SplitMapVars where
  split : MapMatrix
  row : Int
  b : Int
  c : Int

/-- The body of the first `while` loop of the second double loop of
`get_split_mxs`: a row for a simplex of the B component. -/
def split_row_b (_ : List Nat) (s : SplitMapVars) : Export SplitMapVars :=
  .ok { s with split := s.split.set (s.row + 1) s.b, row := s.row + 1, b := s.b + 1 }

/-- The body of the second `while` loop of the second double loop of
`get_split_mxs`: a row for a simplex of the C component. -/
def split_row_c (_ : List Nat) (s : SplitMapVars) : Export SplitMapVars :=
  .ok { s with split := s.split.set (s.row + 1) s.c, row := s.row + 1, c := s.c + 1 }

/-- Method `SimplexTree::get_split_mxs()`. -/
def SimplexTree.get_split_mxs (t : SimplexTree) : Export DirectSumMatrices :=
  let num_rows : Int := t.ordered_simplices.length
  let num_cols : Int := t.ordered_high_simplices.length
  let start : SplitVars :=
    ⟨MapMatrix.init (2 * num_rows) (2 * num_cols),
      IndexMatrix.init (t.grade_y_values.length + 1) (t.grade_x_values.length + 1), -1⟩
  (sweep_cells t.root (split_column t 0) (split_column t num_rows) split_record
      (grid_cells t.grade_x_values.length t.grade_y_values.length) start
      t.ordered_high_simplices t.ordered_high_simplices).bind
    (fun r1 =>
      (sweep_cells t.root split_row_b split_row_c (fun _ _ s => s)
          (grid_cells t.grade_x_values.length t.grade_y_values.length)
          ⟨MapMatrix.init (2 * num_rows) num_rows, -1, 0, 0⟩
          t.ordered_simplices t.ordered_simplices).bind
        (fun r2 => .ok ⟨r1.1.boundary, r2.1.split, r1.1.end_cols⟩))

/-- The columns of the cells set in row `i`, in call order. -/
def MapMatrix.row (m : MapMatrix) (i : Int) : List Int :=
  (m.cells.filter (fun c => decide (c.1 = i))).map Prod.snd

/-- The number of the cell numbers in `pos` that are at most `l`. -/
def pos_count (pos : List Int) (l : Int) : Nat :=
  pos.countP (fun p => decide (p ≤ l))

/-- The number of the column that `get_merge_mxs` writes for the B copy of the
simplex at position `i` of the band, the cell numbers of the band (in the grid
one column wider, of width `w`) being `pos`: the B copy of a simplex at cell
number `p` is written at cell number `p + 1` and its C copy at cell number
`p + w`, so the B copy of `i` comes after the `i` earlier B copies and after
the C copies written at earlier cells, those with `p + w < pos[i] + 1`. -/
def merge_col_b (pos : List Int) (w : Int) (i : Nat) : Int :=
  i + pos_count pos (pos.getD i 0 - w)

/-- The number of the column that `get_merge_mxs` writes for the C copy of the
simplex at position `i`: it comes after the `i` earlier C copies and after the
B copies written at the same or an earlier cell, those with
`p + 1 ≤ pos[i] + w`. -/
def merge_col_c (pos : List Int) (w : Int) (i : Nat) : Int :=
  i + pos_count pos (pos.getD i 0 + w - 1)

/-- What the variables of `get_merge_mxs` hold once the first `a` simplices of
the band `S` have their B column and the first `c` their C column, on a grid
of width `w` with `nl` simplices in the low band: the counters, the columns
written so far, which are those numbered below `a + c`, and the rows of the
map matrix. -/
def merge_state (t : SimplexTree) (S : List (List Nat)) (w nl : Int) (a c : Nat)
    (s : MergeVars) : Prop :=
  s.b = a ∧ s.c = c ∧ s.col = (a : Int) + c - 1 ∧
  s.merge.cells.map Prod.snd = int_range 0 (a + c) ∧
  (∀ i, i < a →
    merge_col_b (S.map (ref_pos t.root w)) w i < (a : Int) + c ∧
    s.merge.column (merge_col_b (S.map (ref_pos t.root w)) w i) = [(i : Int)] ∧
    s.boundary.column (merge_col_b (S.map (ref_pos t.root w)) w i) =
      column_rows t (S.getD i [])) ∧
  (∀ i, i < c →
    merge_col_c (S.map (ref_pos t.root w)) w i < (a : Int) + c ∧
    s.merge.column (merge_col_c (S.map (ref_pos t.root w)) w i) = [(i : Int)] ∧
    s.boundary.column (merge_col_c (S.map (ref_pos t.root w)) w i) =
      (column_rows t (S.getD i [])).map (fun x => x + nl)) ∧
  (∀ k : Int, (a : Int) + c ≤ k → s.merge.column k = [] ∧ s.boundary.column k = []) ∧
  (∀ i : Nat, s.merge.row i =
    (if i < a then [merge_col_b (S.map (ref_pos t.root w)) w i] else []) ++
      (if i < c then [merge_col_c (S.map (ref_pos t.root w)) w i] else []))

/-! ## Properties of the binary-search loop -/

theorem pairwise_lt_getElem? {α : Type} [LinearOrder α] {keys : List α}
    (hs : keys.Pairwise (· < ·)) {i j : Nat} {a b : α}
    (hi : keys[i]? = some a) (hj : keys[j]? = some b) (hij : i < j) : a < b := by
  rw [List.getElem?_eq_some] at hi hj
  obtain ⟨hi1, rfl⟩ := hi
  obtain ⟨hj1, rfl⟩ := hj
  exact (List.pairwise_iff_getElem.mp hs) i j hi1 hj1 hij

theorem pairwise_lt_getElem?_le {α : Type} [LinearOrder α] {keys : List α}
    (hs : keys.Pairwise (· < ·)) {i j : Nat} {a b : α}
    (hi : keys[i]? = some a) (hj : keys[j]? = some b) (hij : i ≤ j) : a ≤ b := by
  rcases Nat.lt_or_eq_of_le hij with h | h
  · exact le_of_lt (pairwise_lt_getElem? hs hi hj h)
  · subst h
    rw [hi] at hj
    exact le_of_eq (Option.some.inj hj)

/-- On any key vector, sorted or not, the loop started inside the vector with
enough fuel ends: it stops at a position between the bounds or ends with
`max < min`; it neither reads outside the vector nor runs out of fuel. -/
theorem bsearch_total {α : Type} [LinearOrder α] (keys : List α) (key : α) :
    ∀ (fuel : Nat) (lo hi : Int), 0 ≤ lo → hi < keys.length → lo ≤ hi + 1 →
      hi + 1 - lo < fuel →
      (∃ m : Int, bsearch keys key fuel lo hi = .found m ∧ lo ≤ m ∧ m ≤ hi) ∨
      (∃ h : Int, bsearch keys key fuel lo hi = .missed h) := by
  intro fuel
  induction fuel with
  | zero =>
    intro lo hi _ _ _ h
    right
    exact absurd h (by omega)
  | succ fuel ih =>
    intro lo hi hlo hhi hle hfuel
    unfold bsearch
    by_cases hge : hi ≥ lo
    · have hmid0 : ¬ ((lo + hi) / 2 < 0) := by omega
      have hmidlt : ((lo + hi) / 2).toNat < keys.length := by omega
      simp only [hge, if_true, hmid0, if_false, List.getElem?_eq_getElem hmidlt]
      by_cases heq : keys[((lo + hi) / 2).toNat] = key
      · left
        exact ⟨(lo + hi) / 2, by simp [heq], by omega, by omega⟩
      · simp only [heq, if_false]
        by_cases hlt : keys[((lo + hi) / 2).toNat] < key
        · simp only [hlt, if_true]
          rcases ih ((lo + hi) / 2 + 1) hi (by omega) hhi (by omega) (by omega) with
            ⟨m, h1, h2, h3⟩ | h
          · exact Or.inl ⟨m, h1, by omega, h3⟩
          · exact Or.inr h
        · simp only [hlt, if_false]
          rcases ih lo ((lo + hi) / 2 - 1) hlo (by omega) (by omega) (by omega) with
            ⟨m, h1, h2, h3⟩ | h
          · exact Or.inl ⟨m, h1, h2, by omega⟩
          · exact Or.inr h
    · right
      exact ⟨hi, by simp only [hge, if_false]⟩

/-- The search as the callers start it always ends within the vector. -/
theorem bsearch_all_total {α : Type} [LinearOrder α] (keys : List α) (key : α) :
    (∃ m : Int, bsearch_all keys key = .found m ∧ 0 ≤ m ∧ m < keys.length) ∨
    (∃ h : Int, bsearch_all keys key = .missed h) := by
  unfold bsearch_all
  rcases bsearch_total keys key (keys.length + 1) 0 ((keys.length : Int) - 1)
      (le_refl _) (by omega) (by omega) (by omega) with ⟨m, h1, h2, h3⟩ | h
  · exact Or.inl ⟨m, h1, h2, by omega⟩
  · exact Or.inr h

/-- The loop invariant of the binary search on a strictly increasing key
vector: started inside the vector with everything left of `lo` below the key
and everything right of `hi` above it, and with enough fuel, the loop either
stops at a position holding the key, or ends with `max` at the last position
whose key is below the searched one (`-1` if there is none). -/
theorem bsearch_spec {α : Type} [LinearOrder α] (keys : List α) (key : α)
    (hs : keys.Pairwise (· < ·)) :
    ∀ (fuel : Nat) (lo hi : Int), 0 ≤ lo → hi < keys.length → lo ≤ hi + 1 →
      hi + 1 - lo < fuel →
      (∀ i : Nat, (i : Int) < lo → ∀ k, keys[i]? = some k → k < key) →
      (∀ i : Nat, hi < (i : Int) → ∀ k, keys[i]? = some k → key < k) →
      (∃ m : Nat, bsearch keys key fuel lo hi = .found m ∧ keys[m]? = some key) ∨
      (∃ h : Int, bsearch keys key fuel lo hi = .missed h ∧ -1 ≤ h ∧ h < keys.length ∧
        (∀ i : Nat, (i : Int) ≤ h → ∀ k, keys[i]? = some k → k < key) ∧
        (∀ i : Nat, h < (i : Int) → ∀ k, keys[i]? = some k → key < k)) := by
  intro fuel
  induction fuel with
  | zero => intro lo hi _ _ _ h; omega
  | succ fuel ih =>
    intro lo hi hlo hhi hle hfuel hleft hright
    unfold bsearch
    by_cases hge : hi ≥ lo
    · have hmid0 : ¬ ((lo + hi) / 2 < 0) := by omega
      have hmidlt : ((lo + hi) / 2).toNat < keys.length := by omega
      simp only [hge, if_true, hmid0, if_false, List.getElem?_eq_getElem hmidlt]
      have hget : keys[((lo + hi) / 2).toNat]? = some keys[((lo + hi) / 2).toNat] :=
        List.getElem?_eq_getElem hmidlt
      by_cases heq : keys[((lo + hi) / 2).toNat] = key
      · left
        refine ⟨((lo + hi) / 2).toNat, ?_, ?_⟩
        · simp only [heq, if_true]
          congr 1
          omega
        · rw [hget, heq]
      · simp only [heq, if_false]
        by_cases hlt : keys[((lo + hi) / 2).toNat] < key
        · simp only [hlt, if_true]
          apply ih _ _ (by omega) hhi (by omega) (by omega) _ hright
          intro i hi1 k hk
          have : i ≤ ((lo + hi) / 2).toNat := by omega
          exact lt_of_le_of_lt (pairwise_lt_getElem?_le hs hk hget this) hlt
        · simp only [hlt, if_false]
          apply ih _ _ hlo (by omega) (by omega) (by omega) hleft
          intro i hi1 k hk
          have h1 : ((lo + hi) / 2).toNat ≤ i := by omega
          have h2 := pairwise_lt_getElem?_le hs hget hk h1
          have h3 : key < keys[((lo + hi) / 2).toNat] :=
            lt_of_le_of_ne (not_lt.mp hlt) (Ne.symm heq)
          exact lt_of_lt_of_le h3 h2
    · right
      refine ⟨hi, ?_, by omega, hhi, ?_, hright⟩
      · simp only [hge, if_false]
      · intro i hi1 k hk
        exact hleft i (by omega) k hk

/-- The search as the callers start it, on a strictly increasing key vector. -/
theorem bsearch_all_spec {α : Type} [LinearOrder α] (keys : List α) (key : α)
    (hs : keys.Pairwise (· < ·)) :
    (∃ m : Nat, bsearch_all keys key = .found m ∧ keys[m]? = some key) ∨
    (∃ h : Int, bsearch_all keys key = .missed h ∧ -1 ≤ h ∧ h < keys.length ∧
      (∀ i : Nat, (i : Int) ≤ h → ∀ k, keys[i]? = some k → k < key) ∧
      (∀ i : Nat, h < (i : Int) → ∀ k, keys[i]? = some k → key < k)) := by
  unfold bsearch_all
  apply bsearch_spec keys key hs _ _ _ (le_refl _) (by omega) (by omega) (by omega)
  · intro i hi; omega
  · intro i hi k hk
    have := (List.getElem?_eq_some.mp hk).1
    omega

/-- A key stored at position `m` of a strictly increasing vector is found
there. -/
theorem bsearch_all_found {α : Type} [LinearOrder α] {keys : List α} {key : α}
    (hs : keys.Pairwise (· < ·)) {m : Nat} (hm : keys[m]? = some key) :
    bsearch_all keys key = .found m := by
  rcases bsearch_all_spec keys key hs with ⟨m2, h1, h2⟩ | ⟨h, _, _, _, h3, h4⟩
  · rw [h1]
    rcases Nat.lt_trichotomy m m2 with h | h | h
    · exact absurd (pairwise_lt_getElem? hs hm h2 h) (lt_irrefl _)
    · rw [h]
    · exact absurd (pairwise_lt_getElem? hs h2 hm h) (lt_irrefl _)
  · by_cases hc : (m : Int) ≤ h
    · exact absurd (h3 m hc key hm) (lt_irrefl _)
    · exact absurd (h4 m (by omega) key hm) (lt_irrefl _)

/-- A key absent from a strictly increasing vector is missed, and the final
`max` separates the smaller keys from the larger ones. -/
theorem bsearch_all_missed {α : Type} [LinearOrder α] {keys : List α} {key : α}
    (hs : keys.Pairwise (· < ·)) (hm : key ∉ keys) :
    ∃ h : Int, bsearch_all keys key = .missed h ∧ -1 ≤ h ∧ h < keys.length ∧
      (∀ i : Nat, (i : Int) ≤ h → ∀ k, keys[i]? = some k → k < key) ∧
      (∀ i : Nat, h < (i : Int) → ∀ k, keys[i]? = some k → key < k) := by
  rcases bsearch_all_spec keys key hs with ⟨m2, _, h2⟩ | h
  · obtain ⟨hlt, heq⟩ := List.getElem?_eq_some.mp h2
    exact absurd (heq ▸ List.getElem_mem hlt) hm
  · exact h

/-! ## Axis grids: value to position and back -/

theorem grade_position_of_mem (values : List ℚ) (hs : values.Pairwise (· < ·))
    (v : ℚ) (hv : v ∈ values) :
    grade_value values (grade_position values v) = some v := by
  obtain ⟨m, hm, rfl⟩ := List.getElem_of_mem hv
  have hget : values[m]? = some values[m] := List.getElem?_eq_getElem hm
  have hf := bsearch_all_found hs hget
  simp only [grade_position, hf, grade_value]
  have h0 : ¬ ((m : Int) < 0) := by omega
  simp only [h0, if_false, Int.toNat_ofNat, hget]

theorem grade_position_of_not_mem (values : List ℚ) (hs : values.Pairwise (· < ·))
    (v : ℚ) (hv : v ∉ values) : grade_position values v = -1 := by
  obtain ⟨h, hm, _⟩ := bsearch_all_missed hs hv
  simp only [grade_position, hm]

theorem grade_value_position (values : List ℚ) (hs : values.Pairwise (· < ·))
    (i : Int) (h0 : 0 ≤ i) (h1 : i < values.length) :
    ∃ v, grade_value values i = some v ∧ grade_position values v = i := by
  have hlt : i.toNat < values.length := by omega
  have hget : values[i.toNat]? = some values[i.toNat] := List.getElem?_eq_getElem hlt
  refine ⟨values[i.toNat], ?_, ?_⟩
  · have : ¬ (i < 0) := by omega
    simp only [grade_value, this, if_false, hget]
  · have hf := bsearch_all_found hs hget
    simp only [grade_position, hf]
    omega

/-- C10 (grid round trip).  On a tree whose two axis grids are strictly
increasing: every value `v` occurring in a grid satisfies
`grade_x_value(grade_x_position(v)) = v` (likewise for y); a value that does
not occur in the grid, in particular any value on an empty grid, has position
`-1`; and `grade_x_position(grade_x_value(i)) = i` for every valid index `i`
(likewise for y). -/
theorem grade_round_trip (t : SimplexTree)
    (hx : t.grade_x_values.Pairwise (· < ·)) (hy : t.grade_y_values.Pairwise (· < ·)) :
    (∀ v ∈ t.grade_x_values, t.grade_x_value (t.grade_x_position v) = some v) ∧
    (∀ v ∈ t.grade_y_values, t.grade_y_value (t.grade_y_position v) = some v) ∧
    (∀ v, v ∉ t.grade_x_values → t.grade_x_position v = -1) ∧
    (∀ v, v ∉ t.grade_y_values → t.grade_y_position v = -1) ∧
    (∀ i : Int, 0 ≤ i → i < t.grade_x_values.length →
      ∃ v, t.grade_x_value i = some v ∧ t.grade_x_position v = i) ∧
    (∀ i : Int, 0 ≤ i → i < t.grade_y_values.length →
      ∃ v, t.grade_y_value i = some v ∧ t.grade_y_position v = i) :=
  ⟨grade_position_of_mem _ hx, grade_position_of_mem _ hy,
   grade_position_of_not_mem _ hx, grade_position_of_not_mem _ hy,
   grade_value_position _ hx, grade_value_position _ hy⟩

/-- C10 at a concrete tree: x grid `0, 1, 2, 5`, y grid `0, 3`. -/
theorem grade_round_trip_witness :
    let t : SimplexTree :=
      { root := STNode.root_init, grade_x_values := [0, 1, 2, 5], grade_y_values := [0, 3],
        hom_dim := 1 }
    (t.grade_x_values.Pairwise (· < ·) ∧ t.grade_y_values.Pairwise (· < ·)) ∧
    t.grade_x_position 5 = 3 ∧ t.grade_x_value 3 = some 5 ∧ t.grade_x_position 4 = -1 ∧
    (∀ v ∈ t.grade_x_values, t.grade_x_value (t.grade_x_position v) = some v) ∧
    (∀ v, v ∉ t.grade_y_values → t.grade_y_position v = -1) :=
  have hx : ([0, 1, 2, 5] : List ℚ).Pairwise (· < ·) := by decide
  have hy : ([0, 3] : List ℚ).Pairwise (· < ·) := by decide
  have h := grade_round_trip
    { root := STNode.root_init, grade_x_values := [0, 1, 2, 5], grade_y_values := [0, 3],
      hom_dim := 1 } hx hy
  ⟨⟨hx, hy⟩, by decide, by decide, by decide, h.1, h.2.2.2.1⟩

/-! ## Basic facts about nodes, sorted sibling vectors and label lookup -/

@[simp] theorem STNode.get_vertex_mk (v x y g d : Int) (kids : List STNode) :
    (STNode.mk v x y g d kids).get_vertex = v := rfl

@[simp] theorem STNode.grade_x_mk (v x y g d : Int) (kids : List STNode) :
    (STNode.mk v x y g d kids).grade_x = x := rfl

@[simp] theorem STNode.grade_y_mk (v x y g d : Int) (kids : List STNode) :
    (STNode.mk v x y g d kids).grade_y = y := rfl

@[simp] theorem STNode.global_index_mk (v x y g d : Int) (kids : List STNode) :
    (STNode.mk v x y g d kids).global_index = g := rfl

@[simp] theorem STNode.get_children_mk (v x y g d : Int) (kids : List STNode) :
    (STNode.mk v x y g d kids).get_children = kids := rfl

@[simp] theorem STNode.set_children_mk (v x y g d : Int) (kids kids2 : List STNode) :
    (STNode.mk v x y g d kids).set_children kids2 = STNode.mk v x y g d kids2 := rfl

@[simp] theorem STNode.set_global_index_mk (v x y g d g2 : Int) (kids : List STNode) :
    (STNode.mk v x y g d kids).set_global_index g2 = STNode.mk v x y g2 d kids := rfl

@[simp] theorem STNode.get_children_set_children (n : STNode) (kids : List STNode) :
    (n.set_children kids).get_children = kids := by
  cases n; rfl

@[simp] theorem STNode.get_vertex_set_children (n : STNode) (kids : List STNode) :
    (n.set_children kids).get_vertex = n.get_vertex := by
  cases n; rfl

@[simp] theorem STNode.grade_x_set_children (n : STNode) (kids : List STNode) :
    (n.set_children kids).grade_x = n.grade_x := by
  cases n; rfl

@[simp] theorem STNode.grade_y_set_children (n : STNode) (kids : List STNode) :
    (n.set_children kids).grade_y = n.grade_y := by
  cases n; rfl

@[simp] theorem STNode.set_children_get_children (n : STNode) :
    n.set_children n.get_children = n := by
  cases n; rfl

theorem sorted_node_eq (n : STNode) : sorted_node n = sorted_kids n.get_children := by
  cases n; simp [sorted_node]

theorem sorted_kids_cons (k : STNode) (ks : List STNode) :
    sorted_kids (k :: ks) = true ↔
      (∀ k2 ∈ ks, k.get_vertex < k2.get_vertex) ∧ sorted_node k = true ∧
        sorted_kids ks = true := by
  simp [sorted_kids, and_assoc]

theorem sorted_kids_iff (kids : List STNode) :
    sorted_kids kids = true ↔
      (kids.map STNode.get_vertex).Pairwise (· < ·) ∧ ∀ k ∈ kids, sorted_node k = true := by
  induction kids with
  | nil => simp [sorted_kids]
  | cons k ks ih =>
    rw [sorted_kids_cons, ih]
    simp only [List.map_cons, List.pairwise_cons, List.mem_map, List.mem_cons,
      forall_exists_index, and_imp, forall_apply_eq_imp_iff₂, forall_eq_or_imp]
    tauto

theorem lookup_eq_some {kids : List STNode} {v : Int} {k : STNode}
    (h : lookup kids v = some k) :
    k.get_vertex = v ∧ ∃ i : Nat, kids[i]? = some k := by
  unfold lookup at h
  refine ⟨by simpa using List.find?_some h, ?_⟩
  obtain ⟨i, hi, rfl⟩ := List.getElem_of_mem (List.mem_of_find?_eq_some h)
  exact ⟨i, List.getElem?_eq_getElem hi⟩

theorem lookup_mem {kids : List STNode} {v : Int} {k : STNode}
    (h : lookup kids v = some k) : k ∈ kids :=
  List.mem_of_find?_eq_some h

theorem lookup_eq_none {kids : List STNode} {v : Int} :
    lookup kids v = none ↔ ∀ c ∈ kids, c.get_vertex ≠ v := by
  unfold lookup
  simp

/-- On a strictly increasing sibling vector the binary search by label stops
on the child carrying the label. -/
theorem bsearch_label_found {kids : List STNode} {v : Int} {k : STNode}
    (hs : (kids.map STNode.get_vertex).Pairwise (· < ·)) (h : lookup kids v = some k) :
    ∃ i : Nat, bsearch_all (kids.map STNode.get_vertex) v = .found i ∧ kids[i]? = some k := by
  obtain ⟨hv, i, hi⟩ := lookup_eq_some h
  refine ⟨i, bsearch_all_found hs ?_, hi⟩
  simp [List.getElem?_map, hi, hv]

/-- On a strictly increasing sibling vector the binary search by label misses
when no child carries the label. -/
theorem bsearch_label_missed {kids : List STNode} {v : Int}
    (hs : (kids.map STNode.get_vertex).Pairwise (· < ·)) (h : lookup kids v = none) :
    ∃ m : Int, bsearch_all (kids.map STNode.get_vertex) v = .missed m := by
  have hm : v ∉ kids.map STNode.get_vertex := by
    rw [lookup_eq_none] at h
    simpa using h
  obtain ⟨m, h1, _⟩ := bsearch_all_missed hs hm
  exact ⟨m, h1⟩

/-- On sorted sibling vectors `find_simplex` follows the labels. -/
theorem find_simplex_from_eq_follow (vs : List Int) :
    ∀ node : STNode, sorted_node node = true → find_simplex_from vs node = follow vs node := by
  induction vs with
  | nil => intro node _; rfl
  | cons v vs ih =>
    intro node hs
    rw [sorted_node_eq, sorted_kids_iff] at hs
    unfold find_simplex_from follow
    cases hl : lookup node.get_children v with
    | none =>
      obtain ⟨m, hm⟩ := bsearch_label_missed hs.1 hl
      simp [hm]
    | some k =>
      obtain ⟨i, hi, hk⟩ := bsearch_label_found hs.1 hl
      simp only [hi, Int.toNat_ofNat, hk]
      exact ih k (hs.2 k (lookup_mem hl))

/-! ## Induction on the tree, and the listing of simplices -/

/-- Simultaneous induction on nodes and on children vectors. -/
theorem STNode.induct {P : STNode → Prop} {Q : List STNode → Prop}
    (hnode : ∀ (v x y g d : Int) (kids : List STNode), Q kids → P (STNode.mk v x y g d kids))
    (hnil : Q []) (hcons : ∀ (k : STNode) (ks : List STNode), P k → Q ks → Q (k :: ks)) :
    (∀ n, P n) ∧ (∀ ks, Q ks) :=
  ⟨fun n => @STNode.rec P Q hnode hnil hcons n,
   fun ks => @STNode.rec_1 P Q hnode hnil hcons ks⟩

theorem entries_node_eq (n : STNode) :
    entries_node n =
      ([n.get_vertex], n) :: (entries n.get_children).map (fun e => (n.get_vertex :: e.1, e.2)) := by
  cases n; simp [entries_node]

@[simp] theorem entries_nil : entries [] = [] := by simp [entries]

@[simp] theorem entries_cons (k : STNode) (ks : List STNode) :
    entries (k :: ks) = entries_node k ++ entries ks := by simp [entries]

theorem node_count_eq (n : STNode) : node_count n = 1 + kids_count n.get_children := by
  cases n; simp [node_count]

@[simp] theorem kids_count_nil : kids_count [] = 0 := by simp [kids_count]

@[simp] theorem kids_count_cons (k : STNode) (ks : List STNode) :
    kids_count (k :: ks) = node_count k + kids_count ks := by simp [kids_count]

theorem node_count_pos (n : STNode) : 0 < node_count n := by
  rw [node_count_eq]; omega

theorem entries_length :
    (∀ n : STNode, (entries_node n).length = node_count n) ∧
    (∀ ks : List STNode, (entries ks).length = kids_count ks) := by
  apply STNode.induct
  · intro v x y g d kids ih
    simp [entries_node, node_count, ih]; omega
  · simp
  · intro k ks ih1 ih2
    simp [ih1, ih2]

theorem lookup_cons (k : STNode) (ks : List STNode) (v : Int) :
    lookup (k :: ks) v = if k.get_vertex = v then some k else lookup ks v := by
  unfold lookup
  by_cases h : k.get_vertex = v <;> simp [List.find?_cons, h]

theorem follow_cons (v : Int) (vs : List Int) (node : STNode) :
    follow (v :: vs) node = (lookup node.get_children v).bind (follow vs) := by
  rw [follow]
  cases lookup node.get_children v <;> rfl

/-- On sorted sibling vectors, the listing pairs each path with the node that
following the path reaches. -/
theorem mem_entries_iff :
    (∀ node : STNode, sorted_node node = true → ∀ (p : List Int) (n : STNode),
      (p, n) ∈ entries_node node ↔
        ∃ rest, p = node.get_vertex :: rest ∧ follow rest node = some n) ∧
    (∀ kids : List STNode, sorted_kids kids = true → ∀ (p : List Int) (n : STNode),
      (p, n) ∈ entries kids ↔
        ∃ v rest k, p = v :: rest ∧ lookup kids v = some k ∧ follow rest k = some n) := by
  apply STNode.induct
  · intro v x y g d kids ih hs p n
    have hs2 : sorted_kids kids = true := by simpa [sorted_node] using hs
    simp only [entries_node, List.mem_cons, Prod.mk.injEq, List.mem_map, Prod.exists,
      STNode.get_vertex_mk]
    constructor
    · rintro (⟨rfl, rfl⟩ | ⟨p2, n2, hmem, rfl, rfl⟩)
      · exact ⟨[], rfl, rfl⟩
      · obtain ⟨w, rest, k, rfl, hl, hf⟩ := (ih hs2 p2 n2).mp hmem
        refine ⟨w :: rest, rfl, ?_⟩
        rw [follow_cons]
        simp [hl, hf]
    · rintro ⟨rest, rfl, hf⟩
      cases rest with
      | nil =>
        left
        simp only [follow, Option.some.injEq] at hf
        exact ⟨rfl, hf.symm⟩
      | cons w rest =>
        right
        rw [follow_cons] at hf
        simp only [STNode.get_children_mk] at hf
        cases hl : lookup kids w with
        | none => simp [hl] at hf
        | some k =>
          simp only [hl, Option.some_bind] at hf
          exact ⟨w :: rest, n, (ih hs2 _ _).mpr ⟨w, rest, k, rfl, hl, hf⟩, rfl, rfl⟩
  · intro _ p n
    simp [lookup]
  · intro k ks ih1 ih2 hs p n
    rw [sorted_kids_cons] at hs
    obtain ⟨hlt, hk, hks⟩ := hs
    simp only [entries_cons, List.mem_append, ih1 hk, ih2 hks, lookup_cons]
    constructor
    · rintro (⟨rest, rfl, hf⟩ | ⟨v, rest, k2, rfl, hl, hf⟩)
      · exact ⟨k.get_vertex, rest, k, rfl, by simp, hf⟩
      · refine ⟨v, rest, k2, rfl, ?_, hf⟩
        have h1 := (lookup_eq_some hl).1
        have h2 := hlt k2 (lookup_mem hl)
        have : ¬ (k.get_vertex = v) := by omega
        simp [this, hl]
    · rintro ⟨v, rest, k2, rfl, hl, hf⟩
      by_cases hv : k.get_vertex = v
      · left
        simp only [hv, if_true, Option.some.injEq] at hl
        subst hl
        exact ⟨rest, by rw [hv], hf⟩
      · right
        simp only [hv, if_false] at hl
        exact ⟨v, rest, k2, rfl, hl, hf⟩

/-- On sorted sibling vectors, the listing from a node pairs each non-empty
path with the node that following it from that node reaches. -/
theorem mem_entries_children_iff (node : STNode) (hs : sorted_node node = true)
    (p : List Int) (n : STNode) :
    (p, n) ∈ entries node.get_children ↔ p ≠ [] ∧ follow p node = some n := by
  rw [sorted_node_eq] at hs
  rw [mem_entries_iff.2 _ hs]
  constructor
  · rintro ⟨v, rest, k, rfl, hl, hf⟩
    refine ⟨by simp, ?_⟩
    rw [follow_cons]
    simp [hl, hf]
  · rintro ⟨hne, hf⟩
    cases p with
    | nil => exact absurd rfl hne
    | cons v rest =>
      rw [follow_cons] at hf
      cases hl : lookup node.get_children v with
      | none => simp [hl] at hf
      | some k =>
        simp only [hl, Option.some_bind] at hf
        exact ⟨v, rest, k, rfl, hl, hf⟩

/-- No path of the listing is empty. -/
theorem entries_path_ne_nil :
    (∀ node : STNode, ∀ e ∈ entries_node node, e.1 ≠ []) ∧
    (∀ kids : List STNode, ∀ e ∈ entries kids, e.1 ≠ []) := by
  apply STNode.induct
  · intro v x y g d kids _ e he
    simp only [entries_node, List.mem_cons, List.mem_map] at he
    rcases he with rfl | ⟨e2, _, rfl⟩ <;> simp
  · simp
  · intro k ks ih1 ih2 e he
    simp only [entries_cons, List.mem_append] at he
    rcases he with he | he
    · exact ih1 e he
    · exact ih2 e he

/-- Every path of the listing of a node starts with the label of the node. -/
theorem entries_node_head (node : STNode) :
    ∀ e ∈ entries_node node, e.1.head? = some node.get_vertex := by
  intro e he
  rw [entries_node_eq] at he
  simp only [List.mem_cons, List.mem_map] at he
  rcases he with rfl | ⟨e2, _, rfl⟩ <;> simp

/-- Every path of the listing of a children vector starts with the label of
one of the children. -/
theorem entries_head_mem (kids : List STNode) :
    ∀ e ∈ entries kids, ∃ k ∈ kids, e.1.head? = some k.get_vertex := by
  induction kids with
  | nil => simp
  | cons k ks ih =>
    intro e he
    simp only [entries_cons, List.mem_append] at he
    rcases he with he | he
    · exact ⟨k, by simp, entries_node_head k e he⟩
    · obtain ⟨k2, hk2, h⟩ := ih e he
      exact ⟨k2, by simp [hk2], h⟩

/-- On sorted sibling vectors no path is listed twice. -/
theorem entries_paths_nodup :
    (∀ node : STNode, sorted_node node = true → ((entries_node node).map Prod.fst).Nodup) ∧
    (∀ kids : List STNode, sorted_kids kids = true → ((entries kids).map Prod.fst).Nodup) := by
  apply STNode.induct
  · intro v x y g d kids ih hs
    have hs2 : sorted_kids kids = true := by simpa [sorted_node] using hs
    simp only [entries_node, List.map_cons, List.map_map, List.nodup_cons, List.mem_map,
      Function.comp_apply, not_exists, not_and]
    refine ⟨?_, ?_⟩
    · intro e he h
      have := entries_path_ne_nil.2 kids e he
      simp only [List.cons.injEq, true_and] at h
      exact this h
    · have h1 := ih hs2
      have h2 : (List.map (Prod.fst ∘ fun e : List Int × STNode => (v :: e.1, e.2)) (entries kids))
          = ((entries kids).map Prod.fst).map (fun p => v :: p) := by
        simp [List.map_map, Function.comp_def]
      rw [h2]
      exact h1.map (fun a b h => by simpa using h)
  · intro _; simp
  · intro k ks ih1 ih2 hs
    rw [sorted_kids_cons] at hs
    obtain ⟨hlt, hk, hks⟩ := hs
    simp only [entries_cons, List.map_append]
    rw [List.nodup_append]
    refine ⟨ih1 hk, ih2 hks, ?_⟩
    intro p hp1 hp2
    simp only [List.mem_map] at hp1 hp2
    obtain ⟨e1, he1, rfl⟩ := hp1
    obtain ⟨e2, he2, heq⟩ := hp2
    have h1 := entries_node_head k e1 he1
    obtain ⟨k2, hk2, h2⟩ := entries_head_mem ks e2 he2
    rw [heq, h1] at h2
    have := hlt k2 hk2
    simp only [Option.some.injEq] at h2
    omega

/-! ## `find_simplex` -/

theorem follow_eq_none_iff (vs : List Int) :
    ∀ node : STNode, follow vs node = none ↔
      ∃ p v m, p ++ [v] <+: vs ∧ follow p node = some m ∧
        ∀ c ∈ m.get_children, c.get_vertex ≠ v := by
  induction vs with
  | nil =>
    intro node
    simp [follow]
  | cons w ws ih =>
    intro node
    rw [follow_cons]
    cases hl : lookup node.get_children w with
    | none =>
      simp only [Option.none_bind, true_iff]
      exact ⟨[], w, node, by simp, rfl, lookup_eq_none.mp hl⟩
    | some k =>
      simp only [Option.some_bind, ih k]
      constructor
      · rintro ⟨p, v, m, hp, hf, hc⟩
        refine ⟨w :: p, v, m, ?_, ?_, hc⟩
        · simpa using hp
        · rw [follow_cons]; simp [hl, hf]
      · rintro ⟨p, v, m, hp, hf, hc⟩
        cases p with
        | nil =>
          simp only [List.nil_append, List.cons_prefix_cons, List.nil_prefix, and_true] at hp
          simp only [follow, Option.some.injEq] at hf
          subst hf hp
          rw [← lookup_eq_none, hl] at hc
          exact absurd hc (by simp)
        | cons w2 p =>
          simp only [List.cons_append, List.cons_prefix_cons] at hp
          obtain ⟨rfl, hp⟩ := hp
          rw [follow_cons] at hf
          simp only [hl, Option.some_bind] at hf
          exact ⟨p, v, m, hp, hf, hc⟩

/-- C6.  On a tree whose sibling vectors are strictly increasing in vertex
label, `find_simplex(vs)` is the node reached from the root by following the
labels of `vs` in order; it is the not-found value exactly when, after some
part of the path has been followed to a node, that node has no child carrying
the next label; and a node it returns is listed in the tree with path `vs`
(for the empty list it is the root). -/
theorem find_simplex_spec (t : SimplexTree) (hs : t.sorted = true) (vs : List Int) :
    t.find_simplex vs = follow vs t.root ∧
    (t.find_simplex vs = none ↔
      ∃ p v m, p ++ [v] <+: vs ∧ follow p t.root = some m ∧
        ∀ c ∈ m.get_children, c.get_vertex ≠ v) ∧
    (∀ n, t.find_simplex vs = some n →
      (vs = [] ∧ n = t.root) ∨ (vs, n) ∈ entries t.root.get_children) := by
  have h1 : t.find_simplex vs = follow vs t.root := find_simplex_from_eq_follow vs t.root hs
  refine ⟨h1, ?_, ?_⟩
  · rw [h1]; exact follow_eq_none_iff vs t.root
  · intro n hn
    rw [h1] at hn
    by_cases hv : vs = []
    · left
      subst hv
      simp only [follow, Option.some.injEq] at hn
      exact ⟨rfl, hn.symm⟩
    · right
      exact (mem_entries_children_iff t.root hs vs n).mpr ⟨hv, hn⟩

/-- C6 on the tree of the simplex `{1,2,4}`: the face `{2,4}` is found by
following its labels, `{4,2}` is not found. -/
theorem find_simplex_spec_witness :
    tree_124.sorted = true ∧
    tree_124.find_simplex [2, 4] = follow [2, 4] tree_124.root ∧
    (tree_124.find_simplex [2, 4]).isSome = true ∧
    tree_124.find_simplex [4, 2] = none :=
  ⟨by decide, (find_simplex_spec tree_124 (by decide) [2, 4]).1, by decide, rfl⟩

/-! ## Preorder numbering and `update_global_indexes` -/

@[simp] theorem int_range_zero (i : Int) : int_range i 0 = [] := by simp [int_range]

theorem int_range_succ (i : Int) (n : Nat) :
    int_range i (n + 1) = i :: int_range (i + 1) n := by
  simp only [int_range, List.range_succ_eq_map, List.map_cons, List.map_map]
  refine congrArg₂ _ (by simp) (List.map_congr_left ?_)
  intro j _
  simp only [Function.comp_apply, Nat.succ_eq_add_one, Nat.cast_add, Nat.cast_one]
  omega

theorem int_range_add (i : Int) (m n : Nat) :
    int_range i (m + n) = int_range i m ++ int_range (i + m) n := by
  induction m generalizing i with
  | zero => simp
  | succ m ih =>
    rw [show m + 1 + n = (m + n) + 1 by omega, int_range_succ, int_range_succ, ih]
    simp only [List.cons_append, Nat.cast_add, Nat.cast_one]
    rw [show i + 1 + (m : Int) = i + ((m : Int) + 1) by omega]

theorem mem_int_range {i : Int} {n : Nat} {a : Int} :
    a ∈ int_range i n ↔ i ≤ a ∧ a < i + n := by
  simp only [int_range, List.mem_map, List.mem_range]
  constructor
  · rintro ⟨j, hj, rfl⟩; omega
  · rintro ⟨h1, h2⟩
    exact ⟨(a - i).toNat, by omega, by omega⟩

theorem int_range_length (i : Int) (n : Nat) : (int_range i n).length = n := by
  simp [int_range]

theorem int_range_getElem? (i : Int) (n j : Nat) (h : j < n) :
    (int_range i n)[j]? = some (i + j) := by
  simp [int_range, List.getElem?_map, List.getElem?_range h]

theorem int_range_pairwise (i : Int) (n : Nat) : (int_range i n).Pairwise (· < ·) := by
  induction n generalizing i with
  | zero => simp
  | succ n ih =>
    rw [int_range_succ, List.pairwise_cons]
    refine ⟨?_, ih (i + 1)⟩
    intro a ha
    rw [mem_int_range] at ha
    omega

theorem indexed_node_iff (n : STNode) (i : Int) :
    indexed_node n i = true ↔
      n.global_index = i ∧ indexed_kids n.get_children (i + 1) = true := by
  cases n; simp [indexed_node]

@[simp] theorem indexed_kids_nil (i : Int) : indexed_kids [] i = true := by
  simp [indexed_kids]

theorem indexed_kids_cons (k : STNode) (ks : List STNode) (i : Int) :
    indexed_kids (k :: ks) i = true ↔
      indexed_node k i = true ∧ indexed_kids ks (i + node_count k) = true := by
  simp [indexed_kids]

@[simp] theorem update_gi_kids_nil (g : Int) : update_gi_kids [] g = ([], g) := by
  simp [update_gi_kids]

theorem update_gi_kids_cons (k : STNode) (ks : List STNode) (g : Int) :
    update_gi_kids (k :: ks) g =
      ((update_gi_recursively k (g + 1)).1.set_global_index g ::
          (update_gi_kids ks (update_gi_recursively k (g + 1)).2).1,
        (update_gi_kids ks (update_gi_recursively k (g + 1)).2).2) := by
  simp [update_gi_kids]

theorem update_gi_recursively_eq (n : STNode) (g : Int) :
    update_gi_recursively n g =
      (n.set_children (update_gi_kids n.get_children g).1,
        (update_gi_kids n.get_children g).2) := by
  cases n; simp [update_gi_recursively]

@[simp] theorem STNode.get_children_set_global_index (n : STNode) (g : Int) :
    (n.set_global_index g).get_children = n.get_children := by
  cases n; rfl

@[simp] theorem STNode.global_index_set_global_index (n : STNode) (g : Int) :
    (n.set_global_index g).global_index = g := by
  cases n; rfl

@[simp] theorem STNode.get_vertex_set_global_index (n : STNode) (g : Int) :
    (n.set_global_index g).get_vertex = n.get_vertex := by
  cases n; rfl

theorem node_count_set_global_index (n : STNode) (g : Int) :
    node_count (n.set_global_index g) = node_count n := by
  cases n; simp [STNode.set_global_index, node_count]

theorem node_count_set_children (n : STNode) (kids : List STNode) :
    node_count (n.set_children kids) = 1 + kids_count kids := by
  cases n; simp [STNode.set_children, node_count]

/-- The renumbering keeps the number of nodes, advances the counter by that
number, and produces the preorder numbering from the starting counter. -/
theorem update_gi_indexed :
    (∀ (n : STNode) (g : Int),
      indexed_kids (update_gi_recursively n g).1.get_children g = true ∧
      (update_gi_recursively n g).2 = g + kids_count n.get_children ∧
      node_count (update_gi_recursively n g).1 = node_count n) ∧
    (∀ (ks : List STNode) (g : Int),
      indexed_kids (update_gi_kids ks g).1 g = true ∧
      (update_gi_kids ks g).2 = g + kids_count ks ∧
      kids_count (update_gi_kids ks g).1 = kids_count ks) := by
  apply STNode.induct
  · intro v x y g d kids ih g2
    obtain ⟨h1, h2, h3⟩ := ih g2
    simp only [update_gi_recursively, STNode.get_children_mk, h1, h2, node_count, h3, and_self]
  · intro g; simp
  · intro k ks ih1 ih2 g
    obtain ⟨h1, h2, h3⟩ := ih1 (g + 1)
    rw [update_gi_kids_cons]
    generalize update_gi_recursively k (g + 1) = r1 at *
    obtain ⟨h4, h5, h6⟩ := ih2 r1.2
    generalize update_gi_kids ks r1.2 = r2 at *
    refine ⟨?_, ?_, ?_⟩
    · rw [indexed_kids_cons, indexed_node_iff]
      simp only [STNode.global_index_set_global_index, STNode.get_children_set_global_index,
        node_count_set_global_index, true_and]
      refine ⟨h1, ?_⟩
      have : g + ((node_count r1.1 : Nat) : Int) = r1.2 := by
        rw [h2, h3, node_count_eq]; push_cast; omega
      rw [this]
      exact h4
    · rw [h5, h2, kids_count_cons, node_count_eq]; push_cast; omega
    · simp [node_count_set_global_index, h3, h6]

@[simp] theorem strip_gi_kids_nil : strip_gi_kids [] = [] := by simp [strip_gi_kids]

@[simp] theorem strip_gi_kids_cons (k : STNode) (ks : List STNode) :
    strip_gi_kids (k :: ks) = strip_gi k :: strip_gi_kids ks := by simp [strip_gi_kids]

theorem strip_gi_set_global_index (n : STNode) (g : Int) :
    strip_gi (n.set_global_index g) = strip_gi n := by
  cases n; simp [STNode.set_global_index, strip_gi]

/-- The renumbering changes nothing but global indexes. -/
theorem strip_gi_update :
    (∀ (n : STNode) (g : Int), strip_gi (update_gi_recursively n g).1 = strip_gi n) ∧
    (∀ (ks : List STNode) (g : Int), strip_gi_kids (update_gi_kids ks g).1 = strip_gi_kids ks) := by
  apply STNode.induct
  · intro v x y g d kids ih g2
    simp [update_gi_recursively, strip_gi, ih]
  · intro g; simp
  · intro k ks ih1 ih2 g
    rw [update_gi_kids_cons]
    simp [strip_gi_set_global_index, ih1, ih2]

/-- The renumbering does not read the old global indexes. -/
theorem update_gi_strip :
    (∀ (n : STNode) (g : Int),
      ((update_gi_recursively (strip_gi n) g).1.set_global_index 0,
          (update_gi_recursively (strip_gi n) g).2) =
        ((update_gi_recursively n g).1.set_global_index 0, (update_gi_recursively n g).2)) ∧
    (∀ (ks : List STNode) (g : Int),
      update_gi_kids (strip_gi_kids ks) g = update_gi_kids ks g) := by
  apply STNode.induct
  · intro v x y g d kids ih g2
    simp [update_gi_recursively, strip_gi, ih]
  · intro g; simp
  · intro k ks ih1 ih2 g
    have h := ih1 (g + 1)
    simp only [Prod.mk.injEq] at h
    have h1 : (update_gi_recursively (strip_gi k) (g + 1)).1.set_global_index g
        = (update_gi_recursively k (g + 1)).1.set_global_index g := by
      have := congrArg (fun n => STNode.set_global_index n g) h.1
      cases hk1 : (update_gi_recursively (strip_gi k) (g + 1)).1
      cases hk2 : (update_gi_recursively k (g + 1)).1
      simp only [hk1, hk2, STNode.set_global_index_mk] at this ⊢
      exact this
    rw [strip_gi_kids_cons, update_gi_kids_cons, update_gi_kids_cons, h.2, ih2, h1]

/-- Two children vectors of the same shape are renumbered alike. -/
theorem update_gi_kids_shape {ks1 ks2 : List STNode} (g : Int)
    (h : strip_gi_kids ks1 = strip_gi_kids ks2) :
    update_gi_kids ks1 g = update_gi_kids ks2 g := by
  rw [← update_gi_strip.2 ks1 g, ← update_gi_strip.2 ks2 g, h]

theorem strip_gi_eq (n : STNode) :
    strip_gi n = (n.set_global_index 0).set_children (strip_gi_kids n.get_children) := by
  cases n; simp [strip_gi, STNode.set_global_index, STNode.set_children]

@[simp] theorem STNode.get_vertex_strip_gi (n : STNode) :
    (strip_gi n).get_vertex = n.get_vertex := by
  cases n; simp [strip_gi]

@[simp] theorem STNode.grade_x_strip_gi (n : STNode) : (strip_gi n).grade_x = n.grade_x := by
  cases n; simp [strip_gi]

@[simp] theorem STNode.grade_y_strip_gi (n : STNode) : (strip_gi n).grade_y = n.grade_y := by
  cases n; simp [strip_gi]

theorem strip_gi_kids_eq_map (ks : List STNode) : strip_gi_kids ks = ks.map strip_gi := by
  induction ks with
  | nil => simp
  | cons k ks ih => simp [ih]

/-- Forgetting the global indexes commutes with listing the tree. -/
theorem entries_strip :
    (∀ n : STNode,
      entries_node (strip_gi n) = (entries_node n).map (fun e => (e.1, strip_gi e.2))) ∧
    (∀ ks : List STNode,
      entries (strip_gi_kids ks) = (entries ks).map (fun e => (e.1, strip_gi e.2))) := by
  apply STNode.induct
  · intro v x y g d kids ih
    simp [strip_gi, entries_node, ih, Function.comp_def]
  · simp
  · intro k ks ih1 ih2
    simp [ih1, ih2]

theorem sorted_strip :
    (∀ n : STNode, sorted_node (strip_gi n) = sorted_node n) ∧
    (∀ ks : List STNode, sorted_kids (strip_gi_kids ks) = sorted_kids ks) := by
  apply STNode.induct
  · intro v x y g d kids ih
    simp [strip_gi, sorted_node, ih]
  · simp
  · intro k ks ih1 ih2
    rw [strip_gi_kids_cons, sorted_kids, sorted_kids, ih1, ih2]
    simp [strip_gi_kids_eq_map]

/-- The renumbering keeps the sibling vectors sorted. -/
theorem sorted_update_gi (n : STNode) (g : Int) :
    sorted_node (update_gi_recursively n g).1 = sorted_node n := by
  rw [← sorted_strip.1, strip_gi_update.1, sorted_strip.1]

/-- Under the preorder numbering from `i`, the global indexes read in preorder
are the consecutive integers from `i`. -/
theorem indexed_entries :
    (∀ (n : STNode) (i : Int), indexed_node n i = true →
      (entries_node n).map (fun e => e.2.global_index) = int_range i (node_count n)) ∧
    (∀ (ks : List STNode) (i : Int), indexed_kids ks i = true →
      (entries ks).map (fun e => e.2.global_index) = int_range i (kids_count ks)) := by
  apply STNode.induct
  · intro v x y g d kids ih i hi
    rw [indexed_node_iff] at hi
    simp only [STNode.global_index_mk, STNode.get_children_mk] at hi
    simp only [entries_node, List.map_cons, STNode.global_index_mk, List.map_map, node_count]
    rw [Nat.add_comm, int_range_succ, hi.1]
    congr 1
    exact ih (i + 1) hi.2
  · intro i _; simp
  · intro k ks ih1 ih2 i hi
    rw [indexed_kids_cons] at hi
    simp only [entries_cons, List.map_append, kids_count_cons, int_range_add, ih1 i hi.1,
      ih2 _ hi.2]

/-- Under a preorder numbering, the subtree of every listed node carries the
preorder numbering that starts at the node's own index. -/
theorem indexed_subtree :
    (∀ (n : STNode) (i : Int), indexed_node n i = true →
      ∀ e ∈ entries_node n, indexed_node e.2 e.2.global_index = true) ∧
    (∀ (ks : List STNode) (i : Int), indexed_kids ks i = true →
      ∀ e ∈ entries ks, indexed_node e.2 e.2.global_index = true) := by
  apply STNode.induct
  · intro v x y g d kids ih i hi e he
    have hi2 := (indexed_node_iff _ _).mp hi
    simp only [STNode.global_index_mk, STNode.get_children_mk] at hi2
    simp only [entries_node, List.mem_cons, List.mem_map] at he
    rcases he with rfl | ⟨e2, he2, rfl⟩
    · simp only [STNode.global_index_mk]
      have hg := hi2.1
      subst hg
      exact hi
    · exact ih (i + 1) hi2.2 e2 he2
  · intro i _ e he; simp at he
  · intro k ks ih1 ih2 i hi e he
    rw [indexed_kids_cons] at hi
    simp only [entries_cons, List.mem_append] at he
    rcases he with he | he
    · exact ih1 i hi.1 e he
    · exact ih2 _ hi.2 e he

/-- Under the preorder numbering from `i`, every child of the vector sits,
with its subtree, inside the range of the vector, and the indexes of the
children increase along the vector. -/
theorem indexed_kids_siblings (ks : List STNode) :
    ∀ i : Int, indexed_kids ks i = true →
      (ks.map STNode.global_index).Pairwise (· < ·) ∧
      ∀ k ∈ ks, i ≤ k.global_index ∧
        k.global_index + (node_count k : Int) ≤ i + (kids_count ks : Int) := by
  induction ks with
  | nil => intro i _; simp
  | cons k ks ih =>
    intro i hi
    rw [indexed_kids_cons, indexed_node_iff] at hi
    obtain ⟨⟨hg, _⟩, hks⟩ := hi
    obtain ⟨h1, h2⟩ := ih _ hks
    have hpos := node_count_pos k
    refine ⟨?_, ?_⟩
    · simp only [List.map_cons, List.pairwise_cons, List.mem_map, forall_exists_index, and_imp,
        forall_apply_eq_imp_iff₂]
      refine ⟨?_, h1⟩
      intro k2 hk2
      have := (h2 k2 hk2).1
      omega
    · intro k2 hk2
      simp only [List.mem_cons] at hk2
      simp only [kids_count_cons]
      push_cast
      rcases hk2 with rfl | hk2
      · omega
      · have := h2 k2 hk2
        have hp2 := node_count_pos k2
        omega

theorem mem_entries_node_self (n : STNode) : ([n.get_vertex], n) ∈ entries_node n := by
  rw [entries_node_eq]; simp

/-- Every child of a children vector is listed. -/
theorem mem_entries_of_mem {ks : List STNode} {k : STNode} (h : k ∈ ks) :
    ([k.get_vertex], k) ∈ entries ks := by
  induction ks with
  | nil => simp at h
  | cons k2 ks ih =>
    simp only [List.mem_cons] at h
    simp only [entries_cons, List.mem_append]
    rcases h with rfl | h
    · exact Or.inl (mem_entries_node_self _)
    · exact Or.inr (ih h)

/-- Two orders that both increase along a vector agree on its elements. -/
theorem pairwise_lt_transfer {α : Type} (l : List α) (f g : α → Int)
    (hf : (l.map f).Pairwise (· < ·)) (hg : (l.map g).Pairwise (· < ·)) :
    ∀ a ∈ l, ∀ b ∈ l, f a < f b → g a < g b := by
  induction l with
  | nil => intro a ha; simp at ha
  | cons c l ih =>
    simp only [List.map_cons, List.pairwise_cons, List.mem_map, forall_exists_index, and_imp,
      forall_apply_eq_imp_iff₂] at hf hg
    intro a ha b hb hab
    simp only [List.mem_cons] at ha hb
    rcases ha with rfl | ha <;> rcases hb with rfl | hb
    · omega
    · exact hg.1 b hb
    · have := hf.1 a ha; omega
    · exact ih hf.2 hg.2 a ha b hb hab

/-- Every listed node of a sorted tree is sorted. -/
theorem sorted_entries :
    (∀ n : STNode, sorted_node n = true → ∀ e ∈ entries_node n, sorted_node e.2 = true) ∧
    (∀ ks : List STNode, sorted_kids ks = true → ∀ e ∈ entries ks, sorted_node e.2 = true) := by
  apply STNode.induct
  · intro v x y g d kids ih hs e he
    simp only [entries_node, List.mem_cons, List.mem_map] at he
    rcases he with rfl | ⟨e2, he2, rfl⟩
    · exact hs
    · exact ih (by simpa [sorted_node] using hs) e2 he2
  · intro _ e he; simp at he
  · intro k ks ih1 ih2 hs e he
    rw [sorted_kids_cons] at hs
    simp only [entries_cons, List.mem_append] at he
    rcases he with he | he
    · exact ih1 hs.2.1 e he
    · exact ih2 hs.2.2 e he

theorem update_global_indexes_children (t : SimplexTree) :
    t.update_global_indexes.root.get_children = (update_gi_kids t.root.get_children 0).1 := by
  simp [SimplexTree.update_global_indexes, update_gi_recursively_eq]

theorem update_global_indexes_indexed (t : SimplexTree) :
    t.update_global_indexes.indexed = true := by
  unfold SimplexTree.indexed
  rw [update_global_indexes_children]
  exact (update_gi_indexed.2 _ 0).1

theorem update_global_indexes_sorted (t : SimplexTree) :
    t.update_global_indexes.sorted = t.sorted := by
  simp [SimplexTree.sorted, SimplexTree.update_global_indexes, sorted_update_gi]

theorem update_global_indexes_entries (t : SimplexTree) :
    (entries t.update_global_indexes.root.get_children).map (fun e => (e.1, strip_gi e.2)) =
      (entries t.root.get_children).map (fun e => (e.1, strip_gi e.2)) := by
  rw [update_global_indexes_children, ← entries_strip.2, ← entries_strip.2, strip_gi_update.2]

theorem update_global_indexes_simplices (t : SimplexTree) :
    t.update_global_indexes.simplices = t.simplices := by
  have := congrArg (List.map Prod.fst) (update_global_indexes_entries t)
  simpa [SimplexTree.simplices, List.map_map, Function.comp_def] using this

theorem update_global_indexes_nodes (t : SimplexTree) :
    t.update_global_indexes.nodes.map strip_gi = t.nodes.map strip_gi := by
  have := congrArg (List.map Prod.snd) (update_global_indexes_entries t)
  simpa [SimplexTree.nodes, List.map_map, Function.comp_def] using this

/-- Facts about a tree whose global indexes are the preorder numbering. -/
theorem indexed_facts (t : SimplexTree) (hi : t.indexed = true) :
    t.nodes.map STNode.global_index = int_range 0 t.count ∧
    (∀ n ∈ t.nodes, (entries_node n).map (fun e => e.2.global_index) =
      int_range n.global_index (node_count n)) ∧
    (∀ n ∈ t.nodes, ∀ e ∈ entries n.get_children, n.global_index < e.2.global_index) ∧
    (∀ n ∈ t.root :: t.nodes, (n.get_children.map STNode.global_index).Pairwise (· < ·)) := by
  unfold SimplexTree.indexed at hi
  have hsub : ∀ n ∈ t.nodes, indexed_node n n.global_index = true := by
    intro n hn
    simp only [SimplexTree.nodes, List.mem_map] at hn
    obtain ⟨e, he, rfl⟩ := hn
    exact indexed_subtree.2 _ 0 hi e he
  refine ⟨?_, ?_, ?_, ?_⟩
  · have := indexed_entries.2 _ 0 hi
    simpa [SimplexTree.nodes, SimplexTree.count, List.map_map, Function.comp_def] using this
  · intro n hn
    exact indexed_entries.1 n _ (hsub n hn)
  · intro n hn e he
    have h1 := ((indexed_node_iff _ _).mp (hsub n hn)).2
    have h2 := indexed_entries.2 _ _ h1
    have h3 : e.2.global_index ∈
        (entries n.get_children).map (fun e => e.2.global_index) :=
      List.mem_map_of_mem (fun e => e.2.global_index) he
    rw [h2, mem_int_range] at h3
    omega
  · intro n hn
    simp only [List.mem_cons] at hn
    rcases hn with rfl | hn
    · exact (indexed_kids_siblings _ 0 hi).1
    · exact (indexed_kids_siblings _ _ ((indexed_node_iff _ _).mp (hsub n hn)).2).1

theorem add_simplex_eq_some {t t2 : SimplexTree} {vs : List Int} {x y : Int}
    (h : t.add_simplex vs x y = some t2) :
    ∃ r, add_faces vs x y t.root = some r ∧
      t2 = SimplexTree.update_global_indexes
        { t with root := r, grade_x_values := grow_grid t.grade_x_values x,
                 grade_y_values := grow_grid t.grade_y_values y } := by
  unfold SimplexTree.add_simplex at h
  cases hr : add_faces vs x y t.root with
  | none => simp [hr] at h
  | some r =>
    simp only [hr, Option.some.injEq] at h
    exact ⟨r, rfl, h.symm⟩

/-- C4.  After `update_global_indexes` (hence after every `add_simplex` that
returns) the tree carries the preorder numbering from 0 with siblings taken in
stored order, and nothing but global indexes has changed (same simplices, same
nodes up to their global indexes).  Read in preorder the global indexes of the
`N` simplices are `0, 1, ..., N-1`, so they form a bijection onto `[0, N)`
equal to the preorder rank; the subtree of every node occupies the contiguous
range `[gi, gi + subtree size)`; a parent's index is smaller than the index of
each of its descendants; the indexes of siblings increase along the children
vector, hence with the label when the vector is sorted by label; and the
assignment depends on the shape of the tree only, not on the indexes it
carried before. -/
theorem update_global_indexes_preorder (t : SimplexTree) :
    t.update_global_indexes.indexed = true ∧
    t.update_global_indexes.simplices = t.simplices ∧
    t.update_global_indexes.count = t.count ∧
    t.update_global_indexes.nodes.map strip_gi = t.nodes.map strip_gi ∧
    t.update_global_indexes.nodes.map STNode.global_index = int_range 0 t.count ∧
    (∀ n ∈ t.update_global_indexes.nodes,
      (entries_node n).map (fun e => e.2.global_index) =
        int_range n.global_index (node_count n)) ∧
    (∀ n ∈ t.update_global_indexes.nodes, ∀ e ∈ entries n.get_children,
      n.global_index < e.2.global_index) ∧
    (∀ n ∈ t.update_global_indexes.root :: t.update_global_indexes.nodes,
      (n.get_children.map STNode.global_index).Pairwise (· < ·)) ∧
    (t.sorted = true →
      ∀ n ∈ t.update_global_indexes.root :: t.update_global_indexes.nodes,
        ∀ a ∈ n.get_children, ∀ b ∈ n.get_children,
          a.get_vertex < b.get_vertex → a.global_index < b.global_index) ∧
    (∀ t2 : SimplexTree,
      strip_gi_kids t2.root.get_children = strip_gi_kids t.root.get_children →
        t2.update_global_indexes.root.get_children =
          t.update_global_indexes.root.get_children) ∧
    (∀ (vs : List Int) (x y : Int) (t2 : SimplexTree),
      t.add_simplex vs x y = some t2 → t2.indexed = true) := by
  have hi := update_global_indexes_indexed t
  have hcount : t.update_global_indexes.count = t.count := by
    unfold SimplexTree.count
    rw [update_global_indexes_children]
    exact (update_gi_indexed.2 _ 0).2.2
  obtain ⟨f1, f2, f3, f4⟩ := indexed_facts _ hi
  refine ⟨hi, update_global_indexes_simplices t, hcount, update_global_indexes_nodes t, ?_,
    f2, f3, f4, ?_, ?_, ?_⟩
  · rw [f1, hcount]
  · intro hs n hn
    have hs2 : t.update_global_indexes.sorted = true := by
      rw [update_global_indexes_sorted]; exact hs
    have hsn : sorted_node n = true := by
      simp only [List.mem_cons] at hn
      rcases hn with rfl | hn
      · exact hs2
      · simp only [SimplexTree.nodes, List.mem_map] at hn
        obtain ⟨e, he, rfl⟩ := hn
        unfold SimplexTree.sorted at hs2
        rw [sorted_node_eq] at hs2
        exact sorted_entries.2 _ hs2 e he
    rw [sorted_node_eq, sorted_kids_iff] at hsn
    exact pairwise_lt_transfer _ _ _ hsn.1 (f4 n hn)
  · intro t2 h
    rw [update_global_indexes_children, update_global_indexes_children,
      update_gi_kids_shape 0 h]
  · intro vs x y t2 h
    obtain ⟨r, _, rfl⟩ := add_simplex_eq_some h
    exact update_global_indexes_indexed _

/-! ## Search by global index: `find_vertices` and `get_simplex_data` -/

theorem mem_entries_iff_exists {ks : List STNode} {e : List Int × STNode} :
    e ∈ entries ks ↔ ∃ c ∈ ks, e ∈ entries_node c := by
  induction ks with
  | nil => simp
  | cons k ks ih => simp [ih]

/-- The node that following a non-empty path reaches is listed with that
path. -/
theorem follow_mem_entries (p : List Int) :
    ∀ (node n : STNode), p ≠ [] → follow p node = some n →
      (p, n) ∈ entries node.get_children := by
  induction p with
  | nil => intro node n h; exact absurd rfl h
  | cons v rest ih =>
    intro node n _ hf
    rw [follow_cons] at hf
    cases hl : lookup node.get_children v with
    | none => simp [hl] at hf
    | some c =>
      simp only [hl, Option.some_bind] at hf
      have hv := (lookup_eq_some hl).1
      rw [mem_entries_iff_exists]
      refine ⟨c, lookup_mem hl, ?_⟩
      rw [entries_node_eq, hv]
      by_cases hr : rest = []
      · subst hr
        simp only [follow, Option.some.injEq] at hf
        subst hf
        simp
      · have := ih c n hr hf
        simp only [List.mem_cons, List.mem_map]
        exact Or.inr ⟨(rest, n), this, rfl⟩

theorem indexed_kids_mem {ks : List STNode} {i : Int} (hi : indexed_kids ks i = true)
    {k : STNode} (hk : k ∈ ks) : indexed_node k k.global_index = true :=
  indexed_subtree.2 ks i hi _ (mem_entries_of_mem hk)

/-- Under a preorder numbering the ranges of the subtrees of siblings follow
one another. -/
theorem indexed_kids_gap (ks : List STNode) :
    ∀ i : Int, indexed_kids ks i = true →
      ks.Pairwise (fun a b => a.global_index + (node_count a : Int) ≤ b.global_index) := by
  induction ks with
  | nil => intro i _; simp
  | cons k ks ih =>
    intro i hi
    rw [indexed_kids_cons, indexed_node_iff] at hi
    obtain ⟨⟨hg, _⟩, hks⟩ := hi
    rw [List.pairwise_cons]
    refine ⟨?_, ih _ hks⟩
    intro b hb
    have := ((indexed_kids_siblings ks _ hks).2 b hb).1
    omega

/-- The search by global index stops on the child that carries the index. -/
theorem bsearch_gi_found {kids : List STNode} {i : Int} (hi : indexed_kids kids i = true)
    {idx : Nat} {c : STNode} (hc : kids[idx]? = some c) :
    bsearch_all (kids.map STNode.global_index) c.global_index = .found idx := by
  apply bsearch_all_found (indexed_kids_siblings kids i hi).1
  simp [List.getElem?_map, hc]

/-- The search by global index for an index strictly inside the subtree of a
child ends with `max` on that child. -/
theorem bsearch_gi_descend {kids : List STNode} {i : Int} (hi : indexed_kids kids i = true)
    {idx : Nat} {c : STNode} (hc : kids[idx]? = some c) {key : Int}
    (h1 : c.global_index < key) (h2 : key < c.global_index + (node_count c : Int)) :
    bsearch_all (kids.map STNode.global_index) key = .missed idx := by
  have hp := (indexed_kids_siblings kids i hi).1
  have hgap := List.pairwise_iff_getElem.mp (indexed_kids_gap kids i hi)
  have hlen : idx < kids.length := (List.getElem?_eq_some.mp hc).1
  have hcget : kids[idx] = c := (List.getElem?_eq_some.mp hc).2
  have hkeys : ∀ j (hj : j < kids.length),
      (kids.map STNode.global_index)[j]? = some kids[j].global_index := by
    intro j hj
    simp [List.getElem?_map, List.getElem?_eq_getElem hj]
  have hnot : key ∉ kids.map STNode.global_index := by
    intro hmem
    simp only [List.mem_map] at hmem
    obtain ⟨k, hk, hkg⟩ := hmem
    obtain ⟨j, hj, rfl⟩ := List.getElem_of_mem hk
    rcases Nat.lt_trichotomy j idx with h | h | h
    · have := pairwise_lt_getElem? hp (hkeys j hj) (hkeys idx hlen) h
      rw [hcget] at this
      omega
    · subst h; rw [hcget] at hkg; omega
    · have := hgap idx j hlen hj h
      rw [hcget] at this
      omega
  obtain ⟨h, hm, _, hlt, hle, hgt⟩ := bsearch_all_missed hp hnot
  rw [List.length_map] at hlt
  rw [hm]
  congr 1
  have ha : (idx : Int) ≤ h := by
    by_contra hcon
    have := hgt idx (by omega) _ (hkeys idx hlen)
    rw [hcget] at this
    omega
  have hb : h ≤ (idx : Int) := by
    by_contra hcon
    have hj : idx + 1 < kids.length := by omega
    have := hle (idx + 1) (by push_cast; omega) _ (hkeys (idx + 1) hj)
    have hg := hgap idx (idx + 1) hlen hj (by omega)
    rw [hcget] at hg
    omega
  omega

/-- The index of a strict descendant lies strictly inside the range of the
subtree. -/
theorem indexed_descendant_range {c : STNode} (hc : indexed_node c c.global_index = true)
    {e : List Int × STNode} (he : e ∈ entries c.get_children) :
    c.global_index < e.2.global_index ∧
      e.2.global_index < c.global_index + (node_count c : Int) := by
  have h1 := ((indexed_node_iff _ _).mp hc).2
  have h2 := indexed_entries.2 _ _ h1
  have h3 : e.2.global_index ∈ (entries c.get_children).map (fun e => e.2.global_index) :=
    List.mem_map_of_mem (fun e => e.2.global_index) he
  rw [h2, mem_int_range] at h3
  rw [node_count_eq]
  push_cast
  omega

/-- In a children vector carrying a preorder numbering, `find_vertices`
started with the global index of a listed node returns the path it is listed
with. -/
theorem find_vertices_recursively_spec (fuel : Nat) :
    ∀ (node : STNode) (i : Int) (p : List Int) (n : STNode),
      indexed_kids node.get_children i = true → (p, n) ∈ entries node.get_children →
      p.length ≤ fuel → find_vertices_recursively fuel node n.global_index = .ok p := by
  induction fuel with
  | zero =>
    intro node i p n _ hmem hlen
    have := entries_path_ne_nil.2 _ _ hmem
    cases p with
    | nil => exact absurd rfl this
    | cons a l => simp at hlen
  | succ fuel ih =>
    intro node i p n hi hmem hlen
    obtain ⟨c, hc, hmemc⟩ := mem_entries_iff_exists.mp hmem
    obtain ⟨idx, hidx, hget⟩ := List.getElem_of_mem hc
    have hcget : node.get_children[idx]? = some c := by
      rw [List.getElem?_eq_getElem hidx, hget]
    have hci := indexed_kids_mem hi hc
    rw [entries_node_eq] at hmemc
    simp only [List.mem_cons, Prod.mk.injEq, List.mem_map] at hmemc
    unfold find_vertices_recursively
    rcases hmemc with ⟨rfl, rfl⟩ | ⟨e, he, heq⟩
    · simp [bsearch_gi_found hi hcget, hcget]
    · obtain ⟨hr1, hr2⟩ := indexed_descendant_range hci he
      have hp : p = c.get_vertex :: e.1 := heq.1.symm
      have hn : n = e.2 := heq.2.symm
      subst hp hn
      have h0 : ¬ ((idx : Int) < 0) := by omega
      simp only [bsearch_gi_descend hi hcget hr1 hr2, h0, if_false, Int.toNat_ofNat, hcget]
      rw [ih c _ e.1 e.2 ((indexed_node_iff _ _).mp hci).2 he
        (by simp only [List.length_cons] at hlen; omega)]
      rfl

/-- A listed path is shorter than the number of nodes of the tree. -/
theorem entries_path_length :
    (∀ n : STNode, ∀ e ∈ entries_node n, e.1.length ≤ node_count n) ∧
    (∀ ks : List STNode, ∀ e ∈ entries ks, e.1.length ≤ kids_count ks) := by
  apply STNode.induct
  · intro v x y g d kids ih e he
    simp only [entries_node, List.mem_cons, List.mem_map] at he
    rcases he with rfl | ⟨e2, he2, rfl⟩
    · simp [node_count]
    · have := ih e2 he2
      simp only [List.length_cons, node_count]
      omega
  · intro e he; simp at he
  · intro k ks ih1 ih2 e he
    simp only [entries_cons, List.mem_append] at he
    simp only [kids_count_cons]
    rcases he with he | he
    · have := ih1 e he; omega
    · have := ih2 e he; omega

/-- On a tree with current global indexes `find_vertices` returns, for the
global index of a listed node, the path the node is listed with. -/
theorem find_vertices_of_mem (t : SimplexTree) (hi : t.indexed = true)
    {p : List Int} {n : STNode} (h : (p, n) ∈ entries t.root.get_children) :
    t.find_vertices n.global_index = .ok p := by
  unfold SimplexTree.find_vertices
  apply find_vertices_recursively_spec _ _ 0 p n hi h
  have := entries_path_length.2 _ _ h
  rw [node_count_eq]
  simp only at this
  omega

/-- On a tree with current global indexes the node listed at preorder
position `j` has global index `j`. -/
theorem indexed_entry_at (t : SimplexTree) (hi : t.indexed = true) (g : Int)
    (h0 : 0 ≤ g) (h1 : g < t.count) :
    ∃ e, (entries t.root.get_children)[g.toNat]? = some e ∧ e.2.global_index = g := by
  have hlen : (entries t.root.get_children).length = t.count := entries_length.2 _
  have hlt : g.toNat < (entries t.root.get_children).length := by omega
  refine ⟨(entries t.root.get_children)[g.toNat], List.getElem?_eq_getElem hlt, ?_⟩
  have h := indexed_entries.2 _ 0 hi
  have h2 := congrArg (fun l => l[g.toNat]?) h
  simp only [List.getElem?_map, List.getElem?_eq_getElem hlt, Option.map_some'] at h2
  rw [int_range_getElem? 0 _ _ (by unfold SimplexTree.count at h1; omega)] at h2
  simp only [Option.some.injEq] at h2
  omega

/-- C5 (amended: round trip between the two lookups).  On a tree with current
global indexes whose sibling vectors are all strictly increasing in vertex
label: for every `g` in `[0, N)`,
`find_vertices(g)` returns the vertex-label path of the simplex listed at
preorder position `g`, whose node has global index `g`, and `find_simplex` of
that path is that node; no two simplices share a global index; conversely
`find_vertices(global_index(find_simplex(vs))) = vs` for every simplex `vs`
that `find_simplex` finds; in particular the global index of the root's first
child yields the one-element list holding that child's label. -/
theorem find_vertices_round_trip (t : SimplexTree) (hi : t.indexed = true)
    (hs : t.sorted = true) :
    (∀ g : Int, 0 ≤ g → g < t.count →
      ∃ p n, (entries t.root.get_children)[g.toNat]? = some (p, n) ∧ n.global_index = g ∧
        t.find_vertices g = .ok p ∧ t.find_simplex p = some n) ∧
    (∀ p n p2 n2, (p, n) ∈ entries t.root.get_children →
      (p2, n2) ∈ entries t.root.get_children → n.global_index = n2.global_index → p = p2) ∧
    (∀ vs n, vs ≠ [] → t.find_simplex vs = some n →
      t.find_vertices n.global_index = .ok vs) ∧
    (∀ c rest, t.root.get_children = c :: rest →
      t.find_vertices c.global_index = .ok [c.get_vertex]) := by
  refine ⟨?_, ?_, ?_, ?_⟩
  · intro g h0 h1
    obtain ⟨⟨p, n⟩, he, hg⟩ := indexed_entry_at t hi g h0 h1
    have hmem : (p, n) ∈ entries t.root.get_children := by
      obtain ⟨hlt, heq⟩ := List.getElem?_eq_some.mp he
      exact heq ▸ List.getElem_mem hlt
    refine ⟨p, n, he, hg, ?_, ?_⟩
    · have := find_vertices_of_mem t hi hmem
      simp only at hg
      rw [hg] at this
      exact this
    · have := (mem_entries_children_iff t.root hs p n).mp hmem
      unfold SimplexTree.find_simplex
      rw [find_simplex_from_eq_follow p t.root hs]
      exact this.2
  · intro p n p2 n2 h1 h2 hg
    have a := find_vertices_of_mem t hi h1
    have b := find_vertices_of_mem t hi h2
    rw [hg, b] at a
    exact (Res.ok.inj a).symm
  · intro vs n hne hf
    unfold SimplexTree.find_simplex at hf
    rw [find_simplex_from_eq_follow vs t.root hs] at hf
    exact find_vertices_of_mem t hi (follow_mem_entries vs t.root n hne hf)
  · intro c rest hc
    apply find_vertices_of_mem t hi
    rw [hc]
    exact mem_entries_of_mem (by simp)

/-- C5 on the tree of the simplex `{1,2,4}`: global index 3 is the simplex
`{1,4}`, and the root's first child (global index 0) is the vertex `1`. -/
theorem find_vertices_round_trip_witness :
    (tree_124.indexed = true ∧ tree_124.sorted = true) ∧
    tree_124.find_vertices 3 = .ok [1, 4] ∧
    (tree_124.find_simplex [1, 4]).map STNode.global_index = some 3 ∧
    (∀ vs n, vs ≠ [] → tree_124.find_simplex vs = some n →
      tree_124.find_vertices n.global_index = .ok vs) ∧
    (∀ c rest, tree_124.root.get_children = c :: rest →
      tree_124.find_vertices c.global_index = .ok [c.get_vertex]) :=
  have h := find_vertices_round_trip tree_124 (by decide) (by decide)
  ⟨⟨by decide, by decide⟩, by decide, by decide, h.2.2.1, h.2.2.2⟩

/-- C5 as stated fails on a tree with current global indexes whose children
are not sorted by label: after `add_simplex({5}, 0, 0)`, `build_VR_complex` on
two points at distance 1 with cutoff 0 and `add_simplex({9}, 0, 0)` on an
empty tree (all three calls return), the children of the root are labelled
5, 0, 1, 9 with the global indexes 0, 1, 2, 3; `find_vertices(0)` returns the
path `{5}` of the node with global index 0, and `find_simplex({5})`, a binary
search, probes 0, 1 and 9 and returns `NULL`, not that node. -/
theorem find_vertices_round_trip_counterexample :
    (run_ops (SimplexTree.init 1)
      [.add [5] 0 0, .build cloud_pair 1 0, .add [9] 0 0]).isSome = true ∧
    tree_unsorted.indexed = true ∧ tree_unsorted.count = 4 ∧
    tree_unsorted.root.get_children.map STNode.get_vertex = [5, 0, 1, 9] ∧
    tree_unsorted.nodes.map STNode.global_index = [0, 1, 2, 3] ∧
    tree_unsorted.simplices = [[5], [0], [1], [9]] ∧
    tree_unsorted.find_vertices 0 = .ok [5] ∧
    (tree_unsorted.find_simplex [5]).isSome = false := by
  decide

/-- In a children vector carrying a preorder numbering, the loop of
`get_simplex_data` started with the global index of a listed node ends on that
node, having increased the depth counter once per level descended. -/
theorem get_simplex_data_loop_spec (fuel : Nat) :
    ∀ (kids : List STNode) (i : Int) (p : List Int) (n : STNode) (dim : Int),
      indexed_kids kids i = true → (p, n) ∈ entries kids → p.length ≤ fuel →
      get_simplex_data_loop fuel kids n.global_index dim =
        .ok { time := n.grade_x, dist := n.grade_y, dim := dim + (p.length : Int) - 1 } := by
  induction fuel with
  | zero =>
    intro kids i p n dim _ hmem hlen
    have := entries_path_ne_nil.2 _ _ hmem
    cases p with
    | nil => exact absurd rfl this
    | cons a l => simp at hlen
  | succ fuel ih =>
    intro kids i p n dim hi hmem hlen
    obtain ⟨c, hc, hmemc⟩ := mem_entries_iff_exists.mp hmem
    obtain ⟨idx, hidx, hget⟩ := List.getElem_of_mem hc
    have hcget : kids[idx]? = some c := by
      rw [List.getElem?_eq_getElem hidx, hget]
    have hci := indexed_kids_mem hi hc
    have hne : ¬ (kids.length = 0) := by omega
    rw [entries_node_eq] at hmemc
    simp only [List.mem_cons, Prod.mk.injEq, List.mem_map] at hmemc
    unfold get_simplex_data_loop
    simp only [hne, if_false]
    rcases hmemc with ⟨rfl, rfl⟩ | ⟨e, he, heq⟩
    · simp [bsearch_gi_found hi hcget, hcget]
    · obtain ⟨hr1, hr2⟩ := indexed_descendant_range hci he
      have hp : p = c.get_vertex :: e.1 := heq.1.symm
      have hn : n = e.2 := heq.2.symm
      subst hp hn
      have h0 : ¬ ((idx : Int) < 0) := by omega
      simp only [bsearch_gi_descend hi hcget hr1 hr2, h0, if_false, Int.toNat_ofNat, hcget]
      rw [ih c.get_children _ e.1 e.2 (dim + 1) ((indexed_node_iff _ _).mp hci).2 he
        (by simp only [List.length_cons] at hlen; omega)]
      simp only [List.length_cons, Nat.cast_add, Nat.cast_one]
      congr 2
      omega

/-- C7.  On a tree with current global indexes, for every `g` in `[0, N)`,
`get_simplex_data(g)` returns (it neither throws nor reads outside a vector
nor loops on) the two grade coordinates stored on the node listed at preorder
position `g`, which is the node with global index `g`, together with
`dim = length(find_vertices(g)) - 1`. -/
theorem get_simplex_data_spec (t : SimplexTree) (hi : t.indexed = true) (g : Int)
    (h0 : 0 ≤ g) (h1 : g < t.count) :
    ∃ p n, (entries t.root.get_children)[g.toNat]? = some (p, n) ∧ n.global_index = g ∧
      t.find_vertices g = .ok p ∧
      t.get_simplex_data g =
        .ok { time := n.grade_x, dist := n.grade_y, dim := (p.length : Int) - 1 } := by
  obtain ⟨⟨p, n⟩, he, hg⟩ := indexed_entry_at t hi g h0 h1
  have hmem : (p, n) ∈ entries t.root.get_children := by
    obtain ⟨hlt, heq⟩ := List.getElem?_eq_some.mp he
    exact heq ▸ List.getElem_mem hlt
  simp only at hg
  refine ⟨p, n, he, hg, ?_, ?_⟩
  · have := find_vertices_of_mem t hi hmem
    rw [hg] at this
    exact this
  · have hlen := entries_path_length.2 _ _ hmem
    have := get_simplex_data_loop_spec (node_count t.root) t.root.get_children 0 p n 0 hi hmem
      (by rw [node_count_eq]; simp only at hlen; omega)
    unfold SimplexTree.get_simplex_data
    rw [← hg, this]
    simp

/-- C7 on the tree of the simplex `{1,2,4}`, whose simplices all have grade
`(0, 0)`: global index 2 is the triangle `{1,2,4}`, of dimension 2. -/
theorem get_simplex_data_spec_witness :
    (tree_124.indexed = true ∧ (0 : Int) ≤ 2 ∧ (2 : Int) < tree_124.count) ∧
    tree_124.find_vertices 2 = .ok [1, 2, 4] ∧
    tree_124.get_simplex_data 2 = .ok { time := 0, dist := 0, dim := 2 } ∧
    ∃ p n, (entries tree_124.root.get_children)[(2 : Int).toNat]? = some (p, n) ∧
      n.global_index = 2 ∧ tree_124.find_vertices 2 = .ok p ∧
      tree_124.get_simplex_data 2 =
        .ok { time := n.grade_x, dist := n.grade_y, dim := (p.length : Int) - 1 } :=
  ⟨⟨by decide, by decide, by decide⟩, by decide, by decide,
    get_simplex_data_spec tree_124 (by decide) 2 (by decide) (by decide)⟩

/-- Below a children vector carrying a preorder numbering, the loop of
`get_simplex_data` started with an index beyond the range of the vector walks
down the last children and throws on reaching an empty vector. -/
theorem get_simplex_data_loop_beyond (fuel : Nat) :
    ∀ (kids : List STNode) (i key dim : Int),
      indexed_kids kids i = true → i + (kids_count kids : Int) ≤ key →
      kids_count kids < fuel → get_simplex_data_loop fuel kids key dim = .thrown := by
  induction fuel with
  | zero => intro kids i key dim _ _ h; omega
  | succ fuel ih =>
    intro kids i key dim hi hkey hfuel
    unfold get_simplex_data_loop
    by_cases hlen : kids.length = 0
    · simp [hlen]
    · simp only [hlen, if_false]
      have hp := (indexed_kids_siblings kids i hi).1
      have hbound := (indexed_kids_siblings kids i hi).2
      have hnot : key ∉ kids.map STNode.global_index := by
        intro hmem
        simp only [List.mem_map] at hmem
        obtain ⟨k, hk, hkg⟩ := hmem
        have := hbound k hk
        have := node_count_pos k
        omega
      obtain ⟨h, hm, _, hlt, _, hgt⟩ := bsearch_all_missed hp hnot
      rw [List.length_map] at hlt
      have hlast : kids.length - 1 < kids.length := by omega
      have hh : h = ((kids.length - 1 : Nat) : Int) := by
        by_contra hcon
        have hget : (kids.map STNode.global_index)[kids.length - 1]? =
            some kids[kids.length - 1].global_index := by
          simp [List.getElem?_map, List.getElem?_eq_getElem hlast]
        have h1 := hgt (kids.length - 1) (by omega) _ hget
        have h2 := hbound _ (List.getElem_mem hlast)
        have := node_count_pos kids[kids.length - 1]
        omega
      have h0 : ¬ (h < 0) := by omega
      have hc := List.getElem_mem hlast
      simp only [hm, h0, if_false, hh, Int.toNat_ofNat, List.getElem?_eq_getElem hlast]
      have hb := hbound _ hc
      have hci := (indexed_node_iff _ _).mp (indexed_kids_mem hi hc)
      apply ih _ (kids[kids.length - 1].global_index + 1) key (dim + 1) hci.2
      · rw [node_count_eq] at hb
        push_cast at hb
        omega
      · rw [node_count_eq] at hb
        push_cast at hb
        omega

/-- What `get_simplex_data` does with an index that is not the global index of
a simplex, on a tree with current global indexes: it throws on an empty tree
and for an index `>= N`, but for a negative index on a non-empty tree the
binary search at the root ends with `max = -1` and the read `kids[max]` is
outside the vector. -/
theorem get_simplex_data_outside (t : SimplexTree) (hi : t.indexed = true) (index : Int) :
    (t.count = 0 → t.get_simplex_data index = .thrown) ∧
    ((t.count : Int) ≤ index → t.get_simplex_data index = .thrown) ∧
    (0 < t.count → index < 0 → t.get_simplex_data index = .out_of_bounds) := by
  have hbeyond : (t.count : Int) ≤ index → t.get_simplex_data index = .thrown := by
    intro h
    unfold SimplexTree.get_simplex_data
    apply get_simplex_data_loop_beyond _ _ 0 index 0 hi
    · unfold SimplexTree.count at h; omega
    · rw [node_count_eq]; omega
  refine ⟨?_, hbeyond, ?_⟩
  · intro h0
    unfold SimplexTree.get_simplex_data
    rw [node_count_eq, Nat.add_comm]
    unfold get_simplex_data_loop
    have : t.root.get_children.length = 0 := by
      have := entries_length.2 t.root.get_children
      unfold SimplexTree.count at h0
      cases hk : t.root.get_children with
      | nil => rfl
      | cons k ks =>
        rw [hk] at h0
        have := node_count_pos k
        simp only [kids_count_cons] at h0
        omega
    simp [this]
  · intro hpos hneg
    unfold SimplexTree.get_simplex_data
    rw [node_count_eq, Nat.add_comm]
    unfold get_simplex_data_loop
    have hlen : ¬ (t.root.get_children.length = 0) := by
      intro h
      have : t.root.get_children = [] := List.length_eq_zero.mp h
      unfold SimplexTree.count at hpos
      rw [this] at hpos
      simp at hpos
    have hp := (indexed_kids_siblings _ 0 hi).1
    have hbound := (indexed_kids_siblings _ 0 hi).2
    have hnot : index ∉ t.root.get_children.map STNode.global_index := by
      intro hmem
      simp only [List.mem_map] at hmem
      obtain ⟨k, hk, hkg⟩ := hmem
      have := hbound k hk
      omega
    obtain ⟨h, hm, hge, hlt, hle, _⟩ := bsearch_all_missed hp hnot
    have hh : h < 0 := by
      by_contra hcon
      have h0 : 0 < t.root.get_children.length := by omega
      have hget : (t.root.get_children.map STNode.global_index)[0]? =
          some t.root.get_children[0].global_index := by
        simp [List.getElem?_map, List.getElem?_eq_getElem h0]
      have h1 := hle 0 (by omega) _ hget
      have h2 := hbound _ (List.getElem_mem h0)
      omega
    simp [hlen, hm, hh]

/-- C8, evaluated: on the tree of the simplex `{1,2,4}` (seven simplices,
current global indexes) `get_simplex_data(-1)` reads `kids[-1]` outside the
children vector of the root instead of throwing, while the index 7 = N does
throw, and so does any index on the empty tree. -/
theorem get_simplex_data_negative_index :
    tree_124.indexed = true ∧ tree_124.count = 7 ∧
    tree_124.get_simplex_data (-1) = .out_of_bounds ∧
    tree_124.get_simplex_data 7 = .thrown ∧
    (SimplexTree.init 1).get_simplex_data (-1) = .thrown := by
  decide

/-- The last child carries the end of the range of its children vector. -/
theorem indexed_kids_last (ys : List STNode) (k : STNode) :
    ∀ i : Int, indexed_kids (ys ++ [k]) i = true →
      k.global_index + (node_count k : Int) = i + (kids_count (ys ++ [k]) : Int) := by
  induction ys with
  | nil =>
    intro i hi
    simp only [List.nil_append, indexed_kids_cons, indexed_node_iff] at hi
    simp only [List.nil_append, kids_count_cons, kids_count_nil]
    omega
  | cons y ys ih =>
    intro i hi
    simp only [List.cons_append, indexed_kids_cons] at hi
    have := ih _ hi.2
    simp only [List.cons_append, kids_count_cons]
    push_cast
    omega

/-- From a node whose subtree carries a preorder numbering, following last
children ends on a node of the subtree carrying the last index of its
range. -/
theorem last_node_spec (fuel : Nat) :
    ∀ node : STNode, indexed_node node node.global_index = true → node_count node ≤ fuel →
      ∃ n, last_node fuel node = some n ∧
        n.global_index = node.global_index + (node_count node : Int) - 1 ∧
        n ∈ (entries_node node).map Prod.snd := by
  induction fuel with
  | zero =>
    intro node _ h
    have := node_count_pos node
    omega
  | succ fuel ih =>
    intro node hi hfuel
    unfold last_node
    cases hl : node.get_children.getLast? with
    | none =>
      rw [List.getLast?_eq_none_iff] at hl
      refine ⟨node, rfl, ?_, ?_⟩
      · rw [node_count_eq, hl]; simp
      · rw [entries_node_eq]; simp
    | some k =>
      obtain ⟨ys, hys⟩ := List.getLast?_eq_some_iff.mp hl
      have hkids := ((indexed_node_iff _ _).mp hi).2
      have hk : k ∈ node.get_children := by rw [hys]; simp
      have hlast := indexed_kids_last ys k _ (hys ▸ hkids)
      rw [← hys] at hlast
      have hkc : node_count k ≤ kids_count node.get_children := by
        rw [hys]
        clear hlast hkids hk hl hys
        induction ys with
        | nil => simp
        | cons y ys ih2 => simp only [List.cons_append, kids_count_cons]; omega
      obtain ⟨n, hn1, hn2, hn3⟩ := ih k (indexed_kids_mem hkids hk)
        (by rw [node_count_eq node] at hfuel; omega)
      refine ⟨n, hn1, ?_, ?_⟩
      · rw [hn2, node_count_eq node]; push_cast; omega
      · rw [entries_node_eq]
        simp only [List.map_cons, List.map_map, List.mem_cons, List.mem_map,
          Function.comp_apply]
        right
        simp only [List.mem_map] at hn3
        obtain ⟨e, he, rfl⟩ := hn3
        exact ⟨e, mem_entries_iff_exists.mpr ⟨k, hk, he⟩, rfl⟩

/-- C9.  On a tree with `N >= 1` simplices and current global indexes,
following last children from the root ends on a node of the tree with global
index `N - 1` (the largest one, as the indexes are `0, ..., N-1`), and
`get_num_simplices()` returns `N`. -/
theorem get_num_simplices_spec (t : SimplexTree) (hi : t.indexed = true)
    (hN : 1 ≤ t.count) :
    (∃ n, last_node (node_count t.root) t.root = some n ∧ n ∈ t.nodes ∧
      n.global_index = (t.count : Int) - 1) ∧
    t.get_num_simplices = some (t.count : Int) := by
  have hmain : ∃ n, last_node (node_count t.root) t.root = some n ∧ n ∈ t.nodes ∧
      n.global_index = (t.count : Int) - 1 := by
    rw [node_count_eq, Nat.add_comm]
    unfold last_node
    cases hl : t.root.get_children.getLast? with
    | none =>
      rw [List.getLast?_eq_none_iff] at hl
      unfold SimplexTree.count at hN
      rw [hl] at hN
      simp at hN
    | some k =>
      obtain ⟨ys, hys⟩ := List.getLast?_eq_some_iff.mp hl
      have hk : k ∈ t.root.get_children := by rw [hys]; simp
      have hlast := indexed_kids_last ys k 0 (hys ▸ hi)
      rw [← hys] at hlast
      have hkc : node_count k ≤ kids_count t.root.get_children := by
        have := node_count_pos k
        have := (indexed_kids_siblings _ 0 hi).2 k hk
        omega
      obtain ⟨n, hn1, hn2, hn3⟩ := last_node_spec (kids_count t.root.get_children) k
        (indexed_kids_mem hi hk) hkc
      refine ⟨n, hn1, ?_, ?_⟩
      · simp only [List.mem_map] at hn3
        obtain ⟨e, he, rfl⟩ := hn3
        exact List.mem_map_of_mem Prod.snd (mem_entries_iff_exists.mpr ⟨k, hk, he⟩)
      · rw [hn2]; unfold SimplexTree.count; omega
  refine ⟨hmain, ?_⟩
  obtain ⟨n, hn1, _, hn3⟩ := hmain
  unfold SimplexTree.get_num_simplices
  rw [hn1, Option.map_some', hn3]
  congr 1
  omega

/-- C9 on the tree of the simplex `{1,2,4}`: seven simplices. -/
theorem get_num_simplices_spec_witness :
    (tree_124.indexed = true ∧ 1 ≤ tree_124.count) ∧ tree_124.count = 7 ∧
    tree_124.get_num_simplices = some (tree_124.count : Int) :=
  ⟨⟨by decide, by decide⟩, by decide,
    (get_num_simplices_spec tree_124 (by decide) (by decide)).2⟩

/-! ## Insertion: `add_faces` and `add_simplex` -/

theorem add_path_cons (v : Int) (vs : List Int) (x y : Int) (node : STNode) :
    add_path (v :: vs) x y node =
      node.set_children (add_child_then (add_path vs x y) v x y node.get_children) := by
  simp [add_path]

@[simp] theorem add_path_nil (x y : Int) (node : STNode) : add_path [] x y node = node := by
  simp [add_path]

theorem add_path_get_vertex (vs : List Int) (x y : Int) (node : STNode) :
    (add_path vs x y node).get_vertex = node.get_vertex := by
  cases vs <;> simp [add_path]

theorem add_path_grade_x (vs : List Int) (x y : Int) (node : STNode) :
    (add_path vs x y node).grade_x = node.grade_x := by
  cases vs <;> simp [add_path]

theorem add_path_grade_y (vs : List Int) (x y : Int) (node : STNode) :
    (add_path vs x y node).grade_y = node.grade_y := by
  cases vs <;> simp [add_path]

@[simp] theorem add_child_then_nil (f : STNode → STNode) (v x y : Int) :
    add_child_then f v x y [] = [f (.mk v x y (-1) (-1) [])] := by
  simp [add_child_then]

theorem add_child_then_cons (f : STNode → STNode) (v x y : Int) (k : STNode)
    (ks : List STNode) :
    add_child_then f v x y (k :: ks) =
      if k.get_vertex = v then f k :: ks
      else if v < k.get_vertex then f (.mk v x y (-1) (-1) []) :: k :: ks
      else k :: add_child_then f v x y ks := by
  simp [add_child_then]

/-- The child that `add_child` returns: the existing one with the label, or a
new childless node. -/
theorem lookup_add_child_then (f : STNode → STNode)
    (hf : ∀ n, (f n).get_vertex = n.get_vertex) (v x y : Int) (kids : List STNode)
    (hs : (kids.map STNode.get_vertex).Pairwise (· < ·)) (u : Int) :
    lookup (add_child_then f v x y kids) u =
      if u = v then some (f ((lookup kids v).getD (.mk v x y (-1) (-1) [])))
      else lookup kids u := by
  induction kids with
  | nil =>
    by_cases huv : u = v
    · subst huv; simp [lookup, hf]
    · have : ¬ (v = u) := fun h => huv h.symm
      simp [lookup, hf, huv, this]
  | cons k ks ih =>
    simp only [List.map_cons, List.pairwise_cons, List.mem_map, forall_exists_index, and_imp,
      forall_apply_eq_imp_iff₂] at hs
    rw [add_child_then_cons]
    by_cases h1 : k.get_vertex = v
    · simp only [h1, if_true, lookup_cons, hf, Option.getD_some]
      by_cases huv : u = v
      · subst huv; simp
      · have : ¬ (v = u) := fun h => huv h.symm
        simp [huv, this]
    · simp only [h1, if_false]
      by_cases h2 : v < k.get_vertex
      · have hnone : lookup (k :: ks) v = none := by
          rw [lookup_eq_none]
          intro c hc
          simp only [List.mem_cons] at hc
          rcases hc with rfl | hc
          · exact h1
          · have := hs.1 c hc; omega
        simp only [h2, if_true, hnone, Option.getD_none]
        by_cases huv : u = v
        · subst huv; simp [lookup_cons, hf]
        · have : ¬ (v = u) := fun h => huv h.symm
          simp [lookup_cons, hf, huv, this]
      · simp only [h2, if_false, lookup_cons, ih hs.2, h1]
        by_cases h3 : k.get_vertex = u
        · have : ¬ (u = v) := by omega
          simp [h3, this]
        · simp [h3]

/-- The insertion keeps a sibling vector strictly increasing in label. -/
theorem add_child_then_labels (f : STNode → STNode)
    (hf : ∀ n, (f n).get_vertex = n.get_vertex) (v x y : Int) (kids : List STNode)
    (hs : (kids.map STNode.get_vertex).Pairwise (· < ·)) :
    ((add_child_then f v x y kids).map STNode.get_vertex).Pairwise (· < ·) ∧
    ∀ c ∈ add_child_then f v x y kids,
      c.get_vertex = v ∨ ∃ k ∈ kids, c.get_vertex = k.get_vertex := by
  induction kids with
  | nil => simp [hf]
  | cons k ks ih =>
    simp only [List.map_cons, List.pairwise_cons, List.mem_map, forall_exists_index, and_imp,
      forall_apply_eq_imp_iff₂] at hs
    rw [add_child_then_cons]
    by_cases h1 : k.get_vertex = v
    · simp only [h1, if_true, List.map_cons, hf, List.pairwise_cons, List.mem_map,
        forall_exists_index, and_imp, forall_apply_eq_imp_iff₂, List.mem_cons]
      refine ⟨⟨fun a ha => h1 ▸ hs.1 a ha, hs.2⟩, ?_⟩
      rintro c (rfl | hc)
      · left; rw [hf, h1]
      · right; exact ⟨c, Or.inr hc, rfl⟩
    · simp only [h1, if_false]
      by_cases h2 : v < k.get_vertex
      · simp only [h2, if_true, List.map_cons, hf, STNode.get_vertex_mk, List.pairwise_cons,
          List.mem_cons, List.mem_map, forall_eq_or_imp, forall_exists_index, and_imp,
          forall_apply_eq_imp_iff₂]
        refine ⟨⟨⟨trivial, fun a ha => lt_trans h2 (hs.1 a ha)⟩, hs.1, hs.2⟩, ?_⟩
        refine ⟨Or.inl trivial, Or.inr ⟨k, Or.inl rfl, rfl⟩, ?_⟩
        intro c hc
        exact Or.inr ⟨c, Or.inr hc, rfl⟩
      · obtain ⟨ih1, ih2⟩ := ih hs.2
        simp only [h2, if_false, List.map_cons, List.pairwise_cons, List.mem_map,
          forall_exists_index, and_imp, forall_apply_eq_imp_iff₂, List.mem_cons,
          forall_eq_or_imp]
        refine ⟨⟨?_, ih1⟩, Or.inr ⟨k, Or.inl rfl, rfl⟩, ?_⟩
        · intro c hc
          rcases ih2 c hc with h | ⟨k2, hk2, h⟩
          · omega
          · rw [h]; exact hs.1 k2 hk2
        · intro c hc
          rcases ih2 c hc with h | ⟨k2, hk2, h⟩
          · exact Or.inl h
          · exact Or.inr ⟨k2, Or.inr hk2, h⟩

/-- Every node of the vector after the insertion is an old node, untouched,
or the image under `f` of an old node or of a new childless node. -/
theorem add_child_then_mem (f : STNode → STNode) (v x y : Int) (kids : List STNode) :
    ∀ c ∈ add_child_then f v x y kids,
      c ∈ kids ∨ (∃ k ∈ kids, c = f k) ∨ c = f (.mk v x y (-1) (-1) []) := by
  induction kids with
  | nil => simp
  | cons k ks ih =>
    rw [add_child_then_cons]
    intro c hc
    by_cases h1 : k.get_vertex = v
    · simp only [h1, if_true, List.mem_cons] at hc
      rcases hc with rfl | hc
      · exact Or.inr (Or.inl ⟨k, by simp, rfl⟩)
      · exact Or.inl (by simp [hc])
    · simp only [h1, if_false] at hc
      by_cases h2 : v < k.get_vertex
      · simp only [h2, if_true, List.mem_cons] at hc
        rcases hc with rfl | hc
        · exact Or.inr (Or.inr rfl)
        · exact Or.inl (by simpa using hc)
      · simp only [h2, if_false, List.mem_cons] at hc
        rcases hc with rfl | hc
        · exact Or.inl (by simp)
        · rcases ih c hc with h | ⟨k2, hk2, h⟩ | h
          · exact Or.inl (by simp [h])
          · exact Or.inr (Or.inl ⟨k2, by simp [hk2], h⟩)
          · exact Or.inr (Or.inr h)

/-- Walking down a path keeps all sibling vectors sorted. -/
theorem add_path_sorted (vs : List Int) (x y : Int) :
    ∀ node : STNode, sorted_node node = true → sorted_node (add_path vs x y node) = true := by
  induction vs with
  | nil => intro node h; simpa using h
  | cons v vs ih =>
    intro node hs
    rw [add_path_cons, sorted_node_eq, STNode.get_children_set_children, sorted_kids_iff]
    rw [sorted_node_eq, sorted_kids_iff] at hs
    refine ⟨(add_child_then_labels _ (add_path_get_vertex vs x y) v x y _ hs.1).1, ?_⟩
    intro c hc
    rcases add_child_then_mem _ v x y _ c hc with h | ⟨k, hk, rfl⟩ | rfl
    · exact hs.2 c h
    · exact ih k (hs.2 k hk)
    · exact ih _ (by simp [sorted_node, sorted_kids])

theorem follow_leaf (u : Int) (w : List Int) (v x y g d : Int) :
    follow (u :: w) (.mk v x y g d []) = none := by
  rw [follow_cons]; simp [lookup]

/-- The first loop of `add_faces` extends a sorted tree by the non-empty
prefixes of the vertex list, created at multi-grade `(x, y)`. -/
theorem add_path_extends (vs : List Int) (x y : Int) :
    ∀ node : STNode, sorted_node node = true →
      extends_by node (add_path vs x y node) (fun w => w <+: vs) x y := by
  induction vs with
  | nil =>
    intro node _ w
    simp only [add_path_nil]
    refine ⟨fun n hn => ⟨n, hn, rfl, rfl⟩, fun hn => ⟨?_, fun _ => hn⟩⟩
    intro hw
    have : w = [] := List.prefix_nil.mp hw
    subst this
    simp [follow] at hn
  | cons v vs ih =>
    intro node hs w
    have hs2 := hs
    rw [sorted_node_eq, sorted_kids_iff] at hs2
    cases w with
    | nil =>
      refine ⟨?_, fun hn => by simp [follow] at hn⟩
      intro n hn
      simp only [follow, Option.some.injEq] at hn
      subst hn
      exact ⟨_, rfl, add_path_grade_x _ _ _ _, add_path_grade_y _ _ _ _⟩
    | cons u w =>
      have hnew : follow (u :: w) (add_path (v :: vs) x y node) =
          if u = v then
            follow w (add_path vs x y
              ((lookup node.get_children v).getD (.mk v x y (-1) (-1) [])))
          else follow (u :: w) node := by
        rw [follow_cons, add_path_cons, STNode.get_children_set_children,
          lookup_add_child_then _ (add_path_get_vertex vs x y) v x y _ hs2.1 u]
        by_cases huv : u = v
        · simp [huv]
        · simp only [huv, if_false]; rw [follow_cons]
      by_cases huv : u = v
      · subst huv
        simp only [hnew, if_true, List.cons_prefix_cons, true_and]
        rw [follow_cons]
        cases hl : lookup node.get_children u with
        | some c =>
          simp only [Option.some_bind, Option.getD_some]
          exact ih c (hs2.2 c (lookup_mem hl)) w
        | none =>
          simp only [Option.none_bind, Option.getD_none]
          refine ⟨fun n hn => by simp at hn, fun _ => ?_⟩
          have hleaf := ih (.mk u x y (-1) (-1) []) (by simp [sorted_node, sorted_kids]) w
          cases w with
          | nil =>
            obtain ⟨n2, h1, h2, h3⟩ := hleaf.1 _ rfl
            refine ⟨fun _ => ⟨n2, h1, by simpa using h2, by simpa using h3⟩, ?_⟩
            intro hS
            exact absurd List.nil_prefix hS
          | cons u2 w2 => exact hleaf.2 (follow_leaf _ _ _ _ _ _ _)
      · simp only [hnew, huv, if_false]
        refine ⟨fun n hn => ⟨n, hn, rfl, rfl⟩, fun hn => ⟨?_, fun _ => hn⟩⟩
        intro hS
        rw [List.cons_prefix_cons] at hS
        exact absurd hS.1 huv

/-- Extensions compose. -/
theorem extends_by_trans {r1 r2 r3 : STNode} {S1 S2 : List Int → Prop} {x y : Int}
    (h1 : extends_by r1 r2 S1 x y) (h2 : extends_by r2 r3 S2 x y) :
    extends_by r1 r3 (fun w => S1 w ∨ S2 w) x y := by
  intro w
  refine ⟨?_, ?_⟩
  · intro n hn
    obtain ⟨n2, a1, a2, a3⟩ := (h1 w).1 n hn
    obtain ⟨n3, b1, b2, b3⟩ := (h2 w).1 n2 a1
    exact ⟨n3, b1, by rw [b2, a2], by rw [b3, a3]⟩
  · intro hn
    refine ⟨?_, ?_⟩
    · intro hS
      by_cases hS1 : S1 w
      · obtain ⟨n2, a1, a2, a3⟩ := ((h1 w).2 hn).1 hS1
        obtain ⟨n3, b1, b2, b3⟩ := (h2 w).1 n2 a1
        exact ⟨n3, b1, by rw [b2, a2], by rw [b3, a3]⟩
      · have hS2 : S2 w := by tauto
        exact ((h2 w).2 (((h1 w).2 hn).2 hS1)).1 hS2
    · intro hS
      have hS1 : ¬ S1 w := fun h => hS (Or.inl h)
      have hS2 : ¬ S2 w := fun h => hS (Or.inr h)
      exact ((h2 w).2 (((h1 w).2 hn).2 hS1)).2 hS2

/-- The set of added paths may be replaced by an equivalent one. -/
theorem extends_by_congr {r1 r2 : STNode} {S1 S2 : List Int → Prop} {x y : Int}
    (h : extends_by r1 r2 S1 x y) (hS : ∀ w, S1 w ↔ S2 w) : extends_by r1 r2 S2 x y := by
  intro w
  refine ⟨(h w).1, fun hn => ⟨fun h2 => ((h w).2 hn).1 ((hS w).mpr h2), fun h2 => ?_⟩⟩
  exact ((h w).2 hn).2 (fun h1 => h2 ((hS w).mp h1))

theorem extends_by_refl (r : STNode) (x y : Int) : extends_by r r (fun _ => False) x y := by
  intro w
  exact ⟨fun n hn => ⟨n, hn, rfl, rfl⟩, fun hn => ⟨fun h => h.elim, fun _ => hn⟩⟩

/-- A sub-list of a list is the list itself, or the list without its last
entry, or a sub-list of the list without one of its entries other than the
last. -/
theorem sublist_cases {w vs : List Int} (h : w.Sublist vs) :
    w = vs ∨ w = vs.dropLast ∨ ∃ j, j + 1 < vs.length ∧ w.Sublist (vs.eraseIdx j) := by
  induction h with
  | slnil => left; rfl
  | @cons l1 l2 a h ih =>
    cases l2 with
    | nil =>
      right; left
      have : l1 = [] := List.sublist_nil.mp h
      simp [this]
    | cons b l2 =>
      right; right
      exact ⟨0, by simp, by simpa using h⟩
  | @cons₂ l1 l2 a h ih =>
    rcases ih with rfl | rfl | ⟨j, hj, hsub⟩
    · left; rfl
    · cases l2 with
      | nil => left; simp
      | cons b l2 => right; left; simp [List.dropLast]
    · right; right
      refine ⟨j + 1, by simp only [List.length_cons]; omega, ?_⟩
      simpa using hsub.cons₂ a

/-- The sub-lists of a non-empty list are its prefixes together with the
sub-lists of its facets other than the last. -/
theorem sublist_iff_prefix_or_facet (w vs : List Int) :
    w.Sublist vs ↔ (w <+: vs ∨ ∃ i ∈ List.range (vs.length - 1), w.Sublist (vs.eraseIdx i)) := by
  constructor
  · intro h
    rcases sublist_cases h with rfl | rfl | ⟨j, hj, hsub⟩
    · exact Or.inl (List.prefix_refl _)
    · exact Or.inl (List.dropLast_prefix _)
    · exact Or.inr ⟨j, by simp only [List.mem_range]; omega, hsub⟩
  · rintro (h | ⟨i, _, h⟩)
    · exact h.sublist
    · exact h.trans (List.eraseIdx_sublist _ _)

/-- A run of steps each of which extends a sorted tree extends it by the
union of what the steps add. -/
theorem foldlM_extends (x y : Int) (f : STNode → Nat → Option STNode)
    (F : Nat → List Int → Prop) (l : List Nat)
    (hf : ∀ i ∈ l, ∀ r, sorted_node r = true →
      ∃ r2, f r i = some r2 ∧ sorted_node r2 = true ∧ extends_by r r2 (F i) x y) :
    ∀ r0, sorted_node r0 = true →
      ∃ r2, l.foldlM f r0 = some r2 ∧ sorted_node r2 = true ∧
        extends_by r0 r2 (fun w => ∃ i ∈ l, F i w) x y := by
  induction l with
  | nil =>
    intro r0 hs
    exact ⟨r0, rfl, hs, extends_by_congr (extends_by_refl r0 x y) (by simp)⟩
  | cons i l ih =>
    intro r0 hs
    obtain ⟨r1, h1, hs1, he1⟩ := hf i (by simp) r0 hs
    obtain ⟨r2, h2, hs2, he2⟩ := ih (fun j hj => hf j (by simp [hj])) r1 hs1
    refine ⟨r2, ?_, hs2, extends_by_congr (extends_by_trans he1 he2) (by simp)⟩
    rw [List.foldlM_cons, h1]
    exact h2

/-- The call `add_faces` on a non-empty vertex list returns, keeps the tree sorted, and
extends it by the non-empty sub-lists of the vertex list, created at
multi-grade `(x, y)`. -/
theorem add_faces_fuel_spec (x y : Int) (fuel : Nat) :
    ∀ (vs : List Int) (root : STNode), vs ≠ [] → vs.length ≤ fuel →
      sorted_node root = true →
      ∃ r, add_faces_fuel fuel vs x y root = some r ∧ sorted_node r = true ∧
        extends_by root r (fun w => w.Sublist vs) x y := by
  induction fuel with
  | zero =>
    intro vs root hne hlen
    cases vs with
    | nil => exact absurd rfl hne
    | cons v vs => simp at hlen
  | succ fuel ih =>
    intro vs root hne hlen hs
    cases vs with
    | nil => exact absurd rfl hne
    | cons v vs =>
      simp only [List.length_cons] at hlen
      have hstep : ∀ i ∈ List.range vs.length, ∀ r, sorted_node r = true →
          ∃ r2, (fun r i => add_faces_fuel fuel ((v :: vs).eraseIdx i) x y r) r i = some r2 ∧
            sorted_node r2 = true ∧
            extends_by r r2 ((fun i w => w.Sublist ((v :: vs).eraseIdx i)) i) x y := by
        intro i hi r hr
        rw [List.mem_range] at hi
        have hl : ((v :: vs).eraseIdx i).length = vs.length := by
          rw [List.length_eraseIdx]
          simp only [List.length_cons]
          have : i < vs.length + 1 := by omega
          simp [this]
        apply ih _ r _ (by omega) hr
        intro h
        rw [h] at hl
        simp only [List.length_nil] at hl
        omega
      obtain ⟨r2, h2, hs2, he2⟩ := foldlM_extends x y _ _ _ hstep
        (add_path (v :: vs) x y root) (add_path_sorted _ x y root hs)
      refine ⟨r2, ?_, hs2, ?_⟩
      · rw [add_faces_fuel]
        exact h2
      · refine extends_by_congr (extends_by_trans (add_path_extends (v :: vs) x y root hs) he2) ?_
        intro w
        rw [sublist_iff_prefix_or_facet]
        simp

/-- The insertion changes nothing in a sorted vector whose child with the
label is left as it is by the caller. -/
theorem add_child_then_noop (f : STNode → STNode) (v x y : Int) (kids : List STNode)
    (hs : (kids.map STNode.get_vertex).Pairwise (· < ·)) {c : STNode}
    (hl : lookup kids v = some c) (hf : f c = c) : add_child_then f v x y kids = kids := by
  induction kids with
  | nil => simp [lookup] at hl
  | cons k ks ih =>
    simp only [List.map_cons, List.pairwise_cons, List.mem_map, forall_exists_index, and_imp,
      forall_apply_eq_imp_iff₂] at hs
    rw [add_child_then_cons]
    rw [lookup_cons] at hl
    by_cases h1 : k.get_vertex = v
    · simp only [h1, if_true, Option.some.injEq] at hl
      subst hl
      simp [h1, hf]
    · simp only [h1, if_false] at hl ⊢
      have h2 : ¬ (v < k.get_vertex) := by
        have := hs.1 c (lookup_mem hl)
        have := (lookup_eq_some hl).1
        omega
      simp only [h2, if_false]
      rw [ih hs.2 hl]

/-- Walking down a path that is already in a sorted tree changes nothing. -/
theorem add_path_noop (vs : List Int) (x y : Int) :
    ∀ node : STNode, sorted_node node = true → (follow vs node).isSome = true →
      add_path vs x y node = node := by
  induction vs with
  | nil => intro node _ _; simp
  | cons v vs ih =>
    intro node hs hf
    rw [sorted_node_eq, sorted_kids_iff] at hs
    rw [follow_cons] at hf
    cases hl : lookup node.get_children v with
    | none => simp [hl] at hf
    | some c =>
      simp only [hl, Option.some_bind] at hf
      rw [add_path_cons, add_child_then_noop _ v x y _ hs.1 hl
        (ih c (hs.2 c (lookup_mem hl)) hf)]
      simp

theorem foldlM_fixed (f : STNode → Nat → Option STNode) (r : STNode) (l : List Nat)
    (hf : ∀ i ∈ l, f r i = some r) : l.foldlM f r = some r := by
  induction l with
  | nil => rfl
  | cons i l ih =>
    rw [List.foldlM_cons, hf i (by simp)]
    exact ih (fun j hj => hf j (by simp [hj]))

/-- The call `add_faces` on a sorted tree that already holds every non-empty sub-list
of the vertex list returns the tree unchanged, whatever the grades. -/
theorem add_faces_fuel_noop (x y : Int) (fuel : Nat) :
    ∀ (vs : List Int) (root : STNode), vs ≠ [] → vs.length ≤ fuel →
      sorted_node root = true →
      (∀ w : List Int, w ≠ [] → w.Sublist vs → (follow w root).isSome = true) →
      add_faces_fuel fuel vs x y root = some root := by
  induction fuel with
  | zero =>
    intro vs root hne hlen
    cases vs with
    | nil => exact absurd rfl hne
    | cons v vs => simp at hlen
  | succ fuel ih =>
    intro vs root hne hlen hs hall
    cases vs with
    | nil => exact absurd rfl hne
    | cons v vs =>
      simp only [List.length_cons] at hlen
      rw [add_faces_fuel, add_path_noop (v :: vs) x y root hs
        (hall _ (by simp) (List.Sublist.refl _))]
      apply foldlM_fixed
      intro i hi
      rw [List.mem_range] at hi
      have hl : ((v :: vs).eraseIdx i).length = vs.length := by
        rw [List.length_eraseIdx]
        simp only [List.length_cons]
        have : i < vs.length + 1 := by omega
        simp [this]
      apply ih _ root _ (by omega) hs
      · intro w hw hsub
        exact hall w hw (hsub.trans (List.eraseIdx_sublist _ _))
      · intro h
        rw [h] at hl
        simp only [List.length_nil] at hl
        omega

theorem lookup_strip (kids : List STNode) (v : Int) :
    lookup (strip_gi_kids kids) v = (lookup kids v).map strip_gi := by
  induction kids with
  | nil => simp [lookup]
  | cons k ks ih =>
    rw [strip_gi_kids_cons, lookup_cons, lookup_cons, ih]
    by_cases h : k.get_vertex = v <;> simp [h]

theorem get_children_strip_gi (n : STNode) :
    (strip_gi n).get_children = strip_gi_kids n.get_children := by
  cases n; simp [strip_gi]

/-- Following a path does not depend on global indexes. -/
theorem follow_strip (w : List Int) :
    ∀ node : STNode, follow w (strip_gi node) = (follow w node).map strip_gi := by
  induction w with
  | nil => intro node; simp [follow]
  | cons v w ih =>
    intro node
    rw [follow_cons, follow_cons, get_children_strip_gi, lookup_strip]
    cases lookup node.get_children v with
    | none => simp
    | some c => simp [ih c]

/-- Renumbering changes neither which paths lead to a node nor the
multi-grade of the node reached. -/
theorem follow_update_gi (w : List Int) (node : STNode) (g : Int) :
    (follow w (update_gi_recursively node g).1).map strip_gi = (follow w node).map strip_gi := by
  rw [← follow_strip, ← follow_strip, strip_gi_update.1]

/-- Renumbering the extended tree does not change what it extends. -/
theorem extends_by_update {r1 r2 : STNode} {S : List Int → Prop} {x y : Int} (g : Int)
    (h : extends_by r1 r2 S x y) :
    extends_by r1 (update_gi_recursively r2 g).1 S x y := by
  have key : ∀ w n2, follow w r2 = some n2 →
      ∃ n3, follow w (update_gi_recursively r2 g).1 = some n3 ∧
        n3.grade_x = n2.grade_x ∧ n3.grade_y = n2.grade_y := by
    intro w n2 hn2
    have := follow_update_gi w r2 g
    rw [hn2] at this
    cases h3 : follow w (update_gi_recursively r2 g).1 with
    | none => simp [h3] at this
    | some n3 =>
      simp only [h3, Option.map_some', Option.some.injEq] at this
      refine ⟨n3, rfl, ?_, ?_⟩
      · rw [← STNode.grade_x_strip_gi n3, this, STNode.grade_x_strip_gi]
      · rw [← STNode.grade_y_strip_gi n3, this, STNode.grade_y_strip_gi]
  have key2 : ∀ w, follow w r2 = none → follow w (update_gi_recursively r2 g).1 = none := by
    intro w hn2
    have := follow_update_gi w r2 g
    rw [hn2] at this
    simpa using this
  intro w
  refine ⟨?_, fun hn => ⟨?_, ?_⟩⟩
  · intro n hn
    obtain ⟨n2, a1, a2, a3⟩ := (h w).1 n hn
    obtain ⟨n3, b1, b2, b3⟩ := key w n2 a1
    exact ⟨n3, b1, by rw [b2, a2], by rw [b3, a3]⟩
  · intro hS
    obtain ⟨n2, a1, a2, a3⟩ := ((h w).2 hn).1 hS
    obtain ⟨n3, b1, b2, b3⟩ := key w n2 a1
    exact ⟨n3, b1, by rw [b2, a2], by rw [b3, a3]⟩
  · intro hS
    exact key2 w (((h w).2 hn).2 hS)

/-- What `add_simplex` does to a sorted tree, for a non-empty vertex list: it
returns; the new tree is sorted, carries current global indexes, and extends
the old one by the non-empty sub-lists of the vertex list, created at
multi-grade `(x, y)`. -/
theorem add_simplex_spec (t : SimplexTree) (hs : t.sorted = true) (vs : List Int)
    (hne : vs ≠ []) (x y : Int) :
    ∃ t2, t.add_simplex vs x y = some t2 ∧ t2.sorted = true ∧ t2.indexed = true ∧
      extends_by t.root t2.root (fun w => w.Sublist vs) x y := by
  obtain ⟨r, h1, h2, h3⟩ := add_faces_fuel_spec x y vs.length vs t.root hne (le_refl _) hs
  refine ⟨SimplexTree.update_global_indexes
      { t with root := r, grade_x_values := grow_grid t.grade_x_values x,
               grade_y_values := grow_grid t.grade_y_values y },
    ?_, ?_, update_global_indexes_indexed _, ?_⟩
  · unfold SimplexTree.add_simplex add_faces
    rw [h1]
  · rw [update_global_indexes_sorted]
    exact h2
  · exact extends_by_update 0 h3

/-- C1 (closure).  For every tree with sorted sibling vectors and every
`add_simplex(vertices, x, y)` call with a non-empty vertex list (strictly
increasing or not), the call returns, and afterwards `find_simplex(w)` returns
a node for every non-empty sub-list `w` of `vertices`, and every list that
`find_simplex` found before the call is still found. -/
theorem add_simplex_closure (t : SimplexTree) (hs : t.sorted = true) (vs : List Int)
    (hne : vs ≠ []) (x y : Int) :
    ∃ t2, t.add_simplex vs x y = some t2 ∧ t2.sorted = true ∧
      (∀ w : List Int, w ≠ [] → w.Sublist vs → (t2.find_simplex w).isSome = true) ∧
      (∀ w : List Int, (t.find_simplex w).isSome = true →
        (t2.find_simplex w).isSome = true) := by
  obtain ⟨t2, h1, hs2, _, he⟩ := add_simplex_spec t hs vs hne x y
  have hfound : ∀ w : List Int, (follow w t.root).isSome = true →
      (follow w t2.root).isSome = true := by
    intro w hw
    cases hf : follow w t.root with
    | none => simp [hf] at hw
    | some n =>
      obtain ⟨n2, a1, _⟩ := (he w).1 n hf
      simp [a1]
  refine ⟨t2, h1, hs2, ?_, ?_⟩
  · intro w _ hsub
    unfold SimplexTree.find_simplex
    rw [find_simplex_from_eq_follow w t2.root hs2]
    cases hf : follow w t.root with
    | none =>
      obtain ⟨n2, a1, _⟩ := ((he w).2 hf).1 hsub
      simp [a1]
    | some n => exact hfound w (by simp [hf])
  · intro w hw
    unfold SimplexTree.find_simplex at hw ⊢
    rw [find_simplex_from_eq_follow w t.root hs] at hw
    rw [find_simplex_from_eq_follow w t2.root hs2]
    exact hfound w hw

/-- C1 on the tree of the simplex `{1,2,4}`: after adding `{2,3}` at grade
`(1, 1)` the faces `{3}` and `{2,3}` are found, and so is the old `{1,2,4}`. -/
theorem add_simplex_closure_witness :
    (tree_124.sorted = true ∧ ([2, 3] : List Int) ≠ []) ∧
    ∃ t2, tree_124.add_simplex [2, 3] 1 1 = some t2 ∧ t2.sorted = true ∧
      (∀ w : List Int, w ≠ [] → w.Sublist [2, 3] → (t2.find_simplex w).isSome = true) ∧
      (∀ w : List Int, (tree_124.find_simplex w).isSome = true →
        (t2.find_simplex w).isSome = true) :=
  ⟨⟨by decide, by decide⟩, add_simplex_closure tree_124 (by decide) [2, 3] (by decide) 1 1⟩

theorem init_sorted (dim : Int) : (SimplexTree.init dim).sorted = true := by
  simp [SimplexTree.sorted, SimplexTree.init, STNode.root_init, sorted_node, sorted_kids]

theorem follow_init (dim : Int) (w : List Int) (hw : w ≠ []) :
    follow w (SimplexTree.init dim).root = none := by
  cases w with
  | nil => exact absurd rfl hw
  | cons u w => exact follow_leaf _ _ _ _ _ _ _

/-- The number of non-empty sub-lists of a list without repetition. -/
theorem length_of_sublists {l : List (List Int)} {vs : List Int} (hvs : vs.Nodup)
    (hl : l.Nodup) (hmem : ∀ w, w ∈ l ↔ (w ≠ [] ∧ w.Sublist vs)) :
    l.length = 2 ^ vs.length - 1 := by
  have hnd : (vs.sublists.erase []).Nodup := (List.nodup_sublists.mpr hvs).erase _
  have hperm : l.Perm (vs.sublists.erase []) := by
    rw [List.perm_ext_iff_of_nodup hl hnd]
    intro w
    rw [hmem, (List.nodup_sublists.mpr hvs).mem_erase_iff, List.mem_sublists]
  rw [hperm.length_eq, List.length_erase_of_mem (by simp), List.length_sublists]

/-- C2.  On an empty tree, `add_simplex` with a strictly increasing list of
`n >= 1` vertices at grade `(x, y)` returns a tree whose simplices are exactly
the non-empty sub-lists of that list, each listed once, `2^n - 1` in all; each
of them is found by `find_simplex`, and every node of the tree carries grade
`(x, y)`. -/
theorem add_simplex_on_empty (dim : Int) (vs : List Int) (hne : vs ≠ [])
    (hinc : vs.Pairwise (· < ·)) (x y : Int) :
    ∃ t2, (SimplexTree.init dim).add_simplex vs x y = some t2 ∧
      (∀ w : List Int, w ∈ t2.simplices ↔ (w ≠ [] ∧ w.Sublist vs)) ∧
      t2.simplices.Nodup ∧
      t2.simplices.length = 2 ^ vs.length - 1 ∧
      t2.count = 2 ^ vs.length - 1 ∧
      (∀ w : List Int, w ≠ [] → w.Sublist vs →
        ∃ n, t2.find_simplex w = some n ∧ n.grade_x = x ∧ n.grade_y = y) ∧
      (∀ n ∈ t2.nodes, n.grade_x = x ∧ n.grade_y = y) := by
  obtain ⟨t2, h1, hs2, _, he⟩ :=
    add_simplex_spec (SimplexTree.init dim) (init_sorted dim) vs hne x y
  have hfollow : ∀ (w : List Int) (n : STNode), w ≠ [] → follow w t2.root = some n →
      w.Sublist vs ∧ n.grade_x = x ∧ n.grade_y = y := by
    intro w n hw hn
    have h0 := (he w).2 (follow_init dim w hw)
    by_cases hS : w.Sublist vs
    · obtain ⟨n2, a1, a2, a3⟩ := h0.1 hS
      rw [hn, Option.some.injEq] at a1
      subst a1
      exact ⟨hS, a2, a3⟩
    · rw [h0.2 hS] at hn
      exact absurd hn (by simp)
  have hmem : ∀ w : List Int, w ∈ t2.simplices ↔ (w ≠ [] ∧ w.Sublist vs) := by
    intro w
    simp only [SimplexTree.simplices, List.mem_map, Prod.exists, exists_and_right, exists_eq_right]
    constructor
    · rintro ⟨n, hn⟩
      obtain ⟨hw, hf⟩ := (mem_entries_children_iff t2.root hs2 w n).mp hn
      exact ⟨hw, (hfollow w n hw hf).1⟩
    · rintro ⟨hw, hS⟩
      obtain ⟨n2, a1, _⟩ := ((he w).2 (follow_init dim w hw)).1 hS
      exact ⟨n2, (mem_entries_children_iff t2.root hs2 w n2).mpr ⟨hw, a1⟩⟩
  have hnd : t2.simplices.Nodup := by
    unfold SimplexTree.sorted at hs2
    rw [sorted_node_eq] at hs2
    exact entries_paths_nodup.2 _ hs2
  have hvs : vs.Nodup := hinc.imp (fun h => ne_of_lt h)
  have hlen := length_of_sublists hvs hnd hmem
  refine ⟨t2, h1, hmem, hnd, hlen, ?_, ?_, ?_⟩
  · rw [← hlen]
    simp [SimplexTree.count, SimplexTree.simplices, entries_length.2]
  · intro w hw hS
    obtain ⟨n2, a1, a2, a3⟩ := ((he w).2 (follow_init dim w hw)).1 hS
    refine ⟨n2, ?_, a2, a3⟩
    unfold SimplexTree.find_simplex
    rw [find_simplex_from_eq_follow w t2.root hs2]
    exact a1
  · intro n hn
    simp only [SimplexTree.nodes, List.mem_map, Prod.exists, exists_eq_right] at hn
    obtain ⟨w, hw⟩ := hn
    obtain ⟨hw1, hf⟩ := (mem_entries_children_iff t2.root hs2 w n).mp hw
    exact (hfollow w n hw1 hf).2

/-- C2 for the simplex `{1,2,4}` at grade `(0, 0)`: the tree holds exactly the
7 faces `{1}`, `{1,2}`, `{1,2,4}`, `{1,4}`, `{2}`, `{2,4}`, `{4}`. -/
theorem add_simplex_on_empty_witness :
    (([1, 2, 4] : List Int) ≠ [] ∧ ([1, 2, 4] : List Int).Pairwise (· < ·)) ∧
    ((SimplexTree.init 1).add_simplex [1, 2, 4] 0 0).map SimplexTree.simplices =
      some [[1], [1, 2], [1, 2, 4], [1, 4], [2], [2, 4], [4]] ∧
    ∃ t2, (SimplexTree.init 1).add_simplex [1, 2, 4] 0 0 = some t2 ∧
      (∀ w : List Int, w ∈ t2.simplices ↔ (w ≠ [] ∧ w.Sublist [1, 2, 4])) ∧
      t2.simplices.Nodup ∧
      t2.simplices.length = 2 ^ ([1, 2, 4] : List Int).length - 1 ∧
      t2.count = 2 ^ ([1, 2, 4] : List Int).length - 1 ∧
      (∀ w : List Int, w ≠ [] → w.Sublist [1, 2, 4] →
        ∃ n, t2.find_simplex w = some n ∧ n.grade_x = 0 ∧ n.grade_y = 0) ∧
      (∀ n ∈ t2.nodes, n.grade_x = 0 ∧ n.grade_y = 0) :=
  ⟨⟨by decide, by decide⟩, by decide,
    add_simplex_on_empty 1 [1, 2, 4] (by decide) (by decide) 0 0⟩

theorem set_global_index_self (n : STNode) : n.set_global_index n.global_index = n := by
  cases n; rfl

/-- Renumbering a tree that already carries the preorder numbering changes
nothing. -/
theorem update_gi_of_indexed :
    (∀ (n : STNode) (g : Int), indexed_kids n.get_children g = true →
      (update_gi_recursively n g).1 = n) ∧
    (∀ (ks : List STNode) (g : Int), indexed_kids ks g = true →
      (update_gi_kids ks g).1 = ks) := by
  apply STNode.induct
  · intro v x y g d kids ih g2 h
    simp only [STNode.get_children_mk] at h
    simp [update_gi_recursively, ih g2 h]
  · intro g _; simp
  · intro k ks ih1 ih2 g h
    rw [indexed_kids_cons, indexed_node_iff] at h
    obtain ⟨⟨hg, hk⟩, hks⟩ := h
    have h2 : (update_gi_recursively k (g + 1)).2 = g + (node_count k : Int) := by
      rw [(update_gi_indexed.1 k (g + 1)).2.1, node_count_eq]; push_cast; omega
    rw [update_gi_kids_cons]
    simp only [ih1 (g + 1) hk, h2, ih2 _ hks]
    rw [← hg, set_global_index_self]

theorem update_global_indexes_of_indexed (t : SimplexTree) (hi : t.indexed = true) :
    t.update_global_indexes.root = t.root :=
  update_gi_of_indexed.1 t.root 0 hi

theorem grow_grid_extends (values : List ℚ) (g : Int) : values <+: grow_grid values g :=
  List.prefix_append _ _

theorem face_closed_iff (t : SimplexTree) :
    t.face_closed = true ↔
      ∀ p ∈ t.simplices, ∀ w : List Int, w.Sublist p → w ≠ [] →
        (t.find_simplex w).isSome = true := by
  simp only [SimplexTree.face_closed, List.all_eq_true, List.mem_sublists, Bool.or_eq_true,
    decide_eq_true_eq]
  constructor
  · intro h p hp w hw hne
    rcases h p hp w hw with h1 | h1
    · exact absurd h1 hne
    · exact h1
  · intro h p hp w hw
    by_cases hne : w = []
    · exact Or.inl hne
    · exact Or.inr (h p hp w hw hne)

/-- C3 (amended: re-adding is a no-op).  If a tree whose sibling vectors are
all strictly increasing in vertex label is closed under faces and contains the
simplex with vertex list `vs`, then
`add_simplex(vs, x2, y2)`, for any grades `x2`, `y2`, returns a tree whose
root is the old root after `update_global_indexes`: no node is added and no
multi-grade changes, and when the global indexes were current the whole tree
of nodes is unchanged, global indexes included.  Only the axis grids may grow:
the old grids are prefixes of the new ones. -/
theorem add_simplex_again (t : SimplexTree) (hs : t.sorted = true)
    (hc : t.face_closed = true) (vs : List Int) (hmem : vs ∈ t.simplices) (x2 y2 : Int) :
    ∃ t2, t.add_simplex vs x2 y2 = some t2 ∧
      t2.root = t.update_global_indexes.root ∧
      (t.indexed = true → t2.root = t.root) ∧
      t2.simplices = t.simplices ∧
      t2.nodes.map strip_gi = t.nodes.map strip_gi ∧
      t2.hom_dim = t.hom_dim ∧
      t.grade_x_values <+: t2.grade_x_values ∧ t.grade_y_values <+: t2.grade_y_values := by
  have hne : vs ≠ [] := by
    simp only [SimplexTree.simplices, List.mem_map] at hmem
    obtain ⟨e, he, rfl⟩ := hmem
    exact entries_path_ne_nil.2 _ e he
  have hall : ∀ w : List Int, w ≠ [] → w.Sublist vs → (follow w t.root).isSome = true := by
    intro w hw hsub
    have := (face_closed_iff t).mp hc vs hmem w hsub hw
    unfold SimplexTree.find_simplex at this
    rw [find_simplex_from_eq_follow w t.root hs] at this
    exact this
  have h1 := add_faces_fuel_noop x2 y2 vs.length vs t.root hne (le_refl _) hs hall
  refine ⟨SimplexTree.update_global_indexes
      { t with root := t.root, grade_x_values := grow_grid t.grade_x_values x2,
               grade_y_values := grow_grid t.grade_y_values y2 },
    ?_, rfl, ?_, update_global_indexes_simplices t, update_global_indexes_nodes t, rfl,
    grow_grid_extends _ _, grow_grid_extends _ _⟩
  · unfold SimplexTree.add_simplex add_faces
    rw [h1]
  · intro hi
    exact update_global_indexes_of_indexed t hi

/-- C3 on the tree of the simplex `{1,2,4}`: adding its face `{1,4}` again at
grade `(3, 5)` leaves the root, hence every node, as it was; the grids grow
from `0` to `0, 1, 2, 3` and `0, ..., 5`. -/
theorem add_simplex_again_witness :
    (tree_124.sorted = true ∧ tree_124.face_closed = true ∧
      [1, 4] ∈ tree_124.simplices) ∧
    (tree_124.add_simplex [1, 4] 3 5).map SimplexTree.grade_x_values = some [0, 1, 2, 3] ∧
    ∃ t2, tree_124.add_simplex [1, 4] 3 5 = some t2 ∧
      t2.root = tree_124.update_global_indexes.root ∧
      (tree_124.indexed = true → t2.root = tree_124.root) ∧
      t2.simplices = tree_124.simplices ∧
      t2.nodes.map strip_gi = tree_124.nodes.map strip_gi ∧
      t2.hom_dim = tree_124.hom_dim ∧
      tree_124.grade_x_values <+: t2.grade_x_values ∧
      tree_124.grade_y_values <+: t2.grade_y_values :=
  ⟨⟨by decide, by decide, by decide⟩, by decide,
    add_simplex_again tree_124 (by decide) (by decide) [1, 4] (by decide) 3 5⟩

/-- C3 as stated fails on a tree whose global indexes are not current: after
`add_simplex({0}, 0, 0)` and `build_VR_complex` on one point on an empty tree
(both calls return), the root has two children labelled 0, both with global
index 0; the tree is closed under faces and contains the simplex `{0}`.
`add_simplex({0}, 0, 0)` adds no node and leaves the grids as they are, but
its `update_global_indexes` numbers the two nodes 0 and 1: the global index of
the second node changes. -/
theorem add_simplex_again_counterexample :
    (run_ops (SimplexTree.init 1) [.add [0] 0 0, .build cloud_one 1 0]).isSome = true ∧
    tree_stale.face_closed = true ∧ [0] ∈ tree_stale.simplices ∧
    tree_stale.simplices = [[0], [0]] ∧
    tree_stale.nodes.map STNode.global_index = [0, 0] ∧
    (tree_stale.add_simplex [0] 0 0).map (fun t2 => t2.simplices) = some [[0], [0]] ∧
    (tree_stale.add_simplex [0] 0 0).map (fun t2 => t2.nodes.map STNode.global_index) =
      some [0, 1] ∧
    (tree_stale.add_simplex [0] 0 0).map (fun t2 => (t2.grade_x_values, t2.grade_y_values)) =
      some (tree_stale.grade_x_values, tree_stale.grade_y_values) := by
  decide

/-! ## Sorted sets and the distance table of the Vietoris-Rips construction -/

theorem mem_set_insert {v x : ℚ} {l : List ℚ} : x ∈ set_insert v l ↔ x = v ∨ x ∈ l := by
  induction l with
  | nil => simp [set_insert]
  | cons a l ih =>
    unfold set_insert
    by_cases h1 : v < a
    · simp [h1]
    · by_cases h2 : v = a
      · subst h2; simp
      · simp only [h1, h2, if_false, List.mem_cons, ih]
        tauto

theorem set_insert_sorted {v : ℚ} {l : List ℚ} (hl : l.Pairwise (· < ·)) :
    (set_insert v l).Pairwise (· < ·) := by
  induction l with
  | nil => simp [set_insert]
  | cons a l ih =>
    rw [List.pairwise_cons] at hl
    unfold set_insert
    by_cases h1 : v < a
    · simp only [h1, if_true, List.pairwise_cons, List.mem_cons, forall_eq_or_imp]
      exact ⟨⟨trivial, fun b hb => lt_trans h1 (hl.1 b hb)⟩, hl.1, hl.2⟩
    · by_cases h2 : v = a
      · subst h2
        simp only [lt_irrefl, if_false, if_true, List.pairwise_cons]
        exact hl
      · simp only [h1, h2, if_false, List.pairwise_cons]
        refine ⟨?_, ih hl.2⟩
        intro b hb
        rcases mem_set_insert.mp hb with rfl | hb
        · exact lt_of_le_of_ne (not_lt.mp h1) (Ne.symm h2)
        · exact hl.1 b hb

/-- A run of conditional insertions into a sorted set leaves a sorted set
holding the old values and the inserted ones. -/
theorem foldl_set_insert {α : Type} (g : α → ℚ) (c : α → Prop) [DecidablePred c]
    (l : List α) :
    ∀ s : List ℚ, s.Pairwise (· < ·) →
      (l.foldl (fun s a => if c a then set_insert (g a) s else s) s).Pairwise (· < ·) ∧
      ∀ x, x ∈ l.foldl (fun s a => if c a then set_insert (g a) s else s) s ↔
        (x ∈ s ∨ ∃ a ∈ l, c a ∧ g a = x) := by
  induction l with
  | nil => intro s hs; simp [hs]
  | cons a l ih =>
    intro s hs
    simp only [List.foldl_cons]
    by_cases hc : c a
    · simp only [hc, if_true]
      obtain ⟨h1, h2⟩ := ih (set_insert (g a) s) (set_insert_sorted hs)
      refine ⟨h1, fun x => ?_⟩
      rw [h2, mem_set_insert]
      simp only [List.mem_cons, exists_eq_or_imp]
      constructor
      · rintro ((rfl | h) | h)
        · exact Or.inr (Or.inl ⟨hc, rfl⟩)
        · exact Or.inl h
        · exact Or.inr (Or.inr h)
      · rintro (h | ⟨_, rfl⟩ | h)
        · exact Or.inl (Or.inr h)
        · exact Or.inl (Or.inl rfl)
        · exact Or.inr h
    · simp only [hc, if_false]
      obtain ⟨h1, h2⟩ := ih s hs
      refine ⟨h1, fun x => ?_⟩
      rw [h2]
      simp only [List.mem_cons, exists_eq_or_imp, hc, false_and, false_or]

theorem time_set_spec (pc : PointCloud) :
    (time_set pc).Pairwise (· < ·) ∧
    ∀ x, x ∈ time_set pc ↔ ∃ i, i < pc.size ∧ pc.birth i = x := by
  have h := foldl_set_insert (fun (i : Nat) => pc.birth i) (fun _ => True) (List.range pc.size)
    [] List.Pairwise.nil
  simp only [if_true] at h
  refine ⟨h.1, fun x => ?_⟩
  unfold time_set
  rw [h.2]
  simp

theorem dist_set_spec (pc : PointCloud) (max_dist : ℚ) :
    (dist_set pc max_dist).Pairwise (· < ·) ∧
    ∀ x, x ∈ dist_set pc max_dist ↔ (x = 0 ∨ (x ∈ distance_table pc ∧ x ≤ max_dist)) := by
  have h := foldl_set_insert (fun (d : ℚ) => d) (fun d => d ≤ max_dist) (distance_table pc)
    [0] (by simp)
  refine ⟨h.1, fun x => ?_⟩
  unfold dist_set
  rw [h.2]
  simp only [List.mem_singleton, exists_eq_right_right']
  constructor
  · rintro (h | ⟨a, h1, h2, rfl⟩)
    · exact Or.inl h
    · exact Or.inr ⟨h1, h2⟩
  · rintro (h | ⟨h1, h2⟩)
    · exact Or.inl h
    · exact Or.inr ⟨x, h1, h2, rfl⟩

/-- The last value of a non-empty increasing list is its greatest. -/
theorem getLast?_of_sorted {l : List ℚ} (hl : l.Pairwise (· < ·)) (hne : l ≠ []) :
    ∃ b, l.getLast? = some b ∧ b ∈ l ∧ ∀ x ∈ l, x ≤ b := by
  obtain ⟨ys, b, rfl⟩ : ∃ ys b, l = ys ++ [b] := by
    refine ⟨l.dropLast, l.getLast hne, ?_⟩
    exact (List.dropLast_append_getLast hne).symm
  refine ⟨b, by simp, by simp, ?_⟩
  intro x hx
  rw [List.pairwise_append] at hl
  simp only [List.mem_append, List.mem_singleton] at hx
  rcases hx with hx | rfl
  · exact le_of_lt (hl.2.2 x hx b (by simp))
  · exact le_refl _

/-- In the concatenation of the rows `f 0, ..., f (n-1)`, the entry `k` of
row `i` sits after the rows before it. -/
theorem flatMap_range_getElem? {α : Type} (f : Nat → List α) (n i k : Nat) (hi : i < n)
    (hk : k < (f i).length) :
    ((List.range n).flatMap f)[((List.range i).flatMap f).length + k]? = (f i)[k]? := by
  induction n with
  | zero => omega
  | succ m ih =>
    rw [List.range_succ, List.flatMap_append]
    simp only [List.flatMap_cons, List.flatMap_nil, List.append_nil]
    by_cases him : i < m
    · have h := ih him
      have hlt : ((List.range i).flatMap f).length + k < ((List.range m).flatMap f).length := by
        by_contra hcon
        rw [List.getElem?_eq_none (by omega)] at h
        rw [List.getElem?_eq_getElem hk] at h
        exact absurd h (by simp)
      rw [List.getElem?_append_left hlt, h]
    · have : i = m := by omega
      subst this
      rw [List.getElem?_append_right (by omega)]
      congr 1
      omega

/-- The rows of the distance table before row `m` hold `m*n - m*(m+1)/2`
entries. -/
theorem distance_rows_length (pc : PointCloud) (m : Nat) (hm : m ≤ pc.size) :
    2 * ((List.range m).flatMap (fun (i : Nat) =>
        (List.range (pc.size - (i + 1))).map (fun (k : Nat) => pc.dist i (i + 1 + k)))).length
      + m * (m + 1) = 2 * m * pc.size := by
  induction m with
  | zero => simp
  | succ m ih =>
    have h := ih (by omega)
    rw [List.range_succ, List.flatMap_append]
    simp only [List.flatMap_cons, List.flatMap_nil, List.append_nil, List.length_append,
      List.length_map, List.length_range]
    obtain ⟨c, hc⟩ : ∃ c, pc.size = m + 1 + c := ⟨pc.size - (m + 1), by omega⟩
    rw [hc] at h ⊢
    simp only [Nat.add_sub_cancel_left]
    nlinarith

/-- The offset at which `build_VR_subtree` reads the distance of the points
`i < j` is the position at which `build_VR_complex` stored it, and it is
inside the array. -/
theorem read_distance_table (pc : PointCloud) (i j : Nat) (hij : i < j) (hj : j < pc.size) :
    read_distance (distance_table pc) pc.size i j = some (pc.dist i j) := by
  have hlen := distance_rows_length pc i (by omega)
  set L := ((List.range i).flatMap (fun (i : Nat) =>
        (List.range (pc.size - (i + 1))).map (fun (k : Nat) => pc.dist i (i + 1 + k)))).length
    with hL
  have hoff : distance_offset pc.size i j = ((L + (j - (i + 1)) : Nat) : Int) := by
    unfold distance_offset
    have h1 : (i : Int) * (3 + i) = 2 * ((pc.size : Int) * i - L + i) := by
      have : (2 * L + i * (i + 1) : Int) = 2 * i * pc.size := by exact_mod_cast hlen
      nlinarith
    rw [h1, Int.mul_ediv_cancel_left _ (by norm_num : (2 : Int) ≠ 0)]
    push_cast
    omega
  unfold read_distance
  rw [hoff]
  have h0 : ¬ (((L + (j - (i + 1)) : Nat) : Int) < 0) := by omega
  simp only [h0, if_false, Int.toNat_ofNat]
  unfold distance_table
  rw [hL, flatMap_range_getElem? _ pc.size i (j - (i + 1)) (by omega) (by simp; omega)]
  simp only [List.getElem?_map]
  rw [List.getElem?_range (by omega)]
  simp only [Option.map_some']
  congr 2
  omega

theorem mem_distance_table (pc : PointCloud) (x : ℚ) :
    x ∈ distance_table pc ↔ ∃ i j, i < j ∧ j < pc.size ∧ pc.dist i j = x := by
  unfold distance_table
  simp only [List.mem_flatMap, List.mem_range, List.mem_map]
  constructor
  · rintro ⟨i, hi, k, hk, rfl⟩
    exact ⟨i, i + 1 + k, by omega, by omega, rfl⟩
  · rintro ⟨i, j, hij, hj, rfl⟩
    exact ⟨i, by omega, j - (i + 1), by omega, by congr 1; omega⟩

@[simp] theorem Res.bind_ok {α β : Type} (a : α) (f : α → Res β) : (Res.ok a).bind f = f a := rfl

/-- The inner loop reads from the array the distances of the point cloud. -/
theorem max_distance_to_eq (pc : PointCloud) (j : Nat) (hj : j < pc.size) :
    ∀ (parents : List Nat) (cur : ℚ), (∀ p ∈ parents, p < j) →
      max_distance_to (distance_table pc) pc.size j parents cur =
        some (ext_dist pc j parents cur) := by
  intro parents
  induction parents with
  | nil => intro cur _; rfl
  | cons p rest ih =>
    intro cur hp
    rw [max_distance_to, read_distance_table pc p j (hp p (by simp)) hj]
    simp only [ext_dist]
    exact ih _ (fun q hq => hp q (by simp [hq]))

/-- On a list of candidates that are point indexes above all the parents,
`build_VR_subtree` returns without reading outside the array, and what it
returns is the reference description with the last grid value as threshold,
the counter having advanced by the number of nodes created. -/
theorem build_VR_subtree_eq (t : SimplexTree) (pc : PointCloud) (max_dim : Int) (back : ℚ)
    (hB : t.grade_y_values.getLast? = some back) (cands : List Nat) :
    ∀ (parents : List Nat) (pt pd : ℚ) (cd gic : Int),
      (∀ j ∈ cands, j < pc.size ∧ ∀ p ∈ parents, p < j) → cands.Pairwise (· < ·) →
      build_VR_subtree t pc (distance_table pc) max_dim cands parents pt pd cd gic =
        .ok (vr_kids t pc back max_dim cands parents pt pd cd gic,
          gic + (kids_count (vr_kids t pc back max_dim cands parents pt pd cd gic) : Int)) := by
  induction cands with
  | nil => intro parents pt pd cd gic _ _; simp [build_VR_subtree, vr_kids]
  | cons j rest ih =>
    intro parents pt pd cd gic hc hs
    rw [List.pairwise_cons] at hs
    have hrest : ∀ j2 ∈ rest, j2 < pc.size ∧ ∀ p ∈ parents, p < j2 :=
      fun j2 h => hc j2 (by simp [h])
    have hrest2 : ∀ j2 ∈ rest, j2 < pc.size ∧ ∀ p ∈ parents ++ [j], p < j2 := by
      intro j2 h
      refine ⟨(hrest j2 h).1, fun p hp => ?_⟩
      simp only [List.mem_append, List.mem_singleton] at hp
      rcases hp with hp | rfl
      · exact (hrest j2 h).2 p hp
      · exact hs.1 j2 h
    rw [build_VR_subtree, max_distance_to_eq pc j (hc j (by simp)).1 parents pd
      (hc j (by simp)).2]
    simp only [hB]
    rw [vr_kids]
    by_cases hle : ext_dist pc j parents pd ≤ back
    · simp only [hle, if_true]
      by_cases hdim : cd < max_dim
      · simp only [hdim, if_true]
        rw [ih _ _ _ _ _ hrest2 hs.2, Res.bind_ok]
        simp only
        rw [ih _ _ _ _ _ hrest hs.2, Res.bind_ok]
        simp only [kids_count_cons, node_count, Nat.cast_add, Nat.cast_one]
        congr 2
        omega
      · simp only [hdim, if_false]
        rw [Res.bind_ok]
        simp only
        rw [ih _ _ _ _ _ hrest hs.2, Res.bind_ok]
        simp only [kids_count_cons, node_count, kids_count_nil, Nat.cast_add, Nat.cast_one,
          Nat.cast_zero]
        rw [Int.add_zero]
        congr 2
        omega
    · simp only [hle, if_false]
      exact ih _ _ _ _ _ hrest hs.2

/-- The loop over the points returns the reference description. -/
theorem build_VR_roots_eq (t : SimplexTree) (pc : PointCloud) (max_dim : Int) (back : ℚ)
    (hB : t.grade_y_values.getLast? = some back) (cands : List Nat) :
    ∀ gic : Int, (∀ j ∈ cands, j < pc.size) → cands.Pairwise (· < ·) →
      build_VR_roots t pc (distance_table pc) max_dim cands gic =
        .ok (vr_roots t pc back max_dim cands gic,
          gic + (kids_count (vr_roots t pc back max_dim cands gic) : Int)) := by
  induction cands with
  | nil => intro gic _ _; simp [build_VR_roots, vr_roots]
  | cons i rest ih =>
    intro gic hc hs
    rw [List.pairwise_cons] at hs
    have hrest : ∀ j2 ∈ rest, j2 < pc.size ∧ ∀ p ∈ [i], p < j2 := by
      intro j2 h
      refine ⟨hc j2 (by simp [h]), fun p hp => ?_⟩
      simp only [List.mem_singleton] at hp
      subst hp
      exact hs.1 j2 h
    rw [build_VR_roots, build_VR_subtree_eq t pc max_dim back hB rest _ _ _ _ _ hrest hs.2,
      Res.bind_ok]
    simp only
    rw [ih _ (fun j2 h => hc j2 (by simp [h])) hs.2, Res.bind_ok, vr_roots]
    simp only [kids_count_cons, node_count, Nat.cast_add, Nat.cast_one]
    congr 2
    omega

theorem vr_kids_nil (t : SimplexTree) (pc : PointCloud) (back : ℚ) (max_dim : Int)
    (parents : List Nat) (pt pd : ℚ) (cd gic : Int) :
    vr_kids t pc back max_dim [] parents pt pd cd gic = [] := by
  simp [vr_kids]

/-- The reference description assigns the preorder numbering from the
starting counter. -/
theorem vr_kids_indexed (t : SimplexTree) (pc : PointCloud) (back : ℚ) (max_dim : Int)
    (cands : List Nat) :
    ∀ (parents : List Nat) (pt pd : ℚ) (cd gic : Int),
      indexed_kids (vr_kids t pc back max_dim cands parents pt pd cd gic) gic = true := by
  induction cands with
  | nil => intro parents pt pd cd gic; simp [vr_kids]
  | cons j rest ih =>
    intro parents pt pd cd gic
    rw [vr_kids]
    by_cases hle : ext_dist pc j parents pd ≤ back
    · simp only [hle, if_true]
      rw [indexed_kids_cons, indexed_node_iff]
      simp only [STNode.global_index_mk, STNode.get_children_mk, true_and]
      refine ⟨?_, ?_⟩
      · by_cases hdim : cd < max_dim
        · simp only [hdim, if_true]; exact ih _ _ _ _ _
        · simp only [hdim, if_false, indexed_kids_nil]
      · have := ih parents pt pd cd (gic + 1 + kids_count (if cd < max_dim then
            vr_kids t pc back max_dim rest (parents ++ [j])
              (if pc.birth j < pt then pt else pc.birth j)
              (ext_dist pc j parents pd) (cd + 1) (gic + 1)
          else []))
        simp only [node_count, Nat.cast_add, Nat.cast_one]
        rw [show gic + (1 + ((kids_count (if cd < max_dim then
            vr_kids t pc back max_dim rest (parents ++ [j])
              (if pc.birth j < pt then pt else pc.birth j)
              (ext_dist pc j parents pd) (cd + 1) (gic + 1)
          else []) : Nat) : Int)) = gic + 1 + ((kids_count (if cd < max_dim then
            vr_kids t pc back max_dim rest (parents ++ [j])
              (if pc.birth j < pt then pt else pc.birth j)
              (ext_dist pc j parents pd) (cd + 1) (gic + 1)
          else []) : Nat) : Int) by omega]
        exact this
    · simp only [hle, if_false]
      exact ih _ _ _ _ _

/-- The labels of the children created are candidates, in the order of the
candidates. -/
theorem vr_kids_labels (t : SimplexTree) (pc : PointCloud) (back : ℚ) (max_dim : Int)
    (cands : List Nat) :
    ∀ (parents : List Nat) (pt pd : ℚ) (cd gic : Int),
      ((vr_kids t pc back max_dim cands parents pt pd cd gic).map STNode.get_vertex).Sublist
        (cands.map (fun (j : Nat) => (j : Int))) := by
  induction cands with
  | nil => intro parents pt pd cd gic; simp [vr_kids]
  | cons j rest ih =>
    intro parents pt pd cd gic
    rw [vr_kids]
    by_cases hle : ext_dist pc j parents pd ≤ back
    · simp only [hle, if_true, List.map_cons, STNode.get_vertex_mk]
      exact (ih _ _ _ _ _).cons₂ _
    · simp only [hle, if_false, List.map_cons]
      exact (ih _ _ _ _ _).cons _

theorem cast_pairwise_lt {l : List Nat} (h : l.Pairwise (· < ·)) :
    (l.map (fun (j : Nat) => (j : Int))).Pairwise (· < ·) := by
  rw [List.pairwise_map]
  exact h.imp (fun h => by exact_mod_cast h)

/-- The reference description keeps sibling vectors strictly increasing. -/
theorem vr_kids_sorted (t : SimplexTree) (pc : PointCloud) (back : ℚ) (max_dim : Int)
    (cands : List Nat) :
    ∀ (parents : List Nat) (pt pd : ℚ) (cd gic : Int), cands.Pairwise (· < ·) →
      sorted_kids (vr_kids t pc back max_dim cands parents pt pd cd gic) = true := by
  induction cands with
  | nil => intro parents pt pd cd gic _; simp [vr_kids, sorted_kids]
  | cons j rest ih =>
    intro parents pt pd cd gic hs
    have hlab := vr_kids_labels t pc back max_dim (j :: rest) parents pt pd cd gic
    have hpw := (cast_pairwise_lt hs).sublist hlab
    rw [List.pairwise_cons] at hs
    rw [sorted_kids_iff]
    refine ⟨hpw, ?_⟩
    rw [vr_kids]
    by_cases hle : ext_dist pc j parents pd ≤ back
    · simp only [hle, if_true, List.mem_cons, forall_eq_or_imp]
      refine ⟨?_, ?_⟩
      · rw [sorted_node_eq, STNode.get_children_mk]
        by_cases hdim : cd < max_dim
        · simp only [hdim, if_true]; exact ih _ _ _ _ _ hs.2
        · simp [hdim, sorted_kids]
      · exact ((sorted_kids_iff _).mp (ih _ _ _ _ _ hs.2)).2
    · simp only [hle, if_false]
      exact ((sorted_kids_iff _).mp (ih _ _ _ _ _ hs.2)).2

/-- Every simplex below the children created is reached along a sub-list of
the candidates that passes the distance test at every step and respects the
dimension bound of the recursion, and its node carries the positions of the
accumulated time and distance. -/
theorem vr_kids_entries (t : SimplexTree) (pc : PointCloud) (back : ℚ) (max_dim : Int)
    (cands : List Nat) :
    ∀ (parents : List Nat) (pt pd : ℚ) (cd gic : Int),
      ∀ e ∈ entries (vr_kids t pc back max_dim cands parents pt pd cd gic),
        ∃ w : List Nat, e.1 = w.map (fun (j : Nat) => (j : Int)) ∧ w ≠ [] ∧ w.Sublist cands ∧
          (w.length = 1 ∨ cd + (w.length : Int) - 1 ≤ max_dim) ∧
          chain_ok pc back parents pd w ∧
          e.2.grade_x = t.grade_x_position (chain_time pc pt w) ∧
          e.2.grade_y = t.grade_y_position (chain_dist pc parents pd w) := by
  induction cands with
  | nil => intro parents pt pd cd gic e he; simp [vr_kids] at he
  | cons j rest ih =>
    intro parents pt pd cd gic e he
    rw [vr_kids] at he
    by_cases hle : ext_dist pc j parents pd ≤ back
    · simp only [hle, if_true, entries_cons, List.mem_append] at he
      rcases he with he | he
      · rw [entries_node_eq] at he
        simp only [STNode.get_vertex_mk, STNode.get_children_mk, List.mem_cons,
          List.mem_map] at he
        rcases he with rfl | ⟨e2, he2, rfl⟩
        · refine ⟨[j], rfl, by simp, by simp, Or.inl rfl, ?_, ?_, ?_⟩
          · simp [chain_ok, hle]
          · simp [chain_time]
          · simp [chain_dist]
        · by_cases hdim : cd < max_dim
          · simp only [hdim, if_true] at he2
            obtain ⟨w, h1, h2, h3, h4, h5, h6, h7⟩ := ih _ _ _ _ _ e2 he2
            refine ⟨j :: w, by simp [h1], by simp, h3.cons₂ j, ?_, ?_, ?_, ?_⟩
            · right
              simp only [List.length_cons, Nat.cast_add, Nat.cast_one]
              rcases h4 with h4 | h4
              · rw [h4]; push_cast; omega
              · omega
            · simp only [chain_ok]; exact ⟨hle, h5⟩
            · simp only [chain_time]; exact h6
            · simp only [chain_dist]; exact h7
          · simp only [hdim, if_false, entries_nil, List.not_mem_nil] at he2
      · obtain ⟨w, h1, h2, h3, h4, h5, h6, h7⟩ := ih _ _ _ _ _ e he
        exact ⟨w, h1, h2, h3.cons j, h4, h5, h6, h7⟩
    · simp only [hle, if_false] at he
      obtain ⟨w, h1, h2, h3, h4, h5, h6, h7⟩ := ih _ _ _ _ _ e he
      exact ⟨w, h1, h2, h3.cons j, h4, h5, h6, h7⟩

/-- Every non-empty sub-list of the candidates that passes the distance test
at every step and respects the dimension bound is a simplex below the
children created. -/
theorem vr_kids_complete (t : SimplexTree) (pc : PointCloud) (back : ℚ) (max_dim : Int)
    (cands : List Nat) :
    ∀ (parents : List Nat) (pt pd : ℚ) (cd gic : Int) (w : List Nat),
      w ≠ [] → w.Sublist cands →
      (w.length = 1 ∨ cd + (w.length : Int) - 1 ≤ max_dim) → chain_ok pc back parents pd w →
      ∃ node, (w.map (fun (j : Nat) => (j : Int)), node) ∈
        entries (vr_kids t pc back max_dim cands parents pt pd cd gic) := by
  induction cands with
  | nil =>
    intro parents pt pd cd gic w hne hsub
    exact absurd (List.sublist_nil.mp hsub) hne
  | cons j rest ih =>
    intro parents pt pd cd gic w hne hsub hdepth hok
    have hsib : w.Sublist rest →
        ∃ node, (w.map (fun (j : Nat) => (j : Int)), node) ∈
          entries (vr_kids t pc back max_dim (j :: rest) parents pt pd cd gic) := by
      intro hs
      rw [vr_kids]
      by_cases hle : ext_dist pc j parents pd ≤ back
      · simp only [hle, if_true, entries_cons, List.mem_append]
        obtain ⟨node, hn⟩ := ih parents pt pd cd _ w hne hs hdepth hok
        exact ⟨node, Or.inr hn⟩
      · simp only [hle, if_false]
        exact ih parents pt pd cd gic w hne hs hdepth hok
    cases hsub with
    | cons _ hs => exact hsib hs
    | @cons₂ w2 _ _ hs =>
      simp only [chain_ok] at hok
      rw [vr_kids]
      simp only [hok.1, if_true, entries_cons, List.mem_append]
      by_cases hw2 : w2 = []
      · subst hw2
        exact ⟨_, Or.inl (mem_entries_node_self _)⟩
      · have hdim : cd < max_dim := by
          simp only [List.length_cons, Nat.cast_add, Nat.cast_one] at hdepth
          have : 0 < w2.length := List.length_pos.mpr hw2
          rcases hdepth with h | h
          · omega
          · omega
        have hdepth2 : w2.length = 1 ∨ cd + 1 + (w2.length : Int) - 1 ≤ max_dim := by
          simp only [List.length_cons, Nat.cast_add, Nat.cast_one] at hdepth
          rcases hdepth with h | h
          · omega
          · right; omega
        obtain ⟨node, hn⟩ := ih (parents ++ [j]) (if pc.birth j < pt then pt else pc.birth j)
          (ext_dist pc j parents pd) (cd + 1) (gic + 1) w2 hw2 hs hdepth2 hok.2
        refine ⟨node, Or.inl ?_⟩
        rw [entries_node_eq]
        simp only [STNode.get_vertex_mk, STNode.get_children_mk, List.map_cons, List.mem_cons,
          List.mem_map, hdim, if_true]
        exact Or.inr ⟨_, hn, rfl⟩

theorem vr_roots_indexed (t : SimplexTree) (pc : PointCloud) (back : ℚ) (max_dim : Int)
    (cands : List Nat) :
    ∀ gic : Int, indexed_kids (vr_roots t pc back max_dim cands gic) gic = true := by
  induction cands with
  | nil => intro gic; simp [vr_roots]
  | cons i rest ih =>
    intro gic
    rw [vr_roots, indexed_kids_cons, indexed_node_iff]
    simp only [STNode.global_index_mk, STNode.get_children_mk, true_and]
    refine ⟨vr_kids_indexed _ _ _ _ _ _ _ _ _ _, ?_⟩
    have := ih (gic + 1 + kids_count (vr_kids t pc back max_dim rest [i] (pc.birth i) 0 1 (gic + 1)))
    simp only [node_count, Nat.cast_add, Nat.cast_one]
    rw [show gic + (1 + ((kids_count (vr_kids t pc back max_dim rest [i] (pc.birth i) 0 1
          (gic + 1)) : Nat) : Int)) = gic + 1 + ((kids_count (vr_kids t pc back max_dim rest [i]
          (pc.birth i) 0 1 (gic + 1)) : Nat) : Int) by omega]
    exact this

theorem vr_roots_labels (t : SimplexTree) (pc : PointCloud) (back : ℚ) (max_dim : Int)
    (cands : List Nat) :
    ∀ gic : Int, (vr_roots t pc back max_dim cands gic).map STNode.get_vertex =
      cands.map (fun (j : Nat) => (j : Int)) := by
  induction cands with
  | nil => intro gic; simp [vr_roots]
  | cons i rest ih => intro gic; rw [vr_roots]; simp [ih]

theorem vr_roots_sorted (t : SimplexTree) (pc : PointCloud) (back : ℚ) (max_dim : Int)
    (cands : List Nat) :
    ∀ gic : Int, cands.Pairwise (· < ·) →
      sorted_kids (vr_roots t pc back max_dim cands gic) = true := by
  induction cands with
  | nil => intro gic _; simp [vr_roots, sorted_kids]
  | cons i rest ih =>
    intro gic hs
    rw [sorted_kids_iff, vr_roots_labels]
    refine ⟨cast_pairwise_lt hs, ?_⟩
    rw [List.pairwise_cons] at hs
    rw [vr_roots]
    simp only [List.mem_cons, forall_eq_or_imp]
    refine ⟨?_, ((sorted_kids_iff _).mp (ih _ hs.2)).2⟩
    rw [sorted_node_eq, STNode.get_children_mk]
    exact vr_kids_sorted _ _ _ _ _ _ _ _ _ _ hs.2

/-- Every simplex below the vertex nodes created starts with a point `i` and
goes on along a sub-list of the later points that passes the distance test at
every step and has at most `max(1, max_dim)` entries. -/
theorem vr_roots_entries (t : SimplexTree) (pc : PointCloud) (back : ℚ) (max_dim : Int)
    (cands : List Nat) :
    ∀ gic : Int, ∀ e ∈ entries (vr_roots t pc back max_dim cands gic),
      ∃ (i : Nat) (w : List Nat), e.1 = (i :: w).map (fun (j : Nat) => (j : Int)) ∧
        (i :: w).Sublist cands ∧
        (w.length ≤ 1 ∨ (w.length : Int) ≤ max_dim) ∧
        chain_ok pc back [i] 0 w ∧
        e.2.grade_x = t.grade_x_position (chain_time pc (pc.birth i) w) ∧
        ((w = [] ∧ e.2.grade_y = 0) ∨
          (w ≠ [] ∧ e.2.grade_y = t.grade_y_position (chain_dist pc [i] 0 w))) := by
  induction cands with
  | nil => intro gic e he; simp [vr_roots] at he
  | cons i rest ih =>
    intro gic e he
    rw [vr_roots] at he
    simp only [entries_cons, List.mem_append] at he
    rcases he with he | he
    · rw [entries_node_eq] at he
      simp only [STNode.get_vertex_mk, STNode.get_children_mk, List.mem_cons,
        List.mem_map] at he
      rcases he with rfl | ⟨e2, he2, rfl⟩
      · refine ⟨i, [], rfl, by simp, Or.inl (by simp), by simp [chain_ok], ?_, Or.inl ?_⟩
        · simp [chain_time]
        · simp
      · obtain ⟨w, h1, h2, h3, h4, h5, h6, h7⟩ := vr_kids_entries _ _ _ _ _ _ _ _ _ _ e2 he2
        refine ⟨i, w, by simp [h1], h3.cons₂ i, ?_, h5, h6, Or.inr ⟨h2, h7⟩⟩
        rcases h4 with h4 | h4
        · left; omega
        · right; omega
    · obtain ⟨i2, w, h1, h2, h3, h4, h5, h6⟩ := ih _ e he
      exact ⟨i2, w, h1, h2.cons i, h3, h4, h5, h6⟩

/-- Every list that starts with a candidate `i` and goes on along a sub-list
of the later candidates passing the distance test at every step, with at most
`max(1, max_dim)` further entries, is a simplex below the vertex nodes
created. -/
theorem vr_roots_complete (t : SimplexTree) (pc : PointCloud) (back : ℚ) (max_dim : Int)
    (cands : List Nat) :
    ∀ (gic : Int) (i : Nat) (w : List Nat), (i :: w).Sublist cands →
      (w.length ≤ 1 ∨ (w.length : Int) ≤ max_dim) → chain_ok pc back [i] 0 w →
      ∃ node, ((i :: w).map (fun (j : Nat) => (j : Int)), node) ∈
        entries (vr_roots t pc back max_dim cands gic) := by
  induction cands with
  | nil => intro gic i w hsub; simp at hsub
  | cons i0 rest ih =>
    intro gic i w hsub hdepth hok
    rw [vr_roots]
    simp only [entries_cons, List.mem_append]
    cases hsub with
    | cons _ hs =>
      obtain ⟨node, hn⟩ := ih _ i w hs hdepth hok
      exact ⟨node, Or.inr hn⟩
    | cons₂ _ hs =>
      by_cases hw : w = []
      · subst hw
        exact ⟨_, Or.inl (mem_entries_node_self _)⟩
      · have hlen : 0 < w.length := List.length_pos.mpr hw
        obtain ⟨node, hn⟩ := vr_kids_complete t pc back max_dim rest [i0] (pc.birth i0) 0 1
          (gic + 1) w hw hs (by rcases hdepth with h | h; (left; omega); (right; omega)) hok
        refine ⟨node, Or.inl ?_⟩
        rw [entries_node_eq]
        simp only [STNode.get_vertex_mk, STNode.get_children_mk, List.map_cons, List.mem_cons,
          List.mem_map]
        exact Or.inr ⟨_, hn, rfl⟩

/-! ### The accumulated distance and time in closed form -/

theorem ext_dist_le_iff (pc : PointCloud) (j : Nat) (B : ℚ) :
    ∀ (P : List Nat) (cur : ℚ),
      ext_dist pc j P cur ≤ B ↔ (cur ≤ B ∧ ∀ p ∈ P, pc.dist p j ≤ B) := by
  intro P
  induction P with
  | nil => intro cur; simp [ext_dist]
  | cons p rest ih =>
    intro cur
    rw [ext_dist, ih]
    simp only [List.mem_cons, forall_eq_or_imp]
    by_cases h : pc.dist p j > cur
    · simp only [h, if_true]
      constructor
      · rintro ⟨h1, h2⟩; exact ⟨le_trans (le_of_lt h) h1, h1, h2⟩
      · rintro ⟨_, h1, h2⟩; exact ⟨h1, h2⟩
    · simp only [h, if_false]
      constructor
      · rintro ⟨h1, h2⟩; exact ⟨h1, le_trans (not_lt.mp h) h1, h2⟩
      · rintro ⟨h1, _, h2⟩; exact ⟨h1, h2⟩

theorem ext_dist_attained (pc : PointCloud) (j : Nat) :
    ∀ (P : List Nat) (cur : ℚ),
      ext_dist pc j P cur = cur ∨ ∃ p ∈ P, ext_dist pc j P cur = pc.dist p j := by
  intro P
  induction P with
  | nil => intro cur; left; rfl
  | cons p rest ih =>
    intro cur
    rw [ext_dist]
    by_cases h : pc.dist p j > cur
    · simp only [h, if_true]
      rcases ih (pc.dist p j) with h1 | ⟨q, hq, h1⟩
      · exact Or.inr ⟨p, by simp, h1⟩
      · exact Or.inr ⟨q, by simp [hq], h1⟩
    · simp only [h, if_false]
      rcases ih cur with h1 | ⟨q, hq, h1⟩
      · exact Or.inl h1
      · exact Or.inr ⟨q, by simp [hq], h1⟩

theorem ext_dist_ge (pc : PointCloud) (j : Nat) (P : List Nat) (cur : ℚ) :
    cur ≤ ext_dist pc j P cur ∧ ∀ p ∈ P, pc.dist p j ≤ ext_dist pc j P cur :=
  (ext_dist_le_iff pc j (ext_dist pc j P cur) P cur).mp (le_refl _)

/-- The distance test passes along the whole list exactly when the starting
distance, the distances from the parents to the entries of the list and the
distances between entries of the list are all within the threshold. -/
theorem chain_ok_iff (pc : PointCloud) (B : ℚ) (w : List Nat) :
    ∀ (P : List Nat) (pd : ℚ),
      chain_ok pc B P pd w ↔
        ((w = [] ∨ pd ≤ B) ∧ (∀ p ∈ P, ∀ j ∈ w, pc.dist p j ≤ B) ∧
          w.Pairwise (fun a b => pc.dist a b ≤ B)) := by
  induction w with
  | nil => intro P pd; simp [chain_ok]
  | cons j w ih =>
    intro P pd
    simp only [chain_ok, ih, ext_dist_le_iff, List.pairwise_cons]
    constructor
    · rintro ⟨⟨h1, h2⟩, _, h4, h5⟩
      refine ⟨Or.inr h1, ?_, ?_, h5⟩
      · intro p hp a ha
        rcases List.mem_cons.mp ha with rfl | ha
        · exact h2 p hp
        · exact h4 p (List.mem_append_left _ hp) a ha
      · intro a ha
        exact h4 j (List.mem_append_right _ (List.mem_singleton_self j)) a ha
    · rintro ⟨h1, h2, h3, h4⟩
      have h1b : pd ≤ B := by
        rcases h1 with h1 | h1
        · exact absurd h1 (by simp)
        · exact h1
      refine ⟨⟨h1b, fun p hp => h2 p hp j (List.mem_cons_self _ _)⟩,
        Or.inr ⟨h1b, fun p hp => h2 p hp j (List.mem_cons_self _ _)⟩, ?_, h4⟩
      intro p hp a ha
      rcases List.mem_append.mp hp with hp | hp
      · exact h2 p hp a (List.mem_cons_of_mem _ ha)
      · rw [List.mem_singleton.mp hp]
        exact h3 a ha

/-- The accumulated distance bounds the starting distance and all distances
involved, and is one of them. -/
theorem chain_dist_spec (pc : PointCloud) (w : List Nat) :
    ∀ (P : List Nat) (pd : ℚ),
      (pd ≤ chain_dist pc P pd w ∧
        (∀ p ∈ P, ∀ j ∈ w, pc.dist p j ≤ chain_dist pc P pd w) ∧
        w.Pairwise (fun a b => pc.dist a b ≤ chain_dist pc P pd w)) ∧
      (chain_dist pc P pd w = pd ∨
        (∃ p ∈ P, ∃ j ∈ w, chain_dist pc P pd w = pc.dist p j) ∨
        ∃ a b, [a, b].Sublist w ∧ chain_dist pc P pd w = pc.dist a b) := by
  induction w with
  | nil => intro P pd; simp [chain_dist]
  | cons j w ih =>
    intro P pd
    obtain ⟨⟨h1, h2, h3⟩, h4⟩ := ih (P ++ [j]) (ext_dist pc j P pd)
    obtain ⟨g1, g2⟩ := ext_dist_ge pc j P pd
    simp only [chain_dist]
    refine ⟨⟨le_trans g1 h1, ?_, ?_⟩, ?_⟩
    · intro p hp a ha
      simp only [List.mem_cons] at ha
      rcases ha with rfl | ha
      · exact le_trans (g2 p hp) h1
      · exact h2 p (by simp [hp]) a ha
    · rw [List.pairwise_cons]
      exact ⟨fun a ha => h2 j (by simp) a ha, h3⟩
    · rcases h4 with h4 | ⟨p, hp, a, ha, h4⟩ | ⟨a, b, hab, h4⟩
      · rcases ext_dist_attained pc j P pd with h5 | ⟨p, hp, h5⟩
        · left; rw [h4, h5]
        · right; left
          exact ⟨p, hp, j, by simp, by rw [h4, h5]⟩
      · simp only [List.mem_append, List.mem_singleton] at hp
        rcases hp with hp | rfl
        · right; left
          exact ⟨p, hp, a, by simp [ha], h4⟩
        · right; right
          refine ⟨p, a, ?_, h4⟩
          exact (List.singleton_sublist.mpr ha).cons₂ p
      · right; right
        exact ⟨a, b, hab.cons j, h4⟩

/-- When the distance test passes along a non-empty list, the accumulated
distance is within the threshold. -/
theorem chain_dist_le (pc : PointCloud) (B : ℚ) (w : List Nat) :
    ∀ (P : List Nat) (pd : ℚ), w ≠ [] → chain_ok pc B P pd w → chain_dist pc P pd w ≤ B := by
  induction w with
  | nil => intro P pd h; exact absurd rfl h
  | cons j w ih =>
    intro P pd _ hok
    simp only [chain_ok] at hok
    simp only [chain_dist]
    by_cases hw : w = []
    · subst hw; simp only [chain_dist]; exact hok.1
    · exact ih _ _ hw hok.2

/-- The accumulated time bounds the starting time and the births along the
list, and is one of them. -/
theorem chain_time_spec (pc : PointCloud) (w : List Nat) :
    ∀ pt : ℚ,
      (pt ≤ chain_time pc pt w ∧ ∀ j ∈ w, pc.birth j ≤ chain_time pc pt w) ∧
      (chain_time pc pt w = pt ∨ ∃ j ∈ w, chain_time pc pt w = pc.birth j) := by
  induction w with
  | nil => intro pt; simp [chain_time]
  | cons j w ih =>
    intro pt
    simp only [chain_time]
    by_cases h : pc.birth j < pt
    · simp only [h, if_true]
      obtain ⟨⟨h1, h2⟩, h3⟩ := ih pt
      refine ⟨⟨h1, ?_⟩, ?_⟩
      · intro a ha
        simp only [List.mem_cons] at ha
        rcases ha with rfl | ha
        · exact le_trans (le_of_lt h) h1
        · exact h2 a ha
      · rcases h3 with h3 | ⟨a, ha, h3⟩
        · exact Or.inl h3
        · exact Or.inr ⟨a, by simp [ha], h3⟩
    · simp only [h, if_false]
      obtain ⟨⟨h1, h2⟩, h3⟩ := ih (pc.birth j)
      refine ⟨⟨le_trans (not_lt.mp h) h1, ?_⟩, ?_⟩
      · intro a ha
        simp only [List.mem_cons] at ha
        rcases ha with rfl | ha
        · exact h1
        · exact h2 a ha
      · rcases h3 with h3 | ⟨a, ha, h3⟩
        · exact Or.inr ⟨j, by simp, h3⟩
        · exact Or.inr ⟨a, by simp [ha], h3⟩

/-- The sub-lists of `0, ..., n-1` are the strictly increasing lists of
numbers below `n`. -/
theorem sublist_range_iff (l : List Nat) (n : Nat) :
    l.Sublist (List.range n) ↔ (l.Pairwise (· < ·) ∧ ∀ x ∈ l, x < n) := by
  constructor
  · intro h
    refine ⟨(List.pairwise_lt_range n).sublist h, fun x hx => ?_⟩
    exact List.mem_range.mp (h.subset hx)
  · rintro ⟨h1, h2⟩
    have hnd : l.Nodup := h1.imp (fun h => ne_of_lt h)
    have hsub : l ⊆ List.range n := fun x hx => List.mem_range.mpr (h2 x hx)
    exact List.sublist_of_subperm_of_sorted (List.subperm_of_subset hnd hsub) h1
      (List.pairwise_lt_range n)

/-! ### `build_VR_complex` on an empty tree -/

theorem zero_mem_dist_set (pc : PointCloud) (max_dist : ℚ) : (0 : ℚ) ∈ dist_set pc max_dist :=
  ((dist_set_spec pc max_dist).2 0).mpr (Or.inl rfl)

/-- The threshold `grade_y_values.back()` used by the construction. -/
theorem dist_set_back (pc : PointCloud) (max_dist : ℚ) :
    ∃ B, (dist_set pc max_dist).getLast? = some B ∧ B ∈ dist_set pc max_dist ∧
      ∀ x ∈ dist_set pc max_dist, x ≤ B :=
  getLast?_of_sorted (dist_set_spec pc max_dist).1
    (List.ne_nil_of_mem (zero_mem_dist_set pc max_dist))

/-- On an empty tree `build_VR_complex` returns: the grids are the two sorted
sets and the children of the root are the vertex nodes of the reference
description, with the last distance grid value as threshold. -/
theorem build_VR_complex_init (dim : Int) (pc : PointCloud) (max_dim : Int) (max_dist : ℚ)
    (B : ℚ) (hB : (dist_set pc max_dist).getLast? = some B) :
    (SimplexTree.init dim).build_VR_complex pc max_dim max_dist =
      .ok { vr_grids dim pc max_dist with
            root := STNode.root_init.set_children
              (vr_roots (vr_grids dim pc max_dist) pc B max_dim (List.range pc.size) 0) } := by
  unfold SimplexTree.build_VR_complex
  have h1 : ({ SimplexTree.init dim with
      grade_y_values := (SimplexTree.init dim).grade_y_values ++ dist_set pc max_dist,
      grade_x_values := (SimplexTree.init dim).grade_x_values ++ time_set pc } : SimplexTree)
      = vr_grids dim pc max_dist := by
    simp [SimplexTree.init, vr_grids]
  simp only [h1]
  rw [build_VR_roots_eq (vr_grids dim pc max_dist) pc max_dim B hB (List.range pc.size) 0
    (fun j hj => List.mem_range.mp hj) (List.pairwise_lt_range _), Res.bind_ok]
  simp [vr_grids, STNode.root_init, SimplexTree.init]

/-- With a non-negative cutoff, a distance of the point cloud passes the test
against the last grid value exactly when it does not exceed the cutoff. -/
theorem dist_le_back_iff (pc : PointCloud) (max_dist : ℚ) (h0 : 0 ≤ max_dist) (B : ℚ)
    (hB1 : B ∈ dist_set pc max_dist) (hB2 : ∀ x ∈ dist_set pc max_dist, x ≤ B)
    (a b : Nat) (hab : a < b) (hb : b < pc.size) :
    pc.dist a b ≤ B ↔ pc.dist a b ≤ max_dist := by
  constructor
  · intro h
    rcases ((dist_set_spec pc max_dist).2 B).mp hB1 with h1 | ⟨_, h1⟩
    · rw [h1] at h; exact le_trans h h0
    · exact le_trans h h1
  · intro h
    apply hB2
    exact ((dist_set_spec pc max_dist).2 _).mpr
      (Or.inr ⟨(mem_distance_table pc _).mpr ⟨a, b, hab, hb, rfl⟩, h⟩)

/-- On strictly increasing lists of point indexes, the pairwise test against
the last grid value and against the cutoff agree. -/
theorem pairwise_back_iff (pc : PointCloud) (max_dist : ℚ) (h0 : 0 ≤ max_dist) (B : ℚ)
    (hB1 : B ∈ dist_set pc max_dist) (hB2 : ∀ x ∈ dist_set pc max_dist, x ≤ B)
    (vs : List Nat) (hs : vs.Pairwise (· < ·)) (hn : ∀ v ∈ vs, v < pc.size) :
    vs.Pairwise (fun a b => pc.dist a b ≤ B) ↔
      vs.Pairwise (fun a b => pc.dist a b ≤ max_dist) := by
  induction vs with
  | nil => simp
  | cons v vs ih =>
    rw [List.pairwise_cons] at hs
    simp only [List.pairwise_cons]
    rw [ih hs.2 (fun x hx => hn x (by simp [hx]))]
    constructor
    · rintro ⟨h1, h2⟩
      exact ⟨fun a ha => (dist_le_back_iff pc max_dist h0 B hB1 hB2 v a (hs.1 a ha)
        (hn a (by simp [ha]))).mp (h1 a ha), h2⟩
    · rintro ⟨h1, h2⟩
      exact ⟨fun a ha => (dist_le_back_iff pc max_dist h0 B hB1 hB2 v a (hs.1 a ha)
        (hn a (by simp [ha]))).mpr (h1 a ha), h2⟩

theorem cast_list_injective {a b : List Nat}
    (h : a.map (fun (j : Nat) => (j : Int)) = b.map (fun (j : Nat) => (j : Int))) : a = b := by
  apply List.map_injective_iff.mpr _ h
  intro x y hxy
  simp only at hxy
  exact_mod_cast hxy

/-- The simplices of the tree that `build_VR_complex` builds on an empty
tree: the strictly increasing lists of point indexes, with at most
`max(1, max_dim)` entries after the first, all of whose pairwise distances
pass the test against the threshold. -/
theorem vr_simplices_iff (dim : Int) (pc : PointCloud) (max_dim : Int) (max_dist : ℚ) (B : ℚ)
    (h0B : 0 ≤ B) (vs : List Nat) (hne : vs ≠ []) :
    vs.map (fun (j : Nat) => (j : Int)) ∈
        (entries (vr_roots (vr_grids dim pc max_dist) pc B max_dim
          (List.range pc.size) 0)).map Prod.fst ↔
      (vs.Pairwise (· < ·) ∧ (∀ v ∈ vs, v < pc.size) ∧
        (vs.length ≤ 2 ∨ (vs.length : Int) - 1 ≤ max_dim) ∧
        vs.Pairwise (fun a b => pc.dist a b ≤ B)) := by
  constructor
  · intro h
    simp only [List.mem_map] at h
    obtain ⟨e, he, heq⟩ := h
    obtain ⟨i, w, h1, h2, h3, h4, _⟩ := vr_roots_entries _ pc B max_dim _ 0 e he
    rw [h1] at heq
    have := cast_list_injective heq
    subst this
    rw [sublist_range_iff] at h2
    rw [chain_ok_iff] at h4
    refine ⟨h2.1, h2.2, ?_, ?_⟩
    · simp only [List.length_cons, Nat.cast_add, Nat.cast_one]
      rcases h3 with h3 | h3
      · left; omega
      · right; omega
    · rw [List.pairwise_cons]
      exact ⟨fun a ha => h4.2.1 i (by simp) a ha, h4.2.2⟩
  · rintro ⟨h1, h2, h3, h4⟩
    cases vs with
    | nil => exact absurd rfl hne
    | cons i w =>
      rw [List.pairwise_cons] at h4
      obtain ⟨node, hn⟩ := vr_roots_complete (vr_grids dim pc max_dist) pc B max_dim
        (List.range pc.size) 0 i w ((sublist_range_iff _ _).mpr ⟨h1, h2⟩)
        (by
          simp only [List.length_cons, Nat.cast_add, Nat.cast_one] at h3
          rcases h3 with h3 | h3
          · left; omega
          · right; omega)
        ((chain_ok_iff pc B w [i] 0).mpr ⟨Or.inr h0B, fun p hp a ha => by
          rw [List.mem_singleton.mp hp]; exact h4.1 a ha, h4.2⟩)
      exact List.mem_map_of_mem Prod.fst hn

/-- The tree that `build_VR_complex` returns on an empty tree, with the facts
shared by the properties below: it is sorted, carries the preorder numbering,
its grids are the two sorted sets, and its simplices are characterised by the
threshold `B`, the last value of the distance grid. -/
theorem build_VR_complex_facts (dim : Int) (pc : PointCloud) (max_dim : Int) (max_dist : ℚ) :
    ∃ (t2 : SimplexTree) (B : ℚ),
      (SimplexTree.init dim).build_VR_complex pc max_dim max_dist = .ok t2 ∧
      B ∈ dist_set pc max_dist ∧ (∀ x ∈ dist_set pc max_dist, x ≤ B) ∧ 0 ≤ B ∧
      t2.grade_x_values = time_set pc ∧ t2.grade_y_values = dist_set pc max_dist ∧
      t2.root.get_children =
        vr_roots (vr_grids dim pc max_dist) pc B max_dim (List.range pc.size) 0 ∧
      t2.sorted = true ∧ t2.indexed = true := by
  obtain ⟨B, hB, hB1, hB2⟩ := dist_set_back pc max_dist
  refine ⟨_, B, build_VR_complex_init dim pc max_dim max_dist B hB, hB1, hB2,
    hB2 0 (zero_mem_dist_set pc max_dist), rfl, rfl, by simp, ?_, ?_⟩
  · unfold SimplexTree.sorted
    rw [sorted_node_eq]
    simp only [STNode.get_children_set_children]
    exact vr_roots_sorted _ _ _ _ _ _ (List.pairwise_lt_range _)
  · unfold SimplexTree.indexed
    simp only [STNode.get_children_set_children]
    exact vr_roots_indexed _ _ _ _ _ _

/-- C12 (amended).  After `build_VR_complex` on an empty tree with `n` points
and a cutoff `max_dist >= 0`, for every `max_dim` and all `0 <= i < j < n`,
the distance read from the table at the offset of the pair is `d(i, j)`, and
the tree contains the edge `{i, j}` if and only if `d(i, j) <= max_dist`. -/
theorem build_VR_complex_edges (dim : Int) (pc : PointCloud) (max_dim : Int) (max_dist : ℚ)
    (h0 : 0 ≤ max_dist) :
    ∃ t2, (SimplexTree.init dim).build_VR_complex pc max_dim max_dist = .ok t2 ∧
      ∀ i j : Nat, i < j → j < pc.size →
        read_distance (distance_table pc) pc.size i j = some (pc.dist i j) ∧
        (([(i : Int), (j : Int)] ∈ t2.simplices) ↔ pc.dist i j ≤ max_dist) := by
  obtain ⟨t2, B, h1, hB1, hB2, h0B, _, _, hkids, _, _⟩ :=
    build_VR_complex_facts dim pc max_dim max_dist
  refine ⟨t2, h1, fun i j hij hj => ⟨read_distance_table pc i j hij hj, ?_⟩⟩
  have h := vr_simplices_iff dim pc max_dim max_dist B h0B [i, j] (by simp)
  unfold SimplexTree.simplices
  rw [hkids]
  simp only [List.map_cons, List.map_nil] at h
  rw [h]
  simp only [List.pairwise_cons, List.mem_singleton, forall_eq, List.not_mem_nil,
    IsEmpty.forall_iff, implies_true, List.Pairwise.nil, and_true, List.mem_cons,
    forall_eq_or_imp, List.length_cons, List.length_nil]
  rw [dist_le_back_iff pc max_dist h0 B hB1 hB2 i j hij hj]
  constructor
  · rintro ⟨_, _, _, h⟩; exact h
  · intro h; exact ⟨hij, ⟨by omega, hj⟩, Or.inl (by omega), h⟩

/-- C12 (amended) on three points with `d(0,1) = 1`, `d(0,2) = 4`,
`d(1,2) = 2` and cutoff 3: the edges `{0,1}` and `{1,2}` are in the tree,
`{0,2}` is not. -/
theorem build_VR_complex_edges_witness :
    (0 : ℚ) ≤ 3 ∧
    ((SimplexTree.init 1).build_VR_complex cloud_three 2 3).map SimplexTree.simplices =
      .ok [[0], [0, 1], [1], [1, 2], [2]] ∧
    ∃ t2, (SimplexTree.init 1).build_VR_complex cloud_three 2 3 = .ok t2 ∧
      ∀ i j : Nat, i < j → j < cloud_three.size →
        read_distance (distance_table cloud_three) cloud_three.size i j =
          some (cloud_three.dist i j) ∧
        (([(i : Int), (j : Int)] ∈ t2.simplices) ↔ cloud_three.dist i j ≤ 3) :=
  ⟨by decide, by decide, build_VR_complex_edges 1 cloud_three 2 3 (by decide)⟩

/-- C12 as stated fails for a negative cutoff: with two coincident points and
`max_dist = -1` the tree contains the edge `{0, 1}` although
`d(0, 1) = 0 > -1`; the test is made against the last value of the distance
grid, which always holds 0. -/
theorem build_VR_complex_edges_counterexample :
    ((SimplexTree.init 1).build_VR_complex cloud_twin 1 (-1)).map SimplexTree.simplices =
      .ok [[0], [0, 1], [1]] ∧
    ((SimplexTree.init 1).build_VR_complex cloud_twin 1 (-1)).map
      SimplexTree.grade_y_values = .ok [0] ∧
    ¬ (cloud_twin.dist 0 1 ≤ (-1 : ℚ)) := by
  decide

/-- C13.  After `build_VR_complex` on an empty tree with `max_dist >= 0`, the
sibling vectors are strictly increasing in label and no simplex is listed
twice (so a simplex that is in the tree appears exactly once); and a strictly
increasing list of `k + 1` point indexes with `1 <= k <= max_dim` is a simplex
of the tree if and only if every pairwise distance among its vertices is
`<= max_dist`. -/
theorem build_VR_complex_flag (dim : Int) (pc : PointCloud) (max_dim : Int) (max_dist : ℚ)
    (h0 : 0 ≤ max_dist) :
    ∃ t2, (SimplexTree.init dim).build_VR_complex pc max_dim max_dist = .ok t2 ∧
      t2.sorted = true ∧ t2.simplices.Nodup ∧
      ∀ vs : List Nat, vs.Pairwise (· < ·) → (∀ v ∈ vs, v < pc.size) → 2 ≤ vs.length →
        (vs.length : Int) - 1 ≤ max_dim →
        (vs.map (fun (j : Nat) => (j : Int)) ∈ t2.simplices ↔
          vs.Pairwise (fun a b => pc.dist a b ≤ max_dist)) := by
  obtain ⟨t2, B, h1, hB1, hB2, h0B, _, _, hkids, hs, _⟩ :=
    build_VR_complex_facts dim pc max_dim max_dist
  have hnd : t2.simplices.Nodup := by
    unfold SimplexTree.sorted at hs
    rw [sorted_node_eq] at hs
    exact entries_paths_nodup.2 _ hs
  have hiff : ∀ vs : List Nat, vs.Pairwise (· < ·) → (∀ v ∈ vs, v < pc.size) →
      2 ≤ vs.length → (vs.length : Int) - 1 ≤ max_dim →
      (vs.map (fun (j : Nat) => (j : Int)) ∈ t2.simplices ↔
        vs.Pairwise (fun a b => pc.dist a b ≤ max_dist)) := by
    intro vs hinc hn hlen hdim
    have hne : vs ≠ [] := by intro h; rw [h] at hlen; simp at hlen
    have h := vr_simplices_iff dim pc max_dim max_dist B h0B vs hne
    unfold SimplexTree.simplices
    rw [hkids, h, pairwise_back_iff pc max_dist h0 B hB1 hB2 vs hinc hn]
    constructor
    · rintro ⟨_, _, _, h⟩; exact h
    · intro h; exact ⟨hinc, hn, Or.inr hdim, h⟩
  exact ⟨t2, h1, hs, hnd, hiff⟩

/-- C13 on three points at pairwise distance 1 with cutoff 2 and
`max_dim = 2`: all seven simplices are built. -/
theorem build_VR_complex_flag_witness :
    (0 : ℚ) ≤ 2 ∧
    ((SimplexTree.init 1).build_VR_complex
        { size := 3, birth := fun _ => 0, dist := fun _ _ => 1 } 2 2).map
      SimplexTree.simplices = .ok [[0], [0, 1], [0, 1, 2], [0, 2], [1], [1, 2], [2]] ∧
    ∃ t2, (SimplexTree.init 1).build_VR_complex
        { size := 3, birth := fun _ => 0, dist := fun _ _ => 1 } 2 2 = .ok t2 ∧
      t2.sorted = true ∧ t2.simplices.Nodup ∧
      ∀ vs : List Nat, vs.Pairwise (· < ·) → (∀ v ∈ vs, v < 3) → 2 ≤ vs.length →
        (vs.length : Int) - 1 ≤ 2 →
        (vs.map (fun (j : Nat) => (j : Int)) ∈ t2.simplices ↔
          vs.Pairwise (fun _ _ => (1 : ℚ) ≤ 2)) :=
  ⟨by decide, by decide,
    build_VR_complex_flag 1 { size := 3, birth := fun _ => 0, dist := fun _ _ => 1 } 2 2
      (by decide)⟩

/-- The dimension bound that `build_VR_complex` does enforce on an empty tree:
a simplex has at most two vertices, or its dimension is at most `max_dim`. -/
theorem build_VR_complex_dimension (dim : Int) (pc : PointCloud) (max_dim : Int)
    (max_dist : ℚ) :
    ∃ t2, (SimplexTree.init dim).build_VR_complex pc max_dim max_dist = .ok t2 ∧
      ∀ p ∈ t2.simplices, p.length ≤ 2 ∨ (p.length : Int) - 1 ≤ max_dim := by
  obtain ⟨t2, B, h1, _, _, _, _, _, hkids, _, _⟩ :=
    build_VR_complex_facts dim pc max_dim max_dist
  refine ⟨t2, h1, fun p hp => ?_⟩
  unfold SimplexTree.simplices at hp
  rw [hkids] at hp
  simp only [List.mem_map] at hp
  obtain ⟨e, he, rfl⟩ := hp
  obtain ⟨i, w, h1, _, h3, _⟩ := vr_roots_entries _ pc B max_dim _ 0 e he
  rw [h1]
  simp only [List.map_cons, List.length_cons, List.length_map, Nat.cast_add, Nat.cast_one]
  rcases h3 with h3 | h3
  · left; omega
  · right; omega

/-- C14, evaluated: with two points at distance 1, cutoff 1 and
`max_dim = 0`, the tree built on an empty tree contains the edge `{0, 1}`, a
simplex of dimension 1. -/
theorem build_VR_complex_dimension_cap_fails :
    ((SimplexTree.init 1).build_VR_complex cloud_pair 0 1).map SimplexTree.simplices =
      .ok [[0], [0, 1], [1]] := by
  decide

/-- C16.  The global indexes that `build_VR_complex` assigns while building
on an empty tree are the preorder numbering from 0, so calling
`update_global_indexes` right afterwards changes nothing. -/
theorem build_VR_complex_indexed (dim : Int) (pc : PointCloud) (max_dim : Int)
    (max_dist : ℚ) :
    ∃ t2, (SimplexTree.init dim).build_VR_complex pc max_dim max_dist = .ok t2 ∧
      t2.indexed = true ∧
      t2.nodes.map STNode.global_index = int_range 0 t2.count ∧
      t2.update_global_indexes = t2 := by
  obtain ⟨t2, B, h1, _, _, _, _, _, _, _, hi⟩ :=
    build_VR_complex_facts dim pc max_dim max_dist
  refine ⟨t2, h1, hi, (indexed_facts t2 hi).1, ?_⟩
  unfold SimplexTree.update_global_indexes
  rw [update_gi_of_indexed.1 t2.root 0 hi]

theorem grade_value_nonneg {values : List ℚ} {i : Int} {v : ℚ}
    (h : grade_value values i = some v) : 0 ≤ i := by
  unfold grade_value at h
  by_contra hcon
  have : i < 0 := by omega
  simp [this] at h

/-- An increasing list that holds 0 and no negative value starts with 0. -/
theorem head_of_sorted_nonneg {l : List ℚ} (hs : l.Pairwise (· < ·)) (h0 : (0 : ℚ) ∈ l)
    (hpos : ∀ x ∈ l, 0 ≤ x) : grade_value l 0 = some 0 := by
  cases l with
  | nil => simp at h0
  | cons a l =>
    rw [List.pairwise_cons] at hs
    have ha : a = 0 := by
      simp only [List.mem_cons] at h0
      rcases h0 with h | h
      · exact h.symm
      · have h1 := hs.1 0 h
        have h2 := hpos a (by simp)
        exact absurd h1 (not_lt.mpr h2)
    subst ha
    simp [grade_value]

/-- C15.  For every simplex produced by `build_VR_complex` on an empty tree
(the computed distances being non-negative, as values of `sqrt`): neither
stored grade index is negative, in particular not `-1`; the x grid value at
`grade_x` is the maximum birth value over the vertices (it bounds them all
and is one of them); and the y grid value at `grade_y` is the maximum
pairwise distance among the vertices (it bounds them all and is one of
them), or 0 with y index 0 for a single vertex. -/
theorem build_VR_complex_grades (dim : Int) (pc : PointCloud) (max_dim : Int) (max_dist : ℚ)
    (hd : ∀ i j : Nat, i < j → j < pc.size → 0 ≤ pc.dist i j) :
    ∃ t2, (SimplexTree.init dim).build_VR_complex pc max_dim max_dist = .ok t2 ∧
      ∀ e ∈ entries t2.root.get_children, ∃ (vs : List Nat) (mx my : ℚ),
        e.1 = vs.map (fun (j : Nat) => (j : Int)) ∧ vs ≠ [] ∧
        0 ≤ e.2.grade_x ∧ 0 ≤ e.2.grade_y ∧
        t2.grade_x_value e.2.grade_x = some mx ∧ t2.grade_y_value e.2.grade_y = some my ∧
        (∀ v ∈ vs, pc.birth v ≤ mx) ∧ (∃ v ∈ vs, pc.birth v = mx) ∧
        vs.Pairwise (fun a b => pc.dist a b ≤ my) ∧
        ((vs.length = 1 ∧ my = 0 ∧ e.2.grade_y = 0) ∨
          ∃ a b, [a, b].Sublist vs ∧ pc.dist a b = my) := by
  obtain ⟨t2, B, h1, hB1, hB2, h0B, hgx, hgy, hkids, _, _⟩ :=
    build_VR_complex_facts dim pc max_dim max_dist
  refine ⟨t2, h1, fun e he => ?_⟩
  rw [hkids] at he
  obtain ⟨i, w, e1, e2, _, e4, e5, e6⟩ := vr_roots_entries _ pc B max_dim _ 0 e he
  rw [sublist_range_iff] at e2
  obtain ⟨hinc, hn⟩ := e2
  have hinc2 := hinc
  rw [List.pairwise_cons] at hinc2
  -- the x grade
  obtain ⟨⟨t1, t2b⟩, t3⟩ := chain_time_spec pc w (pc.birth i)
  have hct : chain_time pc (pc.birth i) w ∈ time_set pc := by
    rw [(time_set_spec pc).2]
    rcases t3 with h | ⟨j, hj, h⟩
    · exact ⟨i, hn i (by simp), h.symm⟩
    · exact ⟨j, hn j (by simp [hj]), h.symm⟩
  have hx : t2.grade_x_value e.2.grade_x = some (chain_time pc (pc.birth i) w) := by
    unfold SimplexTree.grade_x_value
    rw [hgx, e5]
    exact grade_position_of_mem _ (time_set_spec pc).1 _ hct
  have hxb : ∀ v ∈ i :: w, pc.birth v ≤ chain_time pc (pc.birth i) w := by
    intro v hv
    simp only [List.mem_cons] at hv
    rcases hv with rfl | hv
    · exact t1
    · exact t2b v hv
  have hxa : ∃ v ∈ i :: w, pc.birth v = chain_time pc (pc.birth i) w := by
    rcases t3 with h | ⟨j, hj, h⟩
    · exact ⟨i, by simp, h.symm⟩
    · exact ⟨j, by simp [hj], h.symm⟩
  have hds : ∀ x ∈ dist_set pc max_dist, 0 ≤ x := by
    intro x hx
    rcases ((dist_set_spec pc max_dist).2 x).mp hx with h | ⟨h, _⟩
    · rw [h]
    · obtain ⟨a, b, hab, hb, rfl⟩ := (mem_distance_table pc x).mp h
      exact hd a b hab hb
  rcases e6 with ⟨hw, hy0⟩ | ⟨hw, hy⟩
  · -- a single vertex
    subst hw
    have hy : t2.grade_y_value e.2.grade_y = some 0 := by
      unfold SimplexTree.grade_y_value
      rw [hgy, hy0]
      exact head_of_sorted_nonneg (dist_set_spec pc max_dist).1 (zero_mem_dist_set _ _) hds
    exact ⟨[i], _, 0, e1, by simp, grade_value_nonneg hx, by rw [hy0], hx, hy, hxb, hxa,
      by simp, Or.inl ⟨rfl, rfl, hy0⟩⟩
  · -- at least two vertices
    obtain ⟨⟨d1, d2, d3⟩, d4⟩ := chain_dist_spec pc w [i] 0
    have hle : chain_dist pc [i] 0 w ≤ B := chain_dist_le pc B w [i] 0 hw e4
    obtain ⟨j0, w0, hw0⟩ := List.exists_cons_of_ne_nil hw
    have hpairs : ∀ a b, [a, b].Sublist (i :: w) → a < b ∧ b < pc.size := by
      intro a b hab
      have h2 := hinc.sublist hab
      simp only [List.pairwise_cons, List.mem_singleton, forall_eq, List.not_mem_nil,
        IsEmpty.forall_iff, implies_true, List.Pairwise.nil, and_true] at h2
      exact ⟨h2, hn b (hab.subset (by simp))⟩
    have hatt : ∃ a b, [a, b].Sublist (i :: w) ∧ pc.dist a b = chain_dist pc [i] 0 w := by
      rcases d4 with h | ⟨p, hp, j, hj, h⟩ | ⟨a, b, hab, h⟩
      · have hsub : [i, j0].Sublist (i :: w) := by
          rw [hw0]
          exact (List.singleton_sublist.mpr (List.mem_cons_self _ _)).cons₂ i
        refine ⟨i, j0, hsub, ?_⟩
        have h3 := d2 i (by simp) j0 (by rw [hw0]; simp)
        have h4 := hd i j0 (hpairs i j0 hsub).1 (hpairs i j0 hsub).2
        rw [h] at h3 ⊢
        exact le_antisymm h3 h4
      · rw [List.mem_singleton.mp hp] at h
        exact ⟨i, j, (List.singleton_sublist.mpr hj).cons₂ i, h.symm⟩
      · exact ⟨a, b, hab.cons i, h.symm⟩
    have hmem : chain_dist pc [i] 0 w ∈ dist_set pc max_dist := by
      rw [(dist_set_spec pc max_dist).2]
      rcases ((dist_set_spec pc max_dist).2 B).mp hB1 with hB0 | ⟨_, hBm⟩
      · left
        rw [hB0] at hle
        exact le_antisymm hle d1
      · right
        obtain ⟨a, b, hab, h⟩ := hatt
        refine ⟨(mem_distance_table pc _).mpr ⟨a, b, (hpairs a b hab).1, (hpairs a b hab).2, h⟩,
          le_trans hle hBm⟩
    have hyv : t2.grade_y_value e.2.grade_y = some (chain_dist pc [i] 0 w) := by
      unfold SimplexTree.grade_y_value
      rw [hgy, hy]
      exact grade_position_of_mem _ (dist_set_spec pc max_dist).1 _ hmem
    refine ⟨i :: w, _, _, e1, by simp, grade_value_nonneg hx, grade_value_nonneg hyv, hx, hyv,
      hxb, hxa, ?_, Or.inr hatt⟩
    rw [List.pairwise_cons]
    exact ⟨fun a ha => d2 i (by simp) a ha, d3⟩

theorem cloud_three_dist_nonneg :
    ∀ i j : Nat, i < j → j < cloud_three.size → 0 ≤ cloud_three.dist i j := by
  intro i j _ _
  simp only [cloud_three]
  split_ifs <;> norm_num

/-- C15 on three points born at 0, 1, 0 with `d(0,1) = 1`, `d(0,2) = 4`,
`d(1,2) = 2` and cutoff 3: the grids are `0, 1` and `0, 1, 2`, and the
simplices `{0}, {0,1}, {1}, {1,2}, {2}` carry the grades
`(0,0), (1,1), (1,0), (1,2), (0,0)`. -/
theorem build_VR_complex_grades_witness :
    (∀ i j : Nat, i < j → j < cloud_three.size → 0 ≤ cloud_three.dist i j) ∧
    ((SimplexTree.init 1).build_VR_complex cloud_three 2 3).map
      (fun t => (t.grade_x_values, t.grade_y_values,
        t.nodes.map (fun n => (n.grade_x, n.grade_y)))) =
      .ok ([0, 1], [0, 1, 2], [(0, 0), (1, 1), (1, 0), (1, 2), (0, 0)]) ∧
    ∃ t2, (SimplexTree.init 1).build_VR_complex cloud_three 2 3 = .ok t2 ∧
      ∀ e ∈ entries t2.root.get_children, ∃ (vs : List Nat) (mx my : ℚ),
        e.1 = vs.map (fun (j : Nat) => (j : Int)) ∧ vs ≠ [] ∧
        0 ≤ e.2.grade_x ∧ 0 ≤ e.2.grade_y ∧
        t2.grade_x_value e.2.grade_x = some mx ∧ t2.grade_y_value e.2.grade_y = some my ∧
        (∀ v ∈ vs, cloud_three.birth v ≤ mx) ∧ (∃ v ∈ vs, cloud_three.birth v = mx) ∧
        vs.Pairwise (fun a b => cloud_three.dist a b ≤ my) ∧
        ((vs.length = 1 ∧ my = 0 ∧ e.2.grade_y = 0) ∨
          ∃ a b, [a, b].Sublist vs ∧ cloud_three.dist a b = my) :=
  ⟨cloud_three_dist_nonneg, by decide,
    build_VR_complex_grades 1 cloud_three 2 3 cloud_three_dist_nonneg⟩

/-! ### The grids under sequences of operations -/

/-- The grid `0, 1, ..., m - 1` that `add_simplex` builds. -/
theorem grow_grid_range (m : Nat) (g : Int) :
    grow_grid ((List.range m).map (fun (j : Nat) => (((j : Nat) : Int) : ℚ))) g =
      (List.range (max m (g + 1).toNat)).map (fun (j : Nat) => (((j : Nat) : Int) : ℚ)) := by
  unfold grow_grid
  simp only [List.length_map, List.length_range]
  by_cases h : (m : Int) ≤ g
  · have hmax : max m (g + 1).toNat = m + (g + 1 - m).toNat := by omega
    rw [hmax, List.range_add, List.map_append, List.map_map]
    rfl
  · have h1 : (g + 1 - (m : Int)).toNat = 0 := by omega
    have hmax : max m (g + 1).toNat = m := by omega
    rw [h1, hmax]
    simp

theorem range_grid_sorted (m : Nat) :
    ((List.range m).map (fun (j : Nat) => (((j : Nat) : Int) : ℚ))).Pairwise (· < ·) := by
  rw [List.pairwise_map]
  exact (List.pairwise_lt_range m).imp (fun h => by exact_mod_cast h)

/-- Calls of `add_simplex` alone keep both grids of the form
`0, 1, ..., m - 1`. -/
theorem run_ops_add_grids (ops : List TreeOp) :
    ∀ (t t2 : SimplexTree), (∀ op ∈ ops, op.is_add = true) →
      (∃ m, t.grade_x_values = (List.range m).map (fun (j : Nat) => (((j : Nat) : Int) : ℚ))) →
      (∃ m, t.grade_y_values = (List.range m).map (fun (j : Nat) => (((j : Nat) : Int) : ℚ))) →
      run_ops t ops = some t2 →
      (∃ m, t2.grade_x_values = (List.range m).map (fun (j : Nat) => (((j : Nat) : Int) : ℚ))) ∧
      (∃ m, t2.grade_y_values = (List.range m).map (fun (j : Nat) => (((j : Nat) : Int) : ℚ))) := by
  induction ops with
  | nil =>
    intro t t2 _ hx hy h
    simp only [run_ops, Option.some.injEq] at h
    subst h
    exact ⟨hx, hy⟩
  | cons op ops ih =>
    intro t t2 hops hx hy h
    cases op with
    | build pc md maxd =>
      have := hops _ (List.mem_cons_self _ _)
      simp [TreeOp.is_add] at this
    | add vs x y =>
      simp only [run_ops] at h
      cases ha : t.add_simplex vs x y with
      | none => simp [ha] at h
      | some t1 =>
        simp only [ha] at h
        obtain ⟨r, _, ht1⟩ := add_simplex_eq_some ha
        obtain ⟨mx, hmx⟩ := hx
        obtain ⟨my, hmy⟩ := hy
        apply ih t1 t2 (fun op hop => hops op (List.mem_cons_of_mem _ hop)) _ _ h
        · refine ⟨max mx (x + 1).toNat, ?_⟩
          rw [ht1]
          simp only [SimplexTree.update_global_indexes, hmx]
          exact grow_grid_range mx x
        · refine ⟨max my (y + 1).toNat, ?_⟩
          rw [ht1]
          simp only [SimplexTree.update_global_indexes, hmy]
          exact grow_grid_range my y

/-- C11 (amended).  Starting from an empty tree, after every sequence of
`add_simplex` calls that return, and after a `build_VR_complex` on the empty
tree, each axis grid is a strictly increasing sequence of distinct values. -/
theorem grids_strictly_increasing (dim : Int) :
    (∀ (ops : List TreeOp) (t : SimplexTree), (∀ op ∈ ops, op.is_add = true) →
      run_ops (SimplexTree.init dim) ops = some t →
      t.grade_x_values.Pairwise (· < ·) ∧ t.grade_y_values.Pairwise (· < ·)) ∧
    (∀ (pc : PointCloud) (max_dim : Int) (max_dist : ℚ),
      ∃ t, run_ops (SimplexTree.init dim) [.build pc max_dim max_dist] = some t ∧
        t.grade_x_values.Pairwise (· < ·) ∧ t.grade_y_values.Pairwise (· < ·)) := by
  refine ⟨?_, ?_⟩
  · intro ops t hops h
    obtain ⟨⟨mx, hx⟩, ⟨my, hy⟩⟩ := run_ops_add_grids ops (SimplexTree.init dim) t hops
      ⟨0, by simp [SimplexTree.init]⟩ ⟨0, by simp [SimplexTree.init]⟩ h
    rw [hx, hy]
    exact ⟨range_grid_sorted mx, range_grid_sorted my⟩
  · intro pc max_dim max_dist
    obtain ⟨t2, B, h1, _, _, _, hgx, hgy, _⟩ := build_VR_complex_facts dim pc max_dim max_dist
    refine ⟨t2, ?_, ?_, ?_⟩
    · simp [run_ops, h1]
    · rw [hgx]; exact (time_set_spec pc).1
    · rw [hgy]; exact (dist_set_spec pc max_dist).1

/-- C11 as stated fails: after `add_simplex({0}, 0, 0)` on the empty tree
followed by `build_VR_complex` on two points born at 0 and at distance 1
(cutoff 1), both grids repeat the value 0: they are `0, 0` and `0, 0, 1`. -/
theorem grids_strictly_increasing_counterexample :
    (run_ops (SimplexTree.init 1) [.add [0] 0 0, .build cloud_pair 1 1]).map
      (fun t => (t.grade_x_values, t.grade_y_values)) = some ([0, 0], [0, 0, 1]) ∧
    ¬ ([0, 0] : List ℚ).Pairwise (· < ·) ∧ ¬ ([0, 0, 1] : List ℚ).Pairwise (· < ·) := by
  decide

/-! ### The invalid-dimension error -/

@[simp] theorem Export.bind_of_ok {α β : Type} (a : α) (f : α → Export β) :
    (Export.ok a).bind f = f a := rfl

theorem Export.bind_eq_ok {α β : Type} {r : Export α} {f : α → Export β} {b : β}
    (h : r.bind f = .ok b) : ∃ a, r = .ok a ∧ f a = .ok b := by
  cases r <;> simp [Export.bind] at h
  exact ⟨_, rfl, h⟩

theorem Export.bind_improper {α β : Type} {r : Export α} {f : α → Export β}
    (hr : r ≠ .improper_dimension) (hf : ∀ a, f a ≠ .improper_dimension) :
    r.bind f ≠ .improper_dimension := by
  cases r with
  | ok a => exact hf a
  | improper_dimension => exact absurd rfl hr
  | facet_not_found => simp [Export.bind]
  | undefined => simp [Export.bind]
  | no_fuel => simp [Export.bind]

theorem write_facets_proper (t : SimplexTree) (verts : List Int) (col offset : Int) :
    ∀ (ks : List Nat) (mat : MapMatrix),
      write_facets t verts col offset ks mat ≠ .improper_dimension := by
  intro ks
  induction ks with
  | nil => intro mat; simp [write_facets]
  | cons k ks ih =>
    intro mat
    rw [write_facets]
    cases t.find_simplex (verts.eraseIdx k) with
    | none => simp
    | some f => exact ih _

theorem write_boundary_column_proper (t : SimplexTree) (mat : MapMatrix) (sim : List Nat)
    (col offset : Int) : t.write_boundary_column mat sim col offset ≠ .improper_dimension := by
  rw [SimplexTree.write_boundary_column]
  cases node_at sim t.root with
  | none => simp
  | some s =>
    simp only
    generalize t.find_vertices s.global_index = r
    cases r with
    | ok verts => exact write_facets_proper _ _ _ _ _ _
    | thrown => simp
    | out_of_bounds => simp
    | no_fuel => simp

theorem write_columns_proper (t : SimplexTree) :
    ∀ (sims : List (List Nat)) (col : Int) (mat : MapMatrix),
      write_columns t sims col mat ≠ .improper_dimension := by
  intro sims
  induction sims with
  | nil => intro col mat; simp [write_columns]
  | cons s rest ih =>
    intro col mat
    rw [write_columns]
    exact Export.bind_improper (write_boundary_column_proper _ _ _ _ _) (fun a => ih _ _)

theorem fill_cells_proper (x_size value : Int) :
    ∀ (count : Nat) (cur_entry : Int) (mat : IndexMatrix),
      fill_cells x_size value count cur_entry mat ≠ .improper_dimension := by
  intro count
  induction count with
  | zero => intro e m; simp [fill_cells]
  | succ n ih =>
    intro e m
    rw [fill_cells]
    split
    · simp
    · exact ih _ _

theorem fill_to_proper (x_size value bound cur_entry : Int) (mat : IndexMatrix) :
    fill_to x_size value bound cur_entry mat ≠ .improper_dimension := by
  rw [fill_to]
  exact Export.bind_improper (fill_cells_proper _ _ _ _ _) (fun a => by simp)

theorem index_columns_proper (root : STNode) (x_size : Int) :
    ∀ (sims : List (List Nat)) (col cur_entry : Int) (mat : IndexMatrix),
      index_columns root x_size sims col cur_entry mat ≠ .improper_dimension := by
  intro sims
  induction sims with
  | nil => intro col e m; simp [index_columns]
  | cons s rest ih =>
    intro col e m
    rw [index_columns]
    cases node_at s root with
    | none => simp
    | some n => exact Export.bind_improper (fill_to_proper _ _ _ _ _) (fun a => ih _ _ _)

theorem index_matrix_of_proper (t : SimplexTree) (sims : List (List Nat)) :
    index_matrix_of t sims ≠ .improper_dimension := by
  rw [index_matrix_of]
  cases sims.head? with
  | none => simp
  | some it =>
    simp only
    generalize node_at it t.root = o
    cases o with
    | none => simp
    | some first =>
      exact Export.bind_improper (fill_to_proper _ _ _ _ _) (fun a =>
        Export.bind_improper (index_columns_proper _ _ _ _ _ _) (fun b =>
          Export.bind_improper (fill_to_proper _ _ _ _ _) (fun c => by simp)))

/-- C19: `get_boundary_mx(dim)` and `get_index_mx(dim)` end with the
improper-dimension exception exactly when `dim` is neither `hom_dim` nor
`hom_dim + 1`, whatever the tree holds; in particular they do for
`hom_dim - 2`, `hom_dim - 1` and `hom_dim + 2`, and never do for `hom_dim`
and `hom_dim + 1`. -/
theorem improper_dimension_spec (t : SimplexTree) (dim : Int) :
    (t.get_boundary_mx dim = .improper_dimension ↔ ¬ (dim = t.hom_dim ∨ dim = t.hom_dim + 1)) ∧
    (t.get_index_mx dim = .improper_dimension ↔ ¬ (dim = t.hom_dim ∨ dim = t.hom_dim + 1)) ∧
    t.get_boundary_mx (t.hom_dim - 2) = .improper_dimension ∧
    t.get_boundary_mx (t.hom_dim - 1) = .improper_dimension ∧
    t.get_boundary_mx (t.hom_dim + 2) = .improper_dimension ∧
    t.get_index_mx (t.hom_dim - 2) = .improper_dimension ∧
    t.get_index_mx (t.hom_dim - 1) = .improper_dimension ∧
    t.get_index_mx (t.hom_dim + 2) = .improper_dimension ∧
    t.get_boundary_mx t.hom_dim ≠ .improper_dimension ∧
    t.get_boundary_mx (t.hom_dim + 1) ≠ .improper_dimension ∧
    t.get_index_mx t.hom_dim ≠ .improper_dimension ∧
    t.get_index_mx (t.hom_dim + 1) ≠ .improper_dimension := by
  have hb : ∀ d : Int, t.get_boundary_mx d = .improper_dimension ↔
      ¬ (d = t.hom_dim ∨ d = t.hom_dim + 1) := by
    intro d
    rw [SimplexTree.get_boundary_mx]
    by_cases h1 : d = t.hom_dim
    · simp only [h1, if_true, true_or, not_true, iff_false]
      exact write_columns_proper _ _ _ _
    · by_cases h2 : d = t.hom_dim + 1
      · subst h2
        rw [if_neg h1, if_pos rfl]
        simp only [or_true, not_true, iff_false]
        exact write_columns_proper _ _ _ _
      · simp [h1, h2]
  have hx : ∀ d : Int, t.get_index_mx d = .improper_dimension ↔
      ¬ (d = t.hom_dim ∨ d = t.hom_dim + 1) := by
    intro d
    rw [SimplexTree.get_index_mx]
    by_cases h1 : d = t.hom_dim
    · simp only [h1, if_true, true_or, not_true, iff_false]
      exact index_matrix_of_proper _ _
    · by_cases h2 : d = t.hom_dim + 1
      · subst h2
        rw [if_neg h1, if_pos rfl]
        simp only [or_true, not_true, iff_false]
        exact index_matrix_of_proper _ _
      · simp [h1, h2]
  refine ⟨hb dim, hx dim, (hb _).2 ?_, (hb _).2 ?_, (hb _).2 ?_, (hx _).2 ?_, (hx _).2 ?_,
    (hx _).2 ?_, ?_, ?_, ?_, ?_⟩
  · omega
  · omega
  · omega
  · omega
  · omega
  · omega
  · exact fun h => (hb _).1 h (Or.inl rfl)
  · exact fun h => (hb _).1 h (Or.inr rfl)
  · exact fun h => (hx _).1 h (Or.inl rfl)
  · exact fun h => (hx _).1 h (Or.inr rfl)

/-! ### Node pointers -/

theorem node_at_cons (i : Nat) (rest : List Nat) (n : STNode) :
    node_at (i :: rest) n = (n.get_children[i]?).bind (node_at rest) := by
  rw [node_at]
  cases n.get_children[i]? <;> rfl

theorem node_at_append (r q : List Nat) :
    ∀ n : STNode, node_at (r ++ q) n = (node_at r n).bind (node_at q) := by
  induction r with
  | nil => intro n; simp [node_at]
  | cons i r ih =>
    intro n
    rw [List.cons_append, node_at_cons, node_at_cons]
    cases n.get_children[i]? with
    | none => rfl
    | some k => simpa using ih k

theorem mem_refs_at_depth (len : Nat) :
    ∀ (n : STNode) (r : List Nat),
      r ∈ refs_at_depth len n ↔ r.length = len ∧ (node_at r n).isSome = true := by
  induction len with
  | zero =>
    intro n r
    simp only [refs_at_depth, List.mem_singleton, List.length_eq_zero]
    constructor
    · rintro rfl; exact ⟨rfl, rfl⟩
    · exact fun h => h.1
  | succ len ih =>
    intro n r
    simp only [refs_at_depth, List.mem_flatMap, List.mem_map, Prod.exists]
    constructor
    · rintro ⟨i, k, hik, q, hq, rfl⟩
      have hk : n.get_children[i]? = some k := List.mk_mem_enum_iff_getElem?.1 hik
      rw [ih] at hq
      refine ⟨by simp [hq.1], ?_⟩
      rw [node_at_cons, hk]
      exact hq.2
    · rintro ⟨hl, hv⟩
      cases r with
      | nil => simp at hl
      | cons i q =>
        rw [node_at_cons] at hv
        cases hk : n.get_children[i]? with
        | none => rw [hk] at hv; simp at hv
        | some k =>
          rw [hk] at hv
          refine ⟨i, k, List.mk_mem_enum_iff_getElem?.2 hk, q, (ih k q).2 ⟨by simpa using hl, hv⟩, rfl⟩

theorem enumFrom_pairwise_fst {α : Type} (l : List α) :
    ∀ i : Nat, (l.enumFrom i).Pairwise (fun a b => a.1 ≠ b.1) := by
  induction l with
  | nil => intro i; simp
  | cons a l ih =>
    intro i
    rw [List.enumFrom_cons, List.pairwise_cons]
    refine ⟨?_, ih _⟩
    intro b hb
    obtain ⟨j, x⟩ := b
    have := List.mem_enumFrom hb
    simp only
    omega

theorem refs_at_depth_nodup (len : Nat) : ∀ n : STNode, (refs_at_depth len n).Nodup := by
  induction len with
  | zero => intro n; simp [refs_at_depth]
  | succ len ih =>
    intro n
    rw [refs_at_depth, List.nodup_flatMap]
    constructor
    · intro ik _
      exact (ih ik.2).map (fun a b h => (List.cons.inj h).2)
    · refine (enumFrom_pairwise_fst _ 0).imp ?_
      intro a b hab
      simp only [Function.onFun]
      intro r hra hrb
      simp only [List.mem_map] at hra hrb
      obtain ⟨q1, _, rfl⟩ := hra
      obtain ⟨q2, _, h2⟩ := hrb
      exact hab (List.cons.inj h2).1.symm

theorem mem_band_refs (dim : Int) (root : STNode) (r : List Nat) :
    r ∈ band_refs dim root ↔
      r ≠ [] ∧ (r.length : Int) = dim + 1 ∧ (node_at r root).isSome = true := by
  rw [band_refs]
  split
  · simp only [List.not_mem_nil, false_iff, not_and]
    intro h1 h2
    have := List.length_pos.2 h1
    omega
  · rw [mem_refs_at_depth]
    constructor
    · rintro ⟨h1, h2⟩
      refine ⟨?_, by omega, h2⟩
      rintro rfl
      simp at h1
    · rintro ⟨_, h1, h2⟩
      exact ⟨by omega, h2⟩

theorem band_refs_nodup (dim : Int) (root : STNode) : (band_refs dim root).Nodup := by
  rw [band_refs]
  split
  · exact List.nodup_nil
  · exact refs_at_depth_nodup _ _

/-- What `band_indexed` checks, as facts. -/
theorem band_indexed_iff (root : STNode) (set : List (List Nat)) (dim : Int) :
    band_indexed root set dim = true ↔
      set.Nodup ∧
      (∀ r, r ∈ set ↔
        r ≠ [] ∧ (r.length : Int) = dim + 1 ∧ (node_at r root).isSome = true) ∧
      set.Pairwise (fun r s => ref_before root s r = false) ∧
      (∀ (i : Nat) (r : List Nat), set[i]? = some r →
        ∃ n, node_at r root = some n ∧ n.dim_index = i) := by
  simp only [band_indexed, Bool.and_eq_true, decide_eq_true_eq, List.all_eq_true,
    List.mem_range]
  constructor
  · rintro ⟨⟨⟨⟨h1, h2⟩, h3⟩, h4⟩, h5⟩
    refine ⟨h1, ?_, h4, ?_⟩
    · intro r
      rw [← mem_band_refs]
      exact ⟨h2 r, h3 r⟩
    · intro i r hr
      have hi : i < set.length := (List.getElem?_eq_some_iff.1 hr).1
      have := h5 i hi
      rw [hr] at this
      simp only at this
      cases hn : node_at r root with
      | none => rw [hn] at this; simp at this
      | some n =>
        rw [hn] at this
        refine ⟨n, rfl, ?_⟩
        simpa using this
  · rintro ⟨h1, h2, h4, h5⟩
    refine ⟨⟨⟨⟨h1, ?_⟩, ?_⟩, h4⟩, ?_⟩
    · intro r hr
      rw [mem_band_refs]
      exact (h2 r).1 hr
    · intro r hr
      rw [mem_band_refs] at hr
      exact (h2 r).2 hr
    · intro i hi
      have hr : set[i]? = some set[i] := List.getElem?_eq_getElem hi
      obtain ⟨n, hn, hd⟩ := h5 i _ hr
      rw [hr]
      simp [hn, hd]

theorem dim_indexed_band (t : SimplexTree) (h : t.dim_indexed = true) (k : Int)
    (hk : k = -1 ∨ k = 0 ∨ k = 1) :
    band_indexed t.root (t.band k) (t.hom_dim + k) = true := by
  simp only [SimplexTree.dim_indexed, Bool.and_eq_true] at h
  rcases hk with rfl | rfl | rfl
  · simpa [SimplexTree.band, sub_eq_add_neg] using h.1.1
  · simpa [SimplexTree.band] using h.1.2
  · simpa [SimplexTree.band] using h.2

/-! ### The index matrix -/

theorem lin_iff {X e r c : Int} (hX : 0 < X) (h0 : 0 ≤ c) (h1 : c < X) :
    (r = e / X ∧ c = e % X) ↔ c + r * X = e := by
  constructor
  · rintro ⟨rfl, rfl⟩
    have := Int.emod_add_ediv e X
    linarith [mul_comm X (e / X)]
  · rintro rfl
    constructor
    · rw [Int.add_mul_ediv_right _ _ (ne_of_gt hX), Int.ediv_eq_zero_of_lt h0 h1, zero_add]
    · rw [Int.add_mul_emod_self, Int.emod_eq_of_lt h0 h1]

theorem lin_inj {X r c s d : Int} (hX : 0 < X) (h0 : 0 ≤ c) (h1 : c < X)
    (h2 : 0 ≤ d) (h3 : d < X) :
    (r = s ∧ c = d) ↔ c + r * X = d + s * X := by
  have ha := (lin_iff (e := d + s * X) (r := s) hX h2 h3).2 rfl
  rw [← lin_iff hX h0 h1, ← ha.1, ← ha.2]

theorem lin_le_iff {X r c s d : Int} (hX : 0 < X) (h0 : 0 ≤ c) (h1 : c < X)
    (h2 : 0 ≤ d) (h3 : d < X) :
    c + r * X ≤ d + s * X ↔ r < s ∨ (r = s ∧ c ≤ d) := by
  rcases lt_trichotomy r s with h | h | h
  · have : (r + 1) * X ≤ s * X := mul_le_mul_of_nonneg_right (by omega) (le_of_lt hX)
    constructor
    · intro _; exact Or.inl h
    · intro _; nlinarith
  · subst h
    constructor
    · intro h4; exact Or.inr ⟨rfl, by linarith⟩
    · rintro (h4 | ⟨_, h4⟩)
      · exact absurd h4 (lt_irrefl _)
      · linarith
  · have : (s + 1) * X ≤ r * X := mul_le_mul_of_nonneg_right (by omega) (le_of_lt hX)
    constructor
    · intro h4; exfalso; nlinarith
    · rintro (h4 | ⟨h4, _⟩) <;> omega

theorem lin_range {X Y r c : Int} (h0 : 0 ≤ c) (h1 : c < X) (h2 : 0 ≤ r) (h3 : r < Y) :
    0 ≤ c + r * X ∧ c + r * X < X * Y := by
  have hX : 0 < X := by omega
  have h4 : 0 ≤ r * X := mul_nonneg h2 (le_of_lt hX)
  have h5 : (r + 1) * X ≤ Y * X := mul_le_mul_of_nonneg_right (by omega) (le_of_lt hX)
  constructor
  · omega
  · nlinarith

theorem IndexMatrix.set_cell (m : IndexMatrix) (i j v r c : Int) :
    (m.set i j v).cell r c = if r = i ∧ c = j then some v else m.cell r c := rfl

theorem fill_cells_spec {X : Int} (hX : 0 < X) (v : Int) :
    ∀ (n : Nat) (e : Int) (m : IndexMatrix),
      ∃ m2, fill_cells X v n e m = .ok m2 ∧ m2.num_rows = m.num_rows ∧
        m2.num_cols = m.num_cols ∧
        ∀ r c : Int, 0 ≤ c → c < X →
          m2.cell r c = if e ≤ c + r * X ∧ c + r * X < e + n then some v else m.cell r c := by
  intro n
  induction n with
  | zero =>
    intro e m
    refine ⟨m, rfl, rfl, rfl, ?_⟩
    intro r c _ _
    rw [if_neg]
    simp only [Nat.cast_zero, add_zero]
    omega
  | succ n ih =>
    intro e m
    rw [fill_cells, if_neg (ne_of_gt hX)]
    obtain ⟨m2, h1, h2, h3, h4⟩ := ih (e + 1) (m.set (e / X) (e % X) v)
    refine ⟨m2, h1, h2, h3, ?_⟩
    intro r c h0 hc
    rw [h4 r c h0 hc, IndexMatrix.set_cell]
    have hl := lin_iff (e := e) (r := r) hX h0 hc
    by_cases h5 : c + r * X = e
    · rw [if_pos (hl.2 h5)]
      simp only [Nat.cast_add, Nat.cast_one]
      split_ifs <;> first | rfl | omega
    · rw [if_neg (fun h => h5 (hl.1 h))]
      simp only [Nat.cast_add, Nat.cast_one]
      split_ifs <;> first | rfl | omega

theorem fill_to_spec {X : Int} (hX : 0 < X) (v b e : Int) (m : IndexMatrix) :
    ∃ m2, fill_to X v b e m = .ok (m2, max e b) ∧ m2.num_rows = m.num_rows ∧
      m2.num_cols = m.num_cols ∧
      ∀ r c : Int, 0 ≤ c → c < X →
        m2.cell r c = if e ≤ c + r * X ∧ c + r * X < b then some v else m.cell r c := by
  obtain ⟨m2, h1, h2, h3, h4⟩ := fill_cells_spec hX v (b - e).toNat e m
  refine ⟨m2, ?_, h2, h3, ?_⟩
  · rw [fill_to, h1]; rfl
  · intro r c h0 hc
    rw [h4 r c h0 hc]
    have : ((b - e).toNat : Int) = max (b - e) 0 := Int.toNat_eq_max _
    split_ifs <;> first | rfl | omega

theorem countP_pos_zero (ps : List Int) (L : Int) (h : ∀ p ∈ ps, L < p) :
    ps.countP (fun p => decide (p ≤ L)) = 0 := by
  rw [List.countP_eq_zero]
  intro p hp
  simpa using h p hp

theorem countP_pos_all (ps : List Int) (L : Int) (h : ∀ p ∈ ps, p ≤ L) :
    ps.countP (fun p => decide (p ≤ L)) = ps.length := by
  rw [List.countP_eq_length]
  intro p hp
  simpa using h p hp

theorem index_columns_spec (root : STNode) {X : Int} (hX : 0 < X) :
    ∀ (rest : List (List Nat)) (col e : Int) (m : IndexMatrix),
      (∀ r ∈ rest, ∃ n, node_at r root = some n ∧ 0 ≤ n.grade_x ∧ n.grade_x < X) →
      (rest.map (ref_pos root X)).Pairwise (fun a b => a ≤ b) →
      (∀ r ∈ rest, e ≤ ref_pos root X r) →
      ∃ m2 e2, index_columns root X rest col e m = .ok (m2, col + rest.length, e2) ∧
        m2.num_rows = m.num_rows ∧ m2.num_cols = m.num_cols ∧
        e ≤ e2 ∧ (∀ r ∈ rest, ref_pos root X r ≤ e2) ∧ (rest = [] → e2 = e) ∧
        ∀ r c : Int, 0 ≤ c → c < X →
          m2.cell r c =
            if rest ≠ [] ∧ e ≤ c + r * X ∧ c + r * X ≤ e2 then
              some (col - 1 +
                ((rest.map (ref_pos root X)).countP (fun p => decide (p ≤ c + r * X)) : Nat))
            else m.cell r c := by
  intro rest
  induction rest with
  | nil =>
    intro col e m _ _ _
    refine ⟨m, e, by simp [index_columns], rfl, rfl, le_refl _, by simp, fun _ => rfl, ?_⟩
    intro r c _ _
    simp
  | cons sim tl ih =>
    intro col e m hvalid hsorted hge
    obtain ⟨n, hn, hx0, hx1⟩ := hvalid sim (List.mem_cons_self _ _)
    have hp : ref_pos root X sim = n.grade_x + n.grade_y * X := by
      simp [ref_pos, hn, cell_pos]
    have hep : e ≤ n.grade_x + n.grade_y * X := hp ▸ hge sim (List.mem_cons_self _ _)
    rw [List.map_cons, List.pairwise_cons] at hsorted
    obtain ⟨m1, hf, hr1, hc1, hcell1⟩ :=
      fill_to_spec hX (col - 1) (n.grade_x + n.grade_y * X) e m
    rw [max_eq_right hep] at hf
    obtain ⟨m2, e2, heq, hr2, hc2, hee, hle, hnil, hcell2⟩ :=
      ih (col + 1) (n.grade_x + n.grade_y * X) (m1.set n.grade_y n.grade_x col)
        (fun r hr => hvalid r (List.mem_cons_of_mem _ hr)) hsorted.2
        (fun r hr => hp ▸ hsorted.1 _ (List.mem_map_of_mem _ hr))
    refine ⟨m2, e2, ?_, ?_, ?_, by omega, ?_, by simp, ?_⟩
    · rw [index_columns, hn]
      simp only
      rw [hf, Export.bind_of_ok, heq]
      simp only [List.length_cons, Nat.cast_add, Nat.cast_one]
      congr 3
      omega
    · rw [hr2]; exact hr1
    · rw [hc2]; exact hc1
    · intro r hr
      rcases List.mem_cons.1 hr with rfl | hr
      · rw [hp]; exact hee
      · exact hle r hr
    · intro r c h0 hc
      rw [hcell2 r c h0 hc, IndexMatrix.set_cell, hcell1 r c h0 hc, List.map_cons,
        List.countP_cons, hp]
      have hl := lin_inj (r := r) (c := c) (s := n.grade_y) (d := n.grade_x) hX h0 hc hx0 hx1
      have hz : c + r * X < n.grade_x + n.grade_y * X →
          (tl.map (ref_pos root X)).countP (fun p => decide (p ≤ c + r * X)) = 0 := by
        intro h
        apply countP_pos_zero
        intro p hp2
        have := hsorted.1 p hp2
        omega
      by_cases hA : tl ≠ [] ∧ n.grade_x + n.grade_y * X ≤ c + r * X ∧ c + r * X ≤ e2
      · rw [if_pos hA, if_pos ⟨List.cons_ne_nil _ _, by omega, hA.2.2⟩]
        simp only [hA.2.1, decide_True, if_true, Nat.cast_add, Nat.cast_one]
        congr 1
        omega
      · rw [if_neg hA]
        by_cases hB : c + r * X = n.grade_x + n.grade_y * X
        · rw [if_pos (hl.2 hB)]
          have htl : tl = [] := by
            by_contra h
            exact hA ⟨h, by omega, by omega⟩
          subst htl
          rw [if_pos ⟨List.cons_ne_nil _ _, by omega, by omega⟩]
          simp [hB]
        · rw [if_neg (fun h => hB (hl.1 h))]
          by_cases hC : e ≤ c + r * X ∧ c + r * X < n.grade_x + n.grade_y * X
          · rw [if_pos hC, if_pos ⟨List.cons_ne_nil _ _, hC.1, by omega⟩, hz hC.2]
            have : ¬ (n.grade_x + n.grade_y * X ≤ c + r * X) := by omega
            simp [this]
          · rw [if_neg hC, if_neg]
            rintro ⟨_, h1, h2⟩
            have h3 : n.grade_x + n.grade_y * X < c + r * X := by
              rcases lt_trichotomy (c + r * X) (n.grade_x + n.grade_y * X) with h | h | h
              · exact absurd ⟨h1, h⟩ hC
              · exact absurd h hB
              · exact h
            by_cases htl : tl = []
            · have := hnil htl
              omega
            · exact hA ⟨htl, by omega, h2⟩

theorem index_matrix_of_spec (t : SimplexTree) (S : List (List Nat)) (hne : S ≠ [])
    (hvalid : ∀ r ∈ S, ∃ n, node_at r t.root = some n ∧
      0 ≤ n.grade_x ∧ n.grade_x < t.grade_x_values.length ∧
      0 ≤ n.grade_y ∧ n.grade_y < t.grade_y_values.length)
    (hsorted : (S.map (ref_pos t.root t.grade_x_values.length)).Pairwise (fun a b => a ≤ b)) :
    ∃ m, index_matrix_of t S = .ok m ∧ m.num_rows = t.grade_y_values.length ∧
      m.num_cols = t.grade_x_values.length ∧
      ∀ x y : Int, 0 ≤ x → x < t.grade_x_values.length → 0 ≤ y →
        y < t.grade_y_values.length →
        m.cell y x = some
          ((((S.map (ref_pos t.root t.grade_x_values.length)).countP
            (fun p => decide (p ≤ x + y * t.grade_x_values.length)) : Nat) : Int) - 1) := by
  cases S with
  | nil => exact absurd rfl hne
  | cons it rest =>
    obtain ⟨first, hfirst, hx0, hx1, hy0, hy1⟩ := hvalid it (List.mem_cons_self _ _)
    have hX : (0 : Int) < t.grade_x_values.length := by omega
    have hp : ref_pos t.root t.grade_x_values.length it =
        first.grade_x + first.grade_y * t.grade_x_values.length := by
      simp [ref_pos, hfirst, cell_pos]
    have hpos : ∀ r ∈ it :: rest,
        0 ≤ ref_pos t.root t.grade_x_values.length r ∧
        ref_pos t.root t.grade_x_values.length r <
          (t.grade_x_values.length : Int) * t.grade_y_values.length := by
      intro r hr
      obtain ⟨n, hn, h1, h2, h3, h4⟩ := hvalid r hr
      have : ref_pos t.root t.grade_x_values.length r =
          n.grade_x + n.grade_y * t.grade_x_values.length := by
        simp [ref_pos, hn, cell_pos]
      rw [this]
      exact lin_range h1 h2 h3 h4
    have hp0 := hpos it (List.mem_cons_self _ _)
    have hfirst_le : ∀ r ∈ it :: rest,
        ref_pos t.root t.grade_x_values.length it ≤ ref_pos t.root t.grade_x_values.length r := by
      intro r hr
      rcases List.mem_cons.1 hr with rfl | hr
      · exact le_refl _
      · rw [List.map_cons, List.pairwise_cons] at hsorted
        exact hsorted.1 _ (List.mem_map_of_mem _ hr)
    obtain ⟨m1, hf1, hr1, hc1, hcell1⟩ :=
      fill_to_spec hX (-1) (first.grade_x + first.grade_y * t.grade_x_values.length) 0
        (IndexMatrix.init t.grade_y_values.length t.grade_x_values.length)
    rw [max_eq_right (hp ▸ hp0.1)] at hf1
    obtain ⟨m2, e2, heq, hr2, hc2, hee, hle, _, hcell2⟩ :=
      index_columns_spec t.root hX (it :: rest) 0
        (first.grade_x + first.grade_y * t.grade_x_values.length) m1
        (fun r hr => by
          obtain ⟨n, hn, h1, h2, _⟩ := hvalid r hr
          exact ⟨n, hn, h1, h2⟩)
        hsorted (fun r hr => hp ▸ hfirst_le r hr)
    obtain ⟨m3, hf3, hr3, hc3, hcell3⟩ :=
      fill_to_spec hX (0 + ((it :: rest).length : Int) - 1)
        ((t.grade_x_values.length : Int) * t.grade_y_values.length) e2 m2
    refine ⟨m3, ?_, ?_, ?_, ?_⟩
    · rw [index_matrix_of]
      simp only [List.head?_cons, hfirst]
      rw [hf1, Export.bind_of_ok, heq, Export.bind_of_ok]
      simp only
      rw [hf3, Export.bind_of_ok]
    · rw [hr3, hr2, hr1]; rfl
    · rw [hc3, hc2, hc1]; rfl
    · intro x y h1 h2 h3 h4
      have hL := lin_range h1 h2 h3 h4
      rw [hcell3 y x h1 h2, hcell2 y x h1 h2, hcell1 y x h1 h2]
      by_cases hA : e2 ≤ x + y * t.grade_x_values.length
      · rw [if_pos ⟨hA, hL.2⟩, countP_pos_all]
        · simp
        · intro p hp2
          obtain ⟨r, hr, rfl⟩ := List.mem_map.1 hp2
          exact le_trans (hle r hr) hA
      · rw [if_neg (fun h => hA h.1)]
        by_cases hB : first.grade_x + first.grade_y * t.grade_x_values.length ≤
            x + y * t.grade_x_values.length
        · rw [if_pos ⟨List.cons_ne_nil _ _, hB, by omega⟩]
          simp only [Option.some.injEq]
          omega
        · rw [if_neg (fun h => hB h.2.1), if_pos ⟨hL.1, by omega⟩, countP_pos_zero]
          · simp
          · intro p hp2
            obtain ⟨r, hr, rfl⟩ := List.mem_map.1 hp2
            have := hfirst_le r hr
            omega

theorem sorted_countP (L : Int) :
    ∀ (ps : List Int), ps.Pairwise (fun a b => a ≤ b) → ∀ (i : Nat) (p : Int),
      ps[i]? = some p → (i < ps.countP (fun q => decide (q ≤ L)) ↔ p ≤ L) := by
  intro ps
  induction ps with
  | nil => intro _ i p h; simp at h
  | cons a ps ih =>
    intro hs i p h
    rw [List.pairwise_cons] at hs
    rw [List.countP_cons]
    cases i with
    | zero =>
      simp only [List.getElem?_cons_zero, Option.some.injEq] at h
      subst h
      by_cases ha : a ≤ L
      · simp [ha]
      · have : ps.countP (fun q => decide (q ≤ L)) = 0 := by
          apply countP_pos_zero
          intro q hq
          have := hs.1 q hq
          omega
        simp [ha, this]
    | succ i =>
      simp only [List.getElem?_cons_succ] at h
      have h1 := ih hs.2 i p h
      have h2 : a ≤ p := hs.1 p (List.mem_iff_getElem?.2 ⟨i, h⟩)
      by_cases ha : a ≤ L
      · simp only [ha, decide_True, if_true]
        rw [← h1]
        omega
      · have hp : ¬ p ≤ L := by omega
        simp only [ha, decide_False, Bool.false_eq_true, if_false, add_zero]
        have h3 : ¬ i < ps.countP (fun q => decide (q ≤ L)) := fun h => hp (h1.1 h)
        constructor
        · intro h4; omega
        · intro h4; exact absurd h4 hp

theorem sweep_before_iff (a b : STNode) :
    sweep_before a b = true ↔
      a.grade_y < b.grade_y ∨ (a.grade_y = b.grade_y ∧ a.grade_x < b.grade_x) := by
  simp [sweep_before]

theorem ref_before_of_nodes {root : STNode} {r s : List Nat} {a b : STNode}
    (ha : node_at r root = some a) (hb : node_at s root = some b) :
    ref_before root r s = sweep_before a b := by
  simp [ref_before, ha, hb]

/-- C20 (amended): on a tree with current dimension indexes, for `dim` in
`{hom_dim, hom_dim + 1}` with a non-empty band whose multi-grades lie inside
the grid, `get_index_mx(dim)` returns a matrix with one row per `y` grid
value and one column per `x` grid value, and its cell `(x, y)` holds a value
`v` with `-1 ≤ v < count` such that the simplices of the band with dimension
index at most `v` are exactly those whose multi-grade `(gx, gy)` precedes or
equals the cell in the sweep order: `gy < y`, or `gy = y` and `gx ≤ x`.  So
`v` is the dimension index of the last such simplex, and `-1` if there is
none. -/
theorem get_index_mx_cells (t : SimplexTree) (dim : Int) (S : List (List Nat))
    (hdi : t.dim_indexed = true)
    (hS : (dim = t.hom_dim ∧ S = t.ordered_simplices) ∨
      (dim = t.hom_dim + 1 ∧ S = t.ordered_high_simplices))
    (hne : S ≠ [])
    (hgrid : ∀ r ∈ S, ∀ n, node_at r t.root = some n →
      0 ≤ n.grade_x ∧ n.grade_x < t.grade_x_values.length ∧
      0 ≤ n.grade_y ∧ n.grade_y < t.grade_y_values.length) :
    ∃ m, t.get_index_mx dim = .ok m ∧
      m.num_rows = t.grade_y_values.length ∧ m.num_cols = t.grade_x_values.length ∧
      ∀ x y : Int, 0 ≤ x → x < t.grade_x_values.length → 0 ≤ y →
        y < t.grade_y_values.length →
        ∃ v, m.cell y x = some v ∧ -1 ≤ v ∧ v < S.length ∧
          ∀ r ∈ S, ∀ n, node_at r t.root = some n →
            (n.dim_index ≤ v ↔ (n.grade_y < y ∨ (n.grade_y = y ∧ n.grade_x ≤ x))) := by
  have hband : band_indexed t.root S dim = true := by
    rcases hS with ⟨rfl, rfl⟩ | ⟨rfl, rfl⟩
    · simpa [SimplexTree.band] using dim_indexed_band t hdi 0 (Or.inr (Or.inl rfl))
    · simpa [SimplexTree.band] using dim_indexed_band t hdi 1 (Or.inr (Or.inr rfl))
  have hmx : t.get_index_mx dim = index_matrix_of t S := by
    rcases hS with ⟨rfl, rfl⟩ | ⟨rfl, rfl⟩
    · simp [SimplexTree.get_index_mx]
    · simp [SimplexTree.get_index_mx]
  obtain ⟨_, hmem, hsort, hidx⟩ := (band_indexed_iff _ _ _).1 hband
  have hnode : ∀ r ∈ S, ∃ n, node_at r t.root = some n := by
    intro r hr
    exact Option.isSome_iff_exists.1 ((hmem r).1 hr).2.2
  have hvalid : ∀ r ∈ S, ∃ n, node_at r t.root = some n ∧
      0 ≤ n.grade_x ∧ n.grade_x < t.grade_x_values.length ∧
      0 ≤ n.grade_y ∧ n.grade_y < t.grade_y_values.length := by
    intro r hr
    obtain ⟨n, hn⟩ := hnode r hr
    exact ⟨n, hn, hgrid r hr n hn⟩
  have hX : (0 : Int) < t.grade_x_values.length := by
    cases S with
    | nil => exact absurd rfl hne
    | cons r _ =>
      obtain ⟨n, _, h1, h2, _⟩ := hvalid r (List.mem_cons_self _ _)
      omega
  have hpos : ∀ r ∈ S, ∀ n, node_at r t.root = some n →
      ref_pos t.root t.grade_x_values.length r = n.grade_x + n.grade_y * t.grade_x_values.length := by
    intro r _ n hn
    simp [ref_pos, hn, cell_pos]
  have hsorted : (S.map (ref_pos t.root t.grade_x_values.length)).Pairwise (fun a b => a ≤ b) := by
    rw [List.pairwise_map]
    refine hsort.imp_of_mem ?_
    intro r s hr hs h
    obtain ⟨a, ha, ha1, ha2, _⟩ := hvalid r hr
    obtain ⟨b, hb, hb1, hb2, _⟩ := hvalid s hs
    rw [hpos r hr a ha, hpos s hs b hb, lin_le_iff hX ha1 ha2 hb1 hb2]
    rw [ref_before_of_nodes hb ha] at h
    have h2 : ¬ (b.grade_y < a.grade_y ∨ (b.grade_y = a.grade_y ∧ b.grade_x < a.grade_x)) := by
      rw [← sweep_before_iff, h]
      simp
    omega
  obtain ⟨m, hm, hrows, hcols, hcell⟩ := index_matrix_of_spec t S hne hvalid hsorted
  refine ⟨m, hmx ▸ hm, hrows, hcols, ?_⟩
  intro x y hx0 hx1 hy0 hy1
  refine ⟨_, hcell x y hx0 hx1 hy0 hy1, by omega, ?_, ?_⟩
  · have := List.countP_le_length (fun p => decide (p ≤ x + y * t.grade_x_values.length))
      (l := S.map (ref_pos t.root t.grade_x_values.length))
    rw [List.length_map] at this
    omega
  · intro r hr n hn
    obtain ⟨i, hi⟩ := List.mem_iff_getElem?.1 hr
    obtain ⟨n2, hn2, hd⟩ := hidx i r hi
    rw [hn] at hn2
    cases hn2
    obtain ⟨_, _, h1, h2, _⟩ := hvalid r hr
    have hg := hgrid r hr n hn
    have hi2 : (S.map (ref_pos t.root t.grade_x_values.length))[i]? =
        some (n.grade_x + n.grade_y * t.grade_x_values.length) := by
      rw [List.getElem?_map, hi, Option.map_some', hpos r hr n hn]
    have h3 := sorted_countP (x + y * t.grade_x_values.length) _ hsorted i _ hi2
    rw [lin_le_iff hX hg.1 hg.2.1 hx0 hx1] at h3
    rw [← h3, hd]
    omega

/-- C20, as stated, fails: in `tree_edge` (homology dimension 1, a 2 by 2
grid) the band of edges holds the single edge 1-2, of multi-grade
`(gx, gy) = (1, 0)` and dimension index 0.  No simplex of the band has
`gx ≤ 0`, yet the cell `(x, y) = (0, 1)` of `get_index_mx(1)` holds 0 and
not -1: the cells are filled along the sweep, in which `(1, 0)` comes before
`(0, 1)`. -/
theorem get_index_mx_cells_counterexample :
    tree_edge.dim_indexed = true ∧ tree_edge.hom_dim = 1 ∧
    tree_edge.grade_x_values.length = 2 ∧ tree_edge.grade_y_values.length = 2 ∧
    tree_edge.ordered_simplices = [[0, 0]] ∧
    (node_at [0, 0] tree_edge.root).map (fun n => (n.grade_x, n.grade_y, n.dim_index)) =
      some (1, 0, 0) ∧
    ∃ m, tree_edge.get_index_mx 1 = .ok m ∧ m.cell 1 0 = some 0 :=
  ⟨by decide, by decide, by decide, by decide, by decide, by decide, _, rfl, by decide⟩

/-- C20 (amended) on `tree_edge`: the band of edges is not empty and the
multi-grade of its edge lies inside the 2 by 2 grid. -/
theorem get_index_mx_cells_witness :
    (tree_edge.dim_indexed = true ∧ tree_edge.ordered_simplices ≠ []) ∧
    ∃ m, tree_edge.get_index_mx 1 = .ok m ∧
      m.num_rows = tree_edge.grade_y_values.length ∧
      m.num_cols = tree_edge.grade_x_values.length ∧
      ∀ x y : Int, 0 ≤ x → x < tree_edge.grade_x_values.length → 0 ≤ y →
        y < tree_edge.grade_y_values.length →
        ∃ v, m.cell y x = some v ∧ -1 ≤ v ∧ v < tree_edge.ordered_simplices.length ∧
          ∀ r ∈ tree_edge.ordered_simplices, ∀ n, node_at r tree_edge.root = some n →
            (n.dim_index ≤ v ↔ (n.grade_y < y ∨ (n.grade_y = y ∧ n.grade_x ≤ x))) :=
  ⟨⟨by decide, by decide⟩,
    get_index_mx_cells tree_edge 1 tree_edge.ordered_simplices (by decide)
      (Or.inl ⟨by decide, rfl⟩) (by decide)
      (fun r hr n hn => by
        have hr2 : r = [0, 0] := by
          have h : tree_edge.ordered_simplices = [[0, 0]] := by decide
          rw [h] at hr
          exact List.mem_singleton.1 hr
        subst hr2
        have h : (node_at [0, 0] tree_edge.root).map (fun n => (n.grade_x, n.grade_y)) =
            some (1, 0) := by decide
        rw [hn] at h
        simp only [Option.map_some', Option.some.injEq, Prod.mk.injEq] at h
        rw [h.1, h.2]
        decide)⟩

/-! ### Writing a dimension index through a pointer -/

theorem getElem?_modify_at (f : STNode → STNode) :
    ∀ (ks : List STNode) (i j : Nat),
      (modify_at f i ks)[j]? = if j = i then ks[j]?.map f else ks[j]? := by
  intro ks
  induction ks with
  | nil => intro i j; simp [modify_at]
  | cons k ks ih =>
    intro i j
    cases i with
    | zero =>
      cases j with
      | zero => simp [modify_at]
      | succ j => simp [modify_at]
    | succ i =>
      cases j with
      | zero => simp [modify_at]
      | succ j => simpa [modify_at] using ih i j

theorem get_children_set_dim_index (n : STNode) (d : Int) :
    (n.set_dim_index d).get_children = n.get_children := by
  cases n; rfl

theorem node_at_set_dim_at (d : Int) :
    ∀ (q r : List Nat) (n : STNode),
      node_at q (set_dim_at r d n) =
        (node_at q n).map (fun m => if q <+: r then set_dim_at (r.drop q.length) d m else m) := by
  intro q
  induction q with
  | nil => intro r n; simp [node_at]
  | cons i q ih =>
    intro r n
    cases r with
    | nil =>
      rw [node_at_cons, node_at_cons, set_dim_at, get_children_set_dim_index]
      have : ¬ (i :: q <+: ([] : List Nat)) := by simp
      simp [this]
    | cons j r =>
      rw [node_at_cons, node_at_cons, set_dim_at, STNode.get_children_set_children,
        getElem?_modify_at]
      by_cases hij : i = j
      · subst hij
        rw [if_pos rfl]
        cases n.get_children[i]? with
        | none => rfl
        | some k =>
          simp only [Option.map_some', Option.some_bind, ih r k, List.length_cons,
            List.drop_succ_cons, List.prefix_cons_inj]
      · rw [if_neg hij]
        have : ¬ (i :: q <+: j :: r) := by
          intro h
          rw [List.cons_prefix_cons] at h
          exact hij h.1
        simp [this]

theorem set_dim_at_label_data (d : Int) (r : List Nat) (n : STNode) :
    (set_dim_at r d n).label_data = n.label_data := by
  cases r <;> cases n <;> rfl

theorem set_dim_at_dim_index (d : Int) (r : List Nat) (n : STNode) :
    (set_dim_at r d n).dim_index = if r = [] then d else n.dim_index := by
  cases r <;> cases n <;> rfl

theorem node_at_set_dim_at_data (d : Int) (q r : List Nat) (n : STNode) :
    (node_at q (set_dim_at r d n)).map STNode.label_data =
      (node_at q n).map STNode.label_data := by
  rw [node_at_set_dim_at, Option.map_map]
  congr 1
  funext m
  simp only [Function.comp]
  split
  · exact set_dim_at_label_data _ _ _
  · rfl

theorem node_at_set_dim_at_dim (d : Int) (q r : List Nat) (n : STNode) :
    (node_at q (set_dim_at r d n)).map STNode.dim_index =
      if q = r then (node_at q n).map (fun _ => d) else (node_at q n).map STNode.dim_index := by
  rw [node_at_set_dim_at, Option.map_map]
  by_cases h : q = r
  · subst h
    rw [if_pos rfl]
    congr 1
    funext m
    simp [set_dim_at_dim_index]
  · rw [if_neg h]
    congr 1
    funext m
    simp only [Function.comp]
    split
    · rename_i hp
      rw [set_dim_at_dim_index, if_neg]
      intro h2
      apply h
      obtain ⟨w, rfl⟩ := hp
      simp only [List.drop_left] at h2
      simp [h2]
    · rfl

/-- Two trees that differ in dimension indexes only. -/
theorem assign_dim_indexes_data :
    ∀ (set : List (List Nat)) (i : Int) (root : STNode) (q : List Nat),
      (node_at q (assign_dim_indexes set i root)).map STNode.label_data =
        (node_at q root).map STNode.label_data := by
  intro set
  induction set with
  | nil => intro i root q; rfl
  | cons r rest ih =>
    intro i root q
    rw [assign_dim_indexes, ih, node_at_set_dim_at_data]

theorem assign_dim_indexes_not_mem :
    ∀ (set : List (List Nat)) (i : Int) (root : STNode) (q : List Nat), q ∉ set →
      (node_at q (assign_dim_indexes set i root)).map STNode.dim_index =
        (node_at q root).map STNode.dim_index := by
  intro set
  induction set with
  | nil => intro i root q _; rfl
  | cons r rest ih =>
    intro i root q hq
    rw [List.mem_cons, not_or] at hq
    rw [assign_dim_indexes, ih _ _ _ hq.2, node_at_set_dim_at_dim, if_neg hq.1]

theorem assign_dim_indexes_mem :
    ∀ (set : List (List Nat)) (i : Int) (root : STNode) (j : Nat) (q : List Nat),
      set.Nodup → set[j]? = some q →
      (node_at q (assign_dim_indexes set i root)).map STNode.dim_index =
        (node_at q root).map (fun _ => i + j) := by
  intro set
  induction set with
  | nil => intro i root j q _ h; simp at h
  | cons r rest ih =>
    intro i root j q hnd h
    rw [List.nodup_cons] at hnd
    rw [assign_dim_indexes]
    cases j with
    | zero =>
      simp only [List.getElem?_cons_zero, Option.some.injEq] at h
      subst h
      rw [assign_dim_indexes_not_mem _ _ _ _ hnd.1, node_at_set_dim_at_dim, if_pos rfl]
      simp
    | succ j =>
      simp only [List.getElem?_cons_succ] at h
      rw [ih (i + 1) _ j q hnd.2 h, node_at_set_dim_at, Option.map_map]
      congr 1
      funext m
      simp only [Function.comp, Nat.cast_add, Nat.cast_one]
      omega

/-! ### The ordered sets -/

theorem ref_before_eq_true_iff (root : STNode) (r s : List Nat) :
    ref_before root r s = true ↔
      ∃ a b, node_at r root = some a ∧ node_at s root = some b ∧ sweep_before a b = true := by
  rw [ref_before]
  cases node_at r root with
  | none => simp
  | some a =>
    cases node_at s root with
    | none => simp
    | some b => simp

theorem ref_before_asymm {root : STNode} {r s : List Nat} (h : ref_before root r s = true) :
    ref_before root s r = false := by
  obtain ⟨a, b, ha, hb, hab⟩ := (ref_before_eq_true_iff _ _ _).1 h
  rw [ref_before_of_nodes hb ha]
  rw [sweep_before_iff] at hab
  cases hba : sweep_before b a with
  | false => rfl
  | true =>
    rw [sweep_before_iff] at hba
    omega

theorem ref_before_trans {root : STNode} {r s u : List Nat} (h1 : ref_before root r s = true)
    (h2 : ref_before root s u = true) : ref_before root r u = true := by
  obtain ⟨a, b, ha, hb, hab⟩ := (ref_before_eq_true_iff _ _ _).1 h1
  obtain ⟨b2, c, hb2, hc, hbc⟩ := (ref_before_eq_true_iff _ _ _).1 h2
  rw [hb] at hb2
  cases hb2
  rw [ref_before_of_nodes ha hc, sweep_before_iff]
  rw [sweep_before_iff] at hab hbc
  omega

theorem ref_before_congr {root root2 : STNode}
    (h : ∀ q, (node_at q root2).map STNode.label_data = (node_at q root).map STNode.label_data)
    (r s : List Nat) : ref_before root2 r s = ref_before root r s := by
  have key : ∀ (q : List Nat) (a b : STNode), node_at q root2 = some a → node_at q root = some b →
      a.grade_x = b.grade_x ∧ a.grade_y = b.grade_y := by
    intro q a b ha hb
    have := h q
    rw [ha, hb] at this
    simp only [Option.map_some', Option.some.injEq, STNode.label_data, Prod.mk.injEq] at this
    exact ⟨this.2.1, this.2.2.1⟩
  have none_iff : ∀ q, node_at q root2 = none ↔ node_at q root = none := by
    intro q
    have := h q
    constructor
    · intro h1; rw [h1] at this; simpa using this.symm
    · intro h1; rw [h1] at this; simpa using this
  rw [ref_before, ref_before]
  cases ha : node_at r root2 with
  | none => rw [(none_iff r).1 ha]
  | some a =>
    cases ha2 : node_at r root with
    | none => rw [(none_iff r).2 ha2] at ha; cases ha
    | some a2 =>
      cases hb : node_at s root2 with
      | none => rw [(none_iff s).1 hb]
      | some b =>
        cases hb2 : node_at s root with
        | none => rw [(none_iff s).2 hb2] at hb; cases hb
        | some b2 =>
          have k1 := key r a a2 ha ha2
          have k2 := key s b b2 hb hb2
          simp only [sweep_before, k1.1, k1.2, k2.1, k2.2]

theorem simplex_set_insert_perm (root : STNode) (r : List Nat) :
    ∀ set : List (List Nat), (simplex_set_insert root r set).Perm (r :: set) := by
  intro set
  induction set with
  | nil => exact List.Perm.refl _
  | cons s rest ih =>
    rw [simplex_set_insert]
    split
    · exact List.Perm.refl _
    · exact (List.Perm.cons s ih).trans (List.Perm.swap r s rest)

theorem simplex_set_insert_sorted (root : STNode) (r : List Nat) :
    ∀ set : List (List Nat), set.Pairwise (fun a b => ref_before root b a = false) →
      (simplex_set_insert root r set).Pairwise (fun a b => ref_before root b a = false) := by
  intro set
  induction set with
  | nil => intro _; simp [simplex_set_insert]
  | cons s rest ih =>
    intro h
    rw [List.pairwise_cons] at h
    rw [simplex_set_insert]
    split
    · rename_i hrs
      rw [List.pairwise_cons]
      refine ⟨?_, List.pairwise_cons.2 h⟩
      intro b hb
      rcases List.mem_cons.1 hb with rfl | hb
      · exact ref_before_asymm hrs
      · cases hbr : ref_before root b r with
        | false => rfl
        | true =>
          have := ref_before_trans hbr hrs
          rw [h.1 b hb] at this
          cases this
    · rename_i hrs
      rw [List.pairwise_cons]
      refine ⟨?_, ih h.2⟩
      intro b hb
      rcases List.mem_cons.1 ((simplex_set_insert_perm root r rest).mem_iff.1 hb) with rfl | hb
      · simpa using hrs
      · exact h.1 b hb

theorem foldl_insert_perm (root : STNode) :
    ∀ (L set : List (List Nat)),
      (L.foldl (fun s r => simplex_set_insert root r s) set).Perm (L ++ set) := by
  intro L
  induction L with
  | nil => intro set; exact List.Perm.refl _
  | cons r L ih =>
    intro set
    rw [List.foldl_cons]
    refine (ih _).trans ?_
    refine (List.Perm.append_left L (simplex_set_insert_perm root r set)).trans ?_
    exact List.perm_middle

theorem foldl_insert_sorted (root : STNode) :
    ∀ (L set : List (List Nat)), set.Pairwise (fun a b => ref_before root b a = false) →
      (L.foldl (fun s r => simplex_set_insert root r s) set).Pairwise
        (fun a b => ref_before root b a = false) := by
  intro L
  induction L with
  | nil => intro set h; exact h
  | cons r L ih =>
    intro set h
    rw [List.foldl_cons]
    exact ih _ (simplex_set_insert_sorted root r set h)

/-! ### The traversal of `build_dim_lists_recursively` -/

theorem refs_below_kids_nil (target : Int) (here : List Nat) (pos : Nat) (dim : Int) :
    refs_below_kids target [] here pos dim = [] := by
  simp [refs_below_kids]

theorem refs_below_kids_cons (target : Int) (k : STNode) (ks : List STNode) (here : List Nat)
    (pos : Nat) (dim : Int) :
    refs_below_kids target (k :: ks) here pos dim =
      refs_below target k (here ++ [pos]) dim ++ refs_below_kids target ks here (pos + 1) dim := by
  rw [refs_below_kids, refs_below_kids, refs_below]
  split
  · simp [List.enumFrom_cons, List.flatMap_cons]
  · rfl

theorem refs_below_node (target : Int) (node : STNode) (here : List Nat) (cur : Int) :
    refs_below target node here cur =
      (if cur = target then (List.range node.get_children.length).map (fun i => here ++ [i])
        else []) ++ refs_below_kids target node.get_children here 0 (cur + 1) := by
  rw [refs_below, refs_below_kids]
  rcases lt_trichotomy cur target with h | h | h
  · rw [if_pos (le_of_lt h), if_neg (ne_of_lt h), if_pos (by omega), List.nil_append]
    have h1 : (target - cur + 1).toNat = (target - (cur + 1) + 1).toNat + 1 := by omega
    rw [h1, refs_at_depth, List.map_flatMap]
    simp only [List.map_map]
    rfl
  · subst h
    rw [if_pos (le_refl _), if_pos rfl, if_neg (by omega), List.append_nil]
    have h1 : (cur - cur + 1).toNat = 0 + 1 := by simp
    rw [h1, refs_at_depth, List.map_flatMap]
    simp only [refs_at_depth, List.map_cons, List.map_nil]
    have h2 : ∀ l : List (Nat × STNode),
        (l.flatMap fun a => [here ++ [a.1]]) = (l.map Prod.fst).map (fun i => here ++ [i]) := by
      intro l
      induction l with
      | nil => rfl
      | cons a l ih => simp [List.flatMap_cons, ih]
    rw [h2, List.enumFrom_map_fst, List.range_eq_range']
  · rw [if_neg (by omega), if_neg (by omega), if_neg (by omega)]
    rfl

theorem insert_kids_eq (root : STNode) (here : List Nat) (n : Nat) (set : List (List Nat)) :
    insert_kids root here n set =
      ((List.range n).map (fun i => here ++ [i])).foldl
        (fun s r => simplex_set_insert root r s) set := by
  rw [insert_kids, List.foldl_map]

theorem collect_kids_facts (t : SimplexTree) (here : List Nat) (n : Nat) (cur : Int) :
    (collect_kids t here n cur).root = t.root ∧
    (collect_kids t here n cur).hom_dim = t.hom_dim ∧
    (collect_kids t here n cur).grade_x_values = t.grade_x_values ∧
    (collect_kids t here n cur).grade_y_values = t.grade_y_values ∧
    ∀ k : Int, k = -1 ∨ k = 0 ∨ k = 1 →
      (collect_kids t here n cur).band k =
        (if cur = t.hom_dim + k then (List.range n).map (fun i => here ++ [i]) else []).foldl
          (fun s r => simplex_set_insert t.root r s) (t.band k) := by
  rw [collect_kids]
  split
  · rename_i h
    refine ⟨rfl, rfl, rfl, rfl, ?_⟩
    rintro k (rfl | rfl | rfl)
    · rw [if_pos (by omega)]
      simp [SimplexTree.band, insert_kids_eq]
    · rw [if_neg (by omega)]
      simp [SimplexTree.band]
    · rw [if_neg (by omega)]
      simp [SimplexTree.band]
  · split
    · rename_i h1 h
      refine ⟨rfl, rfl, rfl, rfl, ?_⟩
      rintro k (rfl | rfl | rfl)
      · rw [if_neg (by omega)]
        simp [SimplexTree.band]
      · rw [if_pos (by omega)]
        simp [SimplexTree.band, insert_kids_eq]
      · rw [if_neg (by omega)]
        simp [SimplexTree.band]
    · split
      · rename_i h1 h2 h
        refine ⟨rfl, rfl, rfl, rfl, ?_⟩
        rintro k (rfl | rfl | rfl)
        · rw [if_neg (by omega)]
          simp [SimplexTree.band]
        · rw [if_neg (by omega)]
          simp [SimplexTree.band]
        · rw [if_pos (by omega)]
          simp [SimplexTree.band, insert_kids_eq]
      · rename_i h1 h2 h3
        refine ⟨rfl, rfl, rfl, rfl, ?_⟩
        rintro k (rfl | rfl | rfl)
        · rw [if_neg (by omega)]; rfl
        · rw [if_neg (by omega)]; rfl
        · rw [if_neg (by omega)]; rfl

theorem build_dim_lists_spec :
    (∀ (node : STNode) (here : List Nat) (cur : Int) (t : SimplexTree),
      (build_dim_lists_recursively node here cur t).root = t.root ∧
      (build_dim_lists_recursively node here cur t).hom_dim = t.hom_dim ∧
      (build_dim_lists_recursively node here cur t).grade_x_values = t.grade_x_values ∧
      (build_dim_lists_recursively node here cur t).grade_y_values = t.grade_y_values ∧
      ∀ k : Int, k = -1 ∨ k = 0 ∨ k = 1 →
        (build_dim_lists_recursively node here cur t).band k =
          (refs_below (t.hom_dim + k) node here cur).foldl
            (fun s r => simplex_set_insert t.root r s) (t.band k)) ∧
    (∀ (kids : List STNode) (here : List Nat) (pos : Nat) (dim : Int) (t : SimplexTree),
      (build_dim_lists_kids kids here pos dim t).root = t.root ∧
      (build_dim_lists_kids kids here pos dim t).hom_dim = t.hom_dim ∧
      (build_dim_lists_kids kids here pos dim t).grade_x_values = t.grade_x_values ∧
      (build_dim_lists_kids kids here pos dim t).grade_y_values = t.grade_y_values ∧
      ∀ k : Int, k = -1 ∨ k = 0 ∨ k = 1 →
        (build_dim_lists_kids kids here pos dim t).band k =
          (refs_below_kids (t.hom_dim + k) kids here pos dim).foldl
            (fun s r => simplex_set_insert t.root r s) (t.band k)) := by
  apply STNode.induct
  · intro v x y g d kids ih here cur t
    rw [build_dim_lists_recursively]
    obtain ⟨c1, c2, c3, c4, c5⟩ := collect_kids_facts t here kids.length cur
    obtain ⟨q1, q2, q3, q4, q5⟩ := ih here 0 (cur + 1) (collect_kids t here kids.length cur)
    refine ⟨q1.trans c1, q2.trans c2, q3.trans c3, q4.trans c4, ?_⟩
    intro k hk
    rw [q5 k hk, c5 k hk, c1, c2, refs_below_node, List.foldl_append]
    rfl
  · intro here pos dim t
    refine ⟨rfl, rfl, rfl, rfl, ?_⟩
    intro k _
    rw [build_dim_lists_kids, refs_below_kids_nil]
    rfl
  · intro k ks ihk ihks here pos dim t
    rw [build_dim_lists_kids]
    obtain ⟨p1, p2, p3, p4, p5⟩ := ihk (here ++ [pos]) dim t
    obtain ⟨q1, q2, q3, q4, q5⟩ :=
      ihks here (pos + 1) dim (build_dim_lists_recursively k (here ++ [pos]) dim t)
    refine ⟨q1.trans p1, q2.trans p2, q3.trans p3, q4.trans p4, ?_⟩
    intro k2 hk
    rw [q5 k2 hk, p5 k2 hk, p1, p2, refs_below_kids_cons, List.foldl_append]

theorem refs_below_root (target : Int) (root : STNode) :
    refs_below target root [] 0 = band_refs target root := by
  rw [refs_below, band_refs]
  by_cases h : target < 0
  · rw [if_neg (by omega), if_pos h]
  · rw [if_pos (by omega), if_neg h]
    have : (target - 0 + 1).toNat = target.toNat + 1 := by omega
    rw [this]
    simp

theorem node_at_of_data {X root : STNode} {q : List Nat}
    (h : (node_at q X).map STNode.label_data = (node_at q root).map STNode.label_data)
    {n : STNode} (hn : node_at q root = some n) :
    ∃ n2, node_at q X = some n2 ∧ n2.label_data = n.label_data := by
  rw [hn] at h
  cases hx : node_at q X with
  | none => rw [hx] at h; simp at h
  | some n2 =>
    rw [hx] at h
    exact ⟨n2, rfl, by simpa using h⟩

theorem isSome_of_data {X root : STNode} {q : List Nat}
    (h : (node_at q X).map STNode.label_data = (node_at q root).map STNode.label_data) :
    (node_at q X).isSome = (node_at q root).isSome := by
  have := congrArg Option.isSome h
  simpa using this

theorem sweep_before_irrefl (a : STNode) : sweep_before a a = false := by
  cases h : sweep_before a a with
  | false => rfl
  | true =>
    rw [sweep_before_iff] at h
    omega

/-- The three sets after `update_dim_indexes` on a tree whose sets were
empty: each is a rearrangement of the pointers to the nodes of its depth, in
sweep order; the new root is the old one with the three numberings written,
and differs from it in dimension indexes only. -/
theorem update_dim_indexes_bands (t : SimplexTree)
    (h0 : t.ordered_low_simplices = [] ∧ t.ordered_simplices = [] ∧
      t.ordered_high_simplices = []) :
    t.update_dim_indexes.hom_dim = t.hom_dim ∧
    t.update_dim_indexes.grade_x_values = t.grade_x_values ∧
    t.update_dim_indexes.grade_y_values = t.grade_y_values ∧
    (∀ k : Int, k = -1 ∨ k = 0 ∨ k = 1 →
      (t.update_dim_indexes.band k).Perm (band_refs (t.hom_dim + k) t.root)) ∧
    (∀ k : Int, k = -1 ∨ k = 0 ∨ k = 1 →
      (t.update_dim_indexes.band k).Pairwise (fun a b => ref_before t.root b a = false)) ∧
    t.update_dim_indexes.root =
      assign_dim_indexes (t.update_dim_indexes.band 1) 0
        (assign_dim_indexes (t.update_dim_indexes.band 0) 0
          (assign_dim_indexes (t.update_dim_indexes.band (-1)) 0 t.root)) ∧
    (∀ q, (node_at q t.update_dim_indexes.root).map STNode.label_data =
      (node_at q t.root).map STNode.label_data) := by
  obtain ⟨b1, b2, b3, b4, b5⟩ := build_dim_lists_spec.1 t.root [] 0 t
  have hband0 : ∀ k : Int, k = -1 ∨ k = 0 ∨ k = 1 → t.band k = [] := by
    rintro k (rfl | rfl | rfl)
    · simpa [SimplexTree.band] using h0.1
    · simpa [SimplexTree.band] using h0.2.1
    · simpa [SimplexTree.band] using h0.2.2
  have hbandeq : ∀ k : Int, t.update_dim_indexes.band k =
      (build_dim_lists_recursively t.root [] 0 t).band k := fun _ => rfl
  have hperm : ∀ k : Int, k = -1 ∨ k = 0 ∨ k = 1 →
      (t.update_dim_indexes.band k).Perm (band_refs (t.hom_dim + k) t.root) := by
    intro k hk
    rw [hbandeq, b5 k hk, hband0 k hk, refs_below_root]
    simpa using foldl_insert_perm t.root (band_refs (t.hom_dim + k) t.root) []
  have hsorted : ∀ k : Int, k = -1 ∨ k = 0 ∨ k = 1 →
      (t.update_dim_indexes.band k).Pairwise (fun a b => ref_before t.root b a = false) := by
    intro k hk
    rw [hbandeq, b5 k hk, hband0 k hk]
    exact foldl_insert_sorted t.root _ [] List.Pairwise.nil
  have hroot : t.update_dim_indexes.root =
      assign_dim_indexes (t.update_dim_indexes.band 1) 0
        (assign_dim_indexes (t.update_dim_indexes.band 0) 0
          (assign_dim_indexes (t.update_dim_indexes.band (-1)) 0 t.root)) := by
    have h : t.update_dim_indexes.root =
        assign_dim_indexes (t.update_dim_indexes.band 1) 0
          (assign_dim_indexes (t.update_dim_indexes.band 0) 0
            (assign_dim_indexes (t.update_dim_indexes.band (-1)) 0
              (build_dim_lists_recursively t.root [] 0 t).root)) := rfl
    rw [h, b1]
  have hdata : ∀ q, (node_at q t.update_dim_indexes.root).map STNode.label_data =
      (node_at q t.root).map STNode.label_data := by
    intro q
    rw [hroot, assign_dim_indexes_data, assign_dim_indexes_data, assign_dim_indexes_data]
  exact ⟨b2, b3, b4, hperm, hsorted, hroot, hdata⟩

/-- C17: after `update_dim_indexes` on a tree whose three ordered sets were
empty, the tree has current dimension indexes: for each band `k` in
`{-1, 0, 1}` (the simplices of dimension `hom_dim + k`) the set holds no
pointer twice and holds exactly the pointers to the nodes at depth
`hom_dim + k + 1`; the node at position `i` of the set has dimension index
`i`, so the dimension indexes of the band are a bijection onto `[0, count)`;
and a simplex of the band that is before another one in the sweep order has
a smaller dimension index.  Vertex labels, multi-grades and global indexes are
untouched, and so is the dimension index of every node that is in none of the
three sets. -/
theorem update_dim_indexes_spec (t : SimplexTree)
    (h0 : t.ordered_low_simplices = [] ∧ t.ordered_simplices = [] ∧
      t.ordered_high_simplices = []) :
    t.update_dim_indexes.hom_dim = t.hom_dim ∧
    t.update_dim_indexes.grade_x_values = t.grade_x_values ∧
    t.update_dim_indexes.grade_y_values = t.grade_y_values ∧
    t.update_dim_indexes.dim_indexed = true ∧
    (∀ k : Int, k = -1 ∨ k = 0 ∨ k = 1 →
      (t.update_dim_indexes.band k).Nodup ∧
      (∀ r, r ∈ t.update_dim_indexes.band k ↔
        r ≠ [] ∧ (r.length : Int) = t.hom_dim + k + 1 ∧ (node_at r t.root).isSome = true) ∧
      (∀ (i : Nat) (r : List Nat), (t.update_dim_indexes.band k)[i]? = some r →
        ∃ n, node_at r t.update_dim_indexes.root = some n ∧ n.dim_index = i) ∧
      (∀ r ∈ t.update_dim_indexes.band k, ∀ s ∈ t.update_dim_indexes.band k, ∀ a b,
        node_at r t.update_dim_indexes.root = some a →
        node_at s t.update_dim_indexes.root = some b →
        sweep_before a b = true → a.dim_index < b.dim_index)) ∧
    (∀ q n, node_at q t.root = some n →
      ∃ n2, node_at q t.update_dim_indexes.root = some n2 ∧
        n2.label_data = n.label_data ∧
        ((∀ k : Int, k = -1 ∨ k = 0 ∨ k = 1 → q ∉ t.update_dim_indexes.band k) →
          n2.dim_index = n.dim_index)) := by
  obtain ⟨b2, b3, b4, hperm, hsorted, hroot, hdata⟩ := update_dim_indexes_bands t h0
  have hnodup : ∀ k : Int, k = -1 ∨ k = 0 ∨ k = 1 → (t.update_dim_indexes.band k).Nodup :=
    fun k hk => (hperm k hk).nodup_iff.2 (band_refs_nodup _ _)
  have hmem : ∀ k : Int, k = -1 ∨ k = 0 ∨ k = 1 → ∀ r, r ∈ t.update_dim_indexes.band k ↔
      r ≠ [] ∧ (r.length : Int) = t.hom_dim + k + 1 ∧ (node_at r t.root).isSome = true := by
    intro k hk r
    rw [(hperm k hk).mem_iff, mem_band_refs]
  have hsome : ∀ {X : STNode} {q : List Nat} (c : Int),
      (node_at q X).map STNode.label_data = (node_at q t.root).map STNode.label_data →
      (node_at q t.root).isSome = true → (node_at q X).map (fun _ => c) = some c := by
    intro X q c h hv
    obtain ⟨n, hn⟩ := Option.isSome_iff_exists.1 hv
    obtain ⟨n2, hn2, _⟩ := node_at_of_data h hn
    rw [hn2]
    rfl
  have hidx : ∀ k : Int, k = -1 ∨ k = 0 ∨ k = 1 → ∀ (i : Nat) (r : List Nat),
      (t.update_dim_indexes.band k)[i]? = some r →
      ∃ n, node_at r t.update_dim_indexes.root = some n ∧ n.dim_index = i := by
    intro k hk i r hr
    have hrm : r ∈ t.update_dim_indexes.band k := List.mem_iff_getElem?.2 ⟨i, hr⟩
    have hrv := (hmem k hk r).1 hrm
    have hother : ∀ k2 : Int, k2 = -1 ∨ k2 = 0 ∨ k2 = 1 → k2 ≠ k →
        r ∉ t.update_dim_indexes.band k2 := by
      intro k2 hk2 hne hr2
      have := (hmem k2 hk2 r).1 hr2
      omega
    have key : (node_at r t.update_dim_indexes.root).map STNode.dim_index = some (i : Int) := by
      rw [hroot]
      rcases hk with rfl | rfl | rfl
      · rw [assign_dim_indexes_not_mem _ _ _ _ (hother 1 (by simp) (by decide)),
          assign_dim_indexes_not_mem _ _ _ _ (hother 0 (by simp) (by decide)),
          assign_dim_indexes_mem _ _ _ i r (hnodup _ (by simp)) hr, zero_add]
        exact hsome _ rfl hrv.2.2
      · rw [assign_dim_indexes_not_mem _ _ _ _ (hother 1 (by simp) (by decide)),
          assign_dim_indexes_mem _ _ _ i r (hnodup _ (by simp)) hr, zero_add]
        exact hsome _ (assign_dim_indexes_data _ _ _ _) hrv.2.2
      · rw [assign_dim_indexes_mem _ _ _ i r (hnodup _ (by simp)) hr, zero_add]
        refine hsome _ ?_ hrv.2.2
        rw [assign_dim_indexes_data, assign_dim_indexes_data]
    cases hn : node_at r t.update_dim_indexes.root with
    | none => rw [hn] at key; simp at key
    | some n =>
      rw [hn] at key
      exact ⟨n, rfl, by simpa using key⟩
  have hsorted2 : ∀ k : Int, k = -1 ∨ k = 0 ∨ k = 1 →
      (t.update_dim_indexes.band k).Pairwise
        (fun a b => ref_before t.update_dim_indexes.root b a = false) := by
    intro k hk
    refine (hsorted k hk).imp ?_
    intro a b h
    rw [ref_before_congr hdata]
    exact h
  have hbi : ∀ k : Int, k = -1 ∨ k = 0 ∨ k = 1 →
      band_indexed t.update_dim_indexes.root (t.update_dim_indexes.band k) (t.hom_dim + k) =
        true := by
    intro k hk
    rw [band_indexed_iff]
    refine ⟨hnodup k hk, ?_, hsorted2 k hk, hidx k hk⟩
    intro r
    rw [hmem k hk r, isSome_of_data (hdata r)]
  refine ⟨b2, b3, b4, ?_, ?_, ?_⟩
  · have h1 := hbi (-1) (by simp)
    have h2 := hbi 0 (by simp)
    have h3 := hbi 1 (by simp)
    have hh : t.update_dim_indexes.hom_dim = t.hom_dim := b2
    simp only [SimplexTree.band, add_zero] at h1 h2 h3
    simp only [SimplexTree.dim_indexed, Bool.and_eq_true, hh]
    refine ⟨⟨?_, ?_⟩, ?_⟩
    · simpa [sub_eq_add_neg] using h1
    · simpa using h2
    · simpa using h3
  · intro k hk
    refine ⟨hnodup k hk, hmem k hk, hidx k hk, ?_⟩
    intro r hr s hs a b ha hb hab
    obtain ⟨i, hi⟩ := List.mem_iff_getElem?.1 hr
    obtain ⟨j, hj⟩ := List.mem_iff_getElem?.1 hs
    obtain ⟨a2, ha2, hda⟩ := hidx k hk i r hi
    obtain ⟨b2, hb2, hdb⟩ := hidx k hk j s hj
    rw [ha] at ha2
    rw [hb] at hb2
    cases ha2
    cases hb2
    rw [hda, hdb]
    have hrs : ref_before t.update_dim_indexes.root r s = true := by
      rw [ref_before_of_nodes ha hb]
      exact hab
    obtain ⟨hi1, hi2⟩ := List.getElem?_eq_some_iff.1 hi
    obtain ⟨hj1, hj2⟩ := List.getElem?_eq_some_iff.1 hj
    rcases lt_trichotomy i j with h | h | h
    · exact_mod_cast h
    · exfalso
      subst h
      rw [hi] at hj
      cases hj
      rw [ha] at hb
      cases hb
      rw [sweep_before_irrefl] at hab
      cases hab
    · exfalso
      have := List.pairwise_iff_getElem.1 (hsorted2 k hk) j i hj1 hi1 h
      rw [hi2, hj2, hrs] at this
      cases this
  · intro q n hn
    obtain ⟨n2, hn2, hd⟩ := node_at_of_data (hdata q) hn
    refine ⟨n2, hn2, hd, ?_⟩
    intro hout
    have : (node_at q t.update_dim_indexes.root).map STNode.dim_index =
        (node_at q t.root).map STNode.dim_index := by
      rw [hroot, assign_dim_indexes_not_mem _ _ _ _ (hout 1 (by simp)),
        assign_dim_indexes_not_mem _ _ _ _ (hout 0 (by simp)),
        assign_dim_indexes_not_mem _ _ _ _ (hout (-1) (by simp))]
    rw [hn, hn2] at this
    simpa using this

/-- C17 on `tree_124`, whose three sets are empty: the set of the edges
becomes 1-2, 1-4, 2-4. -/
theorem update_dim_indexes_spec_witness :
    (tree_124.ordered_low_simplices = [] ∧ tree_124.ordered_simplices = [] ∧
      tree_124.ordered_high_simplices = []) ∧
    tree_124.update_dim_indexes.ordered_simplices = [[0, 0], [0, 1], [1, 0]] ∧
    tree_124.update_dim_indexes.dim_indexed = true ∧
    (∀ k : Int, k = -1 ∨ k = 0 ∨ k = 1 →
      (tree_124.update_dim_indexes.band k).Nodup ∧
      (∀ r, r ∈ tree_124.update_dim_indexes.band k ↔
        r ≠ [] ∧ (r.length : Int) = tree_124.hom_dim + k + 1 ∧
          (node_at r tree_124.root).isSome = true) ∧
      (∀ (i : Nat) (r : List Nat), (tree_124.update_dim_indexes.band k)[i]? = some r →
        ∃ n, node_at r tree_124.update_dim_indexes.root = some n ∧ n.dim_index = i) ∧
      (∀ r ∈ tree_124.update_dim_indexes.band k, ∀ s ∈ tree_124.update_dim_indexes.band k,
        ∀ a b, node_at r tree_124.update_dim_indexes.root = some a →
        node_at s tree_124.update_dim_indexes.root = some b →
        sweep_before a b = true → a.dim_index < b.dim_index)) :=
  ⟨by decide, by decide,
    (update_dim_indexes_spec tree_124 (by decide)).2.2.2.1,
    (update_dim_indexes_spec tree_124 (by decide)).2.2.2.2.1⟩

/-! ### The boundary matrix -/

theorem MapMatrix.column_append (m : MapMatrix) (l : List Int) (col c : Int) :
    MapMatrix.column { m with cells := m.cells ++ l.map (fun x => (x, col)) } c =
      m.column c ++ if c = col then l else [] := by
  simp only [MapMatrix.column, List.filter_append, List.map_append]
  congr 1
  by_cases h : c = col
  · subst h
    rw [if_pos rfl]
    induction l with
    | nil => rfl
    | cons a l ih => simp [List.filter_cons, ih]
  · rw [if_neg h]
    induction l with
    | nil => rfl
    | cons a l ih =>
      have : ¬ col = c := fun h2 => h h2.symm
      simp [List.filter_cons, ih, this]

theorem write_facets_ok (t : SimplexTree) (verts : List Int) (col offset : Int) :
    ∀ (ks : List Nat) (mat : MapMatrix),
      (∀ k ∈ ks, (t.find_simplex (verts.eraseIdx k)).isSome = true) →
      write_facets t verts col offset ks mat =
        .ok { mat with
          cells := mat.cells ++ ks.map (fun k => (facet_row t verts k + offset, col)) } := by
  intro ks
  induction ks with
  | nil => intro mat _; simp [write_facets]
  | cons k ks ih =>
    intro mat h
    obtain ⟨f, hf⟩ := Option.isSome_iff_exists.1 (h k (List.mem_cons_self _ _))
    rw [write_facets, hf]
    simp only
    rw [ih _ (fun k2 hk2 => h k2 (List.mem_cons_of_mem _ hk2))]
    simp [MapMatrix.set, facet_row, hf]

theorem write_boundary_column_ok (t : SimplexTree) (sim : List Nat) {s : STNode}
    {verts : List Int} (hs : node_at sim t.root = some s)
    (hv : t.find_vertices s.global_index = .ok verts)
    (hf : ∀ k, k < verts.length → (t.find_simplex (verts.eraseIdx k)).isSome = true)
    (mat : MapMatrix) (col : Int) :
    t.write_boundary_column mat sim col 0 =
      .ok { mat with cells := mat.cells ++ (column_rows t sim).map (fun x => (x, col)) } := by
  rw [SimplexTree.write_boundary_column, hs]
  simp only
  rw [hv]
  simp only
  rw [write_facets_ok t verts col 0 _ mat (fun k hk => hf k (List.mem_range.1 hk))]
  simp [column_rows, hs, hv]

theorem write_columns_ok (t : SimplexTree) :
    ∀ (sims : List (List Nat)) (col : Int) (mat : MapMatrix),
      (∀ sim ∈ sims, ∃ s verts, node_at sim t.root = some s ∧
        t.find_vertices s.global_index = .ok verts ∧
        ∀ k, k < verts.length → (t.find_simplex (verts.eraseIdx k)).isSome = true) →
      ∃ m, write_columns t sims col mat = .ok m ∧ m.num_rows = mat.num_rows ∧
        m.num_cols = mat.num_cols ∧
        ∀ c : Int, m.column c = mat.column c ++
          (match (if col ≤ c then sims[(c - col).toNat]? else none) with
            | some sim => column_rows t sim
            | none => []) := by
  intro sims
  induction sims with
  | nil =>
    intro col mat _
    refine ⟨mat, rfl, rfl, rfl, ?_⟩
    intro c
    split_ifs <;> simp
  | cons sim rest ih =>
    intro col mat h
    obtain ⟨s, verts, hs, hv, hf⟩ := h sim (List.mem_cons_self _ _)
    obtain ⟨m, hm, hr, hc, hcol⟩ := ih (col + 1)
      { mat with cells := mat.cells ++ (column_rows t sim).map (fun x => (x, col)) }
      (fun sim2 h2 => h sim2 (List.mem_cons_of_mem _ h2))
    refine ⟨m, ?_, hr, hc, ?_⟩
    · rw [write_columns, write_boundary_column_ok t sim hs hv hf, Export.bind_of_ok, hm]
    · intro c
      rw [hcol c, MapMatrix.column_append, List.append_assoc]
      congr 1
      rcases lt_trichotomy c col with h1 | h1 | h1
      · rw [if_neg (by omega), if_neg (by omega), if_neg (by omega)]
        rfl
      · subst h1
        rw [if_pos rfl, if_neg (by omega), if_pos (le_refl _)]
        simp
      · rw [if_neg (by omega), if_pos (by omega), if_pos (by omega)]
        have : (c - col).toNat = (c - (col + 1)).toNat + 1 := by omega
        rw [this, List.getElem?_cons_succ]
        simp

/-! ### Pointers and vertex lists -/

theorem entries_of_node_at :
    ∀ (r : List Nat) (node s : STNode), r ≠ [] → node_at r node = some s →
      ∃ p : List Int, p.length = r.length ∧ (p, s) ∈ entries node.get_children := by
  intro r
  induction r with
  | nil => intro node s h; exact absurd rfl h
  | cons i r ih =>
    intro node s _ hs
    rw [node_at_cons] at hs
    cases hk : node.get_children[i]? with
    | none => rw [hk] at hs; simp at hs
    | some k =>
      rw [hk] at hs
      simp only [Option.some_bind] at hs
      have hmem : k ∈ node.get_children := List.mem_iff_getElem?.2 ⟨i, hk⟩
      by_cases hr : r = []
      · subst hr
        simp only [node_at, Option.some.injEq] at hs
        subst hs
        refine ⟨[k.get_vertex], rfl, mem_entries_iff_exists.2 ⟨k, hmem, ?_⟩⟩
        rw [entries_node_eq]
        exact List.mem_cons_self _ _
      · obtain ⟨p, hp, hps⟩ := ih k s hr hs
        refine ⟨k.get_vertex :: p, by simp [hp], mem_entries_iff_exists.2 ⟨k, hmem, ?_⟩⟩
        rw [entries_node_eq]
        exact List.mem_cons_of_mem _ (List.mem_map.2 ⟨(p, s), hps, rfl⟩)

theorem node_at_of_entries :
    ∀ (p : List Int) (node n : STNode), (p, n) ∈ entries node.get_children →
      ∃ r : List Nat, r.length = p.length ∧ node_at r node = some n := by
  intro p
  induction p with
  | nil =>
    intro node n h
    exact absurd rfl (entries_path_ne_nil.2 _ _ h)
  | cons v p ih =>
    intro node n h
    obtain ⟨c, hc, hcn⟩ := mem_entries_iff_exists.1 h
    obtain ⟨i, hi⟩ := List.mem_iff_getElem?.1 hc
    rw [entries_node_eq, List.mem_cons] at hcn
    rcases hcn with hcn | hcn
    · simp only [Prod.mk.injEq, List.cons.injEq] at hcn
      obtain ⟨⟨_, hp⟩, hn⟩ := hcn
      subst hp hn
      refine ⟨[i], rfl, ?_⟩
      rw [node_at_cons, hi]
      rfl
    · obtain ⟨e, he, heq⟩ := List.mem_map.1 hcn
      simp only [Prod.mk.injEq, List.cons.injEq] at heq
      obtain ⟨⟨_, hp⟩, hn⟩ := heq
      subst hp hn
      obtain ⟨r, hr, hrn⟩ := ih c e.2 he
      refine ⟨i :: r, by simp [hr], ?_⟩
      rw [node_at_cons, hi]
      exact hrn

theorem eraseIdx_injective {α : Type} :
    ∀ (l : List α), l.Nodup → ∀ (i j : Nat), i < l.length → j < l.length →
      l.eraseIdx i = l.eraseIdx j → i = j := by
  intro l
  induction l with
  | nil => intro _ i j hi; simp at hi
  | cons a l ih =>
    intro hnd i j hi hj h
    rw [List.nodup_cons] at hnd
    cases i with
    | zero =>
      cases j with
      | zero => rfl
      | succ j =>
        exfalso
        simp only [List.eraseIdx_zero, List.tail_cons, List.eraseIdx_cons_succ] at h
        apply hnd.1
        rw [h]
        exact List.mem_cons_self _ _
    | succ i =>
      cases j with
      | zero =>
        exfalso
        simp only [List.eraseIdx_zero, List.tail_cons, List.eraseIdx_cons_succ] at h
        apply hnd.1
        rw [← h]
        exact List.mem_cons_self _ _
      | succ j =>
        simp only [List.eraseIdx_cons_succ, List.cons.injEq, true_and] at h
        have := ih hnd.2 i j (by simpa using hi) (by simpa using hj) h
        omega

/-- C18 (amended): on a sorted, face-closed tree whose simplices list their
vertices in strictly increasing order, with current global and dimension
indexes, for `dim` in `{hom_dim, hom_dim + 1}` with `dim ≥ 1`,
`get_boundary_mx(dim)` returns a matrix with one row per simplex of dimension
`dim - 1` and one column per simplex of dimension `dim`.  Column `c` belongs
to the simplex with dimension index `c`, which has `dim + 1` vertices; the
column holds exactly `dim + 1` cells, the `k`-th at the row that is the
dimension index of the facet without the `k`-th vertex, a simplex of the band
of the rows; these rows are pairwise distinct and lie in `[0, num_rows)`.
No cell is entered outside these columns. -/
theorem get_boundary_mx_columns (t : SimplexTree) (dim : Int) (S R : List (List Nat))
    (hs : t.sorted = true) (hi : t.indexed = true) (hc : t.face_closed = true)
    (hinc : t.increasing = true) (hdi : t.dim_indexed = true)
    (hS : (dim = t.hom_dim ∧ S = t.ordered_simplices ∧ R = t.ordered_low_simplices) ∨
      (dim = t.hom_dim + 1 ∧ S = t.ordered_high_simplices ∧ R = t.ordered_simplices))
    (hdim : 1 ≤ dim) :
    ∃ m, t.get_boundary_mx dim = .ok m ∧ m.num_rows = R.length ∧ m.num_cols = S.length ∧
      (∀ c : Int, c < 0 ∨ (S.length : Int) ≤ c → m.column c = []) ∧
      ∀ (c : Nat) (r : List Nat), S[c]? = some r →
        ∃ s verts, node_at r t.root = some s ∧ s.dim_index = c ∧
          t.find_vertices s.global_index = .ok verts ∧ (verts.length : Int) = dim + 1 ∧
          (m.column c).length = verts.length ∧ (m.column c).Nodup ∧
          (∀ x ∈ m.column c, 0 ≤ x ∧ x < m.num_rows) ∧
          ∀ k, k < verts.length →
            ∃ f rf, t.find_simplex (verts.eraseIdx k) = some f ∧ rf ∈ R ∧
              node_at rf t.root = some f ∧ (m.column c)[k]? = some f.dim_index := by
  have hbS : band_indexed t.root S dim = true := by
    rcases hS with ⟨rfl, rfl, rfl⟩ | ⟨rfl, rfl, rfl⟩
    · simpa [SimplexTree.band] using dim_indexed_band t hdi 0 (Or.inr (Or.inl rfl))
    · simpa [SimplexTree.band] using dim_indexed_band t hdi 1 (Or.inr (Or.inr rfl))
  have hbR : band_indexed t.root R (dim - 1) = true := by
    rcases hS with ⟨rfl, rfl, rfl⟩ | ⟨rfl, rfl, rfl⟩
    · simpa [SimplexTree.band, sub_eq_add_neg] using dim_indexed_band t hdi (-1) (Or.inl rfl)
    · simpa [SimplexTree.band] using dim_indexed_band t hdi 0 (Or.inr (Or.inl rfl))
  have hmx : t.get_boundary_mx dim = write_columns t S 0 (MapMatrix.init R.length S.length) := by
    rcases hS with ⟨rfl, rfl, rfl⟩ | ⟨rfl, rfl, rfl⟩
    · simp [SimplexTree.get_boundary_mx]
    · simp [SimplexTree.get_boundary_mx]
  obtain ⟨_, hSmem, _, hSidx⟩ := (band_indexed_iff _ _ _).1 hbS
  obtain ⟨_, hRmem, _, hRidx⟩ := (band_indexed_iff _ _ _).1 hbR
  have hsn : sorted_node t.root = true := hs
  -- what is known of every facet of a simplex of the tree with `dim + 1` vertices
  have hfacet : ∀ (p : List Int) (n : STNode), (p, n) ∈ entries t.root.get_children →
      (p.length : Int) = dim + 1 → ∀ k, k < p.length →
      ∃ (f : STNode) (rf : List Nat) (j : Nat), t.find_simplex (p.eraseIdx k) = some f ∧
        (p.eraseIdx k, f) ∈ entries t.root.get_children ∧ R[j]? = some rf ∧
        node_at rf t.root = some f ∧ f.dim_index = j := by
    intro p n hpn hlen k hk
    have hp : p ∈ t.simplices := List.mem_map.2 ⟨(p, n), hpn, rfl⟩
    have hlen2 : (p.eraseIdx k).length = p.length - 1 := List.length_eraseIdx_of_lt hk
    have hne : p.eraseIdx k ≠ [] := by
      intro h
      rw [h] at hlen2
      simp only [List.length_nil] at hlen2
      omega
    have hsome := (face_closed_iff t).1 hc p hp (p.eraseIdx k) (List.eraseIdx_sublist p k) hne
    obtain ⟨f, hf⟩ := Option.isSome_iff_exists.1 hsome
    have hfollow : follow (p.eraseIdx k) t.root = some f := by
      rw [← find_simplex_from_eq_follow (p.eraseIdx k) t.root hs]
      exact hf
    have hfe : (p.eraseIdx k, f) ∈ entries t.root.get_children :=
      (mem_entries_children_iff t.root hsn _ _).2 ⟨hne, hfollow⟩
    obtain ⟨rf, hrf, hrfn⟩ := node_at_of_entries _ _ _ hfe
    have hrfR : rf ∈ R := by
      rw [hRmem]
      refine ⟨?_, by omega, by simp [hrfn]⟩
      intro h
      rw [h] at hrf
      simp only [List.length_nil] at hrf
      omega
    obtain ⟨j, hj⟩ := List.mem_iff_getElem?.1 hrfR
    obtain ⟨n2, hn2, hd⟩ := hRidx j rf hj
    rw [hrfn] at hn2
    cases hn2
    exact ⟨f, rf, j, hf, hfe, hj, hrfn, hd⟩
  -- what is known of every simplex of the band of the columns
  have hcol : ∀ r ∈ S, ∃ s verts, node_at r t.root = some s ∧
      (verts, s) ∈ entries t.root.get_children ∧
      t.find_vertices s.global_index = .ok verts ∧ (verts.length : Int) = dim + 1 := by
    intro r hr
    obtain ⟨hne, hlen, hv⟩ := (hSmem r).1 hr
    obtain ⟨s, hs2⟩ := Option.isSome_iff_exists.1 hv
    obtain ⟨p, hp, hps⟩ := entries_of_node_at r t.root s hne hs2
    exact ⟨s, p, hs2, hps, find_vertices_of_mem t hi hps, by omega⟩
  obtain ⟨m, hm, hrows, hcols, hcolumn⟩ :=
    write_columns_ok t S 0 (MapMatrix.init R.length S.length) (by
      intro sim hsim
      obtain ⟨s, verts, h1, h2, h3, h4⟩ := hcol sim hsim
      refine ⟨s, verts, h1, h3, ?_⟩
      intro k hk
      obtain ⟨f, _, _, hf, _⟩ := hfacet verts s h2 h4 k hk
      simp [hf])
  refine ⟨m, hmx ▸ hm, hrows, hcols, ?_, ?_⟩
  · intro c hcc
    rw [hcolumn c]
    rcases hcc with h | h
    · rw [if_neg (by omega)]
      rfl
    · rw [if_pos (by omega), List.getElem?_eq_none (by omega)]
      rfl
  · intro c r hr
    have hrS : r ∈ S := List.mem_iff_getElem?.2 ⟨c, hr⟩
    obtain ⟨s, verts, h1, h2, h3, h4⟩ := hcol r hrS
    obtain ⟨n2, hn2, hd⟩ := hSidx c r hr
    rw [h1] at hn2
    cases hn2
    have hcc : m.column c = (List.range verts.length).map (facet_row t verts) := by
      rw [hcolumn c, if_pos (by omega)]
      simp [hr, MapMatrix.column, MapMatrix.init, column_rows, h1, h3]
    have hrow : ∀ k, k < verts.length →
        ∃ (f : STNode) (rf : List Nat) (j : Nat), t.find_simplex (verts.eraseIdx k) = some f ∧
          (verts.eraseIdx k, f) ∈ entries t.root.get_children ∧ R[j]? = some rf ∧
          node_at rf t.root = some f ∧ f.dim_index = j ∧ facet_row t verts k = j := by
      intro k hk
      obtain ⟨f, rf, j, g1, g2, g3, g4, g5⟩ := hfacet verts s h2 h4 k hk
      exact ⟨f, rf, j, g1, g2, g3, g4, g5, by simp [facet_row, g1, g5]⟩
    have hverts : verts.Nodup := by
      have hp : verts ∈ t.simplices := List.mem_map.2 ⟨(verts, s), h2, rfl⟩
      have := List.all_eq_true.1 hinc verts hp
      simp only [decide_eq_true_eq] at this
      exact this.imp (fun h => ne_of_lt h)
    refine ⟨s, verts, h1, hd, h3, h4, by simp [hcc], ?_, ?_, ?_⟩
    · rw [hcc]
      refine List.Nodup.map_on ?_ (List.nodup_range _)
      intro k1 hk1 k2 hk2 heq
      rw [List.mem_range] at hk1 hk2
      obtain ⟨f1, rf1, j1, a1, a2, a3, a4, a5, a6⟩ := hrow k1 hk1
      obtain ⟨f2, rf2, j2, b1, b2, b3, b4, b5, b6⟩ := hrow k2 hk2
      rw [a6, b6] at heq
      have hj : j1 = j2 := by exact_mod_cast heq
      subst hj
      rw [a3] at b3
      cases b3
      rw [a4] at b4
      cases b4
      have e1 := find_vertices_of_mem t hi a2
      have e2 := find_vertices_of_mem t hi b2
      rw [e1] at e2
      exact eraseIdx_injective verts hverts k1 k2 hk1 hk2 (by simpa using e2)
    · intro x hx
      rw [hcc] at hx
      obtain ⟨k, hk, rfl⟩ := List.mem_map.1 hx
      obtain ⟨f, rf, j, _, _, g3, _, _, g6⟩ := hrow k (List.mem_range.1 hk)
      have := (List.getElem?_eq_some_iff.1 g3).1
      rw [g6, hrows]
      simp only [MapMatrix.init]
      omega
    · intro k hk
      obtain ⟨f, rf, j, g1, _, g3, g4, g5, g6⟩ := hrow k hk
      refine ⟨f, rf, g1, List.mem_iff_getElem?.2 ⟨j, g3⟩, g4, ?_⟩
      rw [hcc, List.getElem?_map, List.getElem?_range hk, Option.map_some', g6, g5]

/-- C18, as stated, fails for `dim = 0`: in `tree_point` (homology dimension
0, the single vertex 1) there is no simplex of dimension -1, so
`get_boundary_mx(0)` returns a matrix with no row; yet its column 0 holds one
cell, entered at the row read from the root node (the node `find_simplex`
returns for the empty facet), which is no row of the matrix. -/
theorem get_boundary_mx_columns_counterexample :
    (tree_point.sorted = true ∧ tree_point.indexed = true ∧ tree_point.face_closed = true ∧
      tree_point.dim_indexed = true) ∧
    tree_point.hom_dim = 0 ∧ tree_point.ordered_low_simplices = [] ∧
    tree_point.ordered_simplices = [[0]] ∧
    ∃ m, tree_point.get_boundary_mx 0 = .ok m ∧ m.num_rows = 0 ∧
      m.column 0 = [tree_point.root.dim_index] ∧
      ¬ (∀ x ∈ m.column 0, 0 ≤ x ∧ x < m.num_rows) :=
  ⟨by decide, by decide, by decide, by decide, _, rfl, by decide, by decide, by decide⟩

/-- C18 (amended) on `tree_124_dim` with `dim = 1`: the column of the edge
2-4 holds the rows of the vertices 4 and 2. -/
theorem get_boundary_mx_columns_witness :
    (tree_124_dim.sorted = true ∧ tree_124_dim.indexed = true ∧
      tree_124_dim.face_closed = true ∧ tree_124_dim.increasing = true ∧
      tree_124_dim.dim_indexed = true ∧ tree_124_dim.hom_dim = 1) ∧
    (∃ m, tree_124_dim.get_boundary_mx 1 = .ok m ∧ m.column 2 = [2, 1]) ∧
    ∃ m, tree_124_dim.get_boundary_mx 1 = .ok m ∧
      m.num_rows = tree_124_dim.ordered_low_simplices.length ∧
      m.num_cols = tree_124_dim.ordered_simplices.length ∧
      (∀ c : Int, c < 0 ∨ (tree_124_dim.ordered_simplices.length : Int) ≤ c →
        m.column c = []) ∧
      ∀ (c : Nat) (r : List Nat), tree_124_dim.ordered_simplices[c]? = some r →
        ∃ s verts, node_at r tree_124_dim.root = some s ∧ s.dim_index = c ∧
          tree_124_dim.find_vertices s.global_index = .ok verts ∧
          (verts.length : Int) = 1 + 1 ∧
          (m.column c).length = verts.length ∧ (m.column c).Nodup ∧
          (∀ x ∈ m.column c, 0 ≤ x ∧ x < m.num_rows) ∧
          ∀ k, k < verts.length →
            ∃ f rf, tree_124_dim.find_simplex (verts.eraseIdx k) = some f ∧
              rf ∈ tree_124_dim.ordered_low_simplices ∧
              node_at rf tree_124_dim.root = some f ∧
              (m.column c)[k]? = some f.dim_index :=
  ⟨by decide, ⟨_, rfl, by decide⟩,
    get_boundary_mx_columns tree_124_dim 1 tree_124_dim.ordered_simplices
      tree_124_dim.ordered_low_simplices (by decide) (by decide) (by decide) (by decide)
      (by decide) (Or.inl ⟨by decide, rfl, rfl⟩) (by decide)⟩

/-! ### The flattened distance table -/

theorem distance_rows_sum (pc : PointCloud) (m : Nat) :
    ((List.range m).flatMap (fun (i : Nat) =>
        (List.range (pc.size - (i + 1))).map (fun (k : Nat) => pc.dist i (i + 1 + k)))).length =
      ((List.range m).map (fun (a : Nat) => pc.size - (a + 1))).sum := by
  induction m with
  | zero => rfl
  | succ m ih =>
    rw [List.range_succ, List.flatMap_append, List.map_append, List.sum_append,
      List.length_append, ih]
    simp

theorem stored_at_closed (n i j : Nat) (hij : i < j) (hj : j < n) :
    2 * stored_at n i j + i * (i + 1) + 2 * (i + 1) = 2 * i * n + 2 * j := by
  have key : ∀ m : Nat, m ≤ n →
      2 * ((List.range m).map (fun (a : Nat) => n - (a + 1))).sum + m * (m + 1) = 2 * m * n := by
    intro m
    induction m with
    | zero => intro _; simp
    | succ m ih =>
      intro hm
      have h := ih (by omega)
      rw [List.range_succ, List.map_append, List.sum_append]
      simp only [List.map_cons, List.map_nil, List.sum_cons, List.sum_nil, add_zero]
      obtain ⟨c, hc⟩ : ∃ c, n = m + 1 + c := ⟨n - (m + 1), by omega⟩
      rw [hc] at h ⊢
      simp only [Nat.add_sub_cancel_left]
      nlinarith
  have h := key i (by omega)
  unfold stored_at
  have h2 : j - (i + 1) + (i + 1) = j := by omega
  nlinarith

theorem stored_at_lt_next (n i j : Nat) (hij : i < j) (hj : j < n) :
    stored_at n i j < ((List.range (i + 1)).map (fun (a : Nat) => n - (a + 1))).sum := by
  unfold stored_at
  rw [List.range_succ, List.map_append, List.sum_append]
  simp only [List.map_cons, List.map_nil, List.sum_cons, List.sum_nil, add_zero]
  omega

theorem rows_sum_mono (n : Nat) {a b : Nat} (h : a ≤ b) :
    ((List.range a).map (fun (c : Nat) => n - (c + 1))).sum ≤
      ((List.range b).map (fun (c : Nat) => n - (c + 1))).sum := by
  induction b with
  | zero =>
    have : a = 0 := by omega
    subst this
    exact le_refl _
  | succ b ih =>
    by_cases hab : a ≤ b
    · have := ih hab
      rw [List.range_succ, List.map_append, List.sum_append]
      omega
    · have : a = b + 1 := by omega
      subst this
      exact le_refl _

theorem stored_at_injective (n i j a b : Nat) (hij : i < j) (hj : j < n) (hab : a < b)
    (hb : b < n) (h : stored_at n i j = stored_at n a b) : i = a ∧ j = b := by
  rcases lt_trichotomy i a with h1 | h1 | h1
  · exfalso
    have h2 := stored_at_lt_next n i j hij hj
    have h3 := rows_sum_mono n (show _ + 1 ≤ _ from h1)
    have h4 : ((List.range a).map (fun (c : Nat) => n - (c + 1))).sum ≤ stored_at n a b := by
      unfold stored_at; omega
    omega
  · subst h1
    refine ⟨rfl, ?_⟩
    unfold stored_at at h
    omega
  · exfalso
    have h2 := stored_at_lt_next n a b hab hb
    have h3 := rows_sum_mono n (show _ + 1 ≤ _ from h1)
    have h4 : ((List.range i).map (fun (c : Nat) => n - (c + 1))).sum ≤ stored_at n i j := by
      unfold stored_at; omega
    omega

theorem stored_at_surjective (n : Nat) :
    ∀ m : Nat, m ≤ n → ∀ c : Nat,
      c < ((List.range m).map (fun (a : Nat) => n - (a + 1))).sum →
      ∃ i j, i < j ∧ j < n ∧ stored_at n i j = c := by
  intro m
  induction m with
  | zero => intro _ c hc; simp at hc
  | succ m ih =>
    intro hm c hc
    by_cases h : c < ((List.range m).map (fun (a : Nat) => n - (a + 1))).sum
    · exact ih (by omega) c h
    · rw [List.range_succ, List.map_append, List.sum_append] at hc
      simp only [List.map_cons, List.map_nil, List.sum_cons, List.sum_nil, add_zero] at hc
      refine ⟨m, m + 1 + (c - ((List.range m).map (fun (a : Nat) => n - (a + 1))).sum),
        by omega, by omega, ?_⟩
      unfold stored_at
      omega

theorem distance_offset_eq_stored_at (n i j : Nat) (hij : i < j) (hj : j < n) :
    2 ∣ (i : Int) * (3 + i) ∧ distance_offset n i j = stored_at n i j := by
  have h := stored_at_closed n i j hij hj
  have h1 : (i : Int) * (3 + i) = 2 * ((n : Int) * i + j - 1 - stored_at n i j) := by
    have : (2 * stored_at n i j + i * (i + 1) + 2 * (i + 1) : Int) = 2 * i * n + 2 * j := by
      exact_mod_cast h
    nlinarith
  refine ⟨⟨_, h1⟩, ?_⟩
  unfold distance_offset
  rw [h1, Int.mul_ediv_cancel_left _ (by norm_num : (2 : Int) ≠ 0)]
  omega

/-- C26: the array `distances` has `n(n-1)/2` entries; for `0 ≤ i < j < n` the
product `i*(3+i)` is even, the offset `n*i - i*(3+i)/2 + j - 1` read by
`build_VR_subtree` is the value the counter `c` had when `build_VR_complex`
stored `d(i, j)`, it lies inside the array, and the entry there is `d(i, j)`;
the offsets of different pairs differ and every position of the array is the
offset of a pair; and `build_VR_complex` on an empty tree returns, no read
having left the array. -/
theorem distance_offset_spec (pc : PointCloud) :
    2 * (distance_table pc).length = pc.size * (pc.size - 1) ∧
    (∀ i j : Nat, i < j → j < pc.size →
      2 ∣ (i : Int) * (3 + i) ∧
      distance_offset pc.size i j = stored_at pc.size i j ∧
      stored_at pc.size i j < (distance_table pc).length ∧
      (distance_table pc)[stored_at pc.size i j]? = some (pc.dist i j) ∧
      read_distance (distance_table pc) pc.size i j = some (pc.dist i j)) ∧
    (∀ i j a b : Nat, i < j → j < pc.size → a < b → b < pc.size →
      distance_offset pc.size i j = distance_offset pc.size a b → i = a ∧ j = b) ∧
    (∀ c : Nat, c < (distance_table pc).length →
      ∃ i j : Nat, i < j ∧ j < pc.size ∧ distance_offset pc.size i j = c) ∧
    (∀ (dim max_dim : Int) (max_dist : ℚ),
      ∃ t, (SimplexTree.init dim).build_VR_complex pc max_dim max_dist = .ok t) := by
  have hlen : (distance_table pc).length =
      ((List.range pc.size).map (fun (a : Nat) => pc.size - (a + 1))).sum :=
    distance_rows_sum pc pc.size
  have hpair : ∀ i j : Nat, i < j → j < pc.size →
      stored_at pc.size i j < (distance_table pc).length := by
    intro i j hij hj
    rw [hlen]
    exact lt_of_lt_of_le (stored_at_lt_next pc.size i j hij hj)
      (rows_sum_mono pc.size (by omega))
  refine ⟨?_, ?_, ?_, ?_, ?_⟩
  · have h := distance_rows_length pc pc.size (le_refl _)
    unfold distance_table
    cases hn : pc.size with
    | zero => simp
    | succ n =>
      rw [hn] at h
      simp only [Nat.add_sub_cancel]
      nlinarith
  · intro i j hij hj
    obtain ⟨h1, h2⟩ := distance_offset_eq_stored_at pc.size i j hij hj
    have h3 := read_distance_table pc i j hij hj
    refine ⟨h1, h2, hpair i j hij hj, ?_, h3⟩
    unfold read_distance at h3
    rw [h2] at h3
    simpa using h3
  · intro i j a b hij hj hab hb h
    rw [(distance_offset_eq_stored_at pc.size i j hij hj).2,
      (distance_offset_eq_stored_at pc.size a b hab hb).2] at h
    exact stored_at_injective pc.size i j a b hij hj hab hb (by exact_mod_cast h)
  · intro c hc
    rw [hlen] at hc
    obtain ⟨i, j, hij, hj, h⟩ := stored_at_surjective pc.size pc.size (le_refl _) c hc
    exact ⟨i, j, hij, hj, by rw [(distance_offset_eq_stored_at pc.size i j hij hj).2, h]⟩
  · intro dim max_dim max_dist
    obtain ⟨B, hB, _, _⟩ := dist_set_back pc max_dist
    exact ⟨_, build_VR_complex_init dim pc max_dim max_dist B hB⟩

/-- C26 on `cloud_three`: the pair `(1, 2)` is read at offset 2, the last
position of the array of 3 entries. -/
theorem distance_offset_spec_witness :
    distance_offset 3 1 2 = 2 ∧ (distance_table cloud_three).length = 3 ∧
    2 ∣ ((1 : Nat) : Int) * (3 + (1 : Nat)) ∧
    distance_offset cloud_three.size 1 2 = stored_at cloud_three.size 1 2 ∧
    stored_at cloud_three.size 1 2 < (distance_table cloud_three).length ∧
    (distance_table cloud_three)[stored_at cloud_three.size 1 2]? =
      some (cloud_three.dist 1 2) ∧
    read_distance (distance_table cloud_three) cloud_three.size 1 2 =
      some (cloud_three.dist 1 2) :=
  ⟨by decide, by decide,
    (distance_offset_spec cloud_three).2.1 1 2 (by decide) (by decide)⟩


/-! ### The range query `find_nodes` -/

theorem find_nodes_eq (n : STNode) (level : Int) (vec : List Int) (time dist dim : Int) :
    find_nodes n level vec time dist dim =
      if time < 0 ∨ dist < 0 ∨ dim < 0 then vec
      else
        if level ≤ dim then
          find_nodes_kids n.get_children (level + 1)
            (if level = dim + 1 ∧ n.grade_x ≤ time ∧ n.grade_y ≤ dist then
              vec ++ [n.global_index] else vec) time dist dim
        else
          (if level = dim + 1 ∧ n.grade_x ≤ time ∧ n.grade_y ≤ dist then
            vec ++ [n.global_index] else vec) := by
  cases n
  rw [find_nodes]
  rfl

theorem find_nodes_walk (time dist dim : Int) (h1 : 0 ≤ time) (h2 : 0 ≤ dist) (h3 : 0 ≤ dim) :
    (∀ (n : STNode) (level : Int) (vec : List Int),
      find_nodes n level vec time dist dim =
        vec ++ ((entries_node n).filter (fun e =>
          decide (level + (e.1.length : Int) - 1 = dim + 1 ∧ e.2.grade_x ≤ time ∧
            e.2.grade_y ≤ dist))).map (fun e => e.2.global_index)) ∧
    (∀ (ks : List STNode) (level : Int) (vec : List Int),
      find_nodes_kids ks level vec time dist dim =
        vec ++ ((entries ks).filter (fun e =>
          decide (level + (e.1.length : Int) - 1 = dim + 1 ∧ e.2.grade_x ≤ time ∧
            e.2.grade_y ≤ dist))).map (fun e => e.2.global_index)) := by
  apply STNode.induct
  · intro v x y g d kids ih level vec
    have hneg : ¬ (time < 0 ∨ dist < 0 ∨ dim < 0) := by omega
    rw [find_nodes_eq, if_neg hneg, entries_node_eq, List.filter_cons]
    simp only [STNode.get_children_mk, STNode.get_vertex_mk, STNode.grade_x_mk,
      STNode.grade_y_mk, STNode.global_index_mk, List.length_singleton, Nat.cast_one,
      add_sub_cancel_right]
    have hrest : (((entries kids).map (fun e => (v :: e.1, e.2))).filter
          (fun e : List Int × STNode =>
            decide (level + (e.1.length : Int) - 1 = dim + 1 ∧ e.2.grade_x ≤ time ∧
              e.2.grade_y ≤ dist))).map (fun e => e.2.global_index) =
        ((entries kids).filter (fun e =>
          decide (level + 1 + (e.1.length : Int) - 1 = dim + 1 ∧ e.2.grade_x ≤ time ∧
            e.2.grade_y ≤ dist))).map (fun e => e.2.global_index) := by
      rw [List.filter_map, List.map_map]
      congr 1
      apply List.filter_congr
      intro e _
      simp only [Function.comp, List.length_cons, Nat.cast_add, Nat.cast_one]
      congr 1
      apply propext
      constructor <;> intro h <;> refine ⟨by omega, h.2⟩
    by_cases hl : level ≤ dim
    · rw [if_pos hl, ih]
      have hs : ¬ (level = dim + 1 ∧ x ≤ time ∧ y ≤ dist) := by omega
      rw [if_neg hs, if_neg (by simpa using hs), hrest]
    · rw [if_neg hl]
      have hnone : (entries kids).filter (fun e =>
          decide (level + 1 + (e.1.length : Int) - 1 = dim + 1 ∧ e.2.grade_x ≤ time ∧
            e.2.grade_y ≤ dist)) = [] := by
        rw [List.filter_eq_nil_iff]
        intro e he
        have := List.length_pos.2 (entries_path_ne_nil.2 kids e he)
        simp only [decide_eq_true_eq, not_and]
        intro h
        omega
      by_cases hs : level = dim + 1 ∧ x ≤ time ∧ y ≤ dist
      · rw [if_pos hs, if_pos (by simpa using hs), List.map_cons, hrest, hnone]
        rfl
      · rw [if_neg hs, if_neg (by simpa using hs), hrest, hnone]
        simp
  · intro level vec
    simp [find_nodes_kids, entries_nil]
  · intro k ks ihk ihks level vec
    rw [find_nodes_kids, ihks, ihk, entries_cons, List.filter_append, List.map_append,
      List.append_assoc]

theorem index_matrix_of_nil (t : SimplexTree) : index_matrix_of t [] = .undefined := rfl

theorem index_band_facts (t : SimplexTree) (dim : Int) (S : List (List Nat))
    (hdi : t.dim_indexed = true)
    (hS : (dim = t.hom_dim ∧ S = t.ordered_simplices) ∨
      (dim = t.hom_dim + 1 ∧ S = t.ordered_high_simplices))
    (hne : S ≠ [])
    (hgrid : ∀ r ∈ S, ∀ n, node_at r t.root = some n →
      0 ≤ n.grade_x ∧ n.grade_x < t.grade_x_values.length ∧
      0 ≤ n.grade_y ∧ n.grade_y < t.grade_y_values.length) :
    t.get_index_mx dim = index_matrix_of t S ∧
    (0 : Int) < t.grade_x_values.length ∧ (0 : Int) < t.grade_y_values.length ∧
    (∀ r ∈ S, ∃ n, node_at r t.root = some n ∧
      0 ≤ n.grade_x ∧ n.grade_x < t.grade_x_values.length ∧
      0 ≤ n.grade_y ∧ n.grade_y < t.grade_y_values.length) ∧
    (S.map (ref_pos t.root t.grade_x_values.length)).Pairwise (fun a b => a ≤ b) ∧
    (∀ p ∈ S.map (ref_pos t.root t.grade_x_values.length),
      0 ≤ p ∧ p < (t.grade_x_values.length : Int) * t.grade_y_values.length) := by
  have hband : band_indexed t.root S dim = true := by
    rcases hS with ⟨rfl, rfl⟩ | ⟨rfl, rfl⟩
    · simpa [SimplexTree.band] using dim_indexed_band t hdi 0 (Or.inr (Or.inl rfl))
    · simpa [SimplexTree.band] using dim_indexed_band t hdi 1 (Or.inr (Or.inr rfl))
  have hmx : t.get_index_mx dim = index_matrix_of t S := by
    rcases hS with ⟨rfl, rfl⟩ | ⟨rfl, rfl⟩
    · simp [SimplexTree.get_index_mx]
    · simp [SimplexTree.get_index_mx]
  obtain ⟨_, hmem, hsort, _⟩ := (band_indexed_iff _ _ _).1 hband
  have hvalid : ∀ r ∈ S, ∃ n, node_at r t.root = some n ∧
      0 ≤ n.grade_x ∧ n.grade_x < t.grade_x_values.length ∧
      0 ≤ n.grade_y ∧ n.grade_y < t.grade_y_values.length := by
    intro r hr
    obtain ⟨n, hn⟩ := Option.isSome_iff_exists.1 ((hmem r).1 hr).2.2
    exact ⟨n, hn, hgrid r hr n hn⟩
  have hXY : (0 : Int) < t.grade_x_values.length ∧ (0 : Int) < t.grade_y_values.length := by
    cases S with
    | nil => exact absurd rfl hne
    | cons r _ =>
      obtain ⟨n, _, h1, h2, h3, h4⟩ := hvalid r (List.mem_cons_self _ _)
      omega
  have hpos : ∀ r ∈ S, ∀ n, node_at r t.root = some n →
      ref_pos t.root t.grade_x_values.length r = n.grade_x + n.grade_y * t.grade_x_values.length := by
    intro r _ n hn
    simp [ref_pos, hn, cell_pos]
  refine ⟨hmx, hXY.1, hXY.2, hvalid, ?_, ?_⟩
  · rw [List.pairwise_map]
    refine hsort.imp_of_mem ?_
    intro r s hr hs h
    obtain ⟨a, ha, ha1, ha2, _⟩ := hvalid r hr
    obtain ⟨b, hb, hb1, hb2, _⟩ := hvalid s hs
    rw [hpos r hr a ha, hpos s hs b hb, lin_le_iff hXY.1 ha1 ha2 hb1 hb2]
    rw [ref_before_of_nodes hb ha] at h
    have h2 : ¬ (b.grade_y < a.grade_y ∨ (b.grade_y = a.grade_y ∧ b.grade_x < a.grade_x)) := by
      rw [← sweep_before_iff, h]
      simp
    omega
  · intro p hp
    obtain ⟨r, hr, rfl⟩ := List.mem_map.1 hp
    obtain ⟨n, hn, h1, h2, h3, h4⟩ := hvalid r hr
    rw [hpos r hr n hn]
    exact lin_range h1 h2 h3 h4

theorem countP_le_mono (ps : List Int) {a b : Int} (h : a ≤ b) :
    ps.countP (fun p => decide (p ≤ a)) ≤ ps.countP (fun p => decide (p ≤ b)) := by
  apply List.countP_mono_left
  intro p _ hp
  simp only [decide_eq_true_eq] at hp ⊢
  omega

/-- What `get_index_mx` returns on a band that is not empty: on a tree with
current dimension indexes, for `dim` in `{hom_dim, hom_dim + 1}` with all
multi-grades of the band inside the grid, every cell of the grid is written,
with a value in `[-1, count - 1]`; the values do not decrease along `x` for a
fixed `y`, nor along `y` for a fixed `x`, and the cell at the largest grade
holds `count - 1`. -/
theorem get_index_mx_monotone (t : SimplexTree) (dim : Int) (S : List (List Nat))
    (hdi : t.dim_indexed = true)
    (hS : (dim = t.hom_dim ∧ S = t.ordered_simplices) ∨
      (dim = t.hom_dim + 1 ∧ S = t.ordered_high_simplices))
    (hne : S ≠ [])
    (hgrid : ∀ r ∈ S, ∀ n, node_at r t.root = some n →
      0 ≤ n.grade_x ∧ n.grade_x < t.grade_x_values.length ∧
      0 ≤ n.grade_y ∧ n.grade_y < t.grade_y_values.length) :
    ∃ (m : IndexMatrix) (val : Int → Int → Int), t.get_index_mx dim = .ok m ∧
      (∀ x y : Int, 0 ≤ x → x < t.grade_x_values.length → 0 ≤ y →
        y < t.grade_y_values.length →
        m.cell y x = some (val x y) ∧ -1 ≤ val x y ∧ val x y ≤ (S.length : Int) - 1) ∧
      (∀ x1 x2 y : Int, 0 ≤ x1 → x1 ≤ x2 → x2 < t.grade_x_values.length → 0 ≤ y →
        y < t.grade_y_values.length → val x1 y ≤ val x2 y) ∧
      (∀ x y1 y2 : Int, 0 ≤ x → x < t.grade_x_values.length → 0 ≤ y1 → y1 ≤ y2 →
        y2 < t.grade_y_values.length → val x y1 ≤ val x y2) ∧
      val ((t.grade_x_values.length : Int) - 1) ((t.grade_y_values.length : Int) - 1) =
        (S.length : Int) - 1 := by
  obtain ⟨hmx, hX, hY, hvalid, hsorted, hrange⟩ := index_band_facts t dim S hdi hS hne hgrid
  obtain ⟨m, hm, _, _, hcell⟩ := index_matrix_of_spec t S hne hvalid hsorted
  refine ⟨m, fun x y => (((S.map (ref_pos t.root t.grade_x_values.length)).countP
      (fun p => decide (p ≤ x + y * t.grade_x_values.length)) : Nat) : Int) - 1,
    hmx ▸ hm, ?_, ?_, ?_, ?_⟩
  · intro x y h1 h2 h3 h4
    refine ⟨hcell x y h1 h2 h3 h4, ?_, ?_⟩
    · simp only
      omega
    have := List.countP_le_length (fun p => decide (p ≤ x + y * t.grade_x_values.length))
      (l := S.map (ref_pos t.root t.grade_x_values.length))
    rw [List.length_map] at this
    simp only
    omega
  · intro x1 x2 y _ h2 _ _ _
    have := countP_le_mono (S.map (ref_pos t.root t.grade_x_values.length))
      (show x1 + y * t.grade_x_values.length ≤ x2 + y * t.grade_x_values.length by omega)
    simp only
    omega
  · intro x y1 y2 _ _ _ h2 _
    have h5 : y1 * (t.grade_x_values.length : Int) ≤ y2 * t.grade_x_values.length :=
      mul_le_mul_of_nonneg_right h2 (le_of_lt hX)
    have := countP_le_mono (S.map (ref_pos t.root t.grade_x_values.length))
      (show x + y1 * t.grade_x_values.length ≤ x + y2 * t.grade_x_values.length by omega)
    simp only
    omega
  · simp only
    rw [countP_pos_all, List.length_map]
    intro p hp
    have := (hrange p hp).2
    have h6 : ((t.grade_x_values.length : Int) - 1) +
        ((t.grade_y_values.length : Int) - 1) * t.grade_x_values.length =
        (t.grade_x_values.length : Int) * t.grade_y_values.length - 1 := by ring
    omega

/-- The non-empty case on `tree_edge`, whose band of edges holds one edge. -/
theorem get_index_mx_monotone_witness :
    (tree_edge.dim_indexed = true ∧ tree_edge.ordered_simplices ≠ []) ∧
    ∃ (m : IndexMatrix) (val : Int → Int → Int), tree_edge.get_index_mx 1 = .ok m ∧
      (∀ x y : Int, 0 ≤ x → x < tree_edge.grade_x_values.length → 0 ≤ y →
        y < tree_edge.grade_y_values.length →
        m.cell y x = some (val x y) ∧ -1 ≤ val x y ∧
          val x y ≤ (tree_edge.ordered_simplices.length : Int) - 1) ∧
      (∀ x1 x2 y : Int, 0 ≤ x1 → x1 ≤ x2 → x2 < tree_edge.grade_x_values.length → 0 ≤ y →
        y < tree_edge.grade_y_values.length → val x1 y ≤ val x2 y) ∧
      (∀ x y1 y2 : Int, 0 ≤ x → x < tree_edge.grade_x_values.length → 0 ≤ y1 → y1 ≤ y2 →
        y2 < tree_edge.grade_y_values.length → val x y1 ≤ val x y2) ∧
      val ((tree_edge.grade_x_values.length : Int) - 1)
          ((tree_edge.grade_y_values.length : Int) - 1) =
        (tree_edge.ordered_simplices.length : Int) - 1 :=
  ⟨⟨by decide, by decide⟩,
    get_index_mx_monotone tree_edge 1 tree_edge.ordered_simplices (by decide)
      (Or.inl ⟨by decide, rfl⟩) (by decide)
      (fun r hr n hn => by
        have hr2 : r = [0, 0] := by
          have h : tree_edge.ordered_simplices = [[0, 0]] := by decide
          rw [h] at hr
          exact List.mem_singleton.1 hr
        subst hr2
        have h : (node_at [0, 0] tree_edge.root).map (fun n => (n.grade_x, n.grade_y)) =
            some (1, 0) := by decide
        rw [hn] at h
        simp only [Option.map_some', Option.some.injEq, Prod.mk.injEq] at h
        rw [h.1, h.2]
        decide)⟩

/-- C21 fails on an empty band: `tree_edge` (homology dimension 1) has current
dimension indexes and no simplex of dimension 2, so the hypotheses of the
claim hold with `count = 0`; `get_index_mx(2)` reads the multi-grade of
`*simplices->begin()` before any test, and on the empty set this is a read
through the end iterator: no cell is written, where the claim has every cell
written with the value `count - 1 = -1`. -/
theorem get_index_mx_empty_band :
    tree_edge.dim_indexed = true ∧ tree_edge.hom_dim + 1 = 2 ∧
    tree_edge.ordered_high_simplices = [] ∧
    tree_edge.grade_x_values.length = 2 ∧ tree_edge.grade_y_values.length = 2 ∧
    tree_edge.get_index_mx 2 = .undefined :=
  ⟨by decide, by decide, by decide, by decide, by decide, rfl⟩


/-! ### Facets are found -/

theorem find_simplex_nil (t : SimplexTree) : t.find_simplex [] = some t.root := rfl

theorem facets_found (t : SimplexTree) (hc : t.face_closed = true) {p : List Int}
    (hp : p ∈ t.simplices) (k : Nat) : (t.find_simplex (p.eraseIdx k)).isSome = true := by
  by_cases hne : p.eraseIdx k = []
  · rw [hne, find_simplex_nil]
    rfl
  · exact (face_closed_iff t).1 hc p hp _ (List.eraseIdx_sublist p k) hne

/-- On a face-closed tree with current global indexes, a pointer to a node
other than the root is the pointer of a column that `write_boundary_column`
can write: the vertex list of the node is found and so is each of its
facets. -/
theorem column_resolved (t : SimplexTree) (hi : t.indexed = true) (hc : t.face_closed = true)
    {sim : List Nat} (hne : sim ≠ []) {s : STNode} (hs : node_at sim t.root = some s) :
    ∃ verts, (verts, s) ∈ entries t.root.get_children ∧ verts.length = sim.length ∧
      t.find_vertices s.global_index = .ok verts ∧
      ∀ k, k < verts.length → (t.find_simplex (verts.eraseIdx k)).isSome = true := by
  obtain ⟨p, hp, hps⟩ := entries_of_node_at sim t.root s hne hs
  refine ⟨p, hps, hp, find_vertices_of_mem t hi hps, ?_⟩
  intro k _
  exact facets_found t hc (List.mem_map.2 ⟨(p, s), hps, rfl⟩) k

/-- On a sorted face-closed tree, the facet of a simplex with at least two
vertices is found at a node one level higher in the tree. -/
theorem facet_node (t : SimplexTree) (hs : t.sorted = true) (hc : t.face_closed = true)
    {p : List Int} {n : STNode} (hpn : (p, n) ∈ entries t.root.get_children)
    (h2 : 2 ≤ p.length) {k : Nat} (hk : k < p.length) :
    ∃ (f : STNode) (rf : List Nat), t.find_simplex (p.eraseIdx k) = some f ∧
      (p.eraseIdx k, f) ∈ entries t.root.get_children ∧ rf ≠ [] ∧
      rf.length + 1 = p.length ∧ node_at rf t.root = some f := by
  have hp : p ∈ t.simplices := List.mem_map.2 ⟨(p, n), hpn, rfl⟩
  have hlen : (p.eraseIdx k).length = p.length - 1 := List.length_eraseIdx_of_lt hk
  have hne : p.eraseIdx k ≠ [] := by
    intro h
    rw [h] at hlen
    simp only [List.length_nil] at hlen
    omega
  obtain ⟨f, hf⟩ := Option.isSome_iff_exists.1 (facets_found t hc hp k)
  have hfollow : follow (p.eraseIdx k) t.root = some f := by
    rw [← find_simplex_from_eq_follow (p.eraseIdx k) t.root hs]
    exact hf
  have hfe : (p.eraseIdx k, f) ∈ entries t.root.get_children :=
    (mem_entries_children_iff t.root hs _ _).2 ⟨hne, hfollow⟩
  obtain ⟨rf, hrf, hrfn⟩ := node_at_of_entries _ _ _ hfe
  refine ⟨f, rf, hf, hfe, ?_, by omega, hrfn⟩
  intro h
  rw [h] at hrf
  simp only [List.length_nil] at hrf
  omega

/-- The exporter `get_boundary_mx` returns a matrix whenever the pointers of
the band of the columns point to nodes other than the root, on a face-closed
tree with current global indexes. -/
theorem get_boundary_mx_returns (t : SimplexTree) (hi : t.indexed = true)
    (hc : t.face_closed = true) (dim : Int)
    (hdim : dim = t.hom_dim ∨ dim = t.hom_dim + 1)
    (hv : ∀ k : Int, k = 0 ∨ k = 1 → ∀ sim ∈ t.band k,
      sim ≠ [] ∧ (node_at sim t.root).isSome = true) :
    ∃ m, t.get_boundary_mx dim = .ok m := by
  have key : ∀ (S : List (List Nat)) (mat : MapMatrix),
      (∀ sim ∈ S, sim ≠ [] ∧ (node_at sim t.root).isSome = true) →
      ∃ m, write_columns t S 0 mat = .ok m := by
    intro S mat h
    obtain ⟨m, hm, _⟩ := write_columns_ok t S 0 mat (by
      intro sim hsim
      obtain ⟨hne, hsome⟩ := h sim hsim
      obtain ⟨s, hs⟩ := Option.isSome_iff_exists.1 hsome
      obtain ⟨verts, _, _, h3, h4⟩ := column_resolved t hi hc hne hs
      exact ⟨s, verts, hs, h3, h4⟩)
    exact ⟨m, hm⟩
  rcases hdim with rfl | rfl
  · rw [SimplexTree.get_boundary_mx, if_pos rfl]
    exact key _ _ (by simpa [SimplexTree.band] using hv 0 (Or.inl rfl))
  · rw [SimplexTree.get_boundary_mx, if_neg (by omega), if_pos rfl]
    exact key _ _ (by simpa [SimplexTree.band] using hv 1 (Or.inr rfl))


/-! ### The overload of `get_boundary_mx` with caller-chosen orders -/

theorem write_facets_shifted (t : SimplexTree) (verts : List Int)
    (face_order : List (Int × Int)) (col : Int) :
    ∀ (ks : List Nat) (mat1 mat2 : MapMatrix),
      (∀ k ∈ ks, ∃ f, t.find_simplex (verts.eraseIdx k) = some f ∧
        face_order.lookup f.global_index = some f.dim_index) →
      mat2.num_rows = mat1.num_rows → mat2.num_cols = mat1.num_cols →
      mat2.cells = mat1.cells.map (fun c => (c.1 + 1, c.2 + 1)) →
      ∃ m1 m2, write_facets t verts col 0 ks mat1 = .ok m1 ∧
        write_facets_orders t verts face_order col ks mat2 = .ok m2 ∧
        m2.num_rows = m1.num_rows ∧ m2.num_cols = m1.num_cols ∧
        m2.cells = m1.cells.map (fun c => (c.1 + 1, c.2 + 1)) := by
  intro ks
  induction ks with
  | nil =>
    intro mat1 mat2 _ h1 h2 h3
    exact ⟨mat1, mat2, rfl, rfl, h1, h2, h3⟩
  | cons k ks ih =>
    intro mat1 mat2 h h1 h2 h3
    obtain ⟨f, hf, hl⟩ := h k (List.mem_cons_self _ _)
    rw [write_facets, write_facets_orders, hf]
    simp only [hl]
    apply ih _ _ (fun k2 hk2 => h k2 (List.mem_cons_of_mem _ hk2))
    · exact h1
    · exact h2
    · simp [MapMatrix.set, h3]

theorem write_columns_shifted (t : SimplexTree) (face_order : List (Int × Int)) :
    ∀ (S : List (List Nat)) (coface_global : List Int) (col : Int) (mat1 mat2 : MapMatrix),
      coface_global.map some = S.map (fun r => (node_at r t.root).map STNode.global_index) →
      (∀ sim ∈ S, ∃ s verts, node_at sim t.root = some s ∧
        t.find_vertices s.global_index = .ok verts ∧ 1 < verts.length ∧
        ∀ k, k < verts.length → ∃ f, t.find_simplex (verts.eraseIdx k) = some f ∧
          face_order.lookup f.global_index = some f.dim_index) →
      mat2.num_rows = mat1.num_rows → mat2.num_cols = mat1.num_cols →
      mat2.cells = mat1.cells.map (fun c => (c.1 + 1, c.2 + 1)) →
      ∃ m1 m2, write_columns t S col mat1 = .ok m1 ∧
        write_columns_orders t face_order coface_global col mat2 = .ok m2 ∧
        m2.num_rows = m1.num_rows ∧ m2.num_cols = m1.num_cols ∧
        m2.cells = m1.cells.map (fun c => (c.1 + 1, c.2 + 1)) := by
  intro S
  induction S with
  | nil =>
    intro cg col mat1 mat2 hcg _ h1 h2 h3
    have : cg = [] := by simpa using hcg
    subst this
    exact ⟨mat1, mat2, rfl, rfl, h1, h2, h3⟩
  | cons sim S ih =>
    intro cg col mat1 mat2 hcg h h1 h2 h3
    obtain ⟨s, verts, hs, hv, hlen, hf⟩ := h sim (List.mem_cons_self _ _)
    cases cg with
    | nil => simp at hcg
    | cons g cg =>
      simp only [List.map_cons, List.cons.injEq, hs, Option.map_some', Option.some.injEq] at hcg
      obtain ⟨hg, hcg2⟩ := hcg
      subst hg
      obtain ⟨m1, m2, e1, e2, e3, e4, e5⟩ :=
        write_facets_shifted t verts face_order col (List.range verts.length) mat1 mat2
          (fun k hk => hf k (List.mem_range.1 hk)) h1 h2 h3
      obtain ⟨n1, n2, g1, g2, g3, g4, g5⟩ :=
        ih cg (col + 1) m1 m2 hcg2 (fun sim2 h2 => h sim2 (List.mem_cons_of_mem _ h2)) e3 e4 e5
      refine ⟨n1, n2, ?_, ?_, g3, g4, g5⟩
      · rw [write_columns, SimplexTree.write_boundary_column, hs]
        simp only [hv]
        rw [e1, Export.bind_of_ok, g1]
      · rw [write_columns_orders, hv, Res.bind_ok, if_pos hlen, e2, Res.bind_ok, g2]

/-- How the two overloads of `get_boundary_mx` are related on the orders of
the tree itself: on a sorted, face-closed tree with current global and
dimension indexes, for `dim` in `{hom_dim, hom_dim + 1}` with `dim ≥ 1`, if
`coface_global` lists the global indexes of the simplices of dimension `dim`
in the order of their dimension indexes and `face_order` maps the global index
of every simplex of dimension `dim - 1` to its dimension index, the two
matrices have the same size and the overload enters, for every cell `(r, c)`
of `get_boundary_mx(dim)`, the cell `(r + 1, c + 1)`. -/
theorem get_boundary_mx_orders_shifted (t : SimplexTree) (dim : Int) (S R : List (List Nat))
    (coface_global : List Int) (face_order : List (Int × Int))
    (hs : t.sorted = true) (hi : t.indexed = true) (hc : t.face_closed = true)
    (hdi : t.dim_indexed = true)
    (hS : (dim = t.hom_dim ∧ S = t.ordered_simplices ∧ R = t.ordered_low_simplices) ∨
      (dim = t.hom_dim + 1 ∧ S = t.ordered_high_simplices ∧ R = t.ordered_simplices))
    (hdim : 1 ≤ dim)
    (hco : coface_global.map some =
      S.map (fun r => (node_at r t.root).map STNode.global_index))
    (hfo : ∀ r ∈ R, ∀ n, node_at r t.root = some n →
      face_order.lookup n.global_index = some n.dim_index)
    (hlen : face_order.length = R.length) :
    ∃ m1 m2, t.get_boundary_mx dim = .ok m1 ∧
      t.get_boundary_mx_orders coface_global face_order = .ok m2 ∧
      m2.num_rows = m1.num_rows ∧ m2.num_cols = m1.num_cols ∧
      m2.cells = m1.cells.map (fun c => (c.1 + 1, c.2 + 1)) := by
  have hbS : band_indexed t.root S dim = true := by
    rcases hS with ⟨rfl, rfl, rfl⟩ | ⟨rfl, rfl, rfl⟩
    · simpa [SimplexTree.band] using dim_indexed_band t hdi 0 (Or.inr (Or.inl rfl))
    · simpa [SimplexTree.band] using dim_indexed_band t hdi 1 (Or.inr (Or.inr rfl))
  have hbR : band_indexed t.root R (dim - 1) = true := by
    rcases hS with ⟨rfl, rfl, rfl⟩ | ⟨rfl, rfl, rfl⟩
    · simpa [SimplexTree.band, sub_eq_add_neg] using dim_indexed_band t hdi (-1) (Or.inl rfl)
    · simpa [SimplexTree.band] using dim_indexed_band t hdi 0 (Or.inr (Or.inl rfl))
  have hmx : t.get_boundary_mx dim = write_columns t S 0 (MapMatrix.init R.length S.length) := by
    rcases hS with ⟨rfl, rfl, rfl⟩ | ⟨rfl, rfl, rfl⟩
    · simp [SimplexTree.get_boundary_mx]
    · simp [SimplexTree.get_boundary_mx]
  obtain ⟨_, hSmem, _, _⟩ := (band_indexed_iff _ _ _).1 hbS
  obtain ⟨_, hRmem, _, _⟩ := (band_indexed_iff _ _ _).1 hbR
  have hcgl : coface_global.length = S.length := by
    have := congrArg List.length hco
    simpa using this
  have hgood : ∀ sim ∈ S, ∃ s verts, node_at sim t.root = some s ∧
      t.find_vertices s.global_index = .ok verts ∧ 1 < verts.length ∧
      ∀ k, k < verts.length → ∃ f, t.find_simplex (verts.eraseIdx k) = some f ∧
        face_order.lookup f.global_index = some f.dim_index := by
    intro sim hsim
    obtain ⟨hne, hl, hv⟩ := (hSmem sim).1 hsim
    obtain ⟨s, hs2⟩ := Option.isSome_iff_exists.1 hv
    obtain ⟨verts, h1, h2, h3, _⟩ := column_resolved t hi hc hne hs2
    refine ⟨s, verts, hs2, h3, by omega, ?_⟩
    intro k hk
    obtain ⟨f, rf, g1, _, g3, g4, g5⟩ := facet_node t hs hc h1 (by omega) hk
    refine ⟨f, g1, hfo rf ?_ f g5⟩
    rw [hRmem]
    exact ⟨g3, by omega, by simp [g5]⟩
  obtain ⟨m1, m2, e1, e2, e3, e4, e5⟩ :=
    write_columns_shifted t face_order S coface_global 0
      (MapMatrix.init R.length S.length) (MapMatrix.init face_order.length coface_global.length)
      hco hgood (by simp [MapMatrix.init, hlen]) (by simp [MapMatrix.init, hcgl]) rfl
  exact ⟨m1, m2, hmx ▸ e1, e2, e3, e4, e5⟩

/-- The relation of the two overloads on `tree_124_dim`, with the edges as
columns. -/
theorem get_boundary_mx_orders_shifted_witness :
    (tree_124_dim.sorted = true ∧ tree_124_dim.indexed = true ∧
      tree_124_dim.face_closed = true ∧ tree_124_dim.dim_indexed = true ∧
      tree_124_dim.hom_dim = 1) ∧
    ∃ m1 m2, tree_124_dim.get_boundary_mx 1 = .ok m1 ∧
      tree_124_dim.get_boundary_mx_orders [1, 3, 5] [(0, 0), (4, 1), (6, 2)] = .ok m2 ∧
      m2.num_rows = m1.num_rows ∧ m2.num_cols = m1.num_cols ∧
      m2.cells = m1.cells.map (fun c => (c.1 + 1, c.2 + 1)) :=
  ⟨by decide,
    get_boundary_mx_orders_shifted tree_124_dim 1 tree_124_dim.ordered_simplices
      tree_124_dim.ordered_low_simplices [1, 3, 5] [(0, 0), (4, 1), (6, 2)]
      (by decide) (by decide) (by decide) (by decide) (Or.inl ⟨by decide, rfl, rfl⟩)
      (by decide) (by decide)
      (fun r hr n hn => by
        have h : tree_124_dim.ordered_low_simplices = [[0], [1], [2]] := by decide
        rw [h] at hr
        have h0 : (node_at [0] tree_124_dim.root).map
            (fun n => (n.global_index, n.dim_index)) = some (0, 0) := by decide
        have h1 : (node_at [1] tree_124_dim.root).map
            (fun n => (n.global_index, n.dim_index)) = some (4, 1) := by decide
        have h2 : (node_at [2] tree_124_dim.root).map
            (fun n => (n.global_index, n.dim_index)) = some (6, 2) := by decide
        simp only [List.mem_cons, List.mem_singleton, List.not_mem_nil, or_false] at hr
        rcases hr with rfl | rfl | rfl
        · rw [hn] at h0
          simp only [Option.map_some', Option.some.injEq, Prod.mk.injEq] at h0
          rw [h0.1, h0.2]; decide
        · rw [hn] at h1
          simp only [Option.map_some', Option.some.injEq, Prod.mk.injEq] at h1
          rw [h1.1, h1.2]; decide
        · rw [hn] at h2
          simp only [Option.map_some', Option.some.injEq, Prod.mk.injEq] at h2
          rw [h2.1, h2.2]; decide)
      (by decide)⟩

/-- C23 fails on `tree_124_dim` (the triangle 1-2-4 with its faces, homology
dimension 1) for `dim = 1`, with `coface_global = [1, 3, 5]` (the edges in
dimension-index order) and `face_order = {0 -> 0, 4 -> 1, 6 -> 2}` (the
vertices): both matrices are 3 by 3, `get_boundary_mx(1)` enters the cells
`(1,0) (0,0) (2,1) (0,1) (2,2) (1,2)` and the overload the cells
`(2,1) (1,1) (3,2) (1,2) (3,3) (2,3)`, each one row lower and one column
further (`mat.set(oi+1, j+1)`), three of them at row or column 3. -/
theorem get_boundary_mx_orders_differs :
    tree_124_dim.get_boundary_mx 1 =
      .ok ⟨3, 3, [(1, 0), (0, 0), (2, 1), (0, 1), (2, 2), (1, 2)]⟩ ∧
    tree_124_dim.get_boundary_mx_orders [1, 3, 5] [(0, 0), (4, 1), (6, 2)] =
      .ok ⟨3, 3, [(2, 1), (1, 1), (3, 2), (1, 2), (3, 3), (2, 3)]⟩ ∧
    tree_124_dim.ordered_simplices.map
        (fun r => (node_at r tree_124_dim.root).map
          (fun n => (n.global_index, n.dim_index))) =
      [some (1, 0), some (3, 1), some (5, 2)] ∧
    tree_124_dim.ordered_low_simplices.map
        (fun r => (node_at r tree_124_dim.root).map
          (fun n => (n.global_index, n.dim_index))) =
      [some (0, 0), some (4, 1), some (6, 2)] := by
  decide


/-! ### What `update_dim_indexes` leaves alone -/

@[simp] theorem strip_di_kids_nil : strip_di_kids [] = [] := by simp [strip_di_kids]

@[simp] theorem strip_di_kids_cons (k : STNode) (ks : List STNode) :
    strip_di_kids (k :: ks) = strip_di k :: strip_di_kids ks := by simp [strip_di_kids]

theorem strip_di_kids_eq_map (ks : List STNode) : strip_di_kids ks = ks.map strip_di := by
  induction ks with
  | nil => rfl
  | cons k ks ih => simp [ih]

theorem strip_di_eq (n : STNode) :
    strip_di n = STNode.mk n.get_vertex n.grade_x n.grade_y n.global_index 0
      (strip_di_kids n.get_children) := by
  cases n; simp [strip_di]

theorem strip_di_set_dim_index (n : STNode) (d : Int) :
    strip_di (n.set_dim_index d) = strip_di n := by
  cases n; simp [STNode.set_dim_index, strip_di]

theorem strip_di_set_children (n : STNode) (ks : List STNode) :
    strip_di (n.set_children ks) = (strip_di n).set_children (strip_di_kids ks) := by
  cases n; simp [STNode.set_children, strip_di]

theorem set_children_strip_di (n : STNode) :
    (strip_di n).set_children (strip_di_kids n.get_children) = strip_di n := by
  cases n; simp [STNode.set_children, strip_di]

theorem strip_di_modify_at (f : STNode → STNode) (hf : ∀ k, strip_di (f k) = strip_di k) :
    ∀ (i : Nat) (ks : List STNode), strip_di_kids (modify_at f i ks) = strip_di_kids ks := by
  intro i ks
  induction ks generalizing i with
  | nil => simp [modify_at]
  | cons k ks ih =>
    cases i with
    | zero => simp [modify_at, hf]
    | succ i => simp [modify_at, ih]

theorem strip_di_set_dim_at (d : Int) :
    ∀ (r : List Nat) (n : STNode), strip_di (set_dim_at r d n) = strip_di n := by
  intro r
  induction r with
  | nil => intro n; rw [set_dim_at, strip_di_set_dim_index]
  | cons i r ih =>
    intro n
    rw [set_dim_at, strip_di_set_children, strip_di_modify_at _ ih, set_children_strip_di]

theorem strip_di_assign :
    ∀ (set : List (List Nat)) (i : Int) (root : STNode),
      strip_di (assign_dim_indexes set i root) = strip_di root := by
  intro set
  induction set with
  | nil => intro i root; rfl
  | cons r rest ih => intro i root; rw [assign_dim_indexes, ih, strip_di_set_dim_at]

theorem get_children_strip_di (n : STNode) :
    (strip_di n).get_children = strip_di_kids n.get_children := by
  cases n; simp [strip_di]

theorem get_vertex_strip_di (n : STNode) : (strip_di n).get_vertex = n.get_vertex := by
  cases n; simp [strip_di]

theorem node_count_strip_di :
    (∀ n : STNode, node_count (strip_di n) = node_count n) ∧
    (∀ ks : List STNode, kids_count (strip_di_kids ks) = kids_count ks) := by
  apply STNode.induct
  · intro v x y g d kids ih
    simp [strip_di, node_count, ih]
  · simp
  · intro k ks ih1 ih2
    simp [ih1, ih2]

theorem indexed_strip_di :
    (∀ (n : STNode) (i : Int), indexed_node (strip_di n) i = indexed_node n i) ∧
    (∀ (ks : List STNode) (i : Int), indexed_kids (strip_di_kids ks) i = indexed_kids ks i) := by
  apply STNode.induct
  · intro v x y g d kids ih i
    simp [strip_di, indexed_node, ih]
  · intro i; simp
  · intro k ks ih1 ih2 i
    rw [strip_di_kids_cons, indexed_kids, indexed_kids, ih1, ih2, node_count_strip_di.1]

theorem entries_strip_di :
    (∀ n : STNode,
      entries_node (strip_di n) = (entries_node n).map (fun e => (e.1, strip_di e.2))) ∧
    (∀ ks : List STNode,
      entries (strip_di_kids ks) = (entries ks).map (fun e => (e.1, strip_di e.2))) := by
  apply STNode.induct
  · intro v x y g d kids ih
    simp [strip_di, entries_node, ih, Function.comp_def]
  · simp [entries]
  · intro k ks ih1 ih2
    simp [entries_cons, ih1, ih2]

theorem find_simplex_from_strip_di (vs : List Int) :
    ∀ node : STNode,
      find_simplex_from vs (strip_di node) = (find_simplex_from vs node).map strip_di := by
  induction vs with
  | nil => intro node; rfl
  | cons v vs ih =>
    intro node
    rw [find_simplex_from, find_simplex_from, get_children_strip_di, strip_di_kids_eq_map,
      List.map_map]
    have h : (STNode.get_vertex ∘ strip_di) = STNode.get_vertex := by
      funext n
      exact get_vertex_strip_di n
    rw [h]
    cases bsearch_all (node.get_children.map STNode.get_vertex) v with
    | found mid =>
      simp only [List.getElem?_map]
      cases node.get_children[mid.toNat]? with
      | none => rfl
      | some k => simpa using ih k
    | missed max => rfl
    | bad_read => rfl
    | no_fuel => rfl

/-- Two trees whose roots differ in dimension indexes only have the same
simplices, find the same faces, and both or neither carry current global
indexes. -/
theorem same_up_to_dim_indexes (t t2 : SimplexTree) (h : strip_di t2.root = strip_di t.root) :
    t2.indexed = t.indexed ∧ t2.simplices = t.simplices ∧
    (∀ w, (t2.find_simplex w).isSome = (t.find_simplex w).isSome) ∧
    t2.face_closed = t.face_closed := by
  have hk : strip_di_kids t2.root.get_children = strip_di_kids t.root.get_children := by
    rw [← get_children_strip_di, ← get_children_strip_di, h]
  have h1 : t2.indexed = t.indexed := by
    unfold SimplexTree.indexed
    rw [← indexed_strip_di.2, hk, indexed_strip_di.2]
  have h2 : t2.simplices = t.simplices := by
    unfold SimplexTree.simplices
    have := congrArg (fun l => l.map Prod.fst) (congrArg entries hk)
    simpa [entries_strip_di.2, List.map_map, Function.comp_def] using this
  have h3 : ∀ w, (t2.find_simplex w).isSome = (t.find_simplex w).isSome := by
    intro w
    unfold SimplexTree.find_simplex
    have := find_simplex_from_strip_di w t2.root
    rw [h, find_simplex_from_strip_di] at this
    have := congrArg Option.isSome this
    simpa using this.symm
  refine ⟨h1, h2, h3, ?_⟩
  unfold SimplexTree.face_closed
  rw [h2]
  simp only [h3]

theorem update_dim_indexes_strip (t : SimplexTree)
    (h0 : t.ordered_low_simplices = [] ∧ t.ordered_simplices = [] ∧
      t.ordered_high_simplices = []) :
    strip_di t.update_dim_indexes.root = strip_di t.root := by
  obtain ⟨_, _, _, _, _, hroot, _⟩ := update_dim_indexes_bands t h0
  rw [hroot, strip_di_assign, strip_di_assign, strip_di_assign]

/-- After `update_dim_indexes` on a face-closed tree with current global
indexes and empty sets, `get_boundary_mx` returns a matrix for both
dimensions. -/
theorem get_boundary_mx_after_update (t : SimplexTree) (hi : t.indexed = true)
    (hc : t.face_closed = true)
    (h0 : t.ordered_low_simplices = [] ∧ t.ordered_simplices = [] ∧
      t.ordered_high_simplices = [])
    (dim : Int) (hdim : dim = t.hom_dim ∨ dim = t.hom_dim + 1) :
    ∃ m, t.update_dim_indexes.get_boundary_mx dim = .ok m := by
  obtain ⟨g1, g2, g3, g4⟩ := same_up_to_dim_indexes t _ (update_dim_indexes_strip t h0)
  obtain ⟨b2, _, _, hperm, _, _, hdata⟩ := update_dim_indexes_bands t h0
  apply get_boundary_mx_returns _ (g1.trans hi) (g4.trans hc) dim (by rw [b2]; exact hdim)
  intro k hk sim hsim
  have hk3 : k = -1 ∨ k = 0 ∨ k = 1 := by omega
  rw [(hperm k hk3).mem_iff, mem_band_refs] at hsim
  exact ⟨hsim.1, by rw [isSome_of_data (hdata sim)]; exact hsim.2.2⟩


/-! ### Trees built by `add_simplex` and by `build_VR_complex` are face-closed -/

theorem face_closed_of_follow (t : SimplexTree) (hs : t.sorted = true)
    (h : ∀ w, (follow w t.root).isSome = true → ∀ u : List Int, u.Sublist w →
      (follow u t.root).isSome = true) : t.face_closed = true := by
  rw [face_closed_iff]
  intro p hp w hw _
  obtain ⟨e, he, rfl⟩ := List.mem_map.1 hp
  have h1 := ((mem_entries_children_iff t.root hs e.1 e.2).1 he).2
  have h2 := h e.1 (by rw [h1]; rfl) w hw
  unfold SimplexTree.find_simplex
  rw [find_simplex_from_eq_follow w t.root hs]
  exact h2

theorem add_simplex_nil (t : SimplexTree) (x y : Int) : t.add_simplex [] x y = none := by
  simp [SimplexTree.add_simplex, add_faces, add_faces_fuel]

/-- One call of `add_simplex` keeps the tree sorted, numbered and closed
under faces, and does not touch the three ordered sets. -/
theorem add_simplex_keeps (t t2 : SimplexTree) (vs : List Int) (x y : Int)
    (hs : t.sorted = true)
    (hf : ∀ w, (follow w t.root).isSome = true → ∀ u : List Int, u.Sublist w →
      (follow u t.root).isSome = true)
    (h : t.add_simplex vs x y = some t2) :
    t2.sorted = true ∧ t2.indexed = true ∧
    (∀ w, (follow w t2.root).isSome = true → ∀ u : List Int, u.Sublist w →
      (follow u t2.root).isSome = true) ∧
    t2.hom_dim = t.hom_dim ∧
    t2.ordered_low_simplices = t.ordered_low_simplices ∧
    t2.ordered_simplices = t.ordered_simplices ∧
    t2.ordered_high_simplices = t.ordered_high_simplices := by
  have hne : vs ≠ [] := by
    rintro rfl
    rw [add_simplex_nil] at h
    cases h
  obtain ⟨t3, h3, hs3, hi3, hext⟩ := add_simplex_spec t hs vs hne x y
  rw [h] at h3
  cases h3
  obtain ⟨r, _, heq⟩ := add_simplex_eq_some h
  have key : ∀ u : List Int, ((follow u t.root).isSome = true ∨ u.Sublist vs) →
      (follow u t2.root).isSome = true := by
    intro u hu
    cases hfu : follow u t.root with
    | some n =>
      obtain ⟨n2, hn2, _⟩ := (hext u).1 n hfu
      rw [hn2]; rfl
    | none =>
      rcases hu with hu | hu
      · rw [hfu] at hu; cases hu
      · obtain ⟨n2, hn2, _⟩ := ((hext u).2 hfu).1 hu
        rw [hn2]; rfl
  refine ⟨hs3, hi3, ?_, ?_, ?_, ?_, ?_⟩
  · intro w hw u hu
    cases hfw : follow w t.root with
    | some n => exact key u (Or.inl (hf w (by rw [hfw]; rfl) u hu))
    | none =>
      by_cases hS : w.Sublist vs
      · exact key u (Or.inr (hu.trans hS))
      · rw [((hext w).2 hfw).2 hS] at hw
        cases hw
  · rw [heq]; rfl
  · rw [heq]; rfl
  · rw [heq]; rfl
  · rw [heq]; rfl

theorem run_adds_keeps :
    ∀ (ops : List TreeOp) (t t2 : SimplexTree), (∀ op ∈ ops, op.is_add = true) →
      t.sorted = true →
      (∀ w, (follow w t.root).isSome = true → ∀ u : List Int, u.Sublist w →
        (follow u t.root).isSome = true) →
      t.indexed = true →
      run_ops t ops = some t2 →
      t2.sorted = true ∧ t2.indexed = true ∧
      (∀ w, (follow w t2.root).isSome = true → ∀ u : List Int, u.Sublist w →
        (follow u t2.root).isSome = true) ∧
      t2.hom_dim = t.hom_dim ∧
      t2.ordered_low_simplices = t.ordered_low_simplices ∧
      t2.ordered_simplices = t.ordered_simplices ∧
      t2.ordered_high_simplices = t.ordered_high_simplices := by
  intro ops
  induction ops with
  | nil =>
    intro t t2 _ hs hf hi h
    simp only [run_ops, Option.some.injEq] at h
    subst h
    exact ⟨hs, hi, hf, rfl, rfl, rfl, rfl⟩
  | cons op ops ih =>
    intro t t2 hadd hs hf hi h
    cases op with
    | build pc md mx =>
      have := hadd _ (List.mem_cons_self _ _)
      simp [TreeOp.is_add] at this
    | add vs x y =>
      rw [run_ops] at h
      cases h1 : t.add_simplex vs x y with
      | none => rw [h1] at h; cases h
      | some t1 =>
        rw [h1] at h
        simp only at h
        obtain ⟨a1, a2, a3, a4, a5, a6, a7⟩ := add_simplex_keeps t t1 vs x y hs hf h1
        obtain ⟨b1, b2, b3, b4, b5, b6, b7⟩ :=
          ih t1 t2 (fun op hop => hadd op (List.mem_cons_of_mem _ hop)) a1 a3 a2 h
        exact ⟨b1, b2, b3, b4.trans a4, b5.trans a5, b6.trans a6, b7.trans a7⟩

theorem init_follow_closed (dim : Int) :
    ∀ w, (follow w (SimplexTree.init dim).root).isSome = true → ∀ u : List Int, u.Sublist w →
      (follow u (SimplexTree.init dim).root).isSome = true := by
  intro w hw u hu
  by_cases hne : w = []
  · subst hne
    have : u = [] := List.eq_nil_of_sublist_nil hu
    subst this
    rfl
  · rw [follow_init dim w hne] at hw
    cases hw

/-- The tree that `build_VR_complex` returns on an empty tree is closed
under faces. -/
theorem build_VR_complex_face_closed (dim : Int) (pc : PointCloud) (max_dim : Int)
    (max_dist : ℚ) (t : SimplexTree)
    (h : (SimplexTree.init dim).build_VR_complex pc max_dim max_dist = .ok t) :
    t.sorted = true ∧ t.indexed = true ∧ t.face_closed = true ∧ t.hom_dim = dim ∧
    t.ordered_low_simplices = [] ∧ t.ordered_simplices = [] ∧
    t.ordered_high_simplices = [] := by
  obtain ⟨B, hB, _, _⟩ := dist_set_back pc max_dist
  have hinit := build_VR_complex_init dim pc max_dim max_dist B hB
  obtain ⟨t2, B2, h2, _, _, hB0, _, _, hkids, hs, hi⟩ :=
    build_VR_complex_facts dim pc max_dim max_dist
  rw [h] at h2 hinit
  cases h2
  refine ⟨hs, hi, ?_, ?_, ?_, ?_, ?_⟩
  · rw [face_closed_iff]
    intro p hp w hw hne
    have hp2 : p ∈ (entries t.root.get_children).map Prod.fst := hp
    rw [hkids] at hp2
    obtain ⟨e, he, rfl⟩ := List.mem_map.1 hp2
    obtain ⟨i, w0, he1, _⟩ := vr_roots_entries _ pc B2 max_dim _ 0 e he
    have hmem : (i :: w0).map (fun (j : Nat) => (j : Int)) ∈
        (entries (vr_roots (vr_grids dim pc max_dist) pc B2 max_dim
          (List.range pc.size) 0)).map Prod.fst := by
      rw [← he1]
      exact List.mem_map_of_mem _ he
    obtain ⟨q1, q2, q3, q4⟩ :=
      (vr_simplices_iff dim pc max_dim max_dist B2 hB0 (i :: w0) (List.cons_ne_nil _ _)).1 hmem
    rw [he1] at hw
    obtain ⟨us, hus, rfl⟩ := List.sublist_map_iff.1 hw
    have husne : us ≠ [] := by
      rintro rfl
      exact hne rfl
    have hlen := hus.length_le
    have hmem2 : us.map (fun (j : Nat) => (j : Int)) ∈
        (entries (vr_roots (vr_grids dim pc max_dist) pc B2 max_dim
          (List.range pc.size) 0)).map Prod.fst :=
      (vr_simplices_iff dim pc max_dim max_dist B2 hB0 us husne).2
        ⟨q1.sublist hus, fun v hv => q2 v (hus.subset hv), by omega, q4.sublist hus⟩
    rw [← hkids] at hmem2
    obtain ⟨e2, he2, he2eq⟩ := List.mem_map.1 hmem2
    have hfol := ((mem_entries_children_iff t.root hs e2.1 e2.2).1 he2).2
    unfold SimplexTree.find_simplex
    rw [find_simplex_from_eq_follow _ t.root hs, ← he2eq, hfol]
    rfl
  · cases hinit; rfl
  · cases hinit; rfl
  · cases hinit; rfl
  · cases hinit; rfl

/-- C25: on a tree built from an empty tree by calls of `add_simplex` alone
(each of which returned), and on the tree `build_VR_complex` returns on an
empty tree, once `update_dim_indexes` has run, `get_boundary_mx(dim)` returns
a matrix for `dim = hom_dim` and for `dim = hom_dim + 1`: no
`find_simplex(facet)` in `write_boundary_column` returns `NULL`, so the
"facet simplex not found" exception is not thrown, and no other failure
occurs. -/
theorem facets_resolvable :
    (∀ (dim0 : Int) (ops : List TreeOp) (t : SimplexTree),
      (∀ op ∈ ops, op.is_add = true) → run_ops (SimplexTree.init dim0) ops = some t →
      ∀ dim : Int, dim = t.hom_dim ∨ dim = t.hom_dim + 1 →
        ∃ m, t.update_dim_indexes.get_boundary_mx dim = .ok m) ∧
    (∀ (dim0 : Int) (pc : PointCloud) (max_dim : Int) (max_dist : ℚ) (t : SimplexTree),
      (SimplexTree.init dim0).build_VR_complex pc max_dim max_dist = .ok t →
      ∀ dim : Int, dim = t.hom_dim ∨ dim = t.hom_dim + 1 →
        ∃ m, t.update_dim_indexes.get_boundary_mx dim = .ok m) := by
  constructor
  · intro dim0 ops t hadd hrun dim hdim
    obtain ⟨h1, h2, h3, _, h5, h6, h7⟩ :=
      run_adds_keeps ops (SimplexTree.init dim0) t hadd (init_sorted dim0)
        (init_follow_closed dim0) rfl hrun
    exact get_boundary_mx_after_update t h2 (face_closed_of_follow t h1 h3)
      ⟨h5.trans rfl, h6.trans rfl, h7.trans rfl⟩ dim hdim
  · intro dim0 pc max_dim max_dist t h dim hdim
    obtain ⟨_, h2, h3, _, h5, h6, h7⟩ :=
      build_VR_complex_face_closed dim0 pc max_dim max_dist t h
    exact get_boundary_mx_after_update t h2 h3 ⟨h5, h6, h7⟩ dim hdim

/-- C25 on the tree of the triangle 1-2-4 (one call of `add_simplex`) and on
the complex of `cloud_three` with threshold 3: the boundary matrices of the
edges are returned. -/
theorem facets_resolvable_witness :
    (run_ops (SimplexTree.init 1) [TreeOp.add [1, 2, 4] 0 0]).map
        (fun t => t.update_dim_indexes.get_boundary_mx 1) =
      some (.ok ⟨3, 3, [(1, 0), (0, 0), (2, 1), (0, 1), (2, 2), (1, 2)]⟩) ∧
    (∃ m, tree_124.update_dim_indexes.get_boundary_mx 1 = .ok m) ∧
    ((SimplexTree.init 1).build_VR_complex cloud_three 2 3).map
        (fun t => t.update_dim_indexes.get_boundary_mx 1) =
      .ok (.ok ⟨3, 2, [(2, 0), (0, 0), (1, 1), (2, 1)]⟩) :=
  ⟨by decide,
    facets_resolvable.1 1 [TreeOp.add [1, 2, 4] 0 0] tree_124 (by decide) rfl 1
      (Or.inl (by decide)),
    by decide⟩


/-! ### The loops of the merge and split exports -/

theorem drop_of_getElem? {α : Type} : ∀ (S : List α) (a : Nat) (r : α),
    S[a]? = some r → S.drop a = r :: S.drop (a + 1) := by
  intro S
  induction S with
  | nil => intro a r h; simp at h
  | cons x S ih =>
    intro a r h
    cases a with
    | zero =>
      simp only [List.getElem?_cons_zero, Option.some.injEq] at h
      simp [h]
    | succ a =>
      simp only [List.getElem?_cons_succ] at h
      simpa using ih a r h

theorem drop_of_getElem?_none {α : Type} (S : List α) (a : Nat) (h : S[a]? = none) :
    S.drop a = [] := by
  rw [List.getElem?_eq_none_iff] at h
  exact List.drop_eq_nil_of_le h

/-- The loop `while_at_grade`, started at position `a` of the set `S`, passes
the simplices up to position `hi` when these are at the multi-grade of the
loop and the next one is not; a property `Inv` of the variables that the body
carries from one position to the next holds at the end. -/
theorem while_at_grade_run {σ : Type} (root : STNode) (gx gy : Int)
    (body : List Nat → σ → Export σ) (S : List (List Nat)) (Inv : Nat → σ → Prop)
    (lo hi : Nat)
    (hmatch : ∀ i, lo ≤ i → i < hi → ∃ r n, S[i]? = some r ∧ node_at r root = some n ∧
        n.grade_x = gx ∧ n.grade_y = gy)
    (hstop : ∀ r, S[hi]? = some r →
        ∃ n, node_at r root = some n ∧ ¬ (n.grade_x = gx ∧ n.grade_y = gy))
    (hbody : ∀ i r s, lo ≤ i → i < hi → S[i]? = some r → Inv i s →
        ∃ s1, body r s = .ok s1 ∧ Inv (i + 1) s1) :
    ∀ (k a : Nat), a + k = hi → lo ≤ a → ∀ s, Inv a s →
      ∃ s1, while_at_grade root gx gy body (S.drop a) s = .ok (s1, S.drop hi) ∧
        Inv hi s1 := by
  intro k
  induction k with
  | zero =>
    intro a ha _ s hs
    have : a = hi := by omega
    subst this
    refine ⟨s, ?_, hs⟩
    cases h : S[a]? with
    | none =>
      rw [drop_of_getElem?_none S a h]
      rfl
    | some r =>
      obtain ⟨n, hn, hnm⟩ := hstop r h
      rw [drop_of_getElem? S a r h, while_at_grade, hn]
      simp only
      rw [if_neg hnm]
  | succ k ih =>
    intro a ha hlo s hs
    obtain ⟨r, n, hr, hn, hm⟩ := hmatch a hlo (by omega)
    obtain ⟨s1, hb, hs1⟩ := hbody a r s hlo (by omega) hr hs
    obtain ⟨s2, hw, hs2⟩ := ih (a + 1) (by omega) (by omega) s1 hs1
    refine ⟨s2, ?_, hs2⟩
    rw [drop_of_getElem? S a r hr, while_at_grade, hn]
    simp only
    rw [if_pos hm, hb, Export.bind_of_ok, hw]

theorem pos_count_le_mono (ps : List Int) {a b : Int} (h : a ≤ b) :
    pos_count ps a ≤ pos_count ps b := countP_le_mono ps h

theorem pos_count_le_length (ps : List Int) (l : Int) : pos_count ps l ≤ ps.length :=
  List.countP_le_length _

theorem pos_count_lt_iff {ps : List Int} (hs : ps.Pairwise (fun a b => a ≤ b)) (l : Int)
    {i : Nat} {p : Int} (h : ps[i]? = some p) : i < pos_count ps l ↔ p ≤ l :=
  sorted_countP l ps hs i p h

theorem pos_count_zero (ps : List Int) (l : Int) (h : ∀ p ∈ ps, l < p) : pos_count ps l = 0 := by
  rw [pos_count, List.countP_eq_zero]
  intro p hp
  have := h p hp
  simp only [decide_eq_true_eq]
  omega

theorem pos_count_all (ps : List Int) (l : Int) (h : ∀ p ∈ ps, p ≤ l) :
    pos_count ps l = ps.length := by
  rw [pos_count, List.countP_eq_length]
  intro p hp
  simpa using h p hp

/-- The simplices of a band at the multi-grade that the first loop looks for
at the cell number `q` are those with cell number `q - 1`, and those the
second loop looks for are those with cell number `q - w`. -/
theorem cell_match (root : STNode) (X : Nat) {r : List Nat} {n : STNode}
    (hn : node_at r root = some n) (h1 : 0 ≤ n.grade_x) (h2 : n.grade_x < X) (q : Nat) :
    ((n.grade_x = ((q % (X + 1) : Nat) : Int) - 1 ∧ n.grade_y = ((q / (X + 1) : Nat) : Int)) ↔
      ref_pos root ((X : Int) + 1) r = (q : Int) - 1) ∧
    ((n.grade_x = ((q % (X + 1) : Nat) : Int) ∧ n.grade_y = ((q / (X + 1) : Nat) : Int) - 1) ↔
      ref_pos root ((X : Int) + 1) r = (q : Int) - ((X : Int) + 1)) := by
  have hq : ((q % (X + 1) : Nat) : Int) + ((q / (X + 1) : Nat) : Int) * ((X : Int) + 1) = q := by
    have := Nat.mod_add_div q (X + 1)
    have h3 : (((q % (X + 1) + (X + 1) * (q / (X + 1)) : Nat)) : Int) = (q : Int) := by rw [this]
    simp only [Nat.cast_mul, Nat.cast_add, Nat.cast_one] at h3
    linarith [mul_comm ((X : Int) + 1) ((q / (X + 1) : Nat) : Int)]
  have hx : ((q % (X + 1) : Nat) : Int) < (X : Int) + 1 := by
    have := Nat.mod_lt q (show 0 < X + 1 by omega)
    have h3 : ((q % (X + 1) : Nat) : Int) < ((X + 1 : Nat) : Int) := Int.ofNat_lt.2 this
    simpa using h3
  have hW : (0 : Int) < (X : Int) + 1 := by omega
  have hp : ref_pos root ((X : Int) + 1) r = n.grade_x + n.grade_y * ((X : Int) + 1) := by
    simp [ref_pos, hn, cell_pos]
  rw [hp]
  constructor
  · have := lin_inj (r := n.grade_y) (s := ((q / (X + 1) : Nat) : Int)) (c := n.grade_x + 1)
      (d := ((q % (X + 1) : Nat) : Int)) hW (by omega) (by omega) (by omega) hx
    constructor
    · rintro ⟨h3, h4⟩
      have := this.1 ⟨h4, by omega⟩
      omega
    · intro h3
      have := this.2 (by omega)
      omega
  · have := lin_inj (r := n.grade_y + 1) (s := ((q / (X + 1) : Nat) : Int)) (c := n.grade_x)
      (d := ((q % (X + 1) : Nat) : Int)) hW (by omega) (by omega) (by omega) hx
    constructor
    · rintro ⟨h3, h4⟩
      have := this.1 ⟨by omega, h3⟩
      linarith
    · intro h3
      have := this.2 (by linarith)
      omega

/-- The double loop of the merge and split exports on a band `S` in sweep
order with its multi-grades inside the grid of `X` columns, from the cell
number `q0` on, for `k` cells: with `pos` the cell numbers of the band in the
grid one column wider, the first loop at cell number `q` passes the simplices
from position `pos_count pos (q - 2)` up to `pos_count pos (q - 1)` and the
second those from `pos_count pos (q - 1 - w)` up to `pos_count pos (q - w)`.
A property `Inv` of the variables that the two bodies and `record` carry along
holds at the end. -/
theorem sweep_cells_run {σ : Type} (root : STNode)
    (body_b body_c : List Nat → σ → Export σ) (record : Int → Int → σ → σ)
    (S : List (List Nat)) (X : Nat)
    (hvalid : ∀ r ∈ S, ∃ n, node_at r root = some n ∧ 0 ≤ n.grade_x ∧ n.grade_x < X)
    (hsorted : (S.map (ref_pos root ((X : Int) + 1))).Pairwise (fun a b => a ≤ b))
    (Inv : Int → Nat → Nat → σ → Prop)
    (hB : ∀ (q : Nat) (a : Nat) (r : List Nat) (s : σ),
        pos_count (S.map (ref_pos root ((X : Int) + 1))) ((q : Int) - 2) ≤ a →
        S[a]? = some r → ref_pos root ((X : Int) + 1) r = (q : Int) - 1 →
        Inv q a (pos_count (S.map (ref_pos root ((X : Int) + 1))) ((q : Int) - 1 - ((X : Int) + 1))) s →
        ∃ s1, body_b r s = .ok s1 ∧
          Inv q (a + 1)
            (pos_count (S.map (ref_pos root ((X : Int) + 1))) ((q : Int) - 1 - ((X : Int) + 1))) s1)
    (hC : ∀ (q : Nat) (c : Nat) (r : List Nat) (s : σ),
        S[c]? = some r → ref_pos root ((X : Int) + 1) r = (q : Int) - ((X : Int) + 1) →
        Inv q (pos_count (S.map (ref_pos root ((X : Int) + 1))) ((q : Int) - 1)) c s →
        ∃ s1, body_c r s = .ok s1 ∧
          Inv q (pos_count (S.map (ref_pos root ((X : Int) + 1))) ((q : Int) - 1)) (c + 1) s1)
    (hR : ∀ (q : Nat) (s : σ),
        Inv q (pos_count (S.map (ref_pos root ((X : Int) + 1))) ((q : Int) - 1))
          (pos_count (S.map (ref_pos root ((X : Int) + 1))) ((q : Int) - ((X : Int) + 1))) s →
        Inv ((q : Int) + 1) (pos_count (S.map (ref_pos root ((X : Int) + 1))) ((q : Int) - 1))
          (pos_count (S.map (ref_pos root ((X : Int) + 1))) ((q : Int) - ((X : Int) + 1)))
          (record ((q % (X + 1) : Nat) : Int) ((q / (X + 1) : Nat) : Int) s)) :
    ∀ (k q0 : Nat) (s : σ),
      Inv q0 (pos_count (S.map (ref_pos root ((X : Int) + 1))) ((q0 : Int) - 2))
        (pos_count (S.map (ref_pos root ((X : Int) + 1))) ((q0 : Int) - 1 - ((X : Int) + 1))) s →
      ∃ s1, sweep_cells root body_b body_c record
          ((List.range' q0 k).map
            (fun (q : Nat) => (((q % (X + 1) : Nat) : Int), ((q / (X + 1) : Nat) : Int)))) s
          (S.drop (pos_count (S.map (ref_pos root ((X : Int) + 1))) ((q0 : Int) - 2)))
          (S.drop (pos_count (S.map (ref_pos root ((X : Int) + 1)))
            ((q0 : Int) - 1 - ((X : Int) + 1)))) =
        .ok (s1,
          S.drop (pos_count (S.map (ref_pos root ((X : Int) + 1))) ((q0 : Int) + k - 2)),
          S.drop (pos_count (S.map (ref_pos root ((X : Int) + 1)))
            ((q0 : Int) + k - 1 - ((X : Int) + 1)))) ∧
        Inv ((q0 : Int) + k)
          (pos_count (S.map (ref_pos root ((X : Int) + 1))) ((q0 : Int) + k - 2))
          (pos_count (S.map (ref_pos root ((X : Int) + 1))) ((q0 : Int) + k - 1 - ((X : Int) + 1)))
          s1 := by
  generalize hP : S.map (ref_pos root ((X : Int) + 1)) = P at *
  have hlen : P.length = S.length := by rw [← hP, List.length_map]
  have hget : ∀ (i : Nat) (r : List Nat), S[i]? = some r →
      P[i]? = some (ref_pos root ((X : Int) + 1) r) := by
    intro i r h
    rw [← hP, List.getElem?_map, h]
    rfl
  have hS : ∀ i, i < P.length → ∃ r n, S[i]? = some r ∧ node_at r root = some n ∧
      0 ≤ n.grade_x ∧ n.grade_x < X := by
    intro i hi
    have hi2 : i < S.length := by omega
    obtain ⟨n, hn, h1, h2⟩ := hvalid S[i] (List.getElem_mem hi2)
    exact ⟨S[i], n, List.getElem?_eq_getElem hi2, hn, h1, h2⟩
  intro k
  induction k with
  | zero =>
    intro q0 s hs
    refine ⟨s, ?_, ?_⟩
    · simp [sweep_cells]
    · simpa using hs
  | succ k ih =>
    intro q0 s hs
    rw [List.range'_succ, List.map_cons, sweep_cells]
    simp only
    -- the first loop
    obtain ⟨s1, hw1, hs1⟩ := while_at_grade_run root (((q0 % (X + 1) : Nat) : Int) - 1)
      ((q0 / (X + 1) : Nat) : Int) body_b S
      (fun i s => Inv q0 i (pos_count P ((q0 : Int) - 1 - ((X : Int) + 1))) s)
      (pos_count P ((q0 : Int) - 2)) (pos_count P ((q0 : Int) - 1))
      (by
        intro i h1 h2
        obtain ⟨r, n, hr, hn, h3, h4⟩ := hS i (lt_of_lt_of_le h2 (pos_count_le_length _ _))
        refine ⟨r, n, hr, hn, ((cell_match root X hn h3 h4 q0).1).2 ?_⟩
        have h5 := (pos_count_lt_iff hsorted ((q0 : Int) - 1) (hget i r hr)).1 h2
        have h6 := (pos_count_lt_iff hsorted ((q0 : Int) - 2) (hget i r hr)).not.1 (by omega)
        omega)
      (by
        intro r hr
        have hi : pos_count P ((q0 : Int) - 1) < P.length := by
          rw [hlen]
          exact (List.getElem?_eq_some_iff.1 hr).1
        obtain ⟨r2, n, hr2, hn, h3, h4⟩ := hS _ hi
        rw [hr] at hr2
        cases hr2
        refine ⟨n, hn, ?_⟩
        intro hm
        have h5 := ((cell_match root X hn h3 h4 q0).1).1 hm
        have h6 := (pos_count_lt_iff hsorted ((q0 : Int) - 1) (hget _ r hr)).2 (by omega)
        omega)
      (by
        intro i r s2 h1 h2 hr hi
        have h5 := (pos_count_lt_iff hsorted ((q0 : Int) - 1) (hget i r hr)).1 h2
        have h6 := (pos_count_lt_iff hsorted ((q0 : Int) - 2) (hget i r hr)).not.1 (by omega)
        exact hB q0 i r s2 h1 hr (by omega) hi)
      (pos_count P ((q0 : Int) - 1) - pos_count P ((q0 : Int) - 2)) (pos_count P ((q0 : Int) - 2))
      (by
        have := pos_count_le_mono P (show (q0 : Int) - 2 ≤ (q0 : Int) - 1 by omega)
        omega)
      (le_refl _) s hs
    rw [hw1, Export.bind_of_ok]
    simp only
    -- the second loop
    obtain ⟨s2, hw2, hs2⟩ := while_at_grade_run root ((q0 % (X + 1) : Nat) : Int)
      (((q0 / (X + 1) : Nat) : Int) - 1) body_c S
      (fun i s => Inv q0 (pos_count P ((q0 : Int) - 1)) i s)
      (pos_count P ((q0 : Int) - 1 - ((X : Int) + 1))) (pos_count P ((q0 : Int) - ((X : Int) + 1)))
      (by
        intro i h1 h2
        obtain ⟨r, n, hr, hn, h3, h4⟩ := hS i (lt_of_lt_of_le h2 (pos_count_le_length _ _))
        refine ⟨r, n, hr, hn, ((cell_match root X hn h3 h4 q0).2).2 ?_⟩
        have h5 := (pos_count_lt_iff hsorted ((q0 : Int) - ((X : Int) + 1)) (hget i r hr)).1 h2
        have h6 := (pos_count_lt_iff hsorted ((q0 : Int) - 1 - ((X : Int) + 1))
          (hget i r hr)).not.1 (by omega)
        omega)
      (by
        intro r hr
        have hi : pos_count P ((q0 : Int) - ((X : Int) + 1)) < P.length := by
          rw [hlen]
          exact (List.getElem?_eq_some_iff.1 hr).1
        obtain ⟨r2, n, hr2, hn, h3, h4⟩ := hS _ hi
        rw [hr] at hr2
        cases hr2
        refine ⟨n, hn, ?_⟩
        intro hm
        have h5 := ((cell_match root X hn h3 h4 q0).2).1 hm
        have h6 := (pos_count_lt_iff hsorted ((q0 : Int) - ((X : Int) + 1)) (hget _ r hr)).2
          (by omega)
        omega)
      (by
        intro i r s3 h1 h2 hr hi
        have h5 := (pos_count_lt_iff hsorted ((q0 : Int) - ((X : Int) + 1)) (hget i r hr)).1 h2
        have h6 := (pos_count_lt_iff hsorted ((q0 : Int) - 1 - ((X : Int) + 1))
          (hget i r hr)).not.1 (by omega)
        exact hC q0 i r s3 hr (by omega) hi)
      (pos_count P ((q0 : Int) - ((X : Int) + 1)) - pos_count P ((q0 : Int) - 1 - ((X : Int) + 1)))
      (pos_count P ((q0 : Int) - 1 - ((X : Int) + 1)))
      (by
        have := pos_count_le_mono P
          (show (q0 : Int) - 1 - ((X : Int) + 1) ≤ (q0 : Int) - ((X : Int) + 1) by omega)
        omega)
      (le_refl _) s1 hs1
    rw [hw2, Export.bind_of_ok]
    simp only
    have hs3 := hR q0 s2 hs2
    have e1 : (((q0 + 1 : Nat) : Int)) - 2 = (q0 : Int) - 1 := by push_cast; omega
    have e2 : (((q0 + 1 : Nat) : Int)) - 1 - ((X : Int) + 1) = (q0 : Int) - ((X : Int) + 1) := by
      push_cast; omega
    have e3 : (((q0 + 1 : Nat) : Int)) + (k : Int) - 2 = (q0 : Int) + ((k + 1 : Nat) : Int) - 2 := by
      push_cast; omega
    have e4 : (((q0 + 1 : Nat) : Int)) + (k : Int) - 1 - ((X : Int) + 1) =
        (q0 : Int) + ((k + 1 : Nat) : Int) - 1 - ((X : Int) + 1) := by
      push_cast; omega
    have e5 : (((q0 + 1 : Nat) : Int)) + (k : Int) = (q0 : Int) + ((k + 1 : Nat) : Int) := by
      push_cast; omega
    have e6 : (((q0 + 1 : Nat) : Int)) = (q0 : Int) + 1 := by push_cast; rfl
    have := ih (q0 + 1) (record ((q0 % (X + 1) : Nat) : Int) ((q0 / (X + 1) : Nat) : Int) s2)
      (by rw [e1, e2, e6]; exact hs3)
    rw [e1, e2, e3, e4, e5] at this
    exact this

/-- The cells of the double loop are the cell numbers below
`(y_size + 1) * (x_size + 1)` in increasing order, the cell number `q` being
that of `(q % (x_size + 1), q / (x_size + 1))`. -/
theorem grid_cells_eq (X Y : Nat) :
    grid_cells X Y = (List.range' 0 ((Y + 1) * (X + 1))).map
      (fun (q : Nat) => (((q % (X + 1) : Nat) : Int), ((q / (X + 1) : Nat) : Int))) := by
  rw [grid_cells, ← List.range_eq_range']
  generalize Y + 1 = R
  induction R with
  | zero => simp
  | succ R ih =>
    rw [List.range_succ, List.flatMap_append, ih, Nat.succ_mul,
      List.range_add (R * (X + 1)) (X + 1), List.map_append]
    congr 1
    simp only [List.flatMap_cons, List.flatMap_nil, List.append_nil, List.map_map]
    apply List.map_congr_left
    intro x hx
    rw [List.mem_range] at hx
    simp only [Function.comp_apply]
    rw [Nat.mul_comm R (X + 1), Nat.mul_add_mod, Nat.mod_eq_of_lt hx, Nat.mul_add_div (by omega),
      Nat.div_eq_of_lt hx, Nat.add_zero]

/-- The loop `while_at_grade` returns when the pointers it may pass point to
nodes and its body returns on them; what it leaves is part of what it got. -/
theorem while_at_grade_ok {σ : Type} (root : STNode) (gx gy : Int)
    (body : List Nat → σ → Export σ) :
    ∀ (it : List (List Nat)),
      (∀ r ∈ it, (node_at r root).isSome = true ∧ ∀ s, ∃ s1, body r s = .ok s1) →
      ∀ s, ∃ s1 it1, while_at_grade root gx gy body it s = .ok (s1, it1) ∧
        ∀ r ∈ it1, r ∈ it := by
  intro it
  induction it with
  | nil => intro _ s; exact ⟨s, [], rfl, fun _ h => h⟩
  | cons r it ih =>
    intro h s
    obtain ⟨hn, hb⟩ := h r (List.mem_cons_self _ _)
    obtain ⟨n, hn⟩ := Option.isSome_iff_exists.1 hn
    rw [while_at_grade, hn]
    simp only
    by_cases hm : n.grade_x = gx ∧ n.grade_y = gy
    · rw [if_pos hm]
      obtain ⟨s1, hs1⟩ := hb s
      obtain ⟨s2, it2, hw, hsub⟩ := ih (fun r2 hr2 => h r2 (List.mem_cons_of_mem _ hr2)) s1
      rw [hs1, Export.bind_of_ok, hw]
      exact ⟨s2, it2, rfl, fun r2 hr2 => List.mem_cons_of_mem _ (hsub r2 hr2)⟩
    · rw [if_neg hm]
      exact ⟨s, r :: it, rfl, fun _ h2 => h2⟩

/-- The double loop returns when the pointers of its two iterators point to
nodes and the two bodies return on them. -/
theorem sweep_cells_ok {σ : Type} (root : STNode)
    (body_b body_c : List Nat → σ → Export σ) (record : Int → Int → σ → σ) :
    ∀ (cells : List (Int × Int)) (s : σ) (it_b it_c : List (List Nat)),
      (∀ r ∈ it_b, (node_at r root).isSome = true ∧ ∀ s, ∃ s1, body_b r s = .ok s1) →
      (∀ r ∈ it_c, (node_at r root).isSome = true ∧ ∀ s, ∃ s1, body_c r s = .ok s1) →
      ∃ res, sweep_cells root body_b body_c record cells s it_b it_c = .ok res := by
  intro cells
  induction cells with
  | nil => intro s it_b it_c _ _; exact ⟨_, rfl⟩
  | cons cell cells ih =>
    intro s it_b it_c hb hc
    obtain ⟨s1, it1, hw1, hsub1⟩ := while_at_grade_ok root (cell.1 - 1) cell.2 body_b it_b hb s
    obtain ⟨s2, it2, hw2, hsub2⟩ := while_at_grade_ok root cell.1 (cell.2 - 1) body_c it_c hc s1
    rw [sweep_cells, hw1, Export.bind_of_ok]
    simp only
    rw [hw2, Export.bind_of_ok]
    exact ih _ _ _ (fun r hr => hb r (hsub1 r hr)) (fun r hr => hc r (hsub2 r hr))

/-- Two loops `while_at_grade` at one multi-grade on one set pass the same
simplices: a relation between their variables that the two bodies keep holds
at the end. -/
theorem while_at_grade_sim {σ τ : Type} (root : STNode) (gx gy : Int)
    (body1 : List Nat → σ → Export σ) (body2 : List Nat → τ → Export τ)
    (Rel : σ → τ → Prop)
    (hstep : ∀ r s u s1, Rel s u → body1 r s = .ok s1 → ∃ u1, body2 r u = .ok u1 ∧ Rel s1 u1) :
    ∀ (it : List (List Nat)) (s : σ) (u : τ) (s1 : σ) (it1 : List (List Nat)), Rel s u →
      while_at_grade root gx gy body1 it s = .ok (s1, it1) →
      ∃ u1, while_at_grade root gx gy body2 it u = .ok (u1, it1) ∧ Rel s1 u1 := by
  intro it
  induction it with
  | nil =>
    intro s u s1 it1 hrel h
    simp only [while_at_grade, Export.ok.injEq, Prod.mk.injEq] at h
    obtain ⟨rfl, rfl⟩ := h
    exact ⟨u, rfl, hrel⟩
  | cons r it ih =>
    intro s u s1 it1 hrel h
    rw [while_at_grade] at h ⊢
    cases hn : node_at r root with
    | none => rw [hn] at h; simp at h
    | some n =>
      rw [hn] at h
      simp only at h ⊢
      by_cases hm : n.grade_x = gx ∧ n.grade_y = gy
      · rw [if_pos hm] at h ⊢
        obtain ⟨s2, hb, hw⟩ := Export.bind_eq_ok h
        obtain ⟨u2, hb2, hrel2⟩ := hstep r s u s2 hrel hb
        obtain ⟨u1, hw2, hrel1⟩ := ih s2 u2 s1 it1 hrel2 hw
        rw [hb2, Export.bind_of_ok]
        exact ⟨u1, hw2, hrel1⟩
      · rw [if_neg hm] at h ⊢
        simp only [Export.ok.injEq, Prod.mk.injEq] at h
        obtain ⟨rfl, rfl⟩ := h
        exact ⟨u, rfl, hrel⟩

/-- Two double loops on the same sets pass the same simplices at the same
cells: a relation between their variables that the bodies and the statements
after them keep holds at the end. -/
theorem sweep_cells_sim {σ τ : Type} (root : STNode)
    (b1 c1 : List Nat → σ → Export σ) (r1 : Int → Int → σ → σ)
    (b2 c2 : List Nat → τ → Export τ) (r2 : Int → Int → τ → τ)
    (Rel : σ → τ → Prop)
    (hb : ∀ r s u s1, Rel s u → b1 r s = .ok s1 → ∃ u1, b2 r u = .ok u1 ∧ Rel s1 u1)
    (hc : ∀ r s u s1, Rel s u → c1 r s = .ok s1 → ∃ u1, c2 r u = .ok u1 ∧ Rel s1 u1)
    (hr : ∀ x y s u, Rel s u → Rel (r1 x y s) (r2 x y u)) :
    ∀ (cells : List (Int × Int)) (s : σ) (u : τ) (it_b it_c : List (List Nat))
      (res : σ × List (List Nat) × List (List Nat)), Rel s u →
      sweep_cells root b1 c1 r1 cells s it_b it_c = .ok res →
      ∃ u1, sweep_cells root b2 c2 r2 cells u it_b it_c = .ok (u1, res.2) ∧ Rel res.1 u1 := by
  intro cells
  induction cells with
  | nil =>
    intro s u it_b it_c res hrel h
    simp only [sweep_cells, Export.ok.injEq] at h
    subst h
    exact ⟨u, rfl, hrel⟩
  | cons cell cells ih =>
    intro s u it_b it_c res hrel h
    rw [sweep_cells] at h ⊢
    obtain ⟨⟨s1, it1⟩, hw1, h⟩ := Export.bind_eq_ok h
    obtain ⟨⟨s2, it2⟩, hw2, h⟩ := Export.bind_eq_ok h
    obtain ⟨u1, hu1, hrel1⟩ := while_at_grade_sim root _ _ b1 b2 Rel hb it_b s u s1 it1 hrel hw1
    obtain ⟨u2, hu2, hrel2⟩ := while_at_grade_sim root _ _ c1 c2 Rel hc it_c s1 u1 s2 it2 hrel1 hw2
    rw [hu1, Export.bind_of_ok]
    simp only
    rw [hu2, Export.bind_of_ok]
    exact ih _ _ _ _ res (hr _ _ _ _ hrel2) h


/-! ### The columns of the merge export -/

theorem MapMatrix.column_set (m : MapMatrix) (i j c : Int) :
    (m.set i j).column c = m.column c ++ if c = j then [i] else [] := by
  have := MapMatrix.column_append m [i] j c
  simpa [MapMatrix.set] using this

theorem MapMatrix.row_set (m : MapMatrix) (i j r : Int) :
    (m.set i j).row r = m.row r ++ if r = i then [j] else [] := by
  simp only [MapMatrix.row, MapMatrix.set, List.filter_append, List.map_append]
  congr 1
  by_cases h : r = i
  · subst h
    simp
  · have : ¬ i = r := fun h2 => h h2.symm
    simp [List.filter_cons, h, this]

theorem int_range_snoc (i : Int) (n : Nat) :
    int_range i (n + 1) = int_range i n ++ [i + n] := by
  rw [int_range_add, int_range_succ, int_range_zero]

/-- A column that `write_boundary_column` can write gets the rows
`column_rows`, each moved by the offset. -/
theorem write_boundary_column_off (t : SimplexTree) (sim : List Nat) {s : STNode}
    {verts : List Int} (hs : node_at sim t.root = some s)
    (hv : t.find_vertices s.global_index = .ok verts)
    (hf : ∀ k, k < verts.length → (t.find_simplex (verts.eraseIdx k)).isSome = true)
    (mat : MapMatrix) (col offset : Int) :
    t.write_boundary_column mat sim col offset =
      .ok { mat with cells := mat.cells ++
        ((column_rows t sim).map (fun x => x + offset)).map (fun x => (x, col)) } := by
  rw [SimplexTree.write_boundary_column, hs]
  simp only
  rw [hv]
  simp only
  rw [write_facets_ok t verts col offset _ mat (fun k hk => hf k (List.mem_range.1 hk))]
  simp [column_rows, hs, hv]

/-- The body of the first loop of `get_merge_mxs` at the simplex at position
`a` of the band, when its column gets the number `a + c`. -/
theorem merge_step_b (t : SimplexTree) (S : List (List Nat)) (w nl : Int) (a c : Nat)
    (s : MergeVars) (r : List Nat) (hs : merge_state t S w nl a c s) (hr : S[a]? = some r)
    (hcol : ∀ mat col offset, t.write_boundary_column mat r col offset =
      .ok { mat with cells := mat.cells ++
        ((column_rows t r).map (fun x => x + offset)).map (fun x => (x, col)) })
    (hb : merge_col_b (S.map (ref_pos t.root w)) w a = (a : Int) + c) (hca : c ≤ a) :
    ∃ s1, merge_column_b t r s = .ok s1 ∧ merge_state t S w nl (a + 1) c s1 ∧
      s1.end_cols = s.end_cols ∧
      (s1.boundary.num_rows, s1.boundary.num_cols, s1.merge.num_rows, s1.merge.num_cols) =
        (s.boundary.num_rows, s.boundary.num_cols, s.merge.num_rows, s.merge.num_cols) := by
  obtain ⟨h1, h2, h3, h4, h5, h6, h7, h8⟩ := hs
  have hg : S.getD a [] = r := by simp [List.getD, hr]
  have hcol1 : s.col + 1 = (a : Int) + c := by omega
  rw [merge_column_b, hcol, Export.bind_of_ok]
  refine ⟨_, rfl, ?_, rfl, rfl⟩
  refine ⟨by simp only; push_cast; omega, h2, by simp only; push_cast; omega, ?_, ?_, ?_, ?_, ?_⟩
  · simp only [MapMatrix.set, List.map_append, h4, List.map_cons, List.map_nil]
    rw [show a + 1 + c = (a + c) + 1 by omega, int_range_snoc, hcol1]
    simp
  · intro i hi
    by_cases hia : i < a
    · obtain ⟨k1, k2, k3⟩ := h5 i hia
      have hne : ¬ merge_col_b (S.map (ref_pos t.root w)) w i = s.col + 1 := by omega
      refine ⟨by push_cast; omega, ?_, ?_⟩
      · simp only
        rw [MapMatrix.column_set, if_neg hne, k2, List.append_nil]
      · simp only
        rw [MapMatrix.column_append, if_neg hne, k3, List.append_nil]
    · have hia2 : i = a := by omega
      subst hia2
      obtain ⟨k4, k5⟩ := h7 ((i : Int) + c) (le_refl _)
      refine ⟨by push_cast; omega, ?_, ?_⟩
      · simp only
        rw [MapMatrix.column_set, hb, if_pos hcol1.symm, k4, h1]
        rfl
      · simp only
        rw [MapMatrix.column_append, hb, if_pos hcol1.symm, k5, hg]
        simp
  · intro i hi
    obtain ⟨k1, k2, k3⟩ := h6 i hi
    have hne : ¬ merge_col_c (S.map (ref_pos t.root w)) w i = s.col + 1 := by omega
    refine ⟨by push_cast; omega, ?_, ?_⟩
    · simp only
      rw [MapMatrix.column_set, if_neg hne, k2, List.append_nil]
    · simp only
      rw [MapMatrix.column_append, if_neg hne, k3, List.append_nil]
  · intro k hk
    push_cast at hk
    obtain ⟨k4, k5⟩ := h7 k (by omega)
    have hne : ¬ k = s.col + 1 := by omega
    constructor
    · simp only
      rw [MapMatrix.column_set, if_neg hne, k4, List.append_nil]
    · simp only
      rw [MapMatrix.column_append, if_neg hne, k5, List.append_nil]
  · intro i
    simp only
    rw [MapMatrix.row_set, h8 i, h1]
    by_cases hia : i = a
    · subst hia
      have e2 : ¬ i < c := by omega
      rw [if_neg (lt_irrefl _), if_neg e2, if_pos rfl, if_pos (Nat.lt_succ_self _), hb, hcol1]
      rfl
    · have hne : ¬ (i : Int) = (a : Int) := by omega
      rw [if_neg hne, List.append_nil]
      by_cases h9 : i < a
      · rw [if_pos h9, if_pos (show i < a + 1 by omega)]
      · rw [if_neg h9, if_neg (show ¬ i < a + 1 by omega)]

/-- The body of the second loop of `get_merge_mxs` at the simplex at position
`c` of the band, when its column gets the number `a + c`. -/
theorem merge_step_c (t : SimplexTree) (S : List (List Nat)) (w nl : Int) (a c : Nat)
    (s : MergeVars) (r : List Nat) (hs : merge_state t S w nl a c s) (hr : S[c]? = some r)
    (hcol : ∀ mat col offset, t.write_boundary_column mat r col offset =
      .ok { mat with cells := mat.cells ++
        ((column_rows t r).map (fun x => x + offset)).map (fun x => (x, col)) })
    (hc : merge_col_c (S.map (ref_pos t.root w)) w c = (a : Int) + c) :
    ∃ s1, merge_column_c t nl r s = .ok s1 ∧ merge_state t S w nl a (c + 1) s1 ∧
      s1.end_cols = s.end_cols ∧
      (s1.boundary.num_rows, s1.boundary.num_cols, s1.merge.num_rows, s1.merge.num_cols) =
        (s.boundary.num_rows, s.boundary.num_cols, s.merge.num_rows, s.merge.num_cols) := by
  obtain ⟨h1, h2, h3, h4, h5, h6, h7, h8⟩ := hs
  have hg : S.getD c [] = r := by simp [List.getD, hr]
  have hcol1 : s.col + 1 = (a : Int) + c := by omega
  rw [merge_column_c, hcol, Export.bind_of_ok]
  refine ⟨_, rfl, ?_, rfl, rfl⟩
  refine ⟨h1, by simp only; push_cast; omega, by simp only; push_cast; omega, ?_, ?_, ?_, ?_, ?_⟩
  · simp only [MapMatrix.set, List.map_append, h4, List.map_cons, List.map_nil]
    rw [show a + (c + 1) = (a + c) + 1 by omega, int_range_snoc, hcol1]
    simp
  · intro i hi
    obtain ⟨k1, k2, k3⟩ := h5 i hi
    have hne : ¬ merge_col_b (S.map (ref_pos t.root w)) w i = s.col + 1 := by omega
    refine ⟨by push_cast; omega, ?_, ?_⟩
    · simp only
      rw [MapMatrix.column_set, if_neg hne, k2, List.append_nil]
    · simp only
      rw [MapMatrix.column_append, if_neg hne, k3, List.append_nil]
  · intro i hi
    by_cases hia : i < c
    · obtain ⟨k1, k2, k3⟩ := h6 i hia
      have hne : ¬ merge_col_c (S.map (ref_pos t.root w)) w i = s.col + 1 := by omega
      refine ⟨by push_cast; omega, ?_, ?_⟩
      · simp only
        rw [MapMatrix.column_set, if_neg hne, k2, List.append_nil]
      · simp only
        rw [MapMatrix.column_append, if_neg hne, k3, List.append_nil]
    · have hia2 : i = c := by omega
      subst hia2
      obtain ⟨k4, k5⟩ := h7 ((a : Int) + i) (le_refl _)
      refine ⟨by push_cast; omega, ?_, ?_⟩
      · simp only
        rw [MapMatrix.column_set, hc, if_pos hcol1.symm, k4, h2]
        rfl
      · simp only
        rw [MapMatrix.column_append, hc, if_pos hcol1.symm, k5, hg]
        simp
  · intro k hk
    push_cast at hk
    obtain ⟨k4, k5⟩ := h7 k (by omega)
    have hne : ¬ k = s.col + 1 := by omega
    constructor
    · simp only
      rw [MapMatrix.column_set, if_neg hne, k4, List.append_nil]
    · simp only
      rw [MapMatrix.column_append, if_neg hne, k5, List.append_nil]
  · intro i
    simp only
    rw [MapMatrix.row_set, h8 i, h2]
    by_cases hia : i = c
    · subst hia
      rw [if_neg (lt_irrefl _), if_pos rfl, if_pos (Nat.lt_succ_self _), hc, hcol1]
      simp
    · have hne : ¬ (i : Int) = (c : Int) := by omega
      rw [if_neg hne, List.append_nil]
      by_cases h9 : i < c
      · rw [if_pos h9, if_pos (show i < c + 1 by omega)]
      · rw [if_neg h9, if_neg (show ¬ i < c + 1 by omega)]

/-- What a band of a tree with current dimension indexes, with its
multi-grades inside the grid, gives to the double loop: its pointers point to
nodes with the dimension index of their position, its cell numbers in the
wider grid increase, and each simplex has a column that
`write_boundary_column` can write. -/
theorem sweep_band_facts (t : SimplexTree) (hi : t.indexed = true) (hc : t.face_closed = true)
    (hdi : t.dim_indexed = true) (k : Int) (hk : k = -1 ∨ k = 0 ∨ k = 1)
    (hgrid : ∀ r ∈ t.band k, ∀ n, node_at r t.root = some n →
      0 ≤ n.grade_x ∧ n.grade_x < t.grade_x_values.length ∧
      0 ≤ n.grade_y ∧ n.grade_y < t.grade_y_values.length) :
    (∀ r ∈ t.band k, ∃ n, node_at r t.root = some n ∧
      0 ≤ n.grade_x ∧ n.grade_x < t.grade_x_values.length ∧
      0 ≤ n.grade_y ∧ n.grade_y < t.grade_y_values.length ∧
      ref_pos t.root ((t.grade_x_values.length : Int) + 1) r =
        n.grade_x + n.grade_y * ((t.grade_x_values.length : Int) + 1)) ∧
    ((t.band k).map (ref_pos t.root ((t.grade_x_values.length : Int) + 1))).Pairwise
      (fun a b => a ≤ b) ∧
    (∀ r ∈ t.band k, ∀ mat col offset, t.write_boundary_column mat r col offset =
      .ok { mat with cells := mat.cells ++
        ((column_rows t r).map (fun x => x + offset)).map (fun x => (x, col)) }) ∧
    (∀ (i : Nat) (r : List Nat), (t.band k)[i]? = some r →
      ∃ n, node_at r t.root = some n ∧ n.dim_index = i) := by
  obtain ⟨_, hmem, hsort, hdim⟩ := (band_indexed_iff _ _ _).1 (dim_indexed_band t hdi k hk)
  have hvalid : ∀ r ∈ t.band k, ∃ n, node_at r t.root = some n ∧
      0 ≤ n.grade_x ∧ n.grade_x < t.grade_x_values.length ∧
      0 ≤ n.grade_y ∧ n.grade_y < t.grade_y_values.length ∧
      ref_pos t.root ((t.grade_x_values.length : Int) + 1) r =
        n.grade_x + n.grade_y * ((t.grade_x_values.length : Int) + 1) := by
    intro r hr
    obtain ⟨n, hn⟩ := Option.isSome_iff_exists.1 ((hmem r).1 hr).2.2
    obtain ⟨h1, h2, h3, h4⟩ := hgrid r hr n hn
    exact ⟨n, hn, h1, h2, h3, h4, by simp [ref_pos, hn, cell_pos]⟩
  refine ⟨hvalid, ?_, ?_, hdim⟩
  · rw [List.pairwise_map]
    refine hsort.imp_of_mem ?_
    intro r s hr hs h
    obtain ⟨a, ha, ha1, ha2, _, _, hpa⟩ := hvalid r hr
    obtain ⟨b, hb, hb1, hb2, _, _, hpb⟩ := hvalid s hs
    rw [hpa, hpb, lin_le_iff (by omega) ha1 (by omega) hb1 (by omega)]
    rw [ref_before_of_nodes hb ha] at h
    have h2 : ¬ (b.grade_y < a.grade_y ∨ (b.grade_y = a.grade_y ∧ b.grade_x < a.grade_x)) := by
      rw [← sweep_before_iff, h]
      simp
    omega
  · intro r hr mat col offset
    obtain ⟨n, hn, _⟩ := hvalid r hr
    obtain ⟨verts, _, _, h3, h4⟩ := column_resolved t hi hc ((hmem r).1 hr).1 hn
    exact write_boundary_column_off t r hn h3 h4 mat col offset


/-! ### The merge export -/

theorem merge_state_init (t : SimplexTree) (S : List (List Nat)) (w nl : Int)
    (m1 m2 : MapMatrix) (e : IndexMatrix) (h1 : m1.cells = []) (h2 : m2.cells = []) :
    merge_state t S w nl 0 0 ⟨m1, m2, e, -1, 0, 0⟩ := by
  refine ⟨rfl, rfl, rfl, by simp [h2], ?_, ?_, ?_, ?_⟩
  · intro i hi
    omega
  · intro i hi
    omega
  · intro k _
    simp [MapMatrix.column, h1, h2]
  · intro i
    simp [MapMatrix.row, h2]

/-- The double loop of `get_merge_mxs` on a face-closed tree with current
global and dimension indexes whose band of dimension `hom_dim` has its
multi-grades inside the grid: it passes every simplex of the band in both
loops and ends in the state `merge_state` with all columns written; the cell
number `q` of the index matrix holds the number of the last column written
at the cells up to `q`. -/
theorem merge_sweep_facts (t : SimplexTree) (hi : t.indexed = true) (hc : t.face_closed = true)
    (hdi : t.dim_indexed = true)
    (hgrid : ∀ r ∈ t.ordered_simplices, ∀ n, node_at r t.root = some n →
      0 ≤ n.grade_x ∧ n.grade_x < t.grade_x_values.length ∧
      0 ≤ n.grade_y ∧ n.grade_y < t.grade_y_values.length) :
    ∃ s : MergeVars,
      sweep_cells t.root (merge_column_b t)
          (merge_column_c t (t.ordered_low_simplices.length : Int)) merge_record
          (grid_cells t.grade_x_values.length t.grade_y_values.length)
          ⟨MapMatrix.init (2 * (t.ordered_low_simplices.length : Int))
              (2 * (t.ordered_simplices.length : Int)),
            MapMatrix.init (t.ordered_simplices.length : Int)
              (2 * (t.ordered_simplices.length : Int)),
            IndexMatrix.init ((t.grade_y_values.length : Int) + 1)
              ((t.grade_x_values.length : Int) + 1), -1, 0, 0⟩
          t.ordered_simplices t.ordered_simplices = .ok (s, [], []) ∧
      merge_state t t.ordered_simplices ((t.grade_x_values.length : Int) + 1)
        (t.ordered_low_simplices.length : Int) t.ordered_simplices.length
        t.ordered_simplices.length s ∧
      (s.boundary.num_rows, s.boundary.num_cols, s.merge.num_rows, s.merge.num_cols) =
        (2 * (t.ordered_low_simplices.length : Int), 2 * (t.ordered_simplices.length : Int),
          (t.ordered_simplices.length : Int), 2 * (t.ordered_simplices.length : Int)) ∧
      s.end_cols.num_rows = (t.grade_y_values.length : Int) + 1 ∧
      s.end_cols.num_cols = (t.grade_x_values.length : Int) + 1 ∧
      ∀ q : Nat, q < (t.grade_y_values.length + 1) * (t.grade_x_values.length + 1) →
        s.end_cols.cell ((q / (t.grade_x_values.length + 1) : Nat) : Int)
            ((q % (t.grade_x_values.length + 1) : Nat) : Int) =
          some ((pos_count (t.ordered_simplices.map
              (ref_pos t.root ((t.grade_x_values.length : Int) + 1))) ((q : Int) - 1) : Int) +
            pos_count (t.ordered_simplices.map
              (ref_pos t.root ((t.grade_x_values.length : Int) + 1)))
              ((q : Int) - ((t.grade_x_values.length : Int) + 1)) - 1) := by
  have hb0 : t.band 0 = t.ordered_simplices := by simp [SimplexTree.band]
  obtain ⟨hvalid, hsorted, hcol, _⟩ := sweep_band_facts t hi hc hdi 0 (Or.inr (Or.inl rfl))
    (by rw [hb0]; exact hgrid)
  rw [hb0] at hvalid hsorted hcol
  generalize hS : t.ordered_simplices = S at *
  generalize hX : t.grade_x_values.length = X at *
  generalize hY : t.grade_y_values.length = Y at *
  generalize hnl : (t.ordered_low_simplices.length : Int) = nl at *
  generalize hP : S.map (ref_pos t.root ((X : Int) + 1)) = P at *
  have hPlen : P.length = S.length := by rw [← hP, List.length_map]
  have hPget : ∀ (i : Nat) (r : List Nat), S[i]? = some r →
      P.getD i 0 = ref_pos t.root ((X : Int) + 1) r := by
    intro i r h
    rw [← hP]
    simp [List.getD, List.getElem?_map, h]
  have hPrange : ∀ p ∈ P, 0 ≤ p ∧ p < ((X : Int) + 1) * Y := by
    intro p hp
    rw [← hP] at hp
    obtain ⟨r, hr, rfl⟩ := List.mem_map.1 hp
    obtain ⟨n, hn, h1, h2, h3, h4, h5⟩ := hvalid r hr
    rw [h5]
    exact lin_range h1 (by omega) h3 h4
  have hmem_of : ∀ (i : Nat) (r : List Nat), S[i]? = some r → r ∈ S :=
    fun i r h => List.mem_iff_getElem?.2 ⟨i, h⟩
  -- the property carried along the double loop
  obtain ⟨s, hsweep, hinv⟩ := sweep_cells_run t.root (merge_column_b t) (merge_column_c t nl)
    merge_record S X
    (fun r hr => by
      obtain ⟨n, hn, h1, h2, _⟩ := hvalid r hr
      exact ⟨n, hn, h1, h2⟩)
    (by rw [hP]; exact hsorted)
    (fun q a c s => merge_state t S ((X : Int) + 1) nl a c s ∧
      (s.boundary.num_rows, s.boundary.num_cols, s.merge.num_rows, s.merge.num_cols) =
        (2 * nl, 2 * (S.length : Int), (S.length : Int), 2 * (S.length : Int)) ∧
      s.end_cols.num_rows = (Y : Int) + 1 ∧ s.end_cols.num_cols = (X : Int) + 1 ∧
      ∀ q1 : Nat, (q1 : Int) < q →
        s.end_cols.cell ((q1 / (X + 1) : Nat) : Int) ((q1 % (X + 1) : Nat) : Int) =
          some ((pos_count P ((q1 : Int) - 1) : Int) +
            pos_count P ((q1 : Int) - ((X : Int) + 1)) - 1))
    (by
      intro q a r s1 hlo hr hpos ⟨k1, k2, k3, k4, k5⟩
      rw [hP] at hlo k1 ⊢
      have hb : merge_col_b (S.map (ref_pos t.root ((X : Int) + 1))) ((X : Int) + 1) a =
          (a : Int) + (pos_count P ((q : Int) - 1 - ((X : Int) + 1)) : Nat) := by
        rw [hP, merge_col_b, hPget a r hr, hpos]
      have hca : pos_count P ((q : Int) - 1 - ((X : Int) + 1)) ≤ a :=
        le_trans (pos_count_le_mono P (by omega)) hlo
      obtain ⟨s2, e1, e2, e3, e4⟩ := merge_step_b t S ((X : Int) + 1) nl a _ s1 r k1 hr
        (hcol r (hmem_of a r hr)) hb hca
      refine ⟨s2, e1, e2, ?_, ?_, ?_, ?_⟩
      · rw [← k2]
        exact e4
      · rw [e3]; exact k3
      · rw [e3]; exact k4
      · rw [e3]; exact k5)
    (by
      intro q c r s1 hr hpos ⟨k1, k2, k3, k4, k5⟩
      rw [hP] at k1 ⊢
      have hc2 : merge_col_c (S.map (ref_pos t.root ((X : Int) + 1))) ((X : Int) + 1) c =
          ((pos_count P ((q : Int) - 1) : Nat) : Int) + c := by
        rw [hP, merge_col_c, hPget c r hr, hpos,
          show (q : Int) - ((X : Int) + 1) + ((X : Int) + 1) - 1 = (q : Int) - 1 by omega]
        omega
      obtain ⟨s2, e1, e2, e3, e4⟩ := merge_step_c t S ((X : Int) + 1) nl _ c s1 r k1 hr
        (hcol r (hmem_of c r hr)) hc2
      refine ⟨s2, e1, e2, ?_, ?_, ?_, ?_⟩
      · rw [← k2]
        exact e4
      · rw [e3]; exact k3
      · rw [e3]; exact k4
      · rw [e3]; exact k5)
    (by
      intro q s1 ⟨k1, k2, k3, k4, k5⟩
      rw [hP] at k1 ⊢
      refine ⟨k1, k2, k3, k4, ?_⟩
      intro q1 hq1
      rw [merge_record]
      simp only
      rw [IndexMatrix.set_cell]
      by_cases hq : q1 = q
      · subst hq
        rw [if_pos ⟨rfl, rfl⟩, k1.2.2.1]
      · have hne : ¬ (((q1 / (X + 1) : Nat) : Int) = ((q / (X + 1) : Nat) : Int) ∧
            ((q1 % (X + 1) : Nat) : Int) = ((q % (X + 1) : Nat) : Int)) := by
          rintro ⟨h1, h2⟩
          apply hq
          have h3 : q1 / (X + 1) = q / (X + 1) := by exact_mod_cast h1
          have h4 : q1 % (X + 1) = q % (X + 1) := by exact_mod_cast h2
          rw [← Nat.mod_add_div q1 (X + 1), ← Nat.mod_add_div q (X + 1), h3, h4]
        rw [if_neg hne]
        exact k5 q1 (by omega))
    ((Y + 1) * (X + 1)) 0
    (⟨MapMatrix.init (2 * nl) (2 * (S.length : Int)),
      MapMatrix.init (S.length : Int) (2 * (S.length : Int)),
      IndexMatrix.init ((Y : Int) + 1) ((X : Int) + 1), -1, 0, 0⟩ : MergeVars)
    (by
      rw [hP]
      have z1 : pos_count P (((0 : Nat) : Int) - 2) = 0 :=
        pos_count_zero P _ (fun p hp => by have := (hPrange p hp).1; omega)
      have z2 : pos_count P (((0 : Nat) : Int) - 1 - ((X : Int) + 1)) = 0 :=
        pos_count_zero P _ (fun p hp => by have := (hPrange p hp).1; omega)
      rw [z1, z2]
      refine ⟨merge_state_init t S _ nl _ _ _ rfl rfl, rfl, rfl, rfl, ?_⟩
      intro q1 hq1
      omega)
  rw [hP] at hsweep hinv
  have hN : (((0 : Nat) : Int)) + (((Y + 1) * (X + 1) : Nat) : Int) =
      ((X : Int) + 1) * Y + ((X : Int) + 1) := by
    push_cast
    ring
  have f1 : pos_count P ((((0 : Nat) : Int)) + (((Y + 1) * (X + 1) : Nat) : Int) - 2) =
      S.length := by
    rw [← hPlen]
    apply pos_count_all
    intro p hp
    have := (hPrange p hp).2
    rw [hN]
    omega
  have f2 : pos_count P ((((0 : Nat) : Int)) + (((Y + 1) * (X + 1) : Nat) : Int) - 1 -
      ((X : Int) + 1)) = S.length := by
    rw [← hPlen]
    apply pos_count_all
    intro p hp
    have := (hPrange p hp).2
    rw [hN]
    omega
  rw [f1, f2] at hsweep hinv
  have z1 : pos_count P (((0 : Nat) : Int) - 2) = 0 :=
    pos_count_zero P _ (fun p hp => by have := (hPrange p hp).1; omega)
  have z2 : pos_count P (((0 : Nat) : Int) - 1 - ((X : Int) + 1)) = 0 :=
    pos_count_zero P _ (fun p hp => by have := (hPrange p hp).1; omega)
  rw [z1, z2, List.drop_zero, List.drop_length, ← grid_cells_eq] at hsweep
  obtain ⟨k1, k2, k3, k4, k5⟩ := hinv
  refine ⟨s, hsweep, k1, k2, k3, k4, ?_⟩
  intro q hq
  apply k5 q
  have : ((q : Nat) : Int) < (((Y + 1) * (X + 1) : Nat) : Int) := Int.ofNat_lt.2 hq
  omega


/-! ### The column numbers of the merge export -/

theorem merge_col_b_le_iff {P : List Int} (hs : P.Pairwise (fun a b => a ≤ b)) {w : Int}
    {i : Nat} {p : Int} (h : P[i]? = some p) (q : Int) :
    merge_col_b P w i ≤ (pos_count P (q - 1) : Int) + pos_count P (q - w) - 1 ↔ p + 1 ≤ q := by
  have hg : P.getD i 0 = p := by simp [List.getD, h]
  rw [merge_col_b, hg]
  have h1 := pos_count_lt_iff hs (q - 1) h
  constructor
  · intro h2
    by_contra h3
    have h4 : ¬ i < pos_count P (q - 1) := fun h5 => h3 (by have := h1.1 h5; omega)
    have h5 := pos_count_le_mono P (show q - w ≤ p - w by omega)
    omega
  · intro h2
    have h4 := h1.2 (by omega)
    have h5 := pos_count_le_mono P (show p - w ≤ q - w by omega)
    omega

theorem merge_col_c_le_iff {P : List Int} (hs : P.Pairwise (fun a b => a ≤ b)) {w : Int}
    {i : Nat} {p : Int} (h : P[i]? = some p) (q : Int) :
    merge_col_c P w i ≤ (pos_count P (q - 1) : Int) + pos_count P (q - w) - 1 ↔ p + w ≤ q := by
  have hg : P.getD i 0 = p := by simp [List.getD, h]
  rw [merge_col_c, hg]
  have h1 := pos_count_lt_iff hs (q - w) h
  constructor
  · intro h2
    by_contra h3
    have h4 : ¬ i < pos_count P (q - w) := fun h5 => h3 (by have := h1.1 h5; omega)
    have h5 := pos_count_le_mono P (show q - 1 ≤ p + w - 1 by omega)
    omega
  · intro h2
    have h4 := h1.2 (by omega)
    have h5 := pos_count_le_mono P (show p + w - 1 ≤ q - 1 by omega)
    omega

theorem merge_col_b_lt_c {P : List Int} (hs : P.Pairwise (fun a b => a ≤ b)) {w : Int}
    {i j : Nat} {p r : Int} (hi : P[i]? = some p) (hj : P[j]? = some r) (h : p + 1 ≤ r + w) :
    merge_col_b P w i < merge_col_c P w j := by
  have hg : P.getD i 0 = p := by simp [List.getD, hi]
  have hg2 : P.getD j 0 = r := by simp [List.getD, hj]
  rw [merge_col_b, merge_col_c, hg, hg2]
  have h1 := (pos_count_lt_iff hs (r + w - 1) hi).2 (by omega)
  have h2 : ¬ j < pos_count P (p - w) := fun h3 => by
    have := (pos_count_lt_iff hs (p - w) hj).1 h3
    omega
  omega

theorem merge_col_c_lt (P : List Int) (w : Int) {i : Nat} (h : i < P.length) :
    merge_col_c P w i < 2 * (P.length : Int) := by
  rw [merge_col_c]
  have := pos_count_le_length P (P.getD i 0 + w - 1)
  omega

theorem merge_col_b_nonneg (P : List Int) (w : Int) (i : Nat) : 0 ≤ merge_col_b P w i := by
  rw [merge_col_b]
  omega

theorem cell_number (X Y x y : Nat) (hx : x ≤ X) (hy : y ≤ Y) :
    x + y * (X + 1) < (Y + 1) * (X + 1) ∧ (x + y * (X + 1)) / (X + 1) = y ∧
      (x + y * (X + 1)) % (X + 1) = x ∧
      ((x + y * (X + 1) : Nat) : Int) = (x : Int) + (y : Int) * ((X : Int) + 1) := by
  refine ⟨?_, ?_, ?_, by push_cast; ring⟩
  · have := Nat.mul_le_mul_right (X + 1) hy
    rw [Nat.succ_mul]
    omega
  · rw [Nat.add_mul_div_right _ _ (by omega), Nat.div_eq_of_lt (by omega), Nat.zero_add]
  · rw [Nat.add_mul_mod_self_right, Nat.mod_eq_of_lt (by omega)]

/-- C24: on a face-closed tree with current global and dimension indexes whose
band of dimension `hom_dim` (`count` simplices, in sweep order) has its
multi-grades inside the grid, `get_merge_mxs` returns; the boundary matrix has
`2 * low count` rows and `2 * count` columns, the map matrix `count` rows and
`2 * count` columns, the index matrix one cell for each `x` in `[0, x_size]`
and `y` in `[0, y_size]`.  The cells of the map matrix are set at the columns
`0, 1, ..., 2 * count - 1` in this order, one cell a column.  The simplex at
position `i` of the band, which has dimension index `i`, has the two columns
`merge_col_b i < merge_col_c i`: each holds the single row `i` in the map
matrix, whose row `i` holds these two columns and no other; in the boundary
matrix the first holds the rows of the facets of the simplex and the second
the same rows moved by the low count.  The B column is written at the cell
`(gx + 1, gy)` and the C column at the cell `(gx, gy + 1)`: the value of the
index matrix at a cell `(x, y)`, the last column written when the cell is
left, is at least the B column exactly when `(gx + 1, gy)` is `(x, y)` or comes
before it in the sweep, and at least the C column exactly when `(gx, gy + 1)`
is or comes before it; and the B column of a simplex written at the cell where
the C column of another is written has the smaller number.  The values of the
index matrix do not decrease along the sweep and the last cell holds
`2 * count - 1`. -/
theorem get_merge_mxs_spec (t : SimplexTree) (hi : t.indexed = true)
    (hc : t.face_closed = true) (hdi : t.dim_indexed = true)
    (hgrid : ∀ r ∈ t.ordered_simplices, ∀ n, node_at r t.root = some n →
      0 ≤ n.grade_x ∧ n.grade_x < t.grade_x_values.length ∧
      0 ≤ n.grade_y ∧ n.grade_y < t.grade_y_values.length) :
    ∃ d, t.get_merge_mxs = .ok d ∧
      (d.boundary_matrix.num_rows = 2 * (t.ordered_low_simplices.length : Int) ∧
        d.boundary_matrix.num_cols = 2 * (t.ordered_simplices.length : Int) ∧
        d.map_matrix.num_rows = (t.ordered_simplices.length : Int) ∧
        d.map_matrix.num_cols = 2 * (t.ordered_simplices.length : Int) ∧
        d.column_indexes.num_rows = (t.grade_y_values.length : Int) + 1 ∧
        d.column_indexes.num_cols = (t.grade_x_values.length : Int) + 1) ∧
      d.map_matrix.cells.map Prod.snd = int_range 0 (2 * t.ordered_simplices.length) ∧
      (∀ (i : Nat) (r : List Nat), t.ordered_simplices[i]? = some r →
        ∃ nd, node_at r t.root = some nd ∧ nd.dim_index = i ∧
          0 ≤ merge_col_b (t.ordered_simplices.map
              (ref_pos t.root ((t.grade_x_values.length : Int) + 1)))
              ((t.grade_x_values.length : Int) + 1) i ∧
          merge_col_b (t.ordered_simplices.map
              (ref_pos t.root ((t.grade_x_values.length : Int) + 1)))
              ((t.grade_x_values.length : Int) + 1) i <
            merge_col_c (t.ordered_simplices.map
              (ref_pos t.root ((t.grade_x_values.length : Int) + 1)))
              ((t.grade_x_values.length : Int) + 1) i ∧
          merge_col_c (t.ordered_simplices.map
              (ref_pos t.root ((t.grade_x_values.length : Int) + 1)))
              ((t.grade_x_values.length : Int) + 1) i <
            2 * (t.ordered_simplices.length : Int) ∧
          d.map_matrix.column (merge_col_b (t.ordered_simplices.map
              (ref_pos t.root ((t.grade_x_values.length : Int) + 1)))
              ((t.grade_x_values.length : Int) + 1) i) = [(i : Int)] ∧
          d.map_matrix.column (merge_col_c (t.ordered_simplices.map
              (ref_pos t.root ((t.grade_x_values.length : Int) + 1)))
              ((t.grade_x_values.length : Int) + 1) i) = [(i : Int)] ∧
          d.map_matrix.row i =
            [merge_col_b (t.ordered_simplices.map
                (ref_pos t.root ((t.grade_x_values.length : Int) + 1)))
                ((t.grade_x_values.length : Int) + 1) i,
              merge_col_c (t.ordered_simplices.map
                (ref_pos t.root ((t.grade_x_values.length : Int) + 1)))
                ((t.grade_x_values.length : Int) + 1) i] ∧
          d.boundary_matrix.column (merge_col_b (t.ordered_simplices.map
              (ref_pos t.root ((t.grade_x_values.length : Int) + 1)))
              ((t.grade_x_values.length : Int) + 1) i) = column_rows t r ∧
          d.boundary_matrix.column (merge_col_c (t.ordered_simplices.map
              (ref_pos t.root ((t.grade_x_values.length : Int) + 1)))
              ((t.grade_x_values.length : Int) + 1) i) =
            (column_rows t r).map (fun x => x + (t.ordered_low_simplices.length : Int)) ∧
          (∀ x y : Nat, x ≤ t.grade_x_values.length → y ≤ t.grade_y_values.length →
            ∃ v, d.column_indexes.cell y x = some v ∧
              (merge_col_b (t.ordered_simplices.map
                  (ref_pos t.root ((t.grade_x_values.length : Int) + 1)))
                  ((t.grade_x_values.length : Int) + 1) i ≤ v ↔
                (nd.grade_y < y ∨ (nd.grade_y = y ∧ nd.grade_x + 1 ≤ x))) ∧
              (merge_col_c (t.ordered_simplices.map
                  (ref_pos t.root ((t.grade_x_values.length : Int) + 1)))
                  ((t.grade_x_values.length : Int) + 1) i ≤ v ↔
                (nd.grade_y + 1 < y ∨ (nd.grade_y + 1 = y ∧ nd.grade_x ≤ x)))) ∧
          (∀ (j : Nat) (r2 : List Nat) (n2 : STNode), t.ordered_simplices[j]? = some r2 →
            node_at r2 t.root = some n2 →
            n2.grade_x = nd.grade_x + 1 → n2.grade_y + 1 = nd.grade_y →
            merge_col_b (t.ordered_simplices.map
                (ref_pos t.root ((t.grade_x_values.length : Int) + 1)))
                ((t.grade_x_values.length : Int) + 1) i <
              merge_col_c (t.ordered_simplices.map
                (ref_pos t.root ((t.grade_x_values.length : Int) + 1)))
                ((t.grade_x_values.length : Int) + 1) j)) ∧
      (∀ x y x2 y2 : Nat, x ≤ t.grade_x_values.length → y ≤ t.grade_y_values.length →
        x2 ≤ t.grade_x_values.length → y2 ≤ t.grade_y_values.length →
        (y < y2 ∨ (y = y2 ∧ x ≤ x2)) →
        ∃ v v2, d.column_indexes.cell y x = some v ∧ d.column_indexes.cell y2 x2 = some v2 ∧
          v ≤ v2) ∧
      d.column_indexes.cell t.grade_y_values.length t.grade_x_values.length =
        some (2 * (t.ordered_simplices.length : Int) - 1) := by
  obtain ⟨s, hsweep, hstate, hdims, hd5, hd6, hcells⟩ := merge_sweep_facts t hi hc hdi hgrid
  have hb0 : t.band 0 = t.ordered_simplices := by simp [SimplexTree.band]
  obtain ⟨hvalid, hsorted, _, hdim⟩ := sweep_band_facts t hi hc hdi 0 (Or.inr (Or.inl rfl))
    (by rw [hb0]; exact hgrid)
  rw [hb0] at hvalid hsorted hdim
  simp only [Prod.mk.injEq] at hdims
  obtain ⟨hd1, hd2, hd3, hd4⟩ := hdims
  obtain ⟨_, _, _, h4, h5, h6, _, h8⟩ := hstate
  refine ⟨⟨s.boundary, s.merge, s.end_cols⟩, ?_, ⟨hd1, hd2, hd3, hd4, hd5, hd6⟩, ?_, ?_, ?_, ?_⟩
  · rw [SimplexTree.get_merge_mxs, hsweep]
    rfl
  · rw [h4, two_mul]
  all_goals
    generalize hS : t.ordered_simplices = S at *
    generalize hX : t.grade_x_values.length = X at *
    generalize hY : t.grade_y_values.length = Y at *
    generalize hP : S.map (ref_pos t.root ((X : Int) + 1)) = P at *
  · intro i r hr
    have hrS : r ∈ S := List.mem_iff_getElem?.2 ⟨i, hr⟩
    have hiS : i < S.length := (List.getElem?_eq_some_iff.1 hr).1
    obtain ⟨nd, hnd, g1, g2, g3, g4, hpos⟩ := hvalid r hrS
    obtain ⟨nd2, hnd2, hdi2⟩ := hdim i r hr
    rw [hnd] at hnd2
    cases hnd2
    have hPi : P[i]? = some (ref_pos t.root ((X : Int) + 1) r) := by
      rw [← hP, List.getElem?_map, hr]
      rfl
    have hPlen : P.length = S.length := by rw [← hP, List.length_map]
    have hg : S.getD i [] = r := by simp [List.getD, hr]
    obtain ⟨_, k2, k3⟩ := h5 i hiS
    obtain ⟨_, k5, k6⟩ := h6 i hiS
    refine ⟨nd, hnd, hdi2, merge_col_b_nonneg P _ i,
      merge_col_b_lt_c hsorted hPi hPi (by omega), ?_, k2, k5, ?_, ?_, ?_, ?_, ?_⟩
    · have := merge_col_c_lt P ((X : Int) + 1) (show i < P.length by omega)
      omega
    · have := h8 i
      rw [if_pos hiS, if_pos hiS] at this
      exact this
    · rw [k3, hg]
    · rw [k6, hg]
    · intro x y hx hy
      obtain ⟨c1, c2, c3, c4⟩ := cell_number X Y x y hx hy
      have hv := hcells (x + y * (X + 1)) c1
      rw [c2, c3, c4] at hv
      refine ⟨_, hv, ?_, ?_⟩
      · rw [merge_col_b_le_iff hsorted hPi, hpos,
          ← lin_le_iff (X := (X : Int) + 1) (c := nd.grade_x + 1) (d := (x : Int))
            (by omega) (by omega) (by omega) (by omega) (by omega)]
        constructor <;> intro h <;> omega
      · rw [merge_col_c_le_iff hsorted hPi, hpos,
          ← lin_le_iff (X := (X : Int) + 1) (c := nd.grade_x) (d := (x : Int))
            (by omega) (by omega) (by omega) (by omega) (by omega)]
        constructor <;> intro h <;> linarith
    · intro j r2 n2 hr2 hn2 e1 e2
      have hPj : P[j]? = some (ref_pos t.root ((X : Int) + 1) r2) := by
        rw [← hP, List.getElem?_map, hr2]
        rfl
      obtain ⟨n3, hn3, _, _, _, _, hpos2⟩ := hvalid r2 (List.mem_iff_getElem?.2 ⟨j, hr2⟩)
      rw [hn2] at hn3
      cases hn3
      apply merge_col_b_lt_c hsorted hPi hPj
      rw [hpos, hpos2, e1, ← e2]
      linarith
  · intro x y x2 y2 hx hy hx2 hy2 hle
    obtain ⟨c1, c2, c3, c4⟩ := cell_number X Y x y hx hy
    obtain ⟨e1, e2, e3, e4⟩ := cell_number X Y x2 y2 hx2 hy2
    have hv := hcells (x + y * (X + 1)) c1
    have hv2 := hcells (x2 + y2 * (X + 1)) e1
    rw [c2, c3, c4] at hv
    rw [e2, e3, e4] at hv2
    refine ⟨_, _, hv, hv2, ?_⟩
    have hq : (x : Int) + (y : Int) * ((X : Int) + 1) ≤ (x2 : Int) + (y2 : Int) * ((X : Int) + 1) := by
      rw [lin_le_iff (by omega) (by omega) (by omega) (by omega) (by omega)]
      omega
    have m1 := pos_count_le_mono P (show (x : Int) + (y : Int) * ((X : Int) + 1) - 1 ≤
      (x2 : Int) + (y2 : Int) * ((X : Int) + 1) - 1 by omega)
    have m2 := pos_count_le_mono P (show (x : Int) + (y : Int) * ((X : Int) + 1) - ((X : Int) + 1) ≤
      (x2 : Int) + (y2 : Int) * ((X : Int) + 1) - ((X : Int) + 1) by omega)
    omega
  · obtain ⟨c1, c2, c3, c4⟩ := cell_number X Y X Y (le_refl _) (le_refl _)
    have hv := hcells (X + Y * (X + 1)) c1
    rw [c2, c3, c4] at hv
    rw [hv]
    have hPlen : P.length = S.length := by rw [← hP, List.length_map]
    have hPrange : ∀ p ∈ P, p < ((X : Int) + 1) * Y := by
      intro p hp
      rw [← hP] at hp
      obtain ⟨r, hr, rfl⟩ := List.mem_map.1 hp
      obtain ⟨n, hn, h1, h2, h3, h4, h5⟩ := hvalid r hr
      rw [h5]
      exact (lin_range h1 (by omega) h3 h4).2
    have f1 : pos_count P ((X : Int) + (Y : Int) * ((X : Int) + 1) - 1) = P.length := by
      apply pos_count_all
      intro p hp
      have := hPrange p hp
      linarith
    have f2 : pos_count P ((X : Int) + (Y : Int) * ((X : Int) + 1) - ((X : Int) + 1)) =
        P.length := by
      apply pos_count_all
      intro p hp
      have := hPrange p hp
      linarith
    rw [f1, f2, hPlen]
    congr 1
    omega

/-- The merge export of `tree_edge`, whose band of edges holds the edge 1-2 at
multi-grade `(1, 0)`, over the three vertices of the low band: the B column is
column 0 with the rows 1 and 0 of the two end points, the C column is column 1
with the same rows moved by 3, both at row 0 of the map matrix, and the last
cell of the index matrix holds 1. -/
theorem get_merge_mxs_spec_witness :
    (tree_edge.indexed = true ∧ tree_edge.face_closed = true ∧
      tree_edge.dim_indexed = true ∧ tree_edge.ordered_simplices = [[0, 0]]) ∧
    ∃ d, tree_edge.get_merge_mxs = .ok d ∧
      d.map_matrix.cells.map Prod.snd = [0, 1] ∧ d.map_matrix.row 0 = [0, 1] ∧
      d.boundary_matrix.column 0 = [1, 0] ∧ d.boundary_matrix.column 1 = [4, 3] ∧
      d.column_indexes.cell 2 2 = some 1 := by
  obtain ⟨d, h1, _, h3, h4, _, h6⟩ := get_merge_mxs_spec tree_edge (by decide) (by decide)
    (by decide)
    (fun r hr n hn => by
      have hr2 : r = [0, 0] := by
        have h : tree_edge.ordered_simplices = [[0, 0]] := by decide
        rw [h] at hr
        exact List.mem_singleton.1 hr
      subst hr2
      have h : (node_at [0, 0] tree_edge.root).map (fun n => (n.grade_x, n.grade_y)) =
          some (1, 0) := by decide
      rw [hn] at h
      simp only [Option.map_some', Option.some.injEq, Prod.mk.injEq] at h
      rw [h.1, h.2]
      decide)
  obtain ⟨nd, _, _, _, _, _, _, _, k7, k8, k9, _, _⟩ := h4 0 [0, 0] (by decide)
  have e1 : merge_col_b (tree_edge.ordered_simplices.map
      (ref_pos tree_edge.root ((tree_edge.grade_x_values.length : Int) + 1)))
      ((tree_edge.grade_x_values.length : Int) + 1) 0 = 0 := by decide
  have e2 : merge_col_c (tree_edge.ordered_simplices.map
      (ref_pos tree_edge.root ((tree_edge.grade_x_values.length : Int) + 1)))
      ((tree_edge.grade_x_values.length : Int) + 1) 0 = 1 := by decide
  have e3 : column_rows tree_edge [0, 0] = [1, 0] := by decide
  rw [e1, e2] at k7
  rw [e1, e3] at k8
  rw [e2, e3] at k9
  exact ⟨⟨by decide, by decide, by decide, by decide⟩, d, h1, h3.trans (by decide), k7, k8,
    k9.trans (by decide), h6.trans (by decide)⟩


/-! ### The split export -/

theorem MapMatrix.row_length (m : MapMatrix) (r : Int) :
    (m.row r).length = (m.cells.map Prod.fst).count r := by
  rw [MapMatrix.row, List.length_map]
  induction m.cells with
  | nil => rfl
  | cons c cs ih =>
    rw [List.map_cons, List.count_cons, List.filter_cons]
    by_cases h : c.1 = r
    · simp [h, ih]
    · simp [h, ih]

theorem MapMatrix.column_of_swap (m1 m2 : MapMatrix)
    (h : m2.cells = m1.cells.map Prod.swap) (j : Int) : m2.column j = m1.row j := by
  rw [MapMatrix.column, MapMatrix.row, h]
  induction m1.cells with
  | nil => rfl
  | cons c cs ih =>
    rw [List.map_cons, List.filter_cons, List.filter_cons]
    by_cases hc : c.1 = j
    · simp [hc, ih]
    · simp [hc, ih]

/-- The first double loop of `get_split_mxs` returns on a face-closed tree
with current global and dimension indexes. -/
theorem split_boundary_returns (t : SimplexTree) (hi : t.indexed = true)
    (hc : t.face_closed = true) (hdi : t.dim_indexed = true) (offset : Int)
    (cells : List (Int × Int)) (s : SplitVars) :
    ∃ res, sweep_cells t.root (split_column t 0) (split_column t offset) split_record cells s
      t.ordered_high_simplices t.ordered_high_simplices = .ok res := by
  have hb1 : t.band 1 = t.ordered_high_simplices := by simp [SimplexTree.band]
  obtain ⟨_, hmem, _, _⟩ := (band_indexed_iff _ _ _).1
    (dim_indexed_band t hdi 1 (Or.inr (Or.inr rfl)))
  rw [hb1] at hmem
  have key : ∀ (off : Int), ∀ r ∈ t.ordered_high_simplices,
      (node_at r t.root).isSome = true ∧ ∀ s, ∃ s1, split_column t off r s = .ok s1 := by
    intro off r hr
    obtain ⟨hne, _, hsome⟩ := (hmem r).1 hr
    refine ⟨hsome, ?_⟩
    intro s
    obtain ⟨n, hn⟩ := Option.isSome_iff_exists.1 hsome
    obtain ⟨verts, _, _, h3, h4⟩ := column_resolved t hi hc hne hn
    rw [split_column, write_boundary_column_off t r hn h3 h4, Export.bind_of_ok]
    exact ⟨_, rfl⟩
  exact sweep_cells_ok t.root _ _ _ cells s _ _ (key 0) (key offset)

/-- C27: on a face-closed tree with current global and dimension indexes whose
band of dimension `hom_dim` (`count` simplices, in sweep order) has its
multi-grades inside the grid, `get_merge_mxs` and `get_split_mxs` both return;
the split map has `2 * count` rows and `count` columns, the merge map `count`
rows and `2 * count` columns, and the cells of the split map are those of the
merge map with row and column exchanged, set in the same order: the cell
`(r, i)` of the split map is set exactly when the cell `(i, r)` of the merge
map is.  Each of the rows `0, ..., 2 * count - 1` of the split map holds one
cell and each of the columns `0, ..., count - 1` holds two. -/
theorem get_split_mxs_transpose (t : SimplexTree) (hi : t.indexed = true)
    (hc : t.face_closed = true) (hdi : t.dim_indexed = true)
    (hgrid : ∀ r ∈ t.ordered_simplices, ∀ n, node_at r t.root = some n →
      0 ≤ n.grade_x ∧ n.grade_x < t.grade_x_values.length ∧
      0 ≤ n.grade_y ∧ n.grade_y < t.grade_y_values.length) :
    ∃ dm ds, t.get_merge_mxs = .ok dm ∧ t.get_split_mxs = .ok ds ∧
      (ds.map_matrix.num_rows = 2 * (t.ordered_simplices.length : Int) ∧
        ds.map_matrix.num_cols = (t.ordered_simplices.length : Int) ∧
        dm.map_matrix.num_rows = (t.ordered_simplices.length : Int) ∧
        dm.map_matrix.num_cols = 2 * (t.ordered_simplices.length : Int)) ∧
      ds.map_matrix.cells = dm.map_matrix.cells.map Prod.swap ∧
      (∀ r i : Int, (r, i) ∈ ds.map_matrix.cells ↔ (i, r) ∈ dm.map_matrix.cells) ∧
      (∀ r : Int, 0 ≤ r → r < 2 * (t.ordered_simplices.length : Int) →
        (ds.map_matrix.row r).length = 1) ∧
      (∀ i : Nat, i < t.ordered_simplices.length → (ds.map_matrix.column i).length = 2) := by
  obtain ⟨s, hsweep, hstate, hdims, _, _, _⟩ := merge_sweep_facts t hi hc hdi hgrid
  simp only [Prod.mk.injEq] at hdims
  obtain ⟨_, _, hd3, hd4⟩ := hdims
  obtain ⟨_, _, _, h4, _, _, _, h8⟩ := hstate
  -- the second double loop of the split export follows that of the merge export
  obtain ⟨u, hu, hrel⟩ := sweep_cells_sim t.root (merge_column_b t)
    (merge_column_c t (t.ordered_low_simplices.length : Int)) merge_record
    split_row_b split_row_c (fun _ _ s => s)
    (fun (s : MergeVars) (u : SplitMapVars) =>
      u.split.cells = s.merge.cells.map Prod.swap ∧ u.row = s.col ∧ u.b = s.b ∧ u.c = s.c ∧
        u.split.num_rows = 2 * (t.ordered_simplices.length : Int) ∧
        u.split.num_cols = (t.ordered_simplices.length : Int))
    (by
      rintro r s1 u1 s2 ⟨k1, k2, k3, k4, k5, k6⟩ h
      rw [merge_column_b] at h
      obtain ⟨bd, _, h⟩ := Export.bind_eq_ok h
      simp only [Export.ok.injEq] at h
      subst h
      refine ⟨_, rfl, ?_, ?_, ?_, k4, k5, k6⟩
      · simp [MapMatrix.set, k1, k2, k3]
      · simp [k2]
      · simp [k3])
    (by
      rintro r s1 u1 s2 ⟨k1, k2, k3, k4, k5, k6⟩ h
      rw [merge_column_c] at h
      obtain ⟨bd, _, h⟩ := Export.bind_eq_ok h
      simp only [Export.ok.injEq] at h
      subst h
      refine ⟨_, rfl, ?_, ?_, k3, ?_, k5, k6⟩
      · simp [MapMatrix.set, k1, k2, k4]
      · simp [k2]
      · simp [k4])
    (by
      rintro x y s1 u1 ⟨k1, k2, k3, k4, k5, k6⟩
      exact ⟨k1, k2, k3, k4, k5, k6⟩)
    _ (⟨MapMatrix.init (2 * (t.ordered_low_simplices.length : Int))
          (2 * (t.ordered_simplices.length : Int)),
        MapMatrix.init (t.ordered_simplices.length : Int)
          (2 * (t.ordered_simplices.length : Int)),
        IndexMatrix.init ((t.grade_y_values.length : Int) + 1)
          ((t.grade_x_values.length : Int) + 1), -1, 0, 0⟩ : MergeVars)
    ⟨MapMatrix.init (2 * (t.ordered_simplices.length : Int))
      (t.ordered_simplices.length : Int), -1, 0, 0⟩ _ _ _
    ⟨rfl, rfl, rfl, rfl, rfl, rfl⟩ hsweep
  obtain ⟨k1, _, _, _, k5, k6⟩ := hrel
  obtain ⟨res, hres⟩ := split_boundary_returns t hi hc hdi (t.ordered_simplices.length : Int)
    (grid_cells t.grade_x_values.length t.grade_y_values.length)
    ⟨MapMatrix.init (2 * (t.ordered_simplices.length : Int))
        (2 * (t.ordered_high_simplices.length : Int)),
      IndexMatrix.init ((t.grade_y_values.length : Int) + 1)
        ((t.grade_x_values.length : Int) + 1), -1⟩
  have hrows : ∀ r : Int, (u.split.row r).length = (int_range 0 (2 * t.ordered_simplices.length)).count r := by
    intro r
    rw [MapMatrix.row_length, k1, List.map_map]
    have : (Prod.fst ∘ Prod.swap : Int × Int → Int) = Prod.snd := by
      funext c
      rfl
    rw [this, h4, two_mul]
  refine ⟨⟨s.boundary, s.merge, s.end_cols⟩, ⟨res.1.boundary, u.split, res.1.end_cols⟩, ?_, ?_,
    ⟨k5, k6, hd3, hd4⟩, k1, ?_, ?_, ?_⟩
  · rw [SimplexTree.get_merge_mxs, hsweep]
    rfl
  · rw [SimplexTree.get_split_mxs, hres, Export.bind_of_ok, hu]
    rfl
  · intro r i
    simp only
    rw [k1, List.mem_map]
    constructor
    · rintro ⟨⟨a, b⟩, hab, h⟩
      simp only [Prod.swap_prod_mk, Prod.mk.injEq] at h
      obtain ⟨rfl, rfl⟩ := h
      exact hab
    · intro h
      exact ⟨(i, r), h, rfl⟩
  · intro r h0 h1
    simp only
    rw [hrows r]
    apply List.count_eq_one_of_mem
    · exact (int_range_pairwise 0 _).imp (fun h => ne_of_lt h)
    · rw [mem_int_range]
      push_cast
      omega
  · intro i hi2
    simp only
    rw [MapMatrix.column_of_swap s.merge u.split k1, h8 i, if_pos hi2, if_pos hi2]
    rfl

/-- The two exports on `tree_124_dim`, whose band of edges holds the three
edges of a triangle, all at multi-grade `(0, 0)`: the merge map has the cells
`(0, 0), (1, 1), (2, 2), (0, 3), (1, 4), (2, 5)` and the split map the same
cells with row and column exchanged. -/
theorem get_split_mxs_transpose_witness :
    (tree_124_dim.indexed = true ∧ tree_124_dim.face_closed = true ∧
      tree_124_dim.dim_indexed = true) ∧
    ∃ dm ds, tree_124_dim.get_merge_mxs = .ok dm ∧ tree_124_dim.get_split_mxs = .ok ds ∧
      dm.map_matrix.cells = [(0, 0), (1, 1), (2, 2), (0, 3), (1, 4), (2, 5)] ∧
      ds.map_matrix.cells = [(0, 0), (1, 1), (2, 2), (3, 0), (4, 1), (5, 2)] ∧
      (ds.map_matrix.row 4).length = 1 ∧ (ds.map_matrix.column 1).length = 2 := by
  obtain ⟨dm, ds, h1, h2, _, h4, _, h6, h7⟩ := get_split_mxs_transpose tree_124_dim (by decide)
    (by decide) (by decide)
    (fun r hr n hn => by
      have h : (tree_124_dim.ordered_simplices.all (fun r =>
          match node_at r tree_124_dim.root with
          | some n => decide (0 ≤ n.grade_x ∧
              n.grade_x < (tree_124_dim.grade_x_values.length : Int) ∧ 0 ≤ n.grade_y ∧
              n.grade_y < (tree_124_dim.grade_y_values.length : Int))
          | none => true)) = true := by decide
      have := List.all_eq_true.1 h r hr
      rw [hn] at this
      simpa using this)
  have e : dm.map_matrix.cells = [(0, 0), (1, 1), (2, 2), (0, 3), (1, 4), (2, 5)] := by
    have h : (tree_124_dim.get_merge_mxs.bind (fun d => .ok d.map_matrix.cells)) =
        .ok [(0, 0), (1, 1), (2, 2), (0, 3), (1, 4), (2, 5)] := by decide
    rw [h1] at h
    simpa using h
  refine ⟨⟨by decide, by decide, by decide⟩, dm, ds, h1, h2, e, ?_, h6 4 (by decide) (by decide),
    h7 1 (by decide)⟩
  rw [h4, e]
  rfl


end Rivet
